import Mathlib

/-!
# livod: sandbox change tracking, run scheduling and apply

A shallow embedding of the parts of `src/core/ai.js`, `src/core/runner.js`,
`src/core/apply.js` and `src/shared/fs.js` that the specification talks about,
followed by the theorems that settle its claims.

Conventions.
* A sandbox-relative path (`rel` in the source) is held as its list of
  components; the JavaScript string is the components joined by the separator.
* A directory tree is a `Node`. `fs.Dirent` kinds are the constructors:
  `isFile`, `isSymbolicLink`, `isDirectory`, anything else (`other`).
* A symbolic link carries its target string and the node that following it
  reached when the tree was read (`none` for a dangling link), so that
  `fs.access` / `fs.stat`, which follow links, can be evaluated on a tree as
  read. Writes resolve the target string in the tree they write to.
* The content digest (`crypto.createHash('sha1')`) and the compiled glob
  matchers (`picomatch`) are library code: they are parameters.
-/

namespace Livod

/-! ## Paths and trees -/

abbrev RelPath := List String

inductive Node where
  | file (content : String)
  | symlink (linkTarget : String) (follow : Option Node)
  | other
  | dir (entries : List (String × Node))

abbrev Entries := List (String × Node)

instance : Inhabited Node := ⟨.other⟩

/-- The `dirent.isDirectory()` test. -/
def Node.isDirectory : Node → Bool
  | .dir _ => true
  | _ => false

/-- First entry of a directory listing with the given name. -/
def findEntry (name : String) : Entries → Option Node
  | [] => none
  | (n, x) :: rest => if n = name then some x else findEntry name rest

/-- Replace the entry called `name`, or add it at the end of the listing. -/
def setEntry (name : String) (c : Node) : Entries → Entries
  | [] => [(name, c)]
  | (n, x) :: rest => if n = name then (n, c) :: rest else (n, x) :: setEntry name c rest

/-- Drop the entry called `name`. -/
def removeEntry (name : String) : Entries → Entries
  | [] => []
  | (n, x) :: rest => if n = name then removeEntry name rest else (n, x) :: removeEntry name rest

/-- Follow symbolic links until a node that is not a link is reached. -/
def deref : Node → Option Node
  | .symlink _ none => none
  | .symlink _ (some n) => deref n
  | n => some n

/-- Entry `name` of the directory that `n` is, or resolves to. -/
def childOf (n : Node) (name : String) : Option Node :=
  match deref n with
  | some (.dir es) => findEntry name es
  | _ => none

/-- What `fs.lstat(path.join(root, rel))` sees: links in directory position are
followed, the last component is not. -/
def lstatAt : Node → RelPath → Option Node
  | n, [] => some n
  | n, name :: rest =>
    match childOf n name with
    | some c => lstatAt c rest
    | none => none

/-- What `fs.stat` / `fs.access` see: every link is followed. -/
def statAt (root : Node) (rel : RelPath) : Option Node :=
  (lstatAt root rel).bind deref

/-- Plain descent through real directories, following no link: the entry that a
directory walk reaches at `rel`. -/
def entryAt : Node → RelPath → Option Node
  | n, [] => some n
  | .dir es, name :: rest =>
    match findEntry name es with
    | some c => entryAt c rest
    | none => none
  | _, _ :: _ => none

/-- Source `pathExists` (shared/fs.js): `fs.access` succeeds. -/
def pathExists (root : Node) (rel : RelPath) : Bool :=
  (statAt root rel).isSome

mutual
/-- Well-formed tree: the names of a directory listing are pairwise distinct. -/
def Node.WF : Node → Prop
  | .dir es => (es.map Prod.fst).Nodup ∧ EntriesWF es
  | .symlink _ (some n) => n.WF
  | _ => True
/-- Every node of a listing is well-formed. -/
def EntriesWF : Entries → Prop
  | [] => True
  | (_, n) :: rest => n.WF ∧ EntriesWF rest
end

/-! ## shared/fs.js -/

abbrev Matcher := RelPath → Bool

/-- Source `makeIgnoreMatcher`: the empty path is never ignored, otherwise some
compiled pattern matches. -/
def makeIgnoreMatcher (patterns : List Matcher) : Matcher :=
  fun rel => if rel = [] then false else patterns.any (fun m => m rel)

mutual
/-- Source `walkDir` on one node: only a directory is read. -/
def walkNode (ignoreMatcher : Matcher) (rel : RelPath) : Node → List (RelPath × Node)
  | .dir es => walkEntries ignoreMatcher rel es
  | _ => []
/-- Source `walkDir`, the loop over `readdir`: an ignored entry is skipped with
its whole subtree; otherwise the entry is reported, then a directory is
descended. The result is the sequence of `onEntry` calls. -/
def walkEntries (ignoreMatcher : Matcher) (base : RelPath) : Entries → List (RelPath × Node)
  | [] => []
  | (name, n) :: rest =>
    (if ignoreMatcher (base ++ [name]) then []
     else (base ++ [name], n) :: walkNode ignoreMatcher (base ++ [name]) n)
      ++ walkEntries ignoreMatcher base rest
end

/-- Source `walkDir(root, ignoreMatcher, onEntry, root)`. -/
def walkDir (root : Node) (ignoreMatcher : Matcher) : List (RelPath × Node) :=
  walkNode ignoreMatcher [] root

/-! ## File-system writes (the effect of the `fs/promises` calls on a tree)

A write first finds the place its path leads to: the text of every symbolic
link on the way is resolved inside the tree, as the operating system does. A
link whose text is absolute, or climbs above the root of the tree, leaves the
modelled tree; the write is then reported as `unresolvedLink`. The change
itself is made at the place found, by one of the positional operations
`mkdirAt`, `alterAt`, `rmRf`, `symlinkAt`, `writeFileAt`, which descend through
real directories only. -/

inductive FsError where
  | ENOENT | EEXIST | ENOTDIR | EISDIR | EINVAL | ENOTSUP | unresolvedLink | ELOOP
  deriving DecidableEq, Repr

/-- A chain of fresh directories. -/
def mkdirChain : RelPath → Node
  | [] => .dir []
  | name :: rest => .dir [(name, mkdirChain rest)]

/-- Create the directories of `rel` that are missing, descending through real
directories only. -/
def mkdirAt : Node → RelPath → Except FsError Node
  | .dir es, [] => .ok (.dir es)
  | .dir es, name :: rest =>
    match findEntry name es with
    | none => .ok (.dir (es ++ [(name, mkdirChain rest)]))
    | some c =>
      match mkdirAt c rest with
      | .ok c' => .ok (.dir (setEntry name c' es))
      | .error e => .error e
  | .symlink _ _, _ => .error .unresolvedLink
  | _, [] => .error .EEXIST
  | _, _ :: _ => .error .ENOTDIR

/-- Rewrite the entry at `rel`: `f` receives the present entry (`none` when it
is missing) and answers the new one (`none` removes it). The parent directory
must exist; the descent goes through real directories only. -/
def alterAt (f : Option Node → Except FsError (Option Node)) : Node → RelPath → Except FsError Node
  | _, [] => .error .EINVAL
  | .dir es, [name] =>
    match f (findEntry name es) with
    | .ok (some c) => .ok (.dir (setEntry name c es))
    | .ok none => .ok (.dir (removeEntry name es))
    | .error e => .error e
  | .dir es, name :: r :: rest =>
    match findEntry name es with
    | none => .error .ENOENT
    | some c =>
      match alterAt f c (r :: rest) with
      | .ok c' => .ok (.dir (setEntry name c' es))
      | .error e => .error e
  | .symlink _ _, _ :: _ => .error .unresolvedLink
  | _, _ :: _ => .error .ENOTDIR

/-- Removal of the entry at `rel` with all below it; a missing path is not an
error (only `ENOENT` is forgiven). The root itself is never removed by the code
modelled here. -/
def rmRf (root : Node) (rel : RelPath) : Except FsError Node :=
  match alterAt (fun _ => .ok none) root rel with
  | .error .ENOENT => .ok root
  | r => r

/-- A new link at `rel`, where nothing may be. Where the new link leads from its
new place is not captured: reads see it as unresolved, writes resolve its
text. -/
def symlinkAt (linkTarget : String) (root : Node) (rel : RelPath) : Except FsError Node :=
  alterAt (fun old =>
    match old with
    | none => .ok (some (.symlink linkTarget none))
    | some _ => .error .EEXIST) root rel

/-- A regular file at `rel` is created or overwritten. -/
def writeFileAt (content : String) (root : Node) (rel : RelPath) : Except FsError Node :=
  alterAt (fun old =>
    match old with
    | none => .ok (some (.file content))
    | some (.file _) => .ok (some (.file content))
    | some (.dir _) => .error .EISDIR
    | some (.symlink _ _) => .error .unresolvedLink
    | some .other => .error .ENOTSUP) root rel

/-- Source side and positional writing side of a file copy: the source is
opened through links and must be a regular file. -/
def copyFile (src : Node) (srcRel : RelPath) (dest : Node) (destRel : RelPath) : Except FsError Node :=
  match statAt src srcRel with
  | some (.file content) => writeFileAt content dest destRel
  | some (.dir _) => .error .EISDIR
  | some _ => .error .ENOTSUP
  | none => .error .ENOENT

/-- Add a character to the first piece. -/
def consChar (c : Char) : List (List Char) → List (List Char)
  | [] => [[c]]
  | piece :: rest => (c :: piece) :: rest

/-- The pieces of a text between slashes. -/
def splitSlash : List Char → List (List Char)
  | [] => [[]]
  | c :: rest => if c = '/' then [] :: splitSlash rest else consChar c (splitSlash rest)

/-- The components of the text of a link. -/
def linkComponents (linkTarget : String) : List String :=
  (splitSlash linkTarget.toList).map String.mk

/-- The text of a link is an absolute path. -/
def isAbsoluteLink (linkTarget : String) : Bool :=
  linkTarget.toList.head? == some '/'

/-- Where a path walk stands when it stops: at its end, at a link to follow
(with the components still to walk), or at an error. -/
inductive Walk where
  | done (place : RelPath)
  | link (cur : RelPath) (todo : List (Bool × String))
  | fail (e : FsError)
  deriving DecidableEq, Repr

/-- Path resolution of the operating system up to the next link to follow.
`cur` is the real directory reached; each component to walk says whether it
comes from the text of a link (only there `.`, `..` and empty components
occur). With `followLast` a link in last position is followed; with
`createLast` the last component may be missing. -/
def walkPath (root : Node) (followLast createLast : Bool) : RelPath → List (Bool × String) → Walk
  | cur, [] => .done cur
  | cur, (fromLink, name) :: rest =>
    if fromLink = true ∧ (name = "" ∨ name = ".") then walkPath root followLast createLast cur rest
    else if fromLink = true ∧ name = ".." then
      if cur = [] then .fail .unresolvedLink
      else walkPath root followLast createLast cur.dropLast rest
    else
      match entryAt root (cur ++ [name]) with
      | none => if rest = [] ∧ createLast = true then .done (cur ++ [name]) else .fail .ENOENT
      | some (.dir _) => walkPath root followLast createLast (cur ++ [name]) rest
      | some (.symlink linkTarget _) =>
        if rest = [] ∧ followLast = false then .done (cur ++ [name])
        else if isAbsoluteLink linkTarget then .fail .unresolvedLink
        else .link cur ((linkComponents linkTarget).map (fun c => (true, c)) ++ rest)
      | some _ => if rest = [] then .done (cur ++ [name]) else .fail .ENOTDIR

/-- Path resolution following at most `fuel` links (`ELOOP` beyond). -/
def resolveFrom (root : Node) (followLast createLast : Bool) :
    Nat → RelPath → List (Bool × String) → Except FsError RelPath
  | 0, cur, todo =>
    match walkPath root followLast createLast cur todo with
    | .done place => .ok place
    | .link _ _ => .error .ELOOP
    | .fail e => .error e
  | fuel + 1, cur, todo =>
    match walkPath root followLast createLast cur todo with
    | .done place => .ok place
    | .link cur' todo' => resolveFrom root followLast createLast fuel cur' todo'
    | .fail e => .error e

/-- The place in the tree that `path.join(root, rel)` leads to, by real
directories only. At most 40 links are followed. -/
def resolveLinks (root : Node) (followLast createLast : Bool) (rel : RelPath) : Except FsError RelPath :=
  resolveFrom root followLast createLast 40 [] (rel.map (fun c => (false, c)))

/-- The loop of `fs.mkdir` with `recursive`: the components of the path are
taken in turn from the real directory `cur`; from the first missing one on,
the rest is created; a link on the way must lead to a directory, which is
entered. -/
def ensureDirFrom (root : Node) : RelPath → RelPath → Except FsError Node
  | _, [] => .ok root
  | cur, name :: rest =>
    match entryAt root (cur ++ [name]) with
    | none => mkdirAt root (cur ++ name :: rest)
    | some (.dir _) => ensureDirFrom root (cur ++ [name]) rest
    | some (.symlink _ _) =>
      match resolveLinks root true false (cur ++ [name]) with
      | .ok place =>
        match entryAt root place with
        | some (.dir _) => ensureDirFrom root place rest
        | _ => .error (if rest = [] then .EEXIST else .ENOTDIR)
      | .error .ENOENT => .error (if rest = [] then .EEXIST else .ENOENT)
      | .error e => .error e
    | some _ => .error (if rest = [] then .EEXIST else .ENOTDIR)

/-- Source `ensureDir`: `fs.mkdir(dirPath)` with `recursive`. -/
def ensureDir (root : Node) (rel : RelPath) : Except FsError Node :=
  match root with
  | .dir _ => ensureDirFrom root [] rel
  | .symlink _ _ => .error .unresolvedLink
  | _ => .error (if rel = [] then .EEXIST else .ENOTDIR)

/-- Resolve the directory part of `rel`, then act on the last component in the
directory found. -/
def atParent (root : Node) (rel : RelPath) (op : RelPath → Except FsError Node) : Except FsError Node :=
  match resolveLinks root true false rel.dropLast with
  | .ok place => op (place ++ rel.drop (rel.length - 1))
  | .error e => .error e

/-- The call `fs.rm(p)` with `force` and `recursive`: links in the directory
part are followed, a link in last position is removed itself; a missing path
is not an error (only `ENOENT` is forgiven). -/
def fsRm (root : Node) (rel : RelPath) : Except FsError Node :=
  match atParent root rel (rmRf root) with
  | .error .ENOENT => .ok root
  | r => r

/-- The call `fs.symlink(linkTarget, p)`: links in the directory part are
followed; nothing may be at the path itself. -/
def fsSymlink (linkTarget : String) (root : Node) (rel : RelPath) : Except FsError Node :=
  atParent root rel (symlinkAt linkTarget root)

/-- The call `fs.writeFile(p, content)`: every link is followed, also in last
position, and the file a link leads to is created when it is missing. -/
def fsWriteFile (content : String) (root : Node) (rel : RelPath) : Except FsError Node :=
  match rel with
  | [] => writeFileAt content root []
  | _ :: _ =>
    match resolveLinks root true true rel with
    | .ok place => writeFileAt content root place
    | .error e => .error e

/-- The call `fs.copyFile(path.join(srcRoot, rel), path.join(destRoot, rel))`:
the source is opened through links and must be a regular file; the destination
is opened for writing through links. -/
def fsCopyFile (src : Node) (srcRel : RelPath) (dest : Node) (destRel : RelPath) : Except FsError Node :=
  match statAt src srcRel with
  | some (.file content) => fsWriteFile content dest destRel
  | some (.dir _) => .error .EISDIR
  | some _ => .error .ENOTSUP
  | none => .error .ENOENT

/-- A tree together with the error that stopped a sequence of writes, if any. -/
structure FsResult where
  fs : Node
  error : Option FsError

/-- Run the next write unless an earlier one has thrown. -/
def FsResult.step (r : FsResult) (op : Node → Except FsError Node) : FsResult :=
  match r.error with
  | some _ => r
  | none =>
    match op r.fs with
    | .ok fs' => ⟨fs', none⟩
    | .error e => ⟨r.fs, some e⟩

/-! ## core/ai.js: the baseline index -/

/-- Source `getFileInfo` results and baseline index records: the `type` field
is the constructor. -/
inductive FileInfo where
  | symlink (linkTarget : String)
  | file (hash : String) (size : Nat)
  | other
  deriving DecidableEq, Repr, Inhabited

/-- The `type` field of a record. -/
inductive InfoType where
  | symlink | file | other
  deriving DecidableEq, Repr

def FileInfo.type : FileInfo → InfoType
  | .symlink _ => .symlink
  | .file _ _ => .file
  | .other => .other

/-- Source `getFileInfo`, on the node that `fs.lstat` returns; `hashFile` is the
digest of the content. A directory is reported as `other`. -/
def getFileInfo (hashFile : String → String) : Node → FileInfo
  | .symlink linkTarget _ => .symlink linkTarget
  | .file content => .file (hashFile content) content.utf8ByteSize
  | _ => .other

/-- The own enumerable properties of `index.files`, in `Object.keys` order.
The object comes from `JSON.parse` (or is the literal default), so its
prototype is `Object.prototype`. -/
abbrev IndexFiles := List (RelPath × FileInfo)

/-- Property names that every plain object inherits from `Object.prototype`. -/
def objectPrototypeKeys : List String :=
  ["constructor", "__defineGetter__", "__defineSetter__", "hasOwnProperty",
   "__lookupGetter__", "__lookupSetter__", "isPrototypeOf", "propertyIsEnumerable",
   "toString", "valueOf", "__proto__", "toLocaleString"]

/-- The path, as a string, is the name of an inherited property. -/
def isPrototypeKey : RelPath → Bool
  | [name] => decide (name ∈ objectPrototypeKeys)
  | _ => false

/-- Result of the property read `index.files[rel]`. -/
inductive PropValue where
  | undefined
  | own (record : FileInfo)
  | inherited
  deriving DecidableEq, Repr

/-- First own property called `rel`. -/
def ownProp : IndexFiles → RelPath → Option FileInfo
  | [], _ => none
  | (k, v) :: rest, rel => if k = rel then some v else ownProp rest rel

/-- The call `Object.prototype.hasOwnProperty.call(index.files, rel)`. -/
def hasOwnProperty (files : IndexFiles) (rel : RelPath) : Bool :=
  (ownProp files rel).isSome

/-- The read `index.files[rel]`: an own property, else a member inherited from
`Object.prototype` (a function or an object: truthy, with no `type` field),
else `undefined`. -/
def getProp (files : IndexFiles) (rel : RelPath) : PropValue :=
  match ownProp files rel with
  | some r => .own r
  | none => if isPrototypeKey rel then .inherited else .undefined

/-- Numeric value of a digit string. -/
def digitsValue (cs : List Char) : Nat :=
  cs.foldl (fun n c => 10 * n + (c.toNat - 48)) 0

/-- The key is an array index (a canonical decimal below 2^32 - 1): such keys
are enumerated first, in ascending order. -/
def arrayIndex? : RelPath → Option Nat
  | [name] =>
    let cs := name.toList
    if cs ≠ [] ∧ cs.all Char.isDigit = true ∧ (cs = ['0'] ∨ cs.head? ≠ some '0')
        ∧ digitsValue cs < 4294967295 then some (digitsValue cs) else none
  | _ => none

/-- Place a new array-index key among the leading array-index keys. -/
def insertIndexed (rel : RelPath) (info : FileInfo) (n : Nat) : IndexFiles → IndexFiles
  | [] => [(rel, info)]
  | e :: rest =>
    match arrayIndex? e.1 with
    | some m => if m < n then e :: insertIndexed rel info n rest else (rel, info) :: e :: rest
    | none => (rel, info) :: e :: rest

/-- The assignment `index.files[rel] = info`. An own property is overwritten in
place. Otherwise the name `__proto__` reaches the inherited setter, which swaps
the prototype and creates no own property; any other name becomes a new own
property. -/
def setProp (files : IndexFiles) (rel : RelPath) (info : FileInfo) : IndexFiles :=
  if hasOwnProperty files rel then
    files.map (fun e => if e.1 = rel then (rel, info) else e)
  else if rel = ["__proto__"] then files
  else
    match arrayIndex? rel with
    | some n => insertIndexed rel info n files
    | none => files ++ [(rel, info)]

/-- The statement `delete index.files[rel]`. -/
def deleteProp : IndexFiles → RelPath → IndexFiles
  | [], _ => []
  | (k, v) :: rest, rel => if k = rel then deleteProp rest rel else (k, v) :: deleteProp rest rel

/-- The call `Object.keys(index.files)`. -/
def objectKeys (files : IndexFiles) : List RelPath :=
  files.map Prod.fst

/-- Source `makeSandboxIgnore`: the control directory is always ignored. -/
def makeSandboxIgnore (ignoreMatcher : Matcher) : Matcher :=
  fun rel =>
    match rel with
    | [] => false
    | name :: _ => if name = ".livod" then true else ignoreMatcher rel

/-! ## core/ai.js: computeChanges -/

inductive ChangeType where
  | added | modified | deleted
  deriving DecidableEq, Repr

/-- An element of `changes`: `path`, `type` and, unless deleted, `info`. -/
structure Change where
  path : RelPath
  type : ChangeType
  info : Option FileInfo
  deriving DecidableEq, Repr

/-- An element of `pendingUpdates`; `sandboxPath` and `baselinePath` are `rel`
under the two roots. -/
inductive PendingUpdate where
  | delete (rel : RelPath)
  | upsert (rel : RelPath) (info : FileInfo)
  deriving DecidableEq, Repr

def PendingUpdate.rel : PendingUpdate → RelPath
  | .delete rel => rel
  | .upsert rel _ => rel

/-- The two arrays that `computeChanges` fills. -/
structure ChangeAcc where
  changes : List Change
  pendingUpdates : List PendingUpdate
  deriving DecidableEq, Repr

/-- The pair `applyChange(rel, type, info)` and `pendingUpdates.push(upsert)`. -/
def ChangeAcc.pushUpsert (acc : ChangeAcc) (rel : RelPath) (type : ChangeType) (info : FileInfo) : ChangeAcc :=
  ⟨acc.changes ++ [⟨rel, type, some info⟩], acc.pendingUpdates ++ [.upsert rel info]⟩

/-- The pair `applyChange(rel, 'deleted')` and `pendingUpdates.push(delete)`. -/
def ChangeAcc.pushDelete (acc : ChangeAcc) (rel : RelPath) : ChangeAcc :=
  ⟨acc.changes ++ [⟨rel, .deleted, none⟩], acc.pendingUpdates ++ [.delete rel]⟩

/-- The tests `prev.type !== info.type`, `prev.hash !== info.hash` and
`prev.linkTarget !== info.linkTarget` for an own record `prev`. -/
def recordDiffers (prev info : FileInfo) : Bool :=
  if prev.type ≠ info.type then true
  else
    match info, prev with
    | .file hash _, .file prevHash _ => decide (prevHash ≠ hash)
    | .symlink linkTarget, .symlink prevTarget => decide (prevTarget ≠ linkTarget)
    | _, _ => false

/-- Source `computeChanges.processChangePath`. Once `fs.access` has succeeded,
`fs.lstat` in `getFileInfo` succeeds too, so the `none` branch below is never
taken (`lstatAt_of_pathExists`). -/
def processChangePath (hashFile : String → String) (sandbox : Node) (files : IndexFiles)
    (acc : ChangeAcc) (rel : RelPath) : ChangeAcc :=
  let existsSandbox := pathExists sandbox rel
  let existsBaseline := hasOwnProperty files rel
  if !existsSandbox && !existsBaseline then acc
  else if !existsSandbox && existsBaseline then acc.pushDelete rel
  else
    match lstatAt sandbox rel with
    | none => acc
    | some node =>
      let info := getFileInfo hashFile node
      if !existsBaseline then acc.pushUpsert rel .added info
      else
        match getProp files rel with
        | .own prev =>
          if recordDiffers prev info then acc.pushUpsert rel .modified info else acc
        | _ => acc.pushUpsert rel .modified info

/-- The JavaScript `Map.prototype.set`: a present key keeps its position. -/
def mapSet (m : List (RelPath × Node)) (k : RelPath) (v : Node) : List (RelPath × Node) :=
  if m.any (fun e => decide (e.1 = k)) then m.map (fun e => if e.1 = k then (k, v) else e)
  else m ++ [(k, v)]

/-- Source `listSandboxFiles`: the walked entries that are not directories. -/
def listSandboxFiles (sandbox : Node) (ignore : Matcher) : List (RelPath × Node) :=
  (walkDir sandbox ignore).foldl
    (fun files e => if e.2.isDirectory then files else mapSet files e.1 e.2) []

/-- Body of the loop over `sandboxFiles.entries()` in the full scan;
`getFileInfo(sandboxPath)` stats the entry the walk has just listed. The test
`!prev` holds for `undefined` only: an inherited member is truthy, and its
`type` is `undefined`, so it differs from any `info.type`. -/
def scanEntry (hashFile : String → String) (files : IndexFiles) (acc : ChangeAcc)
    (e : RelPath × Node) : ChangeAcc :=
  let info := getFileInfo hashFile e.2
  match getProp files e.1 with
  | .undefined => acc.pushUpsert e.1 .added info
  | .inherited => acc.pushUpsert e.1 .modified info
  | .own prev => if recordDiffers prev info then acc.pushUpsert e.1 .modified info else acc

/-- Body of the loop over `Object.keys(index.files)` in the full scan. -/
def scanDeleted (seen : List RelPath) (acc : ChangeAcc) (rel : RelPath) : ChangeAcc :=
  if rel ∈ seen then acc else acc.pushDelete rel

/-- The `changeHint` argument. -/
structure ChangeHint where
  paths : List RelPath
  fullScan : Bool

/-- The recognised part of the configuration: `ignore` holds the compiled
patterns, `commands` the names of the configured commands. -/
structure Config where
  ignore : List Matcher := []
  commands : List String := []
  parallel : Bool := true
  restartOnChange : Bool := true
  linkNodeModules : Bool := true
  debounceMs : Nat := 250

/-- The test `changeHint && !changeHint.fullScan`. -/
def isIncremental : Option ChangeHint → Bool
  | some hint => !hint.fullScan
  | none => false

/-- Source `computeChanges`; `files` is `index.files` as loaded from the
baseline index. -/
def computeChanges (hashFile : String → String) (config : Config) (sandbox : Node)
    (files : IndexFiles) (changeHint : Option ChangeHint) : ChangeAcc :=
  let ignore := makeSandboxIgnore (makeIgnoreMatcher config.ignore)
  if isIncremental changeHint then
    ((changeHint.map (fun h => h.paths)).getD []).foldl
      (fun acc rel => if ignore rel then acc else processChangePath hashFile sandbox files acc rel)
      ⟨[], []⟩
  else
    let sandboxFiles := listSandboxFiles sandbox ignore
    let seen := sandboxFiles.map Prod.fst
    let acc := sandboxFiles.foldl (scanEntry hashFile files) ⟨[], []⟩
    (objectKeys files).foldl (scanDeleted seen) acc

/-! ## core/ai.js: the baseline store -/

/-- Body of the `walkDir` callback of `copyDir` (shared/fs.js) and of `syncDir`
(core/apply.js), which are the same: a directory is created; a link is
re-created after removing what is in its place; a regular file is copied;
any other entry is left out. `src` is the walked tree, `dest` the written one. -/
def syncEntry (src : Node) (dest : FsResult) (e : RelPath × Node) : FsResult :=
  match e.2 with
  | .dir _ => dest.step (fun d => ensureDir d e.1)
  | .symlink linkTarget _ =>
    ((dest.step (fun d => ensureDir d e.1.dropLast)).step (fun d => fsRm d e.1)).step
      (fun d => fsSymlink linkTarget d e.1)
  | .file _ => (dest.step (fun d => ensureDir d e.1.dropLast)).step (fun d => fsCopyFile src e.1 d e.1)
  | .other => dest

/-- Source `copyDir` when the destination lies inside the source (the branch
taken for the baseline store, which sits under the sandbox's `.livod`). -/
def copyDir (src dest : Node) (ignoreMatcher : Matcher) : FsResult :=
  (walkDir src ignoreMatcher).foldl (syncEntry src) ((FsResult.mk dest none).step (fun d => ensureDir d []))

/-- Source `buildBaselineIndex`: the walk fills a fresh object. -/
def buildBaselineIndex (hashFile : String → String) (root : Node) (ignore : Matcher) : IndexFiles :=
  (walkDir root ignore).foldl
    (fun files e =>
      match e.2 with
      | .symlink linkTarget _ => setProp files e.1 (.symlink linkTarget)
      | .file content => setProp files e.1 (.file (hashFile content) content.utf8ByteSize)
      | _ => files) []

/-- The baseline store and the `files` object persisted in
`baseline-index.json`, with the error that interrupted the last operation. -/
structure Baseline where
  store : Node
  files : IndexFiles
  error : Option FsError

/-- Source `ensureBaseline` when the baseline store does not exist yet. -/
def ensureBaseline (hashFile : String → String) (config : Config) (sandbox : Node) : Baseline :=
  let ignore := makeSandboxIgnore (makeIgnoreMatcher config.ignore)
  let copied := copyDir sandbox (.dir []) ignore
  match copied.error with
  | some e => ⟨copied.fs, [], some e⟩
  | none => ⟨copied.fs, buildBaselineIndex hashFile copied.fs ignore, none⟩

/-- Source `updateBaselineFile`. -/
def updateBaselineFile (sandbox store : Node) (rel : RelPath) (info : FileInfo) : FsResult :=
  let made := (FsResult.mk store none).step (fun s => ensureDir s rel.dropLast)
  match info with
  | .symlink linkTarget => (made.step (fun s => fsRm s rel)).step (fun s => fsSymlink linkTarget s rel)
  | _ => made.step (fun s => fsCopyFile sandbox rel s rel)

/-- Body of the loop of `applyBaselineUpdates`; `files` is the in-memory
`index.files`. -/
def applyUpdate (sandbox : Node) (st : Baseline) (update : PendingUpdate) : Baseline :=
  match st.error with
  | some _ => st
  | none =>
    match update with
    | .delete rel =>
      match fsRm st.store rel with
      | .ok store' => ⟨store', deleteProp st.files rel, none⟩
      | .error e => ⟨st.store, deleteProp st.files rel, some e⟩
    | .upsert rel info =>
      let written := updateBaselineFile sandbox st.store rel info
      match written.error with
      | none => ⟨written.fs, setProp st.files rel info, none⟩
      | some e => ⟨written.fs, st.files, some e⟩

/-- Source `applyBaselineUpdates`: the index is persisted (`writeBaselineIndex`)
only when every update went through; otherwise the file keeps the index it held. -/
def applyBaselineUpdates (sandbox : Node) (store : Node) (files : IndexFiles)
    (pendingUpdates : List PendingUpdate) : Baseline :=
  let st := pendingUpdates.foldl (applyUpdate sandbox) ⟨store, files, none⟩
  match st.error with
  | none => st
  | some e => ⟨st.store, files, some e⟩

/-- The change-tracking part of `recordRun`: `computeChanges` on the persisted
index, then `applyBaselineUpdates` on its pending updates. -/
def recordRunBaseline (hashFile : String → String) (config : Config) (sandbox : Node)
    (b : Baseline) (changeHint : Option ChangeHint) : Baseline :=
  applyBaselineUpdates sandbox b.store b.files
    (computeChanges hashFile config sandbox b.files changeHint).pendingUpdates

/-! ## core/apply.js -/

/-- What `readJson` of `.livod/status.json` yields, as far as the gate reads it. -/
structure Status where
  lastRunOk : Bool
  interrupted : Bool
  deriving DecidableEq, Repr

/-- The file `.livod/status.json`. -/
inductive StatusFile where
  | absent
  | unparseable
  | parsed (status : Status)
  deriving DecidableEq, Repr

/-- Source `readStatus`. -/
def readStatus : StatusFile → Option Status
  | .parsed status => some status
  | _ => none

mutual
/-- Source `pruneDir` on one node of the target: only a directory is read. -/
def pruneNode (ignoreMatcher : Matcher) (seen : List RelPath) (rel : RelPath) : Node → Node
  | .dir es => .dir (pruneEntries ignoreMatcher seen rel es)
  | n => n
/-- Source `pruneDir`, the loop over `readdir(current)`: an ignored entry is
kept as it is, an entry the sandbox walk has not seen is removed with its
subtree, a seen directory is descended. -/
def pruneEntries (ignoreMatcher : Matcher) (seen : List RelPath) (base : RelPath) : Entries → Entries
  | [] => []
  | (name, n) :: rest =>
    if ignoreMatcher (base ++ [name]) then (name, n) :: pruneEntries ignoreMatcher seen base rest
    else if base ++ [name] ∈ seen then
      (name, pruneNode ignoreMatcher seen (base ++ [name]) n) :: pruneEntries ignoreMatcher seen base rest
    else pruneEntries ignoreMatcher seen base rest
end

/-- Source `syncDir`. -/
def syncDir (srcRoot destRoot : Node) (ignoreMatcher : Matcher) (prune : Bool) : FsResult :=
  let walked := walkDir srcRoot ignoreMatcher
  let seen := walked.map Prod.fst
  let synced := walked.foldl (syncEntry srcRoot) ⟨destRoot, none⟩
  match synced.error with
  | some _ => synced
  | none => if prune then ⟨pruneNode ignoreMatcher seen [] synced.fs, none⟩ else synced

/-- The `shouldIgnore` closure of `applySandbox`. -/
def shouldIgnore (ignoreMatcher : Matcher) : Matcher :=
  fun rel =>
    match rel with
    | [] => ignoreMatcher rel
    | name :: _ => if name = ".livod" then true else if name = ".git" then true else ignoreMatcher rel

/-- How an `applySandbox` call ends. -/
inductive ApplyOutcome where
  | applied
  | refused (message : String)
  | failed (e : FsError)
  deriving DecidableEq, Repr

/-- Source `applySandbox`: the outcome and the target tree it leaves. `target`
is the tree at `targetRoot`. -/
def applySandbox (sandbox target : Node) (statusFile : StatusFile) (config : Config)
    (requireSuccess prune : Bool) : ApplyOutcome × Node :=
  let gate : Option String :=
    if requireSuccess then
      match readStatus statusFile with
      | none => some "Refusing to apply changes. No successful run recorded."
      | some status =>
        if !status.lastRunOk then some "Refusing to apply changes. Last run failed or was interrupted."
        else none
    else none
  match gate with
  | some message => (.refused message, target)
  | none =>
    let synced := syncDir sandbox target (shouldIgnore (makeIgnoreMatcher config.ignore)) prune
    match synced.error with
    | none => (.applied, synced.fs)
    | some e => (.failed e, synced.fs)

/-! ## core/runner.js: the run scheduler

The runner is single-threaded; other code can run only while a run is
suspended at an `await`. A run in flight is recorded with the promise it is
suspended on, and the scheduler is a transition system whose steps are
`requestRun` calls and the settling of awaited promises. -/

/-- The promise a run is suspended on. -/
inductive Await where
  | exits (left : Nat)
  | writeStatus
  | recordRun
  | ollamaAuto
  deriving DecidableEq, Repr

/-- An invocation of `runCommands` that has not reached its last statement. -/
structure ActiveRun where
  runId : Nat
  await : Await
  deriving DecidableEq, Repr

/-- Observable events of a run. -/
inductive Event where
  | started (runId : Nat)
  | statusWritten (runId : Nat)
  | recorded (runId : Nat)
  deriving DecidableEq, Repr

/-- The closure variables of `createRunner`, the runs in flight and the trace. -/
structure Runner where
  running : Bool
  pending : Bool
  runCount : Nat
  interrupted : Bool
  currentChildren : Nat
  active : List ActiveRun
  log : List Event
  deriving DecidableEq, Repr

/-- State right after `createRunner`. -/
def Runner.init : Runner :=
  ⟨false, false, 0, false, 0, [], []⟩

/-- Source `runCommands` up to its first `await`: in parallel mode every
command is spawned and `Promise.all` awaited; in sequential mode the first
command is spawned and its exit awaited, or, with no command, the status is
written at once. -/
def startRun (config : Config) (s : Runner) : Runner :=
  let runId := s.runCount + 1
  let first : Await × Nat :=
    if config.parallel then (.exits 0, config.commands.length)
    else
      match config.commands.length with
      | 0 => (.writeStatus, 0)
      | n + 1 => (.exits n, 1)
  { s with
    running := true
    interrupted := false
    runCount := runId
    currentChildren := first.2
    active := s.active ++ [⟨runId, first.1⟩]
    log := s.log ++ [.started runId] }

/-- Source `stopCurrentRun`, as far as the runner state goes. -/
def stopCurrentRun (s : Runner) : Runner :=
  if s.currentChildren = 0 then s else { s with interrupted := true }

/-- Source `requestRun`. -/
def requestRun (config : Config) (s : Runner) : Runner :=
  if s.running then
    let s' := { s with pending := true }
    if config.restartOnChange then stopCurrentRun s' else s'
  else startRun config s

/-- The last statements of `runCommands`: the flags are reset and, when a
request arrived meanwhile, the next run starts before control is given up. -/
def finishRun (config : Config) (s : Runner) (i : Nat) : Runner :=
  let s' := { s with running := false, currentChildren := 0, active := s.active.eraseIdx i }
  if s'.pending then startRun config { s' with pending := false } else s'

/-- Replace the promise the `i`-th run in flight is suspended on. -/
def setAwait (s : Runner) (i : Nat) (r : ActiveRun) (a : Await) : Runner :=
  { s with active := s.active.set i ⟨r.runId, a⟩ }

/-- The promise awaited by the `i`-th run in flight resolves; `ok` tells, for a
command exit, whether the exit code is 0. `aiEnabled` is the test
`aiContext && aiConfig.enabled`. -/
def resolveAwait (config : Config) (aiEnabled : Bool) (s : Runner) (i : Nat) (ok : Bool) : Runner :=
  match s.active.get? i with
  | none => s
  | some r =>
    match r.await with
    | .exits left =>
      if config.parallel then setAwait s i r .writeStatus
      else
        match left with
        | n + 1 => if ok then { setAwait s i r (.exits n) with currentChildren := 1 }
                   else setAwait s i r .writeStatus
        | 0 => setAwait s i r .writeStatus
    | .writeStatus =>
      let s' := { s with log := s.log ++ [.statusWritten r.runId] }
      if aiEnabled then setAwait s' i r .recordRun else finishRun config s' i
    | .recordRun =>
      setAwait { s with log := s.log ++ [.recorded r.runId] } i r .ollamaAuto
    | .ollamaAuto => finishRun config s i

/-- The promise awaited by the `i`-th run in flight rejects. A rejection of
`maybeRunOllamaAuto` is caught and the run goes on; a command exit never
rejects; any other rejection leaves `runCommands` without resetting `running`. -/
def rejectAwait (config : Config) (s : Runner) (i : Nat) : Runner :=
  match s.active.get? i with
  | none => s
  | some r =>
    match r.await with
    | .exits _ => s
    | .ollamaAuto => finishRun config s i
    | _ => { s with active := s.active.eraseIdx i }

/-- What can happen to a runner. -/
inductive Action where
  | requestRun
  | stopCurrentRun
  | resolve (i : Nat) (ok : Bool)
  | reject (i : Nat)
  deriving DecidableEq, Repr

/-- One step of the scheduler. -/
def step (config : Config) (aiEnabled : Bool) (s : Runner) : Action → Runner
  | .requestRun => requestRun config s
  | .stopCurrentRun => stopCurrentRun s
  | .resolve i ok => resolveAwait config aiEnabled s i ok
  | .reject i => rejectAwait config s i

/-- State after a sequence of actions, starting from a fresh runner. -/
def runActions (config : Config) (aiEnabled : Bool) (actions : List Action) : Runner :=
  actions.foldl (step config aiEnabled) Runner.init

/-- Number of promises a run suspended on `a` can still have to await. -/
def awaitsLeft : Await → Nat
  | .exits left => left + 4
  | .writeStatus => 3
  | .recordRun => 2
  | .ollamaAuto => 1

/-- Resolve the awaits of the first run in flight, with the given exit results,
at most `fuel` times, stopping when that run has left `runCommands`. -/
def resolveUntilDone (config : Config) (aiEnabled : Bool) : Nat → List Bool → Runner → Runner
  | 0, _, s => s
  | fuel + 1, oks, s =>
    match s.active.head? with
    | none => s
    | some r =>
      let s' := resolveAwait config aiEnabled s 0 (oks.headD true)
      if s'.active.head?.map ActiveRun.runId = some r.runId then
        resolveUntilDone config aiEnabled fuel oks.tail s'
      else s'

/-- Let the first run in flight run to completion: every promise it awaits
resolves, the command exits with the results `oks`. -/
def completeRun (config : Config) (aiEnabled : Bool) (oks : List Bool) (s : Runner) : Runner :=
  match s.active.head? with
  | none => s
  | some r => resolveUntilDone config aiEnabled (awaitsLeft r.await) oks s

/-- Events of a run that went through all its post-processing. -/
def fullRun (aiEnabled : Bool) (runId : Nat) : List Event :=
  [.started runId, .statusWritten runId] ++ (if aiEnabled then [.recorded runId] else [])

/-- Events of the runs 1 to `k`, each complete, one after the other. -/
def doneRuns (aiEnabled : Bool) : Nat → List Event
  | 0 => []
  | k + 1 => doneRuns aiEnabled k ++ fullRun aiEnabled (k + 1)

/-- Events a run in flight has produced so far. -/
def stageLog (r : ActiveRun) : List Event :=
  match r.await with
  | .exits _ => [.started r.runId]
  | .writeStatus => [.started r.runId]
  | .recordRun => [.started r.runId, .statusWritten r.runId]
  | .ollamaAuto => [.started r.runId, .statusWritten r.runId, .recorded r.runId]


/-! ## Notions used by the statements -/

/-- No leading part of `rel` (taken below `base`) is matched by the ignore
predicate: the walk does not skip the path. -/
def visibleFrom (ignoreMatcher : Matcher) (base : RelPath) : RelPath → Bool
  | [] => true
  | name :: rest => !ignoreMatcher (base ++ [name]) && visibleFrom ignoreMatcher (base ++ [name]) rest

/-- The fold of `listSandboxFiles` from any start. -/
def collectFiles (init : List (RelPath × Node)) (l : List (RelPath × Node)) : List (RelPath × Node) :=
  l.foldl (fun files e => if e.2.isDirectory then files else mapSet files e.1 e.2) init

/-- What the full scan pushes for one entry of `sandboxFiles`, if anything. -/
def scanResult (hashFile : String → String) (files : IndexFiles) (e : RelPath × Node) :
    Option (Change × PendingUpdate) :=
  match getProp files e.1 with
  | .undefined =>
    some (⟨e.1, .added, some (getFileInfo hashFile e.2)⟩, .upsert e.1 (getFileInfo hashFile e.2))
  | .inherited =>
    some (⟨e.1, .modified, some (getFileInfo hashFile e.2)⟩, .upsert e.1 (getFileInfo hashFile e.2))
  | .own prev =>
    if recordDiffers prev (getFileInfo hashFile e.2) then
      some (⟨e.1, .modified, some (getFileInfo hashFile e.2)⟩, .upsert e.1 (getFileInfo hashFile e.2))
    else none

/-- The ignore predicate `computeChanges` walks with. -/
def sandboxIgnore (config : Config) : Matcher :=
  makeSandboxIgnore (makeIgnoreMatcher config.ignore)

/-- Every path recorded in the accumulator satisfies `Q`. -/
def ChangeAcc.AllPaths (Q : RelPath → Prop) (acc : ChangeAcc) : Prop :=
  (∀ c ∈ acc.changes, Q c.path) ∧ (∀ u ∈ acc.pendingUpdates, Q u.rel)

/-- The path names an entry of the live tree, or an own key of the index. -/
def KnownPath (sandbox : Node) (files : IndexFiles) (rel : RelPath) : Prop :=
  (lstatAt sandbox rel).isSome = true ∨ hasOwnProperty files rel = true

/-- Invariant of the reachable runner states. -/
def RunnerInv (aiEnabled : Bool) (s : Runner) : Prop :=
  match s.active with
  | [] =>
    (s.running = false ∧ s.log = doneRuns aiEnabled s.runCount) ∨
    (s.running = true ∧ ∃ k inFlight rest, s.runCount = k + 1 ∧
      s.log = doneRuns aiEnabled k ++ inFlight ∧ inFlight ++ rest = fullRun aiEnabled (k + 1))
  | [r] =>
    s.running = true ∧ ∃ k, s.runCount = k + 1 ∧ r.runId = k + 1 ∧
      s.log = doneRuns aiEnabled k ++ stageLog r ∧
      ((r.await = .recordRun ∨ r.await = .ollamaAuto) → aiEnabled = true)
  | _ :: _ :: _ => False

/-- What the end of a run leaves, seen from the state `s` in which the run was
still suspended. -/
def FinishedFrom (s s' : Runner) : Prop :=
  s'.pending = false ∧ s'.running = s.pending ∧
    s'.runCount = s.runCount + (if s.pending then 1 else 0) ∧
    (if s.pending then ∃ a, s'.active = [⟨s.runCount + 1, a⟩] else s'.active = [])

/-- Path and content of the regular files and links that a walk reports. The
content itself stands in the record where a digest would. -/
def trackedEntries (root : Node) (ignore : Matcher) : List (RelPath × FileInfo) :=
  (walkDir root ignore).filterMap (fun e =>
    match e.2 with
    | .file content => some (e.1, .file content content.utf8ByteSize)
    | .symlink linkTarget _ => some (e.1, .symlink linkTarget)
    | _ => none)

/-- The baseline invariant of the specification, as a test: the index paths are
the non-directory paths of the store, every index record is the store entry's
record, and the store holds exactly the sandbox's non-ignored files and links. -/
def baselineInvariant (hashFile : String → String) (config : Config) (sandbox : Node)
    (b : Baseline) : Bool :=
  let stored := (walkDir b.store (fun _ => false)).filter (fun e => !e.2.isDirectory)
  (objectKeys b.files).all (fun k => decide (k ∈ stored.map Prod.fst)) &&
  stored.all (fun e => decide (ownProp b.files e.1 = some (getFileInfo hashFile e.2))) &&
  (trackedEntries sandbox (sandboxIgnore config)).all
    (fun e => decide (e ∈ trackedEntries b.store (fun _ => false))) &&
  (trackedEntries b.store (fun _ => false)).all
    (fun e => decide (e ∈ trackedEntries sandbox (sandboxIgnore config)))

/-- A stand-in digest for worked examples: the content itself. -/
def demoHash : String → String :=
  fun content => content

/-- The compiled pattern `build`: it matches that path and nothing below it. -/
def buildPattern : Matcher :=
  fun rel => decide (rel = ["build"])

/-- The path `q` is `r` or a directory position above `r`. -/
def leads : RelPath → RelPath → Bool
  | [], _ => true
  | _ :: _, [] => false
  | a :: q, b :: r => decide (a = b) && leads q r

/-- The target holds the walked entry `e`: a regular file with the same
content, a link with the same target, a directory in place of a directory. -/
def Holds (t : Node) (e : RelPath × Node) : Prop :=
  match e.2 with
  | .file content => entryAt t e.1 = some (.file content)
  | .symlink linkTarget _ => entryAt t e.1 = some (.symlink linkTarget none)
  | .dir _ => ∃ es, entryAt t e.1 = some (.dir es)
  | .other => True

/-- The target has nothing of another kind in the place of the walked entry
`e`: where the sandbox has a directory the target has a directory or nothing,
where it has a regular file the target has a regular file or nothing. -/
def Fits (t : Node) (e : RelPath × Node) : Prop :=
  match e.2 with
  | .dir _ => entryAt t e.1 = none ∨ ∃ es, entryAt t e.1 = some (.dir es)
  | .file _ => entryAt t e.1 = none ∨ ∃ content, entryAt t e.1 = some (.file content)
  | _ => True

/-- The facts about the entries `W` reported by a walk of the tree `src` that
the copy relies on. -/
structure TreeLike (src : Node) (W : List (RelPath × Node)) : Prop where
  nonempty : ∀ e ∈ W, e.1 ≠ []
  functional : ∀ r n n', (r, n) ∈ W → (r, n') ∈ W → n = n'
  above : ∀ r n q, (r, n) ∈ W → leads q r = true → q ≠ r → q ≠ [] → ∃ es, (q, Node.dir es) ∈ W
  stat : ∀ r c, (r, Node.file c) ∈ W → statAt src r = some (.file c)

/-- The walk callback `syncEntry` with every write made in place, by real
directories only: what the callback does when no symbolic link of the written
tree is on its way. -/
def syncEntryPlain (src : Node) (dest : FsResult) (e : RelPath × Node) : FsResult :=
  match e.2 with
  | .dir _ => dest.step (fun d => mkdirAt d e.1)
  | .symlink linkTarget _ =>
    ((dest.step (fun d => mkdirAt d e.1.dropLast)).step (fun d => rmRf d e.1)).step
      (fun d => symlinkAt linkTarget d e.1)
  | .file _ => (dest.step (fun d => mkdirAt d e.1.dropLast)).step (fun d => copyFile src e.1 d e.1)
  | .other => dest

/-- The routine `syncDir` with every write made in place. -/
def syncDirPlain (srcRoot destRoot : Node) (ignoreMatcher : Matcher) (prune : Bool) : FsResult :=
  let walked := walkDir srcRoot ignoreMatcher
  let seen := walked.map Prod.fst
  let synced := walked.foldl (syncEntryPlain srcRoot) ⟨destRoot, none⟩
  match synced.error with
  | some _ => synced
  | none => if prune then ⟨pruneNode ignoreMatcher seen [] synced.fs, none⟩ else synced

/-- The tree has no symbolic link. -/
def NoLinks (t : Node) : Prop :=
  ∀ q linkTarget follow, entryAt t q ≠ some (.symlink linkTarget follow)

mutual
/-- The tree holds no symbolic link (decided by a traversal). -/
def Node.linkless : Node → Bool
  | .dir es => entriesLinkless es
  | .symlink _ _ => false
  | _ => true
/-- No node of the listing holds a symbolic link. -/
def entriesLinkless : Entries → Bool
  | [] => true
  | (_, n) :: rest => n.linkless && entriesLinkless rest
end

/-- No position at or above `r` holds a symbolic link. -/
def LinkFree (t : Node) (r : RelPath) : Prop :=
  ∀ q, leads q r = true → ∀ linkTarget follow, entryAt t q ≠ some (.symlink linkTarget follow)

/-- The writes made for the walked entry `e` meet no symbolic link of the tree
`t`: none at or above the place of a directory or regular file, none above the
place of a link (what stands in the place of a link is removed, not followed). -/
def WayClear (t : Node) (e : RelPath × Node) : Prop :=
  match e.2 with
  | .file _ => LinkFree t e.1
  | .dir _ => LinkFree t e.1
  | .symlink _ _ => LinkFree t e.1.dropLast
  | .other => True

/-- Every position from below `base` down to `rel` is in `seen`. -/
def allSeen (seen : List RelPath) (base : RelPath) : RelPath → Prop
  | [] => True
  | name :: rest => base ++ [name] ∈ seen ∧ allSeen seen (base ++ [name]) rest

/-- The ignore predicate `applySandbox` walks and prunes with. -/
def applyIgnore (config : Config) : Matcher :=
  shouldIgnore (makeIgnoreMatcher config.ignore)

/-- The effect of one pending update on `index.files` alone. -/
def applyIndex (files : IndexFiles) : PendingUpdate → IndexFiles
  | .delete rel => deleteProp files rel
  | .upsert rel info => setProp files rel info


/-- No key of the index is `.livod` or a path below it. -/
def LivodFree (files : IndexFiles) : Prop :=
  ∀ k ∈ objectKeys files, leads [".livod"] k = false

/-- The baseline of a session: `ensureBaseline` on the sandbox as it starts,
then the baseline update of `recordRun` once per run, on the sandbox tree of
that run with the change hint of that run. -/
def baselineAfterRuns (hashFile : String → String) (config : Config) (start : Node)
    (runs : List (Node × Option ChangeHint)) : Baseline :=
  runs.foldl (fun b r => recordRunBaseline hashFile config r.1 b r.2)
    (ensureBaseline hashFile config start)

/-! ## core/runner.js: the commands of one run -/

/-- What the `exit` event of a child process carries: the exit code, or no
code and the name of the signal that ended the child. -/
structure ChildExit where
  code : Option Int
  signal : Option String
  deriving DecidableEq, Repr

/-- The record `{ name, code, signal }` an `exitPromise` resolves to. -/
structure Exit where
  name : String
  code : Option Int
  signal : Option String
  deriving DecidableEq, Repr

/-- Source `spawnCommand`, as far as its `exitPromise` goes: the record made
from the command's name and the `exit` event of its child. -/
def spawnCommand (name : String) (e : ChildExit) : Exit :=
  ⟨name, e.code, e.signal⟩

/-- The test `exit.code === 0`. -/
def Exit.codeIsZero (exit : Exit) : Bool :=
  exit.code == some 0

/-- Process events of one run, by position of the command in `config.commands`. -/
inductive ProcEvent where
  | spawn (i : Nat)
  | exit (i : Nat)
  deriving DecidableEq, Repr

/-- The object handed to `writeStatus`; the clock readings `lastRunAt` and
`durationMs` are left out. -/
structure RunStatus where
  lastRunOk : Bool
  interrupted : Bool
  exits : List Exit
  deriving DecidableEq, Repr

/-- What one pass through `runCommands` produces: the process events in the
order they happen (in parallel mode only the spawns, the exits being awaited
together), the `exits` array, `ok`, and the status written. -/
structure RunOutcome where
  trace : List ProcEvent
  exits : List Exit
  ok : Bool
  status : RunStatus
  deriving DecidableEq, Repr

/-- The parallel loop with `Promise.all`: one record per command, in the order
of the promises pushed, which is configuration order. `childExit i` is the
`exit` event of the child of the command at position `i`. -/
def parallelExits (childExit : Nat → ChildExit) : Nat → List String → List Exit
  | _, [] => []
  | i, name :: rest => spawnCommand name (childExit i) :: parallelExits childExit (i + 1) rest

/-- The sequential loop: spawn, await the exit, push it, and `break` when
`exit.code !== 0`. -/
def sequentialLoop (childExit : Nat → ChildExit) : Nat → List String → List ProcEvent × List Exit
  | _, [] => ([], [])
  | i, name :: rest =>
    let exit := spawnCommand name (childExit i)
    if exit.codeIsZero then
      let r := sequentialLoop childExit (i + 1) rest
      (.spawn i :: .exit i :: r.1, exit :: r.2)
    else ([.spawn i, .exit i], [exit])

/-- Source `runCommands` from the spawn loop to `writeStatus`; `interrupted`
is the value of the closure variable when the status is written. -/
def runCommands (config : Config) (interrupted : Bool) (childExit : Nat → ChildExit) : RunOutcome :=
  if config.parallel then
    let exits := parallelExits childExit 0 config.commands
    let ok := exits.all Exit.codeIsZero
    ⟨(List.range config.commands.length).map .spawn, exits, ok, ⟨ok, interrupted, exits⟩⟩
  else
    let r := sequentialLoop childExit 0 config.commands
    let ok := r.2.all Exit.codeIsZero
    ⟨r.1, r.2, ok, ⟨ok, interrupted, r.2⟩⟩

/-- The status as the apply gate reads it back from `.livod/status.json`. -/
def RunStatus.toStatus (s : RunStatus) : Status :=
  ⟨s.lastRunOk, s.interrupted⟩

/-- The process events of running the first `n` commands one after the other. -/
def oneByOne (n : Nat) : List ProcEvent :=
  (List.range n).flatMap fun i => [.spawn i, .exit i]

/-- Exit events that give command `i` the code `codes[i]` (code 0 beyond the list). -/
def exitCodes (codes : List Int) : Nat → ChildExit :=
  fun i => ⟨some (codes.getD i 0), none⟩

/-! ## JavaScript strings -/

/-- A JavaScript string: the sequence of its UTF-16 code units. `length`,
`slice` and `+` of the source are `List.length`, `List.drop`/`List.take` and
`++` on it. -/
abbrev JsString := List Nat

/-- The UTF-16 code units of one character. -/
def codeUnits (c : Char) : List Nat :=
  if c.toNat < 65536 then [c.toNat]
  else [55296 + (c.toNat - 65536) / 1024, 56320 + (c.toNat - 65536) % 1024]

/-- The JavaScript string of a text. -/
def js (s : String) : JsString :=
  s.toList.flatMap codeUnits

/-- The code unit of the line feed. -/
def newline : Nat := 10

/-! ## core/ai.js: the output capture -/

/-- The value `{ stdout, stderr, truncated }` kept per command name. -/
structure CaptureEntry where
  stdout : JsString
  stderr : JsString
  truncated : Bool
  deriving DecidableEq, Repr

/-- The `Map` named `outputs`, in insertion order. -/
abbrev Capture := List (String × CaptureEntry)

/-- The argument `{ name, stream, line }` of `append`. -/
structure OutputLine where
  name : String
  stream : String
  line : JsString
  deriving DecidableEq, Repr

/-- `outputs.get(name)`. -/
def Capture.get : Capture → String → Option CaptureEntry
  | [], _ => none
  | (k, v) :: rest, name => if k = name then some v else Capture.get rest name

/-- `outputs.set(name, value)`: an existing key keeps its place. -/
def Capture.set : Capture → String → CaptureEntry → Capture
  | [], name, value => [(name, value)]
  | (k, v) :: rest, name, value =>
    if k = name then (k, value) :: rest else (k, v) :: Capture.set rest name value

/-- The entry as `append` finds it: the one stored, or the fresh one it stores first. -/
def Capture.entry (outputs : Capture) (name : String) : CaptureEntry :=
  (outputs.get name).getD ⟨[], [], false⟩

/-- The buffer `entry[key]` with `key = stream === 'stderr' ? 'stderr' : 'stdout'`. -/
def CaptureEntry.buffer (entry : CaptureEntry) (stream : String) : JsString :=
  if stream = "stderr" then entry.stderr else entry.stdout

/-- The assignment `entry[key] = text`. -/
def CaptureEntry.setBuffer (entry : CaptureEntry) (stream : String) (text : JsString) : CaptureEntry :=
  if stream = "stderr" then { entry with stderr := text } else { entry with stdout := text }

/-- The body of `append` on the entry of the command. -/
def appendEntry (maxBytes : Nat) (entry : CaptureEntry) (stream : String) (line : JsString) :
    CaptureEntry :=
  let withLine := entry.buffer stream ++ line ++ [newline]
  if withLine.length > maxBytes then
    { entry.setBuffer stream (withLine.drop (withLine.length - maxBytes)) with truncated := true }
  else entry.setBuffer stream withLine

/-- Source `append` of `createOutputCapture(maxBytes)`. -/
def append (maxBytes : Nat) (outputs : Capture) (l : OutputLine) : Capture :=
  outputs.set l.name (appendEntry maxBytes (outputs.entry l.name) l.stream l.line)

/-- The capture after a sequence of `append` calls on a fresh or reset capture. -/
def captureAll (maxBytes : Nat) (calls : List OutputLine) : Capture :=
  calls.foldl (append maxBytes) []

/-! ## Notions used by the statements on the output capture -/

/-- Whether a call writes to the given buffer of the given command. -/
def OutputLine.onStream (l : OutputLine) (name : String) (stderr : Bool) : Bool :=
  decide (l.name = name) && (decide (l.stream = "stderr") == stderr)

/-- The concatenation of the lines a command wrote to one stream, each
followed by a line feed. -/
def streamText (calls : List OutputLine) (name : String) (stderr : Bool) : JsString :=
  (calls.filter fun l => l.onStream name stderr).flatMap fun l => l.line ++ [newline]

/-- The last `n` code units of a string, all of it when it has no more. -/
def lastUnits (n : Nat) (s : JsString) : JsString :=
  s.drop (s.length - n)

/-- Whether the call `l` on the capture `outputs` takes the branch
`withLine.length > maxBytes`. -/
def exceedsCeiling (maxBytes : Nat) (outputs : Capture) (l : OutputLine) : Bool :=
  decide (maxBytes < ((outputs.entry l.name).buffer l.stream ++ l.line ++ [newline]).length)

/-! ## core/ai.js: diffs of the changes of a run -/

/-- The resolved `ai` configuration (`resolveAiConfig`), with the defaults of
`DEFAULT_AI`; the limits are counts of bytes or of code units. -/
structure AiConfig where
  enabled : Bool := true
  verbose : Bool := true
  maxFileBytes : Nat := 512 * 1024
  maxDiffBytes : Nat := 128 * 1024
  maxOutputBytes : Nat := 32 * 1024
  includeOutputs : Bool := true
  baseline : Bool := true
  journal : Bool := true
  intentNotes : Bool := true
  scanAllOnDirChange : Bool := true

/-- The call `diff.createTwoFilesPatch(rel, rel, oldText, newText, '', '',
{ context: 3 })` of the `diff` package. -/
abbrev Patcher := RelPath → JsString → JsString → JsString

/-- What `readTextMaybe` returns. -/
inductive TextRead where
  | text (text : JsString) (size : Nat)
  | skipped (reason : String) (size : Nat)
  deriving DecidableEq, Repr

/-- The test `data.includes(0)` on the bytes of the file. -/
def hasNullByte (content : String) : Bool :=
  content.toList.any fun c => c.toNat == 0

/-- Source `readTextMaybe`: the size is tested before the file is read. A path
that resolves to something other than a regular file makes `readFile` throw;
the size that `fs.stat` reports for a directory depends on the file system and
is taken to pass the size test. -/
def readTextMaybe (root : Node) (rel : RelPath) (maxBytes : Nat) : Except FsError TextRead :=
  match statAt root rel with
  | none => .error .ENOENT
  | some (.file content) =>
    if content.utf8ByteSize > maxBytes then .ok (.skipped "too_large" content.utf8ByteSize)
    else if hasNullByte content then .ok (.skipped "binary" content.utf8ByteSize)
    else .ok (.text (js content) content.utf8ByteSize)
  | some (.dir _) => .error .EISDIR
  | some _ => .error .ENOTSUP

/-- The object `computeDiffForChange` returns when it does not return `null`. -/
inductive DiffInfo where
  | skipped (reason : String) (size : Nat)
  | patch (diff : JsString) (truncated : Bool)
  deriving DecidableEq, Repr

/-- The last two statements of each branch of `computeDiffForChange`. -/
def cutPatch (maxDiffBytes : Nat) (patch : JsString) : DiffInfo :=
  let truncated := decide (patch.length > maxDiffBytes)
  .patch (if truncated then patch.take maxDiffBytes else patch) truncated

/-- Source `computeDiffForChange`; `sandbox` and `store` are the trees under
`sandboxRoot` and `paths.baselineRoot`. -/
def computeDiffForChange (createTwoFilesPatch : Patcher) (aiConfig : AiConfig)
    (sandbox store : Node) (rel : RelPath) : ChangeType → Except FsError (Option DiffInfo)
  | .deleted =>
    if !pathExists store rel then .ok none
    else
      match readTextMaybe store rel aiConfig.maxFileBytes with
      | .error e => .error e
      | .ok (.skipped reason size) => .ok (some (.skipped reason size))
      | .ok (.text prev _) =>
        .ok (some (cutPatch aiConfig.maxDiffBytes (createTwoFilesPatch rel prev [])))
  | .added =>
    if !pathExists sandbox rel then .ok none
    else
      match readTextMaybe sandbox rel aiConfig.maxFileBytes with
      | .error e => .error e
      | .ok (.skipped reason size) => .ok (some (.skipped reason size))
      | .ok (.text next _) =>
        .ok (some (cutPatch aiConfig.maxDiffBytes (createTwoFilesPatch rel [] next)))
  | .modified =>
    if !pathExists store rel || !pathExists sandbox rel then .ok none
    else
      match readTextMaybe store rel aiConfig.maxFileBytes with
      | .error e => .error e
      | .ok prev =>
        match readTextMaybe sandbox rel aiConfig.maxFileBytes with
        | .error e => .error e
        | .ok next =>
          match prev, next with
          | .skipped reason size, _ => .ok (some (.skipped reason size))
          | .text _ _, .skipped reason size => .ok (some (.skipped reason size))
          | .text prevText _, .text nextText _ =>
            if prevText = nextText then .ok none
            else .ok (some (cutPatch aiConfig.maxDiffBytes (createTwoFilesPatch rel prevText nextText)))

/-- The fields an enriched change has beside those of the change: none, or
`diff: null` with a `reason` and possibly a `size`, or a `diff` text and the
`truncated` flag. -/
inductive DiffFields where
  | absent
  | null (reason : String) (size : Option Nat)
  | text (diff : JsString) (truncated : Bool)
  deriving DecidableEq, Repr

/-- An element of the `changes` of a run event. -/
structure EnrichedChange where
  change : Change
  fields : DiffFields
  deriving DecidableEq, Repr

/-- The `type` field of a record, as the string it is. -/
def InfoType.name : InfoType → String
  | .symlink => "symlink"
  | .file => "file"
  | .other => "other"

/-- The spread `{ ...change, ...diffInfo }`. -/
def DiffInfo.toFields : DiffInfo → DiffFields
  | .skipped reason size => .null reason (some size)
  | .patch diff truncated => .text diff truncated

/-- Body of the loop of `enrichChangesWithDiff`. -/
def enrichChange (createTwoFilesPatch : Patcher) (aiConfig : AiConfig) (sandbox store : Node)
    (change : Change) : Except FsError EnrichedChange :=
  match change.info with
  | some (.symlink _) => .ok ⟨change, .null InfoType.symlink.name none⟩
  | some .other => .ok ⟨change, .null InfoType.other.name none⟩
  | _ =>
    match computeDiffForChange createTwoFilesPatch aiConfig sandbox store change.path change.type with
    | .error e => .error e
    | .ok (some diffInfo) => .ok ⟨change, diffInfo.toFields⟩
    | .ok none => .ok ⟨change, .absent⟩

/-- The loop of `enrichChangesWithDiff`: it stops at the first change whose
diff throws. -/
def enrichAll (createTwoFilesPatch : Patcher) (aiConfig : AiConfig) (sandbox store : Node) :
    List Change → Except FsError (List EnrichedChange)
  | [] => .ok []
  | change :: rest =>
    match enrichChange createTwoFilesPatch aiConfig sandbox store change with
    | .error e => .error e
    | .ok first =>
      match enrichAll createTwoFilesPatch aiConfig sandbox store rest with
      | .error e => .error e
      | .ok others => .ok (first :: others)

/-- Source `enrichChangesWithDiff`. -/
def enrichChangesWithDiff (createTwoFilesPatch : Patcher) (aiConfig : AiConfig)
    (sandbox store : Node) (changes : List Change) : Except FsError (List EnrichedChange) :=
  if !aiConfig.verbose then .ok (changes.map fun change => ⟨change, .absent⟩)
  else enrichAll createTwoFilesPatch aiConfig sandbox store changes

/-- What `recordRun` leaves: the `changes` of the event it returns, if it
returns one, and the baseline with the error that made it throw, if any. -/
structure RecordOutcome where
  changes : Option (List EnrichedChange)
  baseline : Baseline

/-- Source `recordRun` as far as the changes and the baseline go:
`computeChanges`, then `enrichChangesWithDiff`, then `applyBaselineUpdates`. -/
def recordRun (hashFile : String → String) (createTwoFilesPatch : Patcher) (config : Config)
    (aiConfig : AiConfig) (sandbox : Node) (b : Baseline) (changeHint : Option ChangeHint) :
    RecordOutcome :=
  if !aiConfig.enabled then ⟨none, b⟩
  else
    let changeResult := computeChanges hashFile config sandbox b.files changeHint
    match enrichChangesWithDiff createTwoFilesPatch aiConfig sandbox b.store changeResult.changes with
    | .error e => ⟨none, { b with error := some e }⟩
    | .ok changes =>
      let updated := applyBaselineUpdates sandbox b.store b.files changeResult.pendingUpdates
      match updated.error with
      | none => ⟨some changes, updated⟩
      | some _ => ⟨none, updated⟩

/-! ## Notions used by the statements on diffs -/

/-- A stand-in for the patch text in worked examples: the path, then the old
and the new text, each on a marked line of its own. -/
def demoPatch : Patcher :=
  fun rel oldText newText =>
    js (String.intercalate "/" rel) ++ [newline] ++ js "-" ++ oldText ++ js "+" ++ newText

/-! ## core/runner.js: the watcher -/

/-- The second argument of `recordChange`: `'file'` for the events `add`,
`change` and `unlink`, `'dir'` for `addDir` and `unlinkDir`. -/
inductive WatchKind where
  | file
  | dir
  deriving DecidableEq, Repr

/-- A watch event as `recordChange` receives it: the path relative to the
sandbox root and the kind. -/
structure WatchEvent where
  rel : RelPath
  type : WatchKind
  deriving DecidableEq, Repr

/-- The closure variables of `startWatcher` with the timers of the event loop:
`timers` holds the timers set and neither cleared nor fired, `nextTimer` is the
identity the next `setTimeout` returns, `requests` counts the calls of
`runner.requestRun` made by timer callbacks. -/
structure Watcher where
  pendingChanges : List RelPath
  pendingFullScan : Bool
  debounceTimer : Option Nat
  timers : List Nat
  nextTimer : Nat
  requests : Nat
  deriving DecidableEq, Repr

/-- State right after `startWatcher` has set up its variables. -/
def Watcher.init : Watcher :=
  ⟨[], false, none, [], 0, 0⟩

/-- The constant `allowDirScan`. -/
def allowDirScan (aiConfig : AiConfig) : Bool :=
  aiConfig.scanAllOnDirChange

/-- The test `!rel || rel === '' || rel.startsWith('..')`. -/
def outsideSandbox : RelPath → Bool
  | [] => true
  | first :: _ => first.take 2 == ".."

/-- `pendingChanges.add(rel)` on the `Set`. -/
def setAdd (s : List RelPath) (rel : RelPath) : List RelPath :=
  if rel ∈ s then s else s ++ [rel]

/-- Source `triggerRun`: the timer held in `debounceTimer` is cleared and a new
one is set. -/
def triggerRun (w : Watcher) : Watcher :=
  let live :=
    match w.debounceTimer with
    | some id => w.timers.erase id
    | none => w.timers
  { w with
    timers := live ++ [w.nextTimer]
    debounceTimer := some w.nextTimer
    nextTimer := w.nextTimer + 1 }

/-- Source `recordChange`. -/
def recordChange (allowDirScan : Bool) (w : Watcher) (e : WatchEvent) : Watcher :=
  if outsideSandbox e.rel then w
  else
    match e.type with
    | .dir =>
      if !allowDirScan then triggerRun w
      else triggerRun { w with pendingFullScan := true }
    | .file => triggerRun { w with pendingChanges := setAdd w.pendingChanges e.rel }

/-- The timer `id` expires: if it is still set, its callback calls
`runner.requestRun()`. -/
def fireTimer (w : Watcher) (id : Nat) : Watcher :=
  if id ∈ w.timers then { w with timers := w.timers.erase id, requests := w.requests + 1 }
  else w

/-- Source `getChangeHint`, called at the start of `runCommands`. -/
def getChangeHint (w : Watcher) : ChangeHint × Watcher :=
  (⟨w.pendingChanges, w.pendingFullScan⟩, { w with pendingChanges := [], pendingFullScan := false })

/-- A burst of watch events with no timer expiry in between. -/
def burst (allowDirScan : Bool) (w : Watcher) (events : List WatchEvent) : Watcher :=
  events.foldl (recordChange allowDirScan) w

/-! ## Notions used by the statements on the watcher -/

/-- The paths of the file-level events of a burst. -/
def filePaths (events : List WatchEvent) : List RelPath :=
  (events.filter fun e => e.type == .file).map WatchEvent.rel

/-- Whether some event of a burst is directory-level. -/
def anyDir (events : List WatchEvent) : Bool :=
  events.any fun e => e.type == .dir

/-- At most one timer is set, and it is the one held in `debounceTimer`. -/
def Watcher.OneTimer (w : Watcher) : Prop :=
  w.timers = [] ∨ ∃ id, w.timers = [id] ∧ w.debounceTimer = some id

/-! ## shared/fs.js: copying into a destination inside the source

When the destination lies inside the source, `copyDir` walks the source while
it writes into it: one tree is read and written. The walk is run on that tree
with a step budget; `exhausted` tells that the budget ran out with the walk
still going. -/

/-- The state of a copy under way: the tree, the error thrown if any, whether
the step budget ran out, and the `rel` of every `onEntry` call so far. -/
structure LiveResult where
  fs : Node
  error : Option FsError
  exhausted : Bool
  visited : List RelPath

/-- The call `fs.readdir(p, { withFileTypes: true })`. -/
def readdir (fs : Node) (p : RelPath) : Option Entries :=
  match statAt fs p with
  | some (.dir entries) => some entries
  | _ => none

/-- The callback that `copyDir` hands to `walkDir`, for the entry at `rel`
whose `dirent` is of the kind of `dirent`; `full` is `src ++ rel`. -/
def copyEntryAt (src dest : RelPath) (fs : Node) (rel : RelPath) (dirent : Node) :
    Except FsError Node :=
  let destPath := dest ++ rel
  match dirent with
  | .dir _ => ensureDir fs destPath
  | .symlink _ _ =>
    match ensureDir fs destPath.dropLast with
    | .error e => .error e
    | .ok fs1 =>
      match lstatAt fs1 (src ++ rel) with
      | some (.symlink linkTarget _) =>
        match fsRm fs1 destPath with
        | .error e => .error e
        | .ok fs2 => fsSymlink linkTarget fs2 destPath
      | _ => .error .EINVAL
  | .file _ =>
    match ensureDir fs destPath.dropLast with
    | .error e => .error e
    | .ok fs1 => fsCopyFile fs1 (src ++ rel) fs1 destPath
  | .other => ensureDir fs destPath.dropLast

/-- Source `walkDir` on a tree that `onEntry` writes to: `entries` is what is
left of the listing read from the directory `cur` (relative to `src`), and a
directory entry is listed when the walk enters it. -/
def walkLive (onEntry : Node → RelPath → Node → Except FsError Node) (ignoreMatcher : Matcher)
    (src : RelPath) : Nat → RelPath → Entries → LiveResult → LiveResult
  | _, _, [], r => r
  | 0, _, _ :: _, r => { r with exhausted := true }
  | fuel + 1, cur, (name, dirent) :: rest, r =>
    let rel := cur ++ [name]
    if ignoreMatcher rel then walkLive onEntry ignoreMatcher src fuel cur rest r
    else
      match onEntry r.fs rel dirent with
      | .error e => { r with error := some e, visited := r.visited ++ [rel] }
      | .ok fs1 =>
        let r1 : LiveResult := { r with fs := fs1, visited := r.visited ++ [rel] }
        if dirent.isDirectory then
          match readdir fs1 (src ++ rel) with
          | none => { r1 with error := some .ENOENT }
          | some entries =>
            let r2 := walkLive onEntry ignoreMatcher src fuel rel entries r1
            if r2.error.isSome || r2.exhausted then r2
            else walkLive onEntry ignoreMatcher src fuel cur rest r2
        else walkLive onEntry ignoreMatcher src fuel cur rest r1

/-- The call `fs.cp(src, dest, { recursive, dereference: false, filter })` of
the platform, with the filter made from the ignore predicate. -/
abbrev Cp := Node → RelPath → RelPath → Matcher → FsResult

/-- Source `copyDir` on one tree holding both `src` and `dest`. -/
def copyDirAt (cp : Cp) (fuel : Nat) (fs : Node) (src dest : RelPath) (ignoreMatcher : Matcher) :
    LiveResult :=
  match ensureDir fs dest with
  | .error e => ⟨fs, some e, false, []⟩
  | .ok fs1 =>
    if leads src dest then
      match readdir fs1 src with
      | none => ⟨fs1, some .ENOENT, false, []⟩
      | some entries =>
        walkLive (copyEntryAt src dest) ignoreMatcher src fuel [] entries ⟨fs1, none, false, []⟩
    else
      let copied := cp fs1 src dest ignoreMatcher
      ⟨copied.fs, copied.error, false, []⟩

/-! ## core/sandbox.js -/

/-- The `sandboxPath` option: an absolute path, or one relative to the
repository root. -/
inductive SandboxPath where
  | absolute (p : RelPath)
  | relative (p : RelPath)
  deriving DecidableEq, Repr

/-- The call `path.resolve(repoRoot, sandboxPath)`. -/
def resolvePath (repoRoot : RelPath) : SandboxPath → RelPath
  | .absolute p => p
  | .relative p => repoRoot ++ p

/-- What `.livod/state.json` holds once parsed: `lastSandbox`, and `sandboxes`
(the empty list when it is not an array). -/
structure SandboxState where
  lastSandbox : Option RelPath
  sandboxes : List RelPath
  deriving DecidableEq, Repr

/-- The file `.livod/state.json` of the repository. -/
inductive StateFile where
  | absent
  | unparseable
  | parsed (state : SandboxState)
  deriving DecidableEq, Repr

/-- Source `updateState`. -/
def updateState (file : StateFile) (sandboxRoot : RelPath) : StateFile :=
  match file with
  | .parsed existing =>
    .parsed ⟨some sandboxRoot,
      if sandboxRoot ∈ existing.sandboxes then existing.sandboxes
      else existing.sandboxes ++ [sandboxRoot]⟩
  | _ => .parsed ⟨some sandboxRoot, [sandboxRoot]⟩

/-- The `shouldIgnore` closure of `createSandbox`. -/
def createSandboxIgnore (ignoreMatcher : Matcher) : Matcher :=
  fun rel =>
    match rel with
    | [] => ignoreMatcher rel
    | name :: _ => if name = ".livod" then true else ignoreMatcher rel

/-- How a sandbox set-up ends: the sandbox root, the tree and the registry
file, the error thrown if any, whether the copy was still going when the step
budget ran out, and the entries the copy visited. -/
structure SandboxOutcome where
  sandboxRoot : RelPath
  fs : Node
  state : StateFile
  error : Option FsError
  exhausted : Bool
  visited : List RelPath

/-- Source `createSandbox`; `sandboxId` is the fresh identifier and `metaJson`
the serialised `meta` object, both made from clock readings. -/
def createSandbox (cp : Cp) (fuel : Nat) (sandboxId metaJson : String) (fs : Node)
    (state : StateFile) (repoRoot : RelPath) (config : Config) (sandboxPath : Option SandboxPath) :
    SandboxOutcome :=
  let livodRoot := repoRoot ++ [".livod"]
  let sandboxRoot :=
    match sandboxPath with
    | some p => resolvePath repoRoot p
    | none => livodRoot ++ ["sandboxes", sandboxId]
  let made := ((FsResult.mk fs none).step fun t => ensureDir t livodRoot).step fun t =>
    if pathExists t sandboxRoot then .ok t else ensureDir t sandboxRoot
  match made.error with
  | some e => ⟨sandboxRoot, made.fs, state, some e, false, []⟩
  | none =>
    let copied := copyDirAt cp fuel made.fs repoRoot sandboxRoot
      (createSandboxIgnore (makeIgnoreMatcher config.ignore))
    if copied.error.isSome || copied.exhausted then
      ⟨sandboxRoot, copied.fs, state, copied.error, copied.exhausted, copied.visited⟩
    else
      let sandboxLivod := sandboxRoot ++ [".livod"]
      let srcModules := repoRoot ++ ["node_modules"]
      let destModules := sandboxRoot ++ ["node_modules"]
      let linked := ((FsResult.mk copied.fs none).step fun t => ensureDir t sandboxLivod).step
        fun t =>
          if config.linkNodeModules && pathExists t srcModules && !pathExists t destModules then
            fsSymlink (String.intercalate "/" srcModules) t destModules
          else .ok t
      let written := (linked.step fun t => ensureDir t sandboxLivod).step fun t =>
        fsWriteFile metaJson t (sandboxLivod ++ ["meta.json"])
      match written.error with
      | some e => ⟨sandboxRoot, written.fs, state, some e, false, copied.visited⟩
      | none => ⟨sandboxRoot, written.fs, updateState state sandboxRoot, none, false, copied.visited⟩

/-- Source `startCommand` up to the choice of the sandbox: an explicit path
that exists is taken as it is, otherwise the sandbox is created. -/
def startCommand (cp : Cp) (fuel : Nat) (sandboxId metaJson : String) (fs : Node)
    (state : StateFile) (repoRoot : RelPath) (config : Config) (sandboxPath : Option SandboxPath) :
    SandboxOutcome :=
  match sandboxPath with
  | some p =>
    if pathExists fs (resolvePath repoRoot p) then
      ⟨resolvePath repoRoot p, fs, state, none, false, []⟩
    else createSandbox cp fuel sandboxId metaJson fs state repoRoot config sandboxPath
  | none => createSandbox cp fuel sandboxId metaJson fs state repoRoot config sandboxPath

/-! ## Notions used by the statements on sandboxes -/

/-- A stand-in for `fs.cp` in worked examples where the destination lies
inside the source, so that `fs.cp` is not called. -/
def noCp : Cp :=
  fun fs _ _ _ => ⟨fs, none⟩

/-- The directory chain `sb/sb/.../sb` of the given depth. -/
def sbChain : Nat → Node
  | 0 => .dir []
  | n + 1 => .dir [("sb", sbChain n)]

/-- A compiled ignore pattern for worked examples: the pattern `**/x.log`, which
matches the paths whose last component is `x.log`. -/
def xLogPattern : Matcher :=
  fun rel => rel.getLast? == some "x.log"

/-! ## core/sandbox.js: resolving the sandbox -/

/-- Source `resolveSandboxPath`: `null` is `none`. A registry file that cannot
be read or parsed is caught inside the function. -/
def resolveSandboxPath (repoRoot : RelPath) (state : StateFile)
    (explicitPath : Option SandboxPath) : Option RelPath :=
  match explicitPath with
  | some p => some (resolvePath repoRoot p)
  | none =>
    match state with
    | .parsed s => s.lastSandbox
    | _ => none

/-! ## cli/args.js, cli/help.js, cli/index.js -/

/-- The `options` object of `parseArgs`. A value option holds the argument that
follows it, as text, or nothing when no argument follows. -/
structure CliOptions where
  help : Bool := false
  unknown : Option String := none
  configPath : Option String := none
  sandboxPath : Option String := none
  debounceMs : Option String := none
  parallel : Option Bool := none
  restartOnChange : Option Bool := none
  linkNodeModules : Option Bool := none
  aiEnabled : Option Bool := none
  agent : Option String := none
  format : Option String := none
  watch : Option Bool := none
  outPath : Option String := none
  pruneOnApply : Option Bool := none
  applyRequiresSuccess : Option Bool := none
  ollamaEnabled : Option Bool := none
  ollamaModel : Option String := none
  ollamaAuto : Option Bool := none
  ollamaAutoOnSuccessOnly : Option Bool := none
  ollamaContext : Option String := none
  ollamaTemperature : Option String := none
  ollamaSystemPrompt : Option String := none
  deriving DecidableEq, Repr

/-- The local variables of `parseArgs`. -/
structure ParseState where
  command : Option String := none
  subcommand : Option String := none
  passthrough : Bool := false
  options : CliOptions := {}
  positionals : List String := []
  deriving DecidableEq, Repr

/-- The test `!command`: no command yet, or the empty string. -/
def ParseState.noCommand (st : ParseState) : Bool :=
  match st.command with
  | none => true
  | some c => c == ""

/-- The test `arg.startsWith('-')`. -/
def startsWithDash (arg : String) : Bool :=
  arg.take 1 == "-"

/-- The `switch (arg)` of `parseArgs`: the new options and whether the next
argument is consumed as the value. -/
def parseOption (arg : String) (value : Option String) (o : CliOptions) : CliOptions × Bool :=
  if arg = "--config" then ({ o with configPath := value }, true)
  else if arg = "--sandbox" then ({ o with sandboxPath := value }, true)
  else if arg = "--debounce" then ({ o with debounceMs := value }, true)
  else if arg = "--no-parallel" then ({ o with parallel := some false }, false)
  else if arg = "--no-restart" then ({ o with restartOnChange := some false }, false)
  else if arg = "--no-link-node-modules" then ({ o with linkNodeModules := some false }, false)
  else if arg = "--no-ai" then ({ o with aiEnabled := some false }, false)
  else if arg = "--agent" then ({ o with agent := value }, true)
  else if arg = "--format" then ({ o with format := value }, true)
  else if arg = "--watch" then ({ o with watch := some true }, false)
  else if arg = "--out" then ({ o with outPath := value }, true)
  else if arg = "--prune" then ({ o with pruneOnApply := some true }, false)
  else if arg = "--force" then ({ o with applyRequiresSuccess := some false }, false)
  else if arg = "--ollama" then ({ o with ollamaEnabled := some true }, false)
  else if arg = "--no-ollama" then ({ o with ollamaEnabled := some false }, false)
  else if arg = "--ollama-model" then
    ({ o with ollamaModel := value, ollamaEnabled := some true }, true)
  else if arg = "--ollama-auto" then
    ({ o with ollamaAuto := some true, ollamaEnabled := some true }, false)
  else if arg = "--ollama-auto-success" then
    ({ o with ollamaAutoOnSuccessOnly := some true, ollamaEnabled := some true }, false)
  else if arg = "--ollama-context" then
    ({ o with ollamaContext := value, ollamaEnabled := some true }, true)
  else if arg = "--ollama-temp" then
    ({ o with ollamaTemperature := value, ollamaEnabled := some true }, true)
  else if arg = "--ollama-system" then
    ({ o with ollamaSystemPrompt := value, ollamaEnabled := some true }, true)
  else ({ o with unknown := some arg }, false)

/-- The loop of `parseArgs` over the arguments that are left; `budget` bounds
the number of iterations by the number of arguments. -/
def parseLoop : Nat → List String → ParseState → ParseState
  | 0, _, st => st
  | _, [], st => st
  | budget + 1, arg :: rest, st =>
    if arg = "--" then parseLoop budget rest { st with passthrough := true }
    else if st.noCommand && !startsWithDash arg then
      parseLoop budget rest { st with command := some arg }
    else if st.command = some "ollama" && st.subcommand.isNone && !startsWithDash arg &&
        decide (arg ∈ ["ask", "prompt", "check"]) then
      parseLoop budget rest { st with subcommand := some arg }
    else if st.passthrough || !startsWithDash arg then
      parseLoop budget rest { st with positionals := st.positionals ++ [arg] }
    else if arg = "-h" || arg = "--help" then
      parseLoop budget rest { st with options := { st.options with help := true } }
    else
      let parsed := parseOption arg rest.head? st.options
      parseLoop budget (if parsed.2 then rest.drop 1 else rest) { st with options := parsed.1 }

/-- What `parseArgs` returns. -/
structure ParsedArgs where
  command : String
  subcommand : Option String
  options : CliOptions
  positionals : List String
  deriving DecidableEq, Repr

/-- Source `parseArgs`. -/
def parseArgs (argv : List String) : ParsedArgs :=
  let st := parseLoop argv.length argv {}
  ⟨if st.noCommand then "start" else st.command.getD "start", st.subcommand, st.options,
    st.positionals⟩

/-- The command word of each usage line of `HELP_TEXT`, in order. -/
def helpCommands : List String :=
  ["start", "apply", "ai", "ai", "export", "note", "diff", "ollama", "init", "clean"]

/-- The functions `main` can hand over to. -/
inductive Handler where
  | printHelp
  | startCommand
  | applyCommand
  | aiCommand
  | noteCommand
  | initCommand
  | cleanCommand
  | ollamaCommand
  deriving DecidableEq, Repr

/-- How `main` goes on: the handler it calls, or the message of the error it
throws. -/
inductive Dispatch where
  | calls (handler : Handler)
  | throws (message : String)
  deriving DecidableEq, Repr

/-- Source `main` up to the call of the handler. -/
def main (argv : List String) : Dispatch :=
  let parsed := parseArgs argv
  if parsed.options.help || parsed.command == "help" then .calls .printHelp
  else
    match parsed.options.unknown with
    | some option => .throws ("Unknown option: " ++ option)
    | none =>
      if parsed.command = "start" then .calls .startCommand
      else if parsed.command = "apply" then .calls .applyCommand
      else if parsed.command = "ai" then .calls .aiCommand
      else if parsed.command = "export" then .calls .aiCommand
      else if parsed.command = "note" then .calls .noteCommand
      else if parsed.command = "init" then .calls .initCommand
      else if parsed.command = "clean" then .calls .cleanCommand
      else if parsed.command = "ollama" then .calls .ollamaCommand
      else .throws ("Unknown command: " ++ parsed.command)

/-! ## core/runner.js: line buffering of a child's output -/

/-- Puts a code unit in front of the first piece. -/
def consHead (c : Nat) : List JsString → List JsString
  | [] => [[c]]
  | h :: t => (c :: h) :: t

/-- JavaScript `text.split(/\r?\n/)`: the pieces of the text between the
separators, a separator being a line feed (10) together with the carriage
return (13) right before it when there is one. The text after the last
separator is the last piece, so there is always at least one piece. -/
def splitLines : JsString → List JsString
  | [] => [[]]
  | 13 :: 10 :: rest => [] :: splitLines rest
  | 10 :: rest => [] :: splitLines rest
  | c :: rest => consHead c (splitLines rest)

/-- The code units of a code point. -/
def codePointUnits (cp : Nat) : JsString :=
  if cp < 65536 then [cp] else [55296 + (cp - 65536) / 1024, 56320 + (cp - 65536) % 1024]

/-- State of the UTF-8 decoder between two bytes: the text decoded so far, the
code point being assembled, the number of continuation bytes still needed and
the range the next one must lie in. -/
structure Utf8State where
  out : JsString
  codePoint : Nat
  needed : Nat
  lower : Nat
  upper : Nat
  deriving DecidableEq, Repr

/-- The decoder on a byte that starts a sequence. -/
def utf8Start (out : JsString) (b : Nat) : Utf8State :=
  if b < 128 then ⟨out ++ [b], 0, 0, 128, 191⟩
  else if 194 ≤ b && b ≤ 223 then ⟨out, b - 192, 1, 128, 191⟩
  else if 224 ≤ b && b ≤ 239 then
    ⟨out, b - 224, 2, if b = 224 then 160 else 128, if b = 237 then 159 else 191⟩
  else if 240 ≤ b && b ≤ 244 then
    ⟨out, b - 240, 3, if b = 240 then 144 else 128, if b = 244 then 143 else 191⟩
  else ⟨out ++ [65533], 0, 0, 128, 191⟩

/-- One byte through the decoder: a continuation byte in range goes into the
code point; any other byte ends the unfinished sequence, which becomes one
U+FFFD, and is then read as the start of a sequence. -/
def utf8Step (s : Utf8State) (b : Nat) : Utf8State :=
  if s.needed = 0 then utf8Start s.out b
  else if s.lower ≤ b && b ≤ s.upper then
    if s.needed = 1 then ⟨s.out ++ codePointUnits (s.codePoint * 64 + (b - 128)), 0, 0, 128, 191⟩
    else ⟨s.out, s.codePoint * 64 + (b - 128), s.needed - 1, 128, 191⟩
  else utf8Start (s.out ++ [65533]) b

/-- JavaScript `buffer.toString()` on the bytes of a `Buffer`: UTF-8 decoding in
which every ill-formed or unfinished sequence becomes U+FFFD. A sequence left
unfinished at the end of the bytes is one U+FFFD. -/
def utf8Decode (bytes : List Nat) : JsString :=
  let s := bytes.foldl utf8Step ⟨[], 0, 0, 128, 191⟩
  if s.needed = 0 then s.out else s.out ++ [65533]

/-- What `prefixStream` holds and has done so far: the closure variable
`buffer`, the arguments of the calls of `sink` and those of `onLine`, in call
order. -/
structure LineBuffer where
  buffer : JsString
  sink : List JsString
  onLine : List JsString
  deriving DecidableEq, Repr

/-- The `data` handler of `prefixStream`; `chunk` holds the bytes of the
`Buffer` the stream hands over (the pipes of the child are read without
`setEncoding`), decoded on its own by `chunk.toString()`. `split` gives at
least one piece, so `pop` always finds one. -/
def onData (pre : JsString) (s : LineBuffer) (chunk : List Nat) : LineBuffer :=
  let lines := splitLines (s.buffer ++ utf8Decode chunk)
  let forwarded := lines.dropLast.filter fun line => line.length != 0
  ⟨lines.getLast?.getD [], s.sink ++ forwarded.map (pre ++ ·), s.onLine ++ forwarded⟩

/-- The `end` handler of `prefixStream`. -/
def onEnd (pre : JsString) (s : LineBuffer) : LineBuffer :=
  if s.buffer.length != 0 then ⟨s.buffer, s.sink ++ [pre ++ s.buffer], s.onLine ++ [s.buffer]⟩
  else s

/-- Source `prefixStream` on a stream that emits the chunks as `data` events
and then `end`. -/
def prefixStream (pre : JsString) (chunks : List (List Nat)) : LineBuffer :=
  onEnd pre (chunks.foldl (onData pre) ⟨[], [], []⟩)

/-- The non-empty pieces of the whole text split on `\r?\n`. -/
def nonEmptyLines (text : JsString) : List JsString :=
  (splitLines text).filter fun line => line.length != 0

/-! ## shared/text.js -/

/-- JavaScript `pieces.join('\n')`. -/
def joinLines (pieces : List JsString) : JsString :=
  List.intercalate [newline] pieces

/-- Source `tailLines`. -/
def tailLines (text : JsString) (maxLines : Nat) : JsString :=
  if text.length = 0 then []
  else
    let lines := splitLines text
    if lines.length ≤ maxLines then text
    else joinLines (lines.drop (lines.length - maxLines))

/-- Source `headLines`. -/
def headLines (text : JsString) (maxLines : Nat) : JsString :=
  if text.length = 0 then []
  else
    let lines := splitLines text
    if lines.length ≤ maxLines then text
    else joinLines (lines.take maxLines)

/-- The code units JavaScript `trim` removes: white space and line terminators. -/
def isWhiteSpace (c : Nat) : Bool :=
  c == 9 || c == 10 || c == 11 || c == 12 || c == 13 || c == 32 || c == 160 || c == 5760 ||
    (8192 ≤ c && c ≤ 8202) || c == 8232 || c == 8233 || c == 8239 || c == 8287 ||
    c == 12288 || c == 65279

/-- JavaScript `text.trim()`. -/
def trim (text : JsString) : JsString :=
  ((text.dropWhile isWhiteSpace).reverse.dropWhile isWhiteSpace).reverse

/-! ## core/ai.js: the compact context -/

/-- The object `aiConfig.compact`. -/
structure CompactConfig where
  enabled : Bool := true
  maxDiffLines : Nat := 80
  maxStdoutLines : Nat := 20
  maxStderrLines : Nat := 60

/-- The expression `n || d` on a number `n`. -/
def orDefault (n d : Nat) : Nat :=
  if n = 0 then d else n

/-- One element of `lastRun.changes` as the renderer reads it: `diff` is
`none` when the field is absent or `null`. -/
structure CompactChange where
  type : JsString
  path : JsString
  diff : Option JsString

/-- The record `lastRun` as the renderer reads it: `exits` is `none` when the
field is not an array, `outputs` is `none` when the field is missing, and
holds the pairs of `Object.entries(lastRun.outputs)` otherwise. -/
structure LastRun where
  ok : Bool
  durationMs : Nat
  timestamp : JsString
  exits : Option (List Exit)
  changes : List CompactChange
  outputs : Option Capture

/-- The argument of `renderCompactContext`; `sourceRoot` is `meta.sourceRoot`,
and an absent `sourceRoot` or `agent` is the empty string. -/
structure CompactInput where
  sandboxRoot : JsString
  sourceRoot : JsString := []
  lastRun : Option LastRun
  intent : JsString := []
  agent : JsString := []
  config : Config := {}
  compact : CompactConfig := {}

/-- The text of `exit.code` in a template literal. -/
def codeText : Option Int → JsString
  | none => js "null"
  | some code => js (toString code)

/-- The lines `renderCompactContext` pushes for `lastRun.exits`. -/
def failedCommandLines (exits : Option (List Exit)) : List JsString :=
  match exits with
  | none => []
  | some exits =>
    match exits.find? (fun exit => !exit.codeIsZero) with
    | some failed =>
      [js "Failed Command: " ++ js failed.name ++ js " (exit " ++ codeText failed.code ++ js ")"]
    | none => []

/-- The lines `renderCompactContext` pushes for one change. -/
def changeLines (compact : CompactConfig) (change : CompactChange) : List JsString :=
  let line := js "- " ++ change.type ++ js ": " ++ change.path
  match change.diff with
  | some diff =>
    if diff.length != 0 && compact.enabled then
      [line, js "\x60\x60\x60diff", headLines diff (orDefault compact.maxDiffLines 80),
        js "\x60\x60\x60"]
    else [line]
  | none => [line]

/-- The lines `renderCompactContext` pushes for the output of one command. -/
def outputLines (compact : CompactConfig) (ok : Bool) (entry : String × CaptureEntry) :
    List JsString :=
  let stderr := tailLines entry.2.stderr (orDefault compact.maxStderrLines 60)
  let stdout := tailLines entry.2.stdout (orDefault compact.maxStdoutLines 20)
  (if (trim stderr).length != 0 then
      [js "- " ++ js entry.1 ++ js " stderr:", js "\x60\x60\x60", stderr, js "\x60\x60\x60"]
    else []) ++
  (if !ok && (trim stdout).length != 0 then
      [js "- " ++ js entry.1 ++ js " stdout:", js "\x60\x60\x60", stdout, js "\x60\x60\x60"]
    else [])

/-- The text of a boolean in a template literal. -/
def boolText (b : Bool) : JsString :=
  if b then js "true" else js "false"

/-- The lines `renderCompactContext` pushes before it looks at `lastRun`. -/
def titleLines (input : CompactInput) : List JsString :=
  [js "# Livod Compact Context", [], js "Sandbox: " ++ input.sandboxRoot] ++
  (if input.sourceRoot.length != 0 then [js "Source: " ++ input.sourceRoot] else []) ++
  (if input.agent.length != 0 then [js "Agent: " ++ input.agent] else []) ++
  [[]]

/-- The line that starts with `Last Run:`. -/
def lastRunLine (lastRun : LastRun) : JsString :=
  js "Last Run: " ++ (if lastRun.ok then js "ok" else js "failed") ++ js " (" ++
    js (toString lastRun.durationMs) ++ js "ms) @ " ++ lastRun.timestamp

/-- The lines `renderCompactContext` pushes after those for `lastRun.exits`:
the changes, the outputs, the intent notes and the summary of the config. -/
def detailLines (input : CompactInput) (lastRun : LastRun) : List JsString :=
  let names := List.intercalate (js ", ") (input.config.commands.map js)
  [[], js "Changes:"] ++
  (if lastRun.changes.length != 0 then lastRun.changes.flatMap (changeLines input.compact)
    else [js "- none"]) ++
  (match lastRun.outputs with
    | some outputs =>
      [[], js "Outputs:"] ++ outputs.flatMap (outputLines input.compact lastRun.ok)
    | none => []) ++
  (if (trim input.intent).length != 0 then [[], js "Intent Notes:", trim input.intent]
    else []) ++
  [[], js "Config (summary):",
    js "- parallel: " ++ boolText input.config.parallel,
    js "- debounceMs: " ++ js (toString input.config.debounceMs),
    js "- restartOnChange: " ++ boolText input.config.restartOnChange,
    js "- commands: " ++ (if names.length != 0 then names else js "none")]

/-- The array `lines` of `renderCompactContext` when it returns. -/
def renderCompactLines (input : CompactInput) : List JsString :=
  match input.lastRun with
  | none => titleLines input ++ [js "No runs recorded yet."]
  | some lastRun =>
    titleLines input ++ [lastRunLine lastRun] ++ failedCommandLines lastRun.exits ++
      detailLines input lastRun

/-- Source `renderCompactContext`: the lines joined by line feeds. -/
def renderCompactContext (input : CompactInput) : JsString :=
  joinLines (renderCompactLines input)

/-! ## The journal of core/ai.js -/

/-- A value as `JSON.stringify` serializes it: numbers are the integers the
events hold (durations, sizes, exit codes); the members of an object come in
the order `JSON.stringify` visits the keys, those with an `undefined` value
left out. -/
inductive Json where
  | null
  | bool (b : Bool)
  | number (n : Int)
  | string (s : JsString)
  | array (items : List Json)
  | object (members : List (JsString × Json))

/-- The code unit of the lower-case hexadecimal digit `d`. -/
def hexDigit (d : Nat) : Nat :=
  if d < 10 then 48 + d else 87 + d

/-- The escape `\uXXXX` of a code unit. -/
def unicodeEscape (c : Nat) : JsString :=
  [92, 117, hexDigit (c / 4096 % 16), hexDigit (c / 256 % 16), hexDigit (c / 16 % 16),
    hexDigit (c % 16)]

/-- What `QuoteJSONString` writes for a code unit that is not a surrogate. -/
def escapeUnit (c : Nat) : JsString :=
  if c = 8 then [92, 98]
  else if c = 9 then [92, 116]
  else if c = 10 then [92, 110]
  else if c = 12 then [92, 102]
  else if c = 13 then [92, 114]
  else if c = 34 then [92, 34]
  else if c = 92 then [92, 92]
  else if c < 32 then unicodeEscape c
  else [c]

/-- The test for a leading surrogate. -/
def isLeadSurrogate (c : Nat) : Bool :=
  55296 ≤ c && c ≤ 56319

/-- The test for a trailing surrogate. -/
def isTrailSurrogate (c : Nat) : Bool :=
  56320 ≤ c && c ≤ 57343

/-- The inside of the quotes of `QuoteJSONString`: a surrogate pair is kept, a
lone surrogate is written as an escape. -/
def quoteUnits : JsString → JsString
  | [] => []
  | [c] => if isLeadSurrogate c || isTrailSurrogate c then unicodeEscape c else escapeUnit c
  | c :: d :: rest =>
    if isLeadSurrogate c then
      if isTrailSurrogate d then c :: d :: quoteUnits rest
      else unicodeEscape c ++ quoteUnits (d :: rest)
    else if isTrailSurrogate c then unicodeEscape c ++ quoteUnits (d :: rest)
    else escapeUnit c ++ quoteUnits (d :: rest)

/-- The abstract operation `QuoteJSONString`. -/
def quoteJson (s : JsString) : JsString :=
  [34] ++ quoteUnits s ++ [34]

mutual
/-- JavaScript `JSON.stringify(value)` without indentation. -/
def stringify : Json → JsString
  | .null => js "null"
  | .bool b => boolText b
  | .number n => js (toString n)
  | .string s => quoteJson s
  | .array items => [91] ++ List.intercalate [44] (stringifyItems items) ++ [93]
  | .object members => [123] ++ List.intercalate [44] (stringifyMembers members) ++ [125]
/-- The serialized elements of an array. -/
def stringifyItems : List Json → List JsString
  | [] => []
  | item :: rest => stringify item :: stringifyItems rest
/-- The serialized members of an object, each `key:value`. -/
def stringifyMembers : List (JsString × Json) → List JsString
  | [] => []
  | (key, value) :: rest =>
    (quoteJson key ++ [58] ++ stringify value) :: stringifyMembers rest
end

/-- Source `appendJournal`, on the content of the journal file: what the file
holds after `fs.appendFile` has written the serialized event and a line feed. -/
def appendJournal (journal : JsString) (event : Json) : JsString :=
  journal ++ (stringify event ++ [newline])

/-- The event `appendIntent` appends; `agent || null` is `none` for no agent. -/
def intentEvent (timestamp : JsString) (agent : Option JsString) (note : JsString) : Json :=
  .object [(js "type", .string (js "intent")), (js "timestamp", .string timestamp),
    (js "agent", match agent with | some a => .string a | none => .null),
    (js "note", .string note)]

/-- The event `recordApply` appends. -/
def applyEvent (timestamp : JsString) (agent : Option JsString) (targetRoot : JsString) : Json :=
  .object [(js "type", .string (js "apply")), (js "timestamp", .string timestamp),
    (js "agent", match agent with | some a => .string a | none => .null),
    (js "targetRoot", .string targetRoot)]

/-! ## Auxiliary notions for the journal -/

/-- Every code unit of the text is at or above the space: the text holds no
control character, so no line feed and no carriage return. -/
def Printable (text : JsString) : Prop :=
  ∀ u ∈ text, 32 ≤ u

/-! ## Auxiliary notions for the compact context -/

/-- The lines of a text: the pieces between its line feeds. -/
def textLines : JsString → List JsString
  | [] => [[]]
  | c :: rest => if c = newline then [] :: textLines rest else consHead c (textLines rest)

/-- The text starts with the given text. -/
def beginsWith (start text : JsString) : Bool :=
  text.take start.length == start

/-- The lines of a text that start with `Failed Command:`. -/
def failedCommandMarks (text : JsString) : List JsString :=
  (textLines text).filter (beginsWith (js "Failed Command:"))

/-- The text holds no line feed. -/
def OneLine (text : JsString) : Prop :=
  newline ∉ text

instance (text : JsString) : Decidable (OneLine text) :=
  inferInstanceAs (Decidable (newline ∉ text))

/-- What the input of the compact context must be like for the renderer's own
line to be the only one that starts with `Failed Command:`: the strings the
renderer puts inside a line (paths, agent, timestamp, change types, names of
commands) hold no line feed, and no line of a block it copies (the shown part
of a diff, of a captured output, the intent notes) starts with
`Failed Command:`. -/
structure CleanCompact (input : CompactInput) (lastRun : LastRun) : Prop where
  sandboxRoot : OneLine input.sandboxRoot
  sourceRoot : OneLine input.sourceRoot
  agent : OneLine input.agent
  timestamp : OneLine lastRun.timestamp
  commands : ∀ name ∈ input.config.commands, OneLine (js name)
  changes : ∀ change ∈ lastRun.changes, OneLine change.type ∧ OneLine change.path
  diffs : ∀ change ∈ lastRun.changes, ∀ diff, change.diff = some diff →
    failedCommandMarks (headLines diff (orDefault input.compact.maxDiffLines 80)) = []
  outputNames : ∀ outputs, lastRun.outputs = some outputs → ∀ entry ∈ outputs, OneLine (js entry.1)
  stderr : ∀ outputs, lastRun.outputs = some outputs → ∀ entry ∈ outputs,
    failedCommandMarks (tailLines entry.2.stderr (orDefault input.compact.maxStderrLines 60)) = []
  stdout : ∀ outputs, lastRun.outputs = some outputs → ∀ entry ∈ outputs,
    failedCommandMarks (tailLines entry.2.stdout (orDefault input.compact.maxStdoutLines 20)) = []
  intent : failedCommandMarks (trim input.intent) = []

/-! ## The directory walk -/

theorem findEntry_mem {name : String} {es : Entries} {n : Node}
    (h : findEntry name es = some n) : (name, n) ∈ es := by
  induction es with
  | nil => simp [findEntry] at h
  | cons e rest ih =>
    obtain ⟨k, x⟩ := e
    simp only [findEntry] at h
    split at h
    · next hk => simp at h; subst hk; subst h; simp
    · exact List.mem_cons_of_mem _ (ih h)

theorem findEntry_of_mem {name : String} {n : Node} :
    ∀ {es : Entries}, (es.map Prod.fst).Nodup → (name, n) ∈ es → findEntry name es = some n
  | [], _, h => by simp at h
  | (k, x) :: rest, hnd, h => by
    simp only [List.map_cons, List.nodup_cons] at hnd
    simp only [findEntry]
    rcases List.mem_cons.1 h with h | h
    · simp at h; obtain ⟨rfl, rfl⟩ := h; simp
    · have hk : k ≠ name := by
        rintro rfl
        exact hnd.1 (List.mem_map.2 ⟨(k, n), h, rfl⟩)
      simp [hk, findEntry_of_mem hnd.2 h]

mutual
theorem walkNode_sound (ig : Matcher) : ∀ (node : Node) (base rel : RelPath) (n : Node),
    node.WF → (rel, n) ∈ walkNode ig base node →
    ∃ r, r ≠ [] ∧ rel = base ++ r ∧ entryAt node r = some n ∧ visibleFrom ig base r = true
  | .dir es, base, rel, n, hwf, h => by
    simp only [walkNode] at h
    simp only [Node.WF] at hwf
    obtain ⟨name, c, r, hmem, hrel, hent, hvis⟩ := walkEntries_sound ig es base rel n hwf.2 h
    refine ⟨name :: r, by simp, hrel, ?_, hvis⟩
    simp only [entryAt, findEntry_of_mem hwf.1 hmem]
    exact hent
  | .file _, _, _, _, _, h => by simp [walkNode] at h
  | .symlink _ _, _, _, _, _, h => by simp [walkNode] at h
  | .other, _, _, _, _, h => by simp [walkNode] at h
theorem walkEntries_sound (ig : Matcher) : ∀ (es : Entries) (base rel : RelPath) (n : Node),
    EntriesWF es → (rel, n) ∈ walkEntries ig base es →
    ∃ name c r, (name, c) ∈ es ∧ rel = base ++ name :: r ∧ entryAt c r = some n
      ∧ visibleFrom ig base (name :: r) = true
  | [], _, _, _, _, h => by simp [walkEntries] at h
  | (name, c) :: rest, base, rel, n, hwf, h => by
    simp only [EntriesWF] at hwf
    simp only [walkEntries, List.mem_append] at h
    rcases h with h | h
    · split at h
      · simp at h
      · next hig =>
        rcases List.mem_cons.1 h with h | h
        · simp at h
          obtain ⟨rfl, rfl⟩ := h
          exact ⟨name, n, [], by simp, by simp, by simp [entryAt], by simp [visibleFrom, hig]⟩
        · obtain ⟨r, hr, hrel, hent, hvis⟩ := walkNode_sound ig c (base ++ [name]) rel n hwf.1 h
          refine ⟨name, c, r, by simp, by simp [hrel], hent, ?_⟩
          simp [visibleFrom, hig, hvis]
    · obtain ⟨name', c', r, hmem, hrel, hent, hvis⟩ := walkEntries_sound ig rest base rel n hwf.2 h
      exact ⟨name', c', r, List.mem_cons_of_mem _ hmem, hrel, hent, hvis⟩
end


theorem walkEntries_of_find (ig : Matcher) (base : RelPath) {name : String} {c : Node} :
    ∀ {es : Entries}, findEntry name es = some c → ig (base ++ [name]) = false →
      ∀ x, (x = (base ++ [name], c) ∨ x ∈ walkNode ig (base ++ [name]) c) → x ∈ walkEntries ig base es
  | [], h, _, _, _ => by simp [findEntry] at h
  | (k, y) :: rest, h, hig, x, hx => by
    simp only [findEntry] at h
    simp only [walkEntries, List.mem_append]
    split at h
    · next hk =>
      simp at h; subst hk; subst h
      left
      simp only [hig, Bool.false_eq_true, if_false, List.mem_cons]
      exact hx
    · right
      exact walkEntries_of_find ig base h hig x hx

theorem walkNode_complete (ig : Matcher) : ∀ (r : RelPath) (node : Node) (base : RelPath) (n : Node),
    r ≠ [] → entryAt node r = some n → visibleFrom ig base r = true →
    (base ++ r, n) ∈ walkNode ig base node
  | [], _, _, _, h, _, _ => absurd rfl h
  | name :: rest, .dir es, base, n, _, hent, hvis => by
    simp only [entryAt] at hent
    simp only [visibleFrom, Bool.and_eq_true, Bool.not_eq_true'] at hvis
    simp only [walkNode]
    cases hf : findEntry name es with
    | none => simp [hf] at hent
    | some c =>
      simp only [hf] at hent
      apply walkEntries_of_find ig base hf hvis.1
      cases rest with
      | nil =>
        simp only [entryAt, Option.some.injEq] at hent
        subst hent
        left; rfl
      | cons r2 rest2 =>
        right
        have := walkNode_complete ig (r2 :: rest2) c (base ++ [name]) n (by simp) hent hvis.2
        simpa using this
  | _ :: _, .file _, _, _, _, hent, _ => by simp [entryAt] at hent
  | _ :: _, .symlink _ _, _, _, _, hent, _ => by simp [entryAt] at hent
  | _ :: _, .other, _, _, _, hent, _ => by simp [entryAt] at hent

theorem mem_walkDir_iff (ig : Matcher) (root : Node) (hwf : root.WF) (rel : RelPath) (n : Node) :
    (rel, n) ∈ walkDir root ig ↔ rel ≠ [] ∧ entryAt root rel = some n ∧ visibleFrom ig [] rel = true := by
  constructor
  · intro h
    obtain ⟨r, hr, hrel, hent, hvis⟩ := walkNode_sound ig root [] rel n hwf h
    simp at hrel; subst hrel
    exact ⟨hr, hent, hvis⟩
  · rintro ⟨hr, hent, hvis⟩
    simpa using walkNode_complete ig rel root [] n hr hent hvis

/-! ### The JavaScript `Map` built by `listSandboxFiles` -/

theorem mapSet_keys (m : List (RelPath × Node)) (k : RelPath) (v : Node) :
    (mapSet m k v).map Prod.fst = if k ∈ m.map Prod.fst then m.map Prod.fst else m.map Prod.fst ++ [k] := by
  unfold mapSet
  have hany : (m.any (fun e => decide (e.1 = k)) = true) ↔ k ∈ m.map Prod.fst := by
    simp only [List.any_eq_true, decide_eq_true_eq, List.mem_map]
  by_cases h : k ∈ m.map Prod.fst
  · rw [if_pos (hany.2 h), if_pos h]
    rw [List.map_map]
    apply List.map_congr_left
    intro e _
    by_cases hk : e.1 = k <;> simp [hk]
  · rw [if_neg (fun hh => h (hany.1 hh)), if_neg h]
    simp

theorem mapSet_nodup {m : List (RelPath × Node)} (k : RelPath) (v : Node)
    (h : (m.map Prod.fst).Nodup) : ((mapSet m k v).map Prod.fst).Nodup := by
  rw [mapSet_keys]
  split
  · exact h
  · next hk =>
    rw [List.nodup_append]
    refine ⟨h, by simp, ?_⟩
    intro a ha hb
    simp at hb
    subst hb
    exact hk ha

theorem mem_mapSet {m : List (RelPath × Node)} {k : RelPath} {v : Node} (x : RelPath × Node) :
    x ∈ mapSet m k v ↔ x = (k, v) ∨ (x ∈ m ∧ x.1 ≠ k) := by
  unfold mapSet
  have hany : (m.any (fun e => decide (e.1 = k)) = true) ↔ k ∈ m.map Prod.fst := by
    simp only [List.any_eq_true, decide_eq_true_eq, List.mem_map]
  by_cases h : k ∈ m.map Prod.fst
  · rw [if_pos (hany.2 h)]
    simp only [List.mem_map]
    constructor
    · rintro ⟨e, he, rfl⟩
      by_cases hk : e.1 = k
      · left; simp [hk]
      · right; simp [hk, he]
    · rintro (rfl | ⟨hx, hk⟩)
      · obtain ⟨e, he, hek⟩ := List.mem_map.1 h
        exact ⟨e, he, by simp [hek]⟩
      · exact ⟨x, hx, by simp [hk]⟩
  · rw [if_neg (fun hh => h (hany.1 hh))]
    simp only [List.mem_append, List.mem_singleton]
    constructor
    · rintro (hx | rfl)
      · right
        refine ⟨hx, ?_⟩
        rintro rfl
        exact h (List.mem_map.2 ⟨x, hx, rfl⟩)
      · left; rfl
    · rintro (rfl | ⟨hx, _⟩)
      · right; rfl
      · left; exact hx

theorem collectFiles_nodup : ∀ (l init : List (RelPath × Node)),
    (init.map Prod.fst).Nodup → ((collectFiles init l).map Prod.fst).Nodup
  | [], _, h => h
  | e :: rest, init, h => by
    simp only [collectFiles, List.foldl_cons]
    split
    · exact collectFiles_nodup rest init h
    · exact collectFiles_nodup rest _ (mapSet_nodup _ _ h)

theorem mem_collectFiles : ∀ (l init : List (RelPath × Node)),
    (∀ k v w, ((k, v) ∈ init ∨ (k, v) ∈ l) → ((k, w) ∈ init ∨ (k, w) ∈ l) → v = w) →
    ∀ x, x ∈ collectFiles init l ↔ x ∈ init ∨ (x ∈ l ∧ x.2.isDirectory = false)
  | [], _, _, x => by simp [collectFiles]
  | e :: rest, init, hf, x => by
    simp only [collectFiles, List.foldl_cons]
    split
    · next hd =>
      have := mem_collectFiles rest init (fun k v w hv hw => hf k v w
        (hv.imp id (List.mem_cons_of_mem _)) (hw.imp id (List.mem_cons_of_mem _))) x
      simp only [collectFiles] at this
      rw [this]
      constructor
      · rintro (h | ⟨h, hx⟩)
        · exact Or.inl h
        · exact Or.inr ⟨List.mem_cons_of_mem _ h, hx⟩
      · rintro (h | ⟨h, hx⟩)
        · exact Or.inl h
        · rcases List.mem_cons.1 h with rfl | h
          · simp [hd] at hx
          · exact Or.inr ⟨h, hx⟩
    · next hd =>
      have hd' : e.2.isDirectory = false := by simpa using hd
      have hf' : ∀ k v w, ((k, v) ∈ mapSet init e.1 e.2 ∨ (k, v) ∈ rest) →
          ((k, w) ∈ mapSet init e.1 e.2 ∨ (k, w) ∈ rest) → v = w := by
        have key : ∀ k v, ((k, v) ∈ mapSet init e.1 e.2 ∨ (k, v) ∈ rest) →
            ((k, v) ∈ init ∨ (k, v) ∈ e :: rest) := by
          intro k v h
          rcases h with h | h
          · rcases (mem_mapSet _).1 h with h | ⟨h, _⟩
            · right; rw [h]; simp
            · left; exact h
          · right; exact List.mem_cons_of_mem _ h
        intro k v w hv hw
        exact hf k v w (key k v hv) (key k w hw)
      have := mem_collectFiles rest (mapSet init e.1 e.2) hf' x
      simp only [collectFiles] at this
      rw [this, mem_mapSet]
      constructor
      · rintro ((rfl | ⟨h, _⟩) | ⟨h, hx⟩)
        · right; exact ⟨by simp, hd'⟩
        · left; exact h
        · right; exact ⟨List.mem_cons_of_mem _ h, hx⟩
      · rintro (h | ⟨h, hx⟩)
        · by_cases hk : x.1 = e.1
          · left; left
            have := hf x.1 x.2 e.2 (Or.inl h) (Or.inr (by rw [hk]; simp))
            exact Prod.ext hk this
          · left; right; exact ⟨h, hk⟩
        · rcases List.mem_cons.1 h with rfl | h
          · left; left; rfl
          · right; exact ⟨h, hx⟩

/-! ### The full scan as a list comprehension -/

theorem scanResult_path {hashFile : String → String} {files : IndexFiles} {e : RelPath × Node}
    {r : Change × PendingUpdate} (h : scanResult hashFile files e = some r) :
    r.1.path = e.1 ∧ r.2.rel = e.1 := by
  unfold scanResult at h
  split at h
  · simp at h; subst h; exact ⟨rfl, rfl⟩
  · simp at h; subst h; exact ⟨rfl, rfl⟩
  · split at h
    · simp at h; subst h; exact ⟨rfl, rfl⟩
    · simp at h

theorem scanEntry_eq (hashFile : String → String) (files : IndexFiles) (acc : ChangeAcc)
    (e : RelPath × Node) :
    scanEntry hashFile files acc e =
      ⟨acc.changes ++ ((scanResult hashFile files e).map Prod.fst).toList,
       acc.pendingUpdates ++ ((scanResult hashFile files e).map Prod.snd).toList⟩ := by
  unfold scanEntry scanResult
  cases getProp files e.1 with
  | undefined => simp [ChangeAcc.pushUpsert]
  | inherited => simp [ChangeAcc.pushUpsert]
  | own prev =>
    by_cases h : recordDiffers prev (getFileInfo hashFile e.2) = true
    · simp [h, ChangeAcc.pushUpsert]
    · simp [h]

theorem foldl_scanEntry (hashFile : String → String) (files : IndexFiles) :
    ∀ (l : List (RelPath × Node)) (acc : ChangeAcc),
      l.foldl (scanEntry hashFile files) acc =
        ⟨acc.changes ++ l.filterMap (fun e => (scanResult hashFile files e).map Prod.fst),
         acc.pendingUpdates ++ l.filterMap (fun e => (scanResult hashFile files e).map Prod.snd)⟩
  | [], acc => by simp
  | e :: rest, acc => by
    rw [List.foldl_cons, foldl_scanEntry hashFile files rest, scanEntry_eq]
    cases h : scanResult hashFile files e <;> simp [List.filterMap_cons, h]

theorem foldl_scanDeleted (seen : List RelPath) :
    ∀ (keys : List RelPath) (acc : ChangeAcc),
      keys.foldl (scanDeleted seen) acc =
        ⟨acc.changes ++ (keys.filter (fun k => decide (k ∉ seen))).map (fun k => ⟨k, .deleted, none⟩),
         acc.pendingUpdates ++ (keys.filter (fun k => decide (k ∉ seen))).map PendingUpdate.delete⟩
  | [], acc => by simp
  | k :: rest, acc => by
    rw [List.foldl_cons, foldl_scanDeleted seen rest]
    unfold scanDeleted
    by_cases h : k ∈ seen
    · simp [h, List.filter_cons]
    · simp [h, List.filter_cons, ChangeAcc.pushDelete]

theorem computeChanges_fullScan (hashFile : String → String) (config : Config) (sandbox : Node)
    (files : IndexFiles) (hint : Option ChangeHint)
    (hfull : isIncremental hint = false) :
    computeChanges hashFile config sandbox files hint =
      ⟨(listSandboxFiles sandbox (sandboxIgnore config)).filterMap
          (fun e => (scanResult hashFile files e).map Prod.fst)
        ++ ((objectKeys files).filter (fun k => decide
              (k ∉ (listSandboxFiles sandbox (sandboxIgnore config)).map Prod.fst))).map
            (fun k => ⟨k, .deleted, none⟩),
       (listSandboxFiles sandbox (sandboxIgnore config)).filterMap
          (fun e => (scanResult hashFile files e).map Prod.snd)
        ++ ((objectKeys files).filter (fun k => decide
              (k ∉ (listSandboxFiles sandbox (sandboxIgnore config)).map Prod.fst))).map
            PendingUpdate.delete⟩ := by
  unfold computeChanges
  simp only [hfull, Bool.false_eq_true, if_false]
  rw [foldl_scanEntry, foldl_scanDeleted]
  simp only [sandboxIgnore, List.nil_append]

/-! ### Selecting the entries of one path -/

theorem filter_filterMap_path {α : Type} (key : α → RelPath) (g : α → Option Change)
    (hg : ∀ a c, g a = some c → c.path = key a) (p : RelPath) :
    ∀ l : List α, (l.filterMap g).filter (fun c => decide (c.path = p)) =
      (l.filter (fun a => decide (key a = p))).filterMap g
  | [] => by simp
  | a :: rest => by
    have ih := filter_filterMap_path key g hg p rest
    cases h : g a with
    | none =>
      by_cases hk : key a = p
      · simp [List.filterMap_cons, List.filter_cons, h, hk, ih]
      · simp [List.filterMap_cons, List.filter_cons, h, hk, ih]
    | some c =>
      have hc := hg a c h
      by_cases hk : key a = p
      · simp [List.filterMap_cons, List.filter_cons, h, hk, hc, ih]
      · simp [List.filterMap_cons, List.filter_cons, h, hk, hc, ih]

theorem filter_key_of_not_mem {α : Type} (key : α → RelPath) (p : RelPath) (l : List α)
    (h : p ∉ l.map key) : l.filter (fun a => decide (key a = p)) = [] := by
  rw [List.filter_eq_nil_iff]
  intro a ha
  simp only [decide_eq_true_eq]
  rintro rfl
  exact h (List.mem_map.2 ⟨a, ha, rfl⟩)

theorem filter_key_of_mem {α : Type} (key : α → RelPath) (a : α) :
    ∀ l : List α, (l.map key).Nodup → a ∈ l → l.filter (fun x => decide (key x = key a)) = [a]
  | [], _, h => by simp at h
  | b :: rest, hnd, h => by
    simp only [List.map_cons, List.nodup_cons] at hnd
    rcases List.mem_cons.1 h with rfl | h
    · rw [List.filter_cons]
      simp only [decide_True, if_true]
      rw [filter_key_of_not_mem key (key a) rest hnd.1]
    · have hb : key b ≠ key a := by
        intro hb
        exact hnd.1 (hb ▸ List.mem_map.2 ⟨a, h, rfl⟩)
      rw [List.filter_cons]
      simp only [hb, decide_False, Bool.false_eq_true, if_false]
      exact filter_key_of_mem key a rest hnd.2 h

theorem visibleFrom_not_ignored (ig : Matcher) : ∀ (r base : RelPath),
    r ≠ [] → visibleFrom ig base r = true → ig (base ++ r) = false
  | [], _, h, _ => absurd rfl h
  | [name], base, _, hv => by
    simpa [visibleFrom] using hv
  | name :: r2 :: rest, base, _, hv => by
    simp only [visibleFrom, Bool.and_eq_true] at hv
    have := visibleFrom_not_ignored ig (r2 :: rest) (base ++ [name]) (by simp)
      (by simp only [visibleFrom, Bool.and_eq_true]; exact hv.2)
    simpa using this

theorem deref_dir (es : Entries) : deref (.dir es) = some (.dir es) := by
  simp [deref]

theorem entryAt_lstatAt : ∀ (p : RelPath) (node n : Node),
    entryAt node p = some n → lstatAt node p = some n
  | [], _, _, h => by simpa [entryAt, lstatAt] using h
  | name :: rest, .dir es, n, h => by
    simp only [entryAt] at h
    simp only [lstatAt, childOf, deref_dir]
    cases hf : findEntry name es with
    | none => simp [hf] at h
    | some c =>
      simp only [hf] at h ⊢
      exact entryAt_lstatAt rest c n h
  | _ :: _, .file _, _, h => by simp [entryAt] at h
  | _ :: _, .symlink _ _, _, h => by simp [entryAt] at h
  | _ :: _, .other, _, h => by simp [entryAt] at h

theorem hasOwnProperty_iff (files : IndexFiles) (rel : RelPath) :
    hasOwnProperty files rel = true ↔ rel ∈ objectKeys files := by
  unfold hasOwnProperty objectKeys
  induction files with
  | nil => simp [ownProp]
  | cons e rest ih =>
    obtain ⟨k, v⟩ := e
    simp only [ownProp, List.map_cons, List.mem_cons]
    by_cases hk : k = rel
    · simp [hk]
    · simp only [hk, if_false, ih]
      constructor
      · exact Or.inr
      · rintro (h | h)
        · exact absurd h.symm hk
        · exact h

theorem walkDir_functional (ig : Matcher) (root : Node) (hwf : root.WF) (k : RelPath) (v w : Node)
    (hv : (k, v) ∈ walkDir root ig) (hw : (k, w) ∈ walkDir root ig) : v = w := by
  have h1 := ((mem_walkDir_iff ig root hwf k v).1 hv).2.1
  have h2 := ((mem_walkDir_iff ig root hwf k w).1 hw).2.1
  rw [h1] at h2
  exact Option.some.inj h2

theorem mem_listSandboxFiles (ig : Matcher) (root : Node) (hwf : root.WF) (rel : RelPath) (n : Node) :
    (rel, n) ∈ listSandboxFiles root ig ↔
      rel ≠ [] ∧ entryAt root rel = some n ∧ visibleFrom ig [] rel = true ∧ n.isDirectory = false := by
  have h := mem_collectFiles (walkDir root ig) [] (by
    intro k v w hv hw
    simp only [List.not_mem_nil, false_or] at hv hw
    exact walkDir_functional ig root hwf k v w hv hw) (rel, n)
  simp only [collectFiles, List.not_mem_nil, false_or] at h
  unfold listSandboxFiles
  rw [h, mem_walkDir_iff ig root hwf]
  tauto

theorem listSandboxFiles_nodup (ig : Matcher) (root : Node) :
    ((listSandboxFiles root ig).map Prod.fst).Nodup :=
  collectFiles_nodup (walkDir root ig) [] (by simp)

theorem ownProp_isSome_iff (files : IndexFiles) (rel : RelPath) :
    (ownProp files rel).isSome = true ↔ rel ∈ objectKeys files :=
  hasOwnProperty_iff files rel

/-- Incremental and full scan agree on one path (see the statement of C3). -/
theorem incremental_eq_full_at (hashFile : String → String) (config : Config)
    (sandbox : Node) (files : IndexFiles) (p : RelPath)
    (hwf : sandbox.WF) (hkeys : (objectKeys files).Nodup) (hp : p ≠ [])
    (hvis : visibleFrom (sandboxIgnore config) [] p = true)
    (hproto : isPrototypeKey p = false)
    (hstate : match entryAt sandbox p with
      | some n => n.isDirectory = false ∧ (deref n).isSome = true
      | none => statAt sandbox p = none) :
    (computeChanges hashFile config sandbox files (some ⟨[p], false⟩)).changes =
      (computeChanges hashFile config sandbox files none).changes.filter
        (fun c => decide (c.path = p)) := by
  have hig : sandboxIgnore config p = false := by
    simpa using visibleFrom_not_ignored (sandboxIgnore config) p [] hp hvis
  rw [computeChanges_fullScan hashFile config sandbox files none rfl]
  have hinc : computeChanges hashFile config sandbox files (some ⟨[p], false⟩) =
      processChangePath hashFile sandbox files ⟨[], []⟩ p := by
    unfold computeChanges
    simp only [isIncremental, Bool.not_false, if_true, Option.map_some', Option.getD_some,
      List.foldl_cons, List.foldl_nil]
    have : makeSandboxIgnore (makeIgnoreMatcher config.ignore) p = false := hig
    simp [this]
  rw [hinc]
  simp only [List.filter_append]
  rw [filter_filterMap_path Prod.fst (fun e => (scanResult hashFile files e).map Prod.fst)
    (by
      intro a c h
      simp only [Option.map_eq_some'] at h
      obtain ⟨r, hr, rfl⟩ := h
      exact (scanResult_path hr).1) p]
  have hdel : ∀ l : List RelPath, (l.map (fun k => (⟨k, .deleted, none⟩ : Change))).filter
      (fun c => decide (c.path = p)) =
      (l.filter (fun k => decide (k = p))).map (fun k => ⟨k, .deleted, none⟩) := by
    intro l
    induction l with
    | nil => simp
    | cons k rest ih =>
      by_cases hk : k = p <;> simp [List.filter_cons, hk, ih]
  rw [hdel, List.filter_filter]
  cases hent : entryAt sandbox p with
  | some n =>
    simp only [hent] at hstate
    have hmem : (p, n) ∈ listSandboxFiles sandbox (sandboxIgnore config) :=
      (mem_listSandboxFiles _ _ hwf p n).2 ⟨hp, hent, hvis, hstate.1⟩
    have hfil := filter_key_of_mem Prod.fst (p, n) _ (listSandboxFiles_nodup (sandboxIgnore config) sandbox) hmem
    simp only at hfil
    rw [hfil]
    have hseen : p ∈ (listSandboxFiles sandbox (sandboxIgnore config)).map Prod.fst :=
      List.mem_map.2 ⟨(p, n), hmem, rfl⟩
    have hnone : (objectKeys files).filter (fun a => decide (a = p) &&
        decide (a ∉ (listSandboxFiles sandbox (sandboxIgnore config)).map Prod.fst)) = [] := by
      rw [List.filter_eq_nil_iff]
      intro a _
      by_cases ha : a = p
      · subst ha; simp [hseen]
      · simp [ha]
    rw [hnone]
    have hl := entryAt_lstatAt p sandbox n hent
    have hex : pathExists sandbox p = true := by
      simp [pathExists, statAt, hl, hstate.2]
    unfold processChangePath
    simp only [hex, hl, Bool.not_true, Bool.false_and, Bool.false_eq_true, if_false,
      List.filterMap_cons, List.filterMap_nil, List.map_nil, List.append_nil]
    unfold scanResult getProp hasOwnProperty
    cases hown : ownProp files p with
    | none => simp [hproto, ChangeAcc.pushUpsert]
    | some prev =>
      by_cases hd : recordDiffers prev (getFileInfo hashFile n) = true
      · simp [hd, ChangeAcc.pushUpsert]
      · simp [hd]
  | none =>
    simp only [hent] at hstate
    have hseen : p ∉ (listSandboxFiles sandbox (sandboxIgnore config)).map Prod.fst := by
      intro h
      obtain ⟨⟨k, n⟩, hmem, hk⟩ := List.mem_map.1 h
      simp only at hk
      subst hk
      have := ((mem_listSandboxFiles _ _ hwf k n).1 hmem).2.1
      rw [hent] at this
      exact Option.noConfusion this
    rw [filter_key_of_not_mem Prod.fst p _ hseen]
    have hex : pathExists sandbox p = false := by
      simp [pathExists, hstate]
    unfold processChangePath
    simp only [hex, Bool.not_false, Bool.true_and, List.filterMap_nil, List.nil_append]
    by_cases hown : hasOwnProperty files p = true
    · have hk : p ∈ objectKeys files := (hasOwnProperty_iff files p).1 hown
      have hfil : (objectKeys files).filter (fun a => decide (a = p) &&
          decide (a ∉ (listSandboxFiles sandbox (sandboxIgnore config)).map Prod.fst)) = [p] := by
        have h1 := filter_key_of_mem (fun k : RelPath => k) p (objectKeys files)
          (by simpa using hkeys) hk
        rw [← h1]
        apply List.filter_congr
        intro a _
        by_cases ha : a = p
        · subst ha; simp [hseen]
        · simp [ha]
      rw [hfil]
      simp [hown, ChangeAcc.pushDelete]
    · have hk : p ∉ objectKeys files := fun h => hown ((hasOwnProperty_iff files p).2 h)
      have hfil : (objectKeys files).filter (fun a => decide (a = p) &&
          decide (a ∉ (listSandboxFiles sandbox (sandboxIgnore config)).map Prod.fst)) = [] := by
        rw [List.filter_eq_nil_iff]
        intro a ha
        by_cases hap : a = p
        · subst hap; exact absurd ha hk
        · simp [hap]
      rw [hfil]
      simp [hown]

theorem AllPaths_pushUpsert {Q : RelPath → Prop} {acc : ChangeAcc} (h : acc.AllPaths Q)
    (rel : RelPath) (t : ChangeType) (info : FileInfo) (hq : Q rel) :
    (acc.pushUpsert rel t info).AllPaths Q := by
  constructor
  · intro c hc
    simp only [ChangeAcc.pushUpsert, List.mem_append, List.mem_singleton] at hc
    rcases hc with hc | rfl
    · exact h.1 c hc
    · exact hq
  · intro u hu
    simp only [ChangeAcc.pushUpsert, List.mem_append, List.mem_singleton] at hu
    rcases hu with hu | rfl
    · exact h.2 u hu
    · exact hq

theorem AllPaths_pushDelete {Q : RelPath → Prop} {acc : ChangeAcc} (h : acc.AllPaths Q)
    (rel : RelPath) (hq : Q rel) : (acc.pushDelete rel).AllPaths Q := by
  constructor
  · intro c hc
    simp only [ChangeAcc.pushDelete, List.mem_append, List.mem_singleton] at hc
    rcases hc with hc | rfl
    · exact h.1 c hc
    · exact hq
  · intro u hu
    simp only [ChangeAcc.pushDelete, List.mem_append, List.mem_singleton] at hu
    rcases hu with hu | rfl
    · exact h.2 u hu
    · exact hq

theorem processChangePath_known (hashFile : String → String) (sandbox : Node) (files : IndexFiles)
    (acc : ChangeAcc) (rel : RelPath) (h : acc.AllPaths (KnownPath sandbox files)) :
    (processChangePath hashFile sandbox files acc rel).AllPaths (KnownPath sandbox files) := by
  unfold processChangePath
  simp only
  split
  · exact h
  · split
    · next _ h2 =>
      simp only [Bool.and_eq_true] at h2
      exact AllPaths_pushDelete h rel (Or.inr h2.2)
    · cases hl : lstatAt sandbox rel with
      | none => exact h
      | some node =>
        have hq : KnownPath sandbox files rel := Or.inl (by simp [hl])
        simp only
        split
        · exact AllPaths_pushUpsert h _ _ _ hq
        · split
          · split
            · exact AllPaths_pushUpsert h _ _ _ hq
            · exact h
          · exact AllPaths_pushUpsert h _ _ _ hq

theorem foldl_processChangePath_known (hashFile : String → String) (ig : Matcher) (sandbox : Node)
    (files : IndexFiles) : ∀ (paths : List RelPath) (acc : ChangeAcc),
    acc.AllPaths (KnownPath sandbox files) →
    (paths.foldl (fun acc rel => if ig rel then acc
        else processChangePath hashFile sandbox files acc rel) acc).AllPaths (KnownPath sandbox files)
  | [], _, h => h
  | rel :: rest, acc, h => by
    rw [List.foldl_cons]
    apply foldl_processChangePath_known hashFile ig sandbox files rest
    split
    · exact h
    · exact processChangePath_known hashFile sandbox files acc rel h

theorem computeChanges_known (hashFile : String → String) (config : Config) (sandbox : Node)
    (files : IndexFiles) (changeHint : Option ChangeHint) (hwf : sandbox.WF) :
    (computeChanges hashFile config sandbox files changeHint).AllPaths (KnownPath sandbox files) := by
  by_cases hfull : isIncremental changeHint = false
  · rw [computeChanges_fullScan hashFile config sandbox files changeHint hfull]
    have hseen : ∀ e ∈ listSandboxFiles sandbox (sandboxIgnore config), KnownPath sandbox files e.1 := by
      rintro ⟨rel, n⟩ he
      have := ((mem_listSandboxFiles _ _ hwf rel n).1 he).2.1
      exact Or.inl (by simp [entryAt_lstatAt rel sandbox n this])
    have hkey : ∀ k ∈ objectKeys files, KnownPath sandbox files k :=
      fun k hk => Or.inr ((hasOwnProperty_iff files k).2 hk)
    constructor
    · intro c hc
      simp only [List.mem_append, List.mem_filterMap, List.mem_map, List.mem_filter,
        Option.map_eq_some'] at hc
      rcases hc with ⟨e, he, r, hr, rfl⟩ | ⟨k, ⟨hk, _⟩, rfl⟩
      · rw [(scanResult_path hr).1]; exact hseen e he
      · exact hkey k hk
    · intro u hu
      simp only [List.mem_append, List.mem_filterMap, List.mem_map, List.mem_filter,
        Option.map_eq_some'] at hu
      rcases hu with ⟨e, he, r, hr, rfl⟩ | ⟨k, ⟨hk, _⟩, rfl⟩
      · rw [(scanResult_path hr).2]; exact hseen e he
      · exact hkey k hk
  · unfold computeChanges
    have hinc : isIncremental changeHint = true := by
      simpa using hfull
    simp only [hinc, if_true]
    exact foldl_processChangePath_known hashFile _ sandbox files _ _
      ⟨fun _ h => absurd h (List.not_mem_nil _), fun _ h => absurd h (List.not_mem_nil _)⟩

/-- Where `fs.access` succeeds, `fs.lstat` succeeds. -/
theorem lstatAt_of_pathExists (root : Node) (rel : RelPath) (h : pathExists root rel = true) :
    (lstatAt root rel).isSome = true := by
  unfold pathExists statAt at h
  cases hl : lstatAt root rel with
  | none => simp [hl] at h
  | some n => rfl

/-! ## The run scheduler -/

theorem RunnerInv_init (ai : Bool) : RunnerInv ai Runner.init := by
  simp [RunnerInv, Runner.init, doneRuns]

theorem startRun_inv (config : Config) (ai : Bool) (s : Runner)
    (hact : s.active = []) (hlog : s.log = doneRuns ai s.runCount) :
    RunnerInv ai (startRun config s) := by
  unfold startRun RunnerInv
  simp only [hact, List.nil_append]
  refine ⟨trivial, s.runCount, rfl, rfl, ?_, ?_⟩
  · rw [hlog]
    cases config.parallel
    · cases config.commands.length <;> simp [stageLog]
    · simp [stageLog]
  · cases config.parallel
    · cases config.commands.length <;> simp
    · simp


theorem finishRun_inv (config : Config) (ai : Bool) (s : Runner) (r : ActiveRun)
    (hact : s.active = [r]) (hlog : s.log = doneRuns ai s.runCount) :
    RunnerInv ai (finishRun config s 0) := by
  unfold finishRun
  simp only [hact, List.eraseIdx_cons_zero]
  split
  · exact startRun_inv config ai _ rfl hlog
  · simp [RunnerInv, hlog]

theorem RunnerInv_congr (ai : Bool) (s t : Runner) (h1 : t.running = s.running)
    (h2 : t.runCount = s.runCount) (h3 : t.active = s.active) (h4 : t.log = s.log)
    (h : RunnerInv ai s) : RunnerInv ai t := by
  unfold RunnerInv at h ⊢
  rw [h3, h1, h2, h4]
  exact h

theorem requestRun_inv (config : Config) (ai : Bool) (s : Runner) (h : RunnerInv ai s) :
    RunnerInv ai (requestRun config s) := by
  unfold requestRun
  by_cases hr : s.running = true
  · rw [if_pos hr]
    simp only
    split
    · unfold stopCurrentRun
      split
      · exact RunnerInv_congr ai s _ rfl rfl rfl rfl h
      · exact RunnerInv_congr ai s _ rfl rfl rfl rfl h
    · exact RunnerInv_congr ai s _ rfl rfl rfl rfl h
  · simp only [hr, Bool.false_eq_true, if_false]
    have hr' : s.running = false := by simpa using hr
    unfold RunnerInv at h
    cases hact : s.active with
    | nil =>
      rw [hact] at h
      simp only [hr', true_and, Bool.false_eq_true, false_and, or_false] at h
      exact startRun_inv config ai s hact h
    | cons r rest =>
      cases rest with
      | nil =>
        rw [hact] at h
        simp [hr'] at h
      | cons r2 rest2 =>
        rw [hact] at h
        exact h.elim

theorem resolveAwait_inv (config : Config) (ai : Bool) (s : Runner) (i : Nat) (ok : Bool)
    (h : RunnerInv ai s) : RunnerInv ai (resolveAwait config ai s i ok) := by
  unfold resolveAwait
  cases hact : s.active with
  | nil => simpa using h
  | cons r rest =>
    cases rest with
    | cons r2 rest2 =>
      unfold RunnerInv at h
      rw [hact] at h
      exact h.elim
    | nil =>
      cases i with
      | succ j => simpa using h
      | zero =>
        have h' := h
        unfold RunnerInv at h'
        rw [hact] at h'
        obtain ⟨hrun, k, hk, hid, hlog, hai⟩ := h'
        obtain ⟨rid, ra⟩ := r
        simp only at hid
        subst hid
        simp only [List.get?_cons_zero]
        cases ra with
        | exits left =>
          have base : ∀ a : Await, (a = .writeStatus ∨ ∃ n, a = .exits n) → ∀ c : Nat,
              RunnerInv ai { setAwait s 0 ⟨k + 1, .exits left⟩ a with currentChildren := c } := by
            intro a ha c
            unfold RunnerInv setAwait
            simp only [hact, List.set_cons_zero]
            refine ⟨hrun, k, hk, rfl, ?_, ?_⟩
            · rw [hlog]
              rcases ha with rfl | ⟨n, rfl⟩ <;> simp [stageLog]
            · rcases ha with rfl | ⟨n, rfl⟩ <;> simp
          simp only
          split
          · simpa using base .writeStatus (Or.inl rfl) s.currentChildren
          · cases left with
            | zero => simpa using base .writeStatus (Or.inl rfl) s.currentChildren
            | succ n =>
              simp only
              split
              · exact base (.exits n) (Or.inr ⟨n, rfl⟩) 1
              · simpa using base .writeStatus (Or.inl rfl) s.currentChildren
        | writeStatus =>
          simp only
          cases ai with
          | true =>
            simp only [if_true]
            unfold RunnerInv setAwait
            simp only [hact, List.set_cons_zero]
            refine ⟨hrun, k, hk, rfl, ?_, by simp⟩
            rw [hlog]
            simp [stageLog]
          | false =>
            simp only [Bool.false_eq_true, if_false]
            apply finishRun_inv config false _ ⟨k + 1, .writeStatus⟩ rfl
            simp only [hlog, hk, doneRuns, fullRun, stageLog]
            simp
        | recordRun =>
          have hai' : ai = true := hai (Or.inl rfl)
          subst hai'
          simp only
          unfold RunnerInv setAwait
          simp only [hact, List.set_cons_zero]
          refine ⟨hrun, k, hk, rfl, ?_, by simp⟩
          rw [hlog]
          simp [stageLog]
        | ollamaAuto =>
          have hai' : ai = true := hai (Or.inr rfl)
          subst hai'
          simp only
          apply finishRun_inv config true _ ⟨k + 1, .ollamaAuto⟩ hact
          simp only [hlog, hk, doneRuns, fullRun, stageLog]
          simp

theorem rejectAwait_inv (config : Config) (ai : Bool) (s : Runner) (i : Nat)
    (h : RunnerInv ai s) : RunnerInv ai (rejectAwait config s i) := by
  unfold rejectAwait
  cases hact : s.active with
  | nil => simpa using h
  | cons r rest =>
    cases rest with
    | cons r2 rest2 =>
      unfold RunnerInv at h
      rw [hact] at h
      exact h.elim
    | nil =>
      cases i with
      | succ j => simpa using h
      | zero =>
        have h' := h
        unfold RunnerInv at h'
        rw [hact] at h'
        obtain ⟨hrun, k, hk, hid, hlog, hai⟩ := h'
        obtain ⟨rid, ra⟩ := r
        simp only at hid
        subst hid
        simp only [List.get?_cons_zero]
        cases ra with
        | exits left => exact h
        | writeStatus =>
          simp only
          unfold RunnerInv
          simp only [hact, List.eraseIdx_cons_zero]
          refine Or.inr ⟨hrun, k, [.started (k + 1)], [.statusWritten (k + 1)] ++
            (if ai then [.recorded (k + 1)] else []), hk, by rw [hlog]; simp [stageLog], by simp [fullRun]⟩
        | recordRun =>
          have hai' : ai = true := hai (Or.inl rfl)
          subst hai'
          simp only
          unfold RunnerInv
          simp only [hact, List.eraseIdx_cons_zero]
          refine Or.inr ⟨hrun, k, [.started (k + 1), .statusWritten (k + 1)], [.recorded (k + 1)],
            hk, by rw [hlog]; simp [stageLog], by simp [fullRun]⟩
        | ollamaAuto =>
          have hai' : ai = true := hai (Or.inr rfl)
          subst hai'
          simp only
          apply finishRun_inv config true _ ⟨k + 1, .ollamaAuto⟩ hact
          simp only [hlog, hk, doneRuns, fullRun, stageLog]
          simp

theorem step_inv (config : Config) (ai : Bool) (s : Runner) (a : Action) (h : RunnerInv ai s) :
    RunnerInv ai (step config ai s a) := by
  cases a with
  | requestRun => exact requestRun_inv config ai s h
  | stopCurrentRun =>
    simp only [step, stopCurrentRun]
    split
    · exact h
    · exact RunnerInv_congr ai s _ rfl rfl rfl rfl h
  | resolve i ok => exact resolveAwait_inv config ai s i ok h
  | reject i => exact rejectAwait_inv config ai s i h

theorem foldl_step_inv (config : Config) (ai : Bool) : ∀ (actions : List Action) (s : Runner),
    RunnerInv ai s → RunnerInv ai (actions.foldl (step config ai) s)
  | [], _, h => h
  | a :: rest, s, h => foldl_step_inv config ai rest _ (step_inv config ai s a h)

theorem runActions_inv (config : Config) (ai : Bool) (actions : List Action) :
    RunnerInv ai (runActions config ai actions) :=
  foldl_step_inv config ai actions _ (RunnerInv_init ai)

theorem finishRun_finished (config : Config) (s t : Runner) (r : ActiveRun)
    (hact : t.active = [r]) (hp : t.pending = s.pending) (hc : t.runCount = s.runCount) :
    FinishedFrom s (finishRun config t 0) := by
  unfold FinishedFrom finishRun
  simp only [hact, List.eraseIdx_cons_zero, hp]
  cases hpend : s.pending
  · simp [hc]
  · simp only [if_true]
    unfold startRun
    simp [hc]

theorem resolveAwait_progress (config : Config) (ai : Bool) (s : Runner) (r : ActiveRun) (ok : Bool)
    (hact : s.active = [r]) :
    (∃ a, (resolveAwait config ai s 0 ok).active = [⟨r.runId, a⟩] ∧ awaitsLeft a < awaitsLeft r.await ∧
      (resolveAwait config ai s 0 ok).pending = s.pending ∧
      (resolveAwait config ai s 0 ok).runCount = s.runCount) ∨
    FinishedFrom s (resolveAwait config ai s 0 ok) := by
  unfold resolveAwait
  obtain ⟨rid, ra⟩ := r
  simp only [hact, List.get?_cons_zero]
  cases ra with
  | exits left =>
    left
    simp only
    split
    · exact ⟨.writeStatus, by simp [setAwait, hact], by simp [awaitsLeft], rfl, rfl⟩
    · cases left with
      | zero => exact ⟨.writeStatus, by simp [setAwait, hact], by simp [awaitsLeft], rfl, rfl⟩
      | succ n =>
        simp only
        split
        · exact ⟨.exits n, by simp [setAwait, hact], by simp [awaitsLeft], rfl, rfl⟩
        · exact ⟨.writeStatus, by simp [setAwait, hact], by simp [awaitsLeft], rfl, rfl⟩
  | writeStatus =>
    simp only
    cases ai with
    | true =>
      left
      exact ⟨.recordRun, by simp [setAwait, hact], by simp [awaitsLeft], rfl, rfl⟩
    | false =>
      right
      simp only [Bool.false_eq_true, if_false]
      exact finishRun_finished config s _ ⟨rid, .writeStatus⟩ rfl rfl rfl
  | recordRun =>
    left
    exact ⟨.ollamaAuto, by simp [setAwait, hact], by simp [awaitsLeft], rfl, rfl⟩
  | ollamaAuto =>
    right
    exact finishRun_finished config s s ⟨rid, .ollamaAuto⟩ hact rfl rfl

theorem resolveUntilDone_finished (config : Config) (ai : Bool) :
    ∀ (fuel : Nat) (oks : List Bool) (s : Runner) (r : ActiveRun),
      s.active = [r] → r.runId = s.runCount → awaitsLeft r.await ≤ fuel →
      FinishedFrom s (resolveUntilDone config ai fuel oks s)
  | 0, _, _, r, _, _, hfuel => by
    cases hr : r.await <;> simp [hr, awaitsLeft] at hfuel
  | fuel + 1, oks, s, r, hact, hid, hfuel => by
    unfold resolveUntilDone
    simp only [hact, List.head?_cons]
    have hprog := resolveAwait_progress config ai s r (oks.headD true) hact
    generalize resolveAwait config ai s 0 (oks.headD true) = s1 at hprog ⊢
    rcases hprog with ⟨a, ha, hlt, hp, hc⟩ | hfin
    · simp only [ha, List.head?_cons, Option.map_some', if_true]
      have ih := resolveUntilDone_finished config ai fuel oks.tail s1 ⟨r.runId, a⟩ ha
        (by rw [hc]; exact hid) (by simp only; omega)
      unfold FinishedFrom at ih ⊢
      rw [hp, hc] at ih
      exact ih
    · have hne : s1.active.head?.map ActiveRun.runId ≠ some r.runId := by
        have h4 := hfin.2.2.2
        cases hpend : s.pending
        · simp only [hpend, Bool.false_eq_true, if_false] at h4
          simp [h4]
        · simp only [hpend, if_true] at h4
          obtain ⟨a, h4⟩ := h4
          simp [h4, hid]
      simp only [hne, if_false]
      exact hfin

theorem completeRun_finished (config : Config) (ai : Bool) (oks : List Bool) (s : Runner)
    (r : ActiveRun) (hact : s.active = [r]) (hid : r.runId = s.runCount) :
    FinishedFrom s (completeRun config ai oks s) := by
  unfold completeRun
  simp only [hact, List.head?_cons]
  exact resolveUntilDone_finished config ai _ oks s r hact hid (Nat.le_refl _)

theorem foldl_requestRun_running (config : Config) (ai : Bool) :
    ∀ (n : Nat) (s : Runner), s.running = true →
      let s' := (List.replicate n Action.requestRun).foldl (step config ai) s
      s'.running = true ∧ s'.runCount = s.runCount ∧ s'.active = s.active ∧ s'.log = s.log ∧
        (0 < n → s'.pending = true) ∧ (n = 0 → s'.pending = s.pending)
  | 0, s, h => by simp [h]
  | n + 1, s, h => by
    simp only [List.replicate_succ, List.foldl_cons]
    have h1 : (step config ai s .requestRun).running = true ∧
        (step config ai s .requestRun).runCount = s.runCount ∧
        (step config ai s .requestRun).active = s.active ∧
        (step config ai s .requestRun).log = s.log ∧
        (step config ai s .requestRun).pending = true := by
      simp only [step, requestRun, h, if_true]
      split
      · unfold stopCurrentRun
        split <;> simp [h]
      · simp [h]
    have ih := foldl_requestRun_running config ai n _ h1.1
    simp only at ih
    obtain ⟨i1, i2, i3, i4, i5, i6⟩ := ih
    refine ⟨i1, by rw [i2, h1.2.1], by rw [i3, h1.2.2.1], by rw [i4, h1.2.2.2.1], fun _ => ?_, by omega⟩
    cases n with
    | zero => rw [i6 rfl]; exact h1.2.2.2.2
    | succ m => exact i5 (Nat.succ_pos m)

/-! ## Writes to a tree -/

theorem findEntry_setEntry_same (name : String) (c : Node) :
    ∀ es : Entries, findEntry name (setEntry name c es) = some c
  | [] => by simp [setEntry, findEntry]
  | (n, x) :: rest => by
    by_cases h : n = name
    · simp [setEntry, findEntry, h]
    · simp [setEntry, findEntry, h, findEntry_setEntry_same name c rest]

theorem findEntry_setEntry_ne {name other : String} (c : Node) (h : other ≠ name) :
    ∀ es : Entries, findEntry other (setEntry name c es) = findEntry other es
  | [] => by simp [setEntry, findEntry, Ne.symm h]
  | (n, x) :: rest => by
    by_cases hn : n = name
    · subst hn
      simp [setEntry, findEntry, Ne.symm h]
    · by_cases ho : n = other
      · subst ho
        simp [setEntry, findEntry, hn]
      · simp [setEntry, findEntry, hn, ho, findEntry_setEntry_ne c h rest]

theorem findEntry_removeEntry_same (name : String) :
    ∀ es : Entries, findEntry name (removeEntry name es) = none
  | [] => by simp [removeEntry, findEntry]
  | (n, x) :: rest => by
    by_cases h : n = name
    · simp [removeEntry, h, findEntry_removeEntry_same name rest]
    · simp [removeEntry, findEntry, h, findEntry_removeEntry_same name rest]

theorem findEntry_removeEntry_ne {name other : String} (h : other ≠ name) :
    ∀ es : Entries, findEntry other (removeEntry name es) = findEntry other es
  | [] => by simp [removeEntry, findEntry]
  | (n, x) :: rest => by
    by_cases hn : n = name
    · subst hn
      simp [removeEntry, findEntry, Ne.symm h, findEntry_removeEntry_ne h rest]
    · by_cases ho : n = other
      · subst ho
        simp [removeEntry, findEntry, hn]
      · simp [removeEntry, findEntry, hn, ho, findEntry_removeEntry_ne h rest]

theorem findEntry_append_none {name : String} (c : Node) :
    ∀ es : Entries, findEntry name es = none → findEntry name (es ++ [(name, c)]) = some c
  | [], _ => by simp [findEntry]
  | (n, x) :: rest, h => by
    simp only [findEntry] at h
    split at h
    · simp at h
    · next hn => simp [findEntry, hn, findEntry_append_none c rest h]

theorem findEntry_append_ne {name other : String} (c : Node) (h : other ≠ name) :
    ∀ es : Entries, findEntry other (es ++ [(name, c)]) = findEntry other es
  | [] => by simp [findEntry, Ne.symm h]
  | (n, x) :: rest => by
    by_cases ho : n = other
    · simp [findEntry, ho]
    · simp [findEntry, ho, findEntry_append_ne c h rest]

theorem leads_refl : ∀ r : RelPath, leads r r = true
  | [] => rfl
  | a :: r => by simp [leads, leads_refl r]

theorem leads_nil (q : RelPath) : leads q [] = true ↔ q = [] := by
  cases q <;> simp [leads]

theorem entryAt_mkdirChain : ∀ (r q : RelPath) (n : Node),
    entryAt (mkdirChain r) q = some n → leads q r = true ∧ n.isDirectory = true
  | r, [], n, h => by
    simp only [entryAt, Option.some.injEq] at h
    subst h
    cases r <;> simp [leads, mkdirChain, Node.isDirectory]
  | [], a :: q, n, h => by
    simp [mkdirChain, entryAt, findEntry] at h
  | b :: r, a :: q, n, h => by
    simp only [mkdirChain, entryAt, findEntry] at h
    by_cases hab : b = a
    · subst hab
      simp only [if_true] at h
      have := entryAt_mkdirChain r q n h
      simp [leads, this]
    · simp [hab] at h

theorem mkdirChain_at_leading : ∀ (r q : RelPath), leads q r = true →
    ∃ es, entryAt (mkdirChain r) q = some (.dir es)
  | r, [], _ => by
    cases r <;> simp [entryAt, mkdirChain]
  | [], a :: q, h => by simp [leads] at h
  | b :: r, a :: q, h => by
    simp only [leads, Bool.and_eq_true, decide_eq_true_eq] at h
    obtain ⟨rfl, h⟩ := h
    simp only [mkdirChain, entryAt, findEntry, if_true]
    exact mkdirChain_at_leading r q h

/-- Outside the created path `mkdirAt` changes nothing. -/
theorem mkdirAt_frame : ∀ (r : RelPath) (t t2 : Node), mkdirAt t r = .ok t2 →
    ∀ q, leads q r = false → entryAt t2 q = entryAt t q
  | [], t, t2, h, q, hq => by
    cases t <;> simp [mkdirAt] at h
    subst h; rfl
  | name :: rest, .dir es, t2, h, q, hq => by
    cases q with
    | nil => simp [leads] at hq
    | cons a q' =>
      simp only [mkdirAt] at h
      cases hf : findEntry name es with
      | none =>
        simp only [hf, Except.ok.injEq] at h
        subst h
        simp only [entryAt]
        by_cases ha : a = name
        · subst ha
          rw [findEntry_append_none _ es hf, hf]
          simp only
          cases hq' : entryAt (mkdirChain rest) q' with
          | none => rfl
          | some n =>
            have := (entryAt_mkdirChain rest q' n hq').1
            simp [leads, this] at hq
        · rw [findEntry_append_ne _ ha]
      | some c =>
        simp only [hf] at h
        cases hc : mkdirAt c rest with
        | error e => simp [hc] at h
        | ok c' =>
          simp only [hc, Except.ok.injEq] at h
          subst h
          simp only [entryAt]
          by_cases ha : a = name
          · subst ha
            rw [findEntry_setEntry_same, hf]
            simp only
            apply mkdirAt_frame rest c c' hc q'
            simpa [leads] using hq
          · rw [findEntry_setEntry_ne _ ha]
  | _ :: _, .file _, _, h, _, _ => by simp [mkdirAt] at h
  | _ :: _, .symlink _ _, _, h, _, _ => by simp [mkdirAt] at h
  | _ :: _, .other, _, h, _, _ => by simp [mkdirAt] at h

/-- Along the created path `mkdirAt` leaves directories. -/
theorem mkdirAt_dirs : ∀ (r : RelPath) (t t2 : Node), mkdirAt t r = .ok t2 →
    ∀ q, leads q r = true → ∃ es, entryAt t2 q = some (.dir es)
  | [], t, t2, h, q, hq => by
    cases t <;> simp [mkdirAt] at h
    subst h
    rw [(leads_nil q).1 hq]
    exact ⟨_, rfl⟩
  | name :: rest, .dir es, t2, h, q, hq => by
    simp only [mkdirAt] at h
    cases hf : findEntry name es with
    | none =>
      simp only [hf, Except.ok.injEq] at h
      subst h
      cases q with
      | nil => exact ⟨_, rfl⟩
      | cons a q' =>
        simp only [leads, Bool.and_eq_true, decide_eq_true_eq] at hq
        obtain ⟨rfl, hq⟩ := hq
        simp only [entryAt, findEntry_append_none _ es hf]
        exact mkdirChain_at_leading rest q' hq
    | some c =>
      simp only [hf] at h
      cases hc : mkdirAt c rest with
      | error e => simp [hc] at h
      | ok c' =>
        simp only [hc, Except.ok.injEq] at h
        subst h
        cases q with
        | nil => exact ⟨_, rfl⟩
        | cons a q' =>
          simp only [leads, Bool.and_eq_true, decide_eq_true_eq] at hq
          obtain ⟨rfl, hq⟩ := hq
          simp only [entryAt, findEntry_setEntry_same]
          exact mkdirAt_dirs rest c c' hc q' hq
  | _ :: _, .file _, _, h, _, _ => by simp [mkdirAt] at h
  | _ :: _, .symlink _ _, _, h, _, _ => by simp [mkdirAt] at h
  | _ :: _, .other, _, h, _, _ => by simp [mkdirAt] at h

/-- The call `mkdirAt` succeeds when every position along the path is free or
a directory. -/
theorem mkdirAt_ok : ∀ (r : RelPath) (t : Node),
    (∀ q, leads q r = true → entryAt t q = none ∨ ∃ es, entryAt t q = some (.dir es)) →
    ∃ t2, mkdirAt t r = .ok t2
  | [], t, h => by
    rcases h [] rfl with h | ⟨es, h⟩
    · simp [entryAt] at h
    · simp only [entryAt, Option.some.injEq] at h
      subst h
      exact ⟨_, rfl⟩
  | name :: rest, t, h => by
    rcases h [] rfl with h0 | ⟨es, h0⟩
    · simp [entryAt] at h0
    · simp only [entryAt, Option.some.injEq] at h0
      subst h0
      simp only [mkdirAt]
      cases hf : findEntry name es with
      | none => exact ⟨_, rfl⟩
      | some c =>
        simp only
        have := mkdirAt_ok rest c (by
          intro q hq
          have := h (name :: q) (by simp [leads, hq])
          simpa [entryAt, hf] using this)
        obtain ⟨c', hc⟩ := this
        rw [hc]
        exact ⟨_, rfl⟩


theorem leads_iff : ∀ (q r : RelPath), leads q r = true ↔ ∃ s, r = q ++ s
  | [], r => by simp [leads]
  | a :: q, [] => by simp [leads]
  | a :: q, b :: r => by
    simp only [leads, Bool.and_eq_true, decide_eq_true_eq, leads_iff q r, List.cons_append,
      List.cons.injEq]
    constructor
    · rintro ⟨rfl, s, rfl⟩; exact ⟨s, rfl, rfl⟩
    · rintro ⟨s, rfl, rfl⟩; exact ⟨rfl, s, rfl⟩

theorem entryAt_append : ∀ (r q : RelPath) (t : Node),
    entryAt t (r ++ q) = (entryAt t r).bind (fun n => entryAt n q)
  | [], q, t => by simp [entryAt]
  | name :: rest, q, .dir es => by
    simp only [List.cons_append, entryAt]
    cases findEntry name es with
    | none => rfl
    | some c => exact entryAt_append rest q c
  | _ :: _, _, .file _ => by simp [entryAt]
  | _ :: _, _, .symlink _ _ => by simp [entryAt]
  | _ :: _, _, .other => by simp [entryAt]

/-- A position above an existing entry holds a directory. -/
theorem entryAt_above_is_dir : ∀ (q s : RelPath) (t n : Node), s ≠ [] →
    entryAt t (q ++ s) = some n → ∃ es, entryAt t q = some (.dir es)
  | [], s, t, n, hs, h => by
    cases s with
    | nil => exact absurd rfl hs
    | cons a s' =>
      cases t <;> simp [entryAt] at h ⊢
  | name :: rest, s, .dir es, n, hs, h => by
    simp only [List.cons_append, entryAt] at h ⊢
    cases hf : findEntry name es with
    | none => simp [hf] at h
    | some c =>
      simp only [hf] at h ⊢
      exact entryAt_above_is_dir rest s c n hs h
  | _ :: _, _, .file _, _, _, h => by simp [entryAt] at h
  | _ :: _, _, .symlink _ _, _, _, h => by simp [entryAt] at h
  | _ :: _, _, .other, _, _, h => by simp [entryAt] at h

/-- Away from the rewritten path `alterAt` changes nothing. -/
theorem alterAt_frame (f : Option Node → Except FsError (Option Node)) :
    ∀ (r : RelPath) (t t2 : Node), alterAt f t r = .ok t2 →
    ∀ q, leads q r = false → leads r q = false → entryAt t2 q = entryAt t q
  | [], _, _, h, _, _, _ => by simp [alterAt] at h
  | [name], .dir es, t2, h, q, hq, hr => by
    cases q with
    | nil => simp [leads] at hq
    | cons a q' =>
      have ha : a ≠ name := by
        rintro rfl
        simp [leads] at hr
      simp only [alterAt] at h
      cases hf : f (findEntry name es) with
      | error e => simp [hf] at h
      | ok new =>
        cases new with
        | none =>
          simp only [hf, Except.ok.injEq] at h
          subst h
          simp only [entryAt, findEntry_removeEntry_ne ha]
        | some c =>
          simp only [hf, Except.ok.injEq] at h
          subst h
          simp only [entryAt, findEntry_setEntry_ne _ ha]
  | name :: r2 :: rest, .dir es, t2, h, q, hq, hr => by
    cases q with
    | nil => simp [leads] at hq
    | cons a q' =>
      simp only [alterAt] at h
      cases hf : findEntry name es with
      | none => simp [hf] at h
      | some c =>
        simp only [hf] at h
        cases hc : alterAt f c (r2 :: rest) with
        | error e => simp [hc] at h
        | ok c' =>
          simp only [hc, Except.ok.injEq] at h
          subst h
          simp only [entryAt]
          by_cases ha : a = name
          · subst ha
            rw [findEntry_setEntry_same, hf]
            simp only
            apply alterAt_frame f (r2 :: rest) c c' hc q'
            · simpa [leads] using hq
            · simpa [leads] using hr
          · rw [findEntry_setEntry_ne _ ha]
  | [_], .file _, _, h, _, _, _ => by simp [alterAt] at h
  | [_], .symlink _ _, _, h, _, _, _ => by simp [alterAt] at h
  | [_], .other, _, h, _, _, _ => by simp [alterAt] at h
  | _ :: _ :: _, .file _, _, h, _, _, _ => by simp [alterAt] at h
  | _ :: _ :: _, .symlink _ _, _, h, _, _, _ => by simp [alterAt] at h
  | _ :: _ :: _, .other, _, h, _, _, _ => by simp [alterAt] at h

/-- Above the rewritten path `alterAt` leaves directories. -/
theorem alterAt_dirs (f : Option Node → Except FsError (Option Node)) :
    ∀ (r : RelPath) (t t2 : Node), alterAt f t r = .ok t2 →
    ∀ q, leads q r = true → q ≠ r → ∃ es, entryAt t2 q = some (.dir es)
  | [], _, _, h, _, _, _ => by simp [alterAt] at h
  | [name], .dir es, t2, h, q, hq, hne => by
    have hq0 : q = [] := by
      cases q with
      | nil => rfl
      | cons a q' =>
        simp only [leads, Bool.and_eq_true, decide_eq_true_eq, leads_nil] at hq
        obtain ⟨rfl, rfl⟩ := hq
        exact absurd rfl hne
    subst hq0
    simp only [alterAt] at h
    cases hf : f (findEntry name es) with
    | error e => simp [hf] at h
    | ok new =>
      cases new with
      | none =>
        simp only [hf, Except.ok.injEq] at h
        subst h
        exact ⟨_, rfl⟩
      | some c =>
        simp only [hf, Except.ok.injEq] at h
        subst h
        exact ⟨_, rfl⟩
  | name :: r2 :: rest, .dir es, t2, h, q, hq, hne => by
    simp only [alterAt] at h
    cases hf : findEntry name es with
    | none => simp [hf] at h
    | some c =>
      simp only [hf] at h
      cases hc : alterAt f c (r2 :: rest) with
      | error e => simp [hc] at h
      | ok c' =>
        simp only [hc, Except.ok.injEq] at h
        subst h
        cases q with
        | nil => exact ⟨_, rfl⟩
        | cons a q' =>
          simp only [leads, Bool.and_eq_true, decide_eq_true_eq] at hq
          obtain ⟨rfl, hq⟩ := hq
          simp only [entryAt, findEntry_setEntry_same]
          exact alterAt_dirs f (r2 :: rest) c c' hc q' hq (by
            intro h; exact hne (by rw [h]))
  | [_], .file _, _, h, _, _, _ => by simp [alterAt] at h
  | [_], .symlink _ _, _, h, _, _, _ => by simp [alterAt] at h
  | [_], .other, _, h, _, _, _ => by simp [alterAt] at h
  | _ :: _ :: _, .file _, _, h, _, _, _ => by simp [alterAt] at h
  | _ :: _ :: _, .symlink _ _, _, h, _, _, _ => by simp [alterAt] at h
  | _ :: _ :: _, .other, _, h, _, _, _ => by simp [alterAt] at h

/-- At the rewritten path `alterAt` puts what `f` answers for the old entry. -/
theorem alterAt_at (f : Option Node → Except FsError (Option Node)) :
    ∀ (r : RelPath) (t t2 : Node), alterAt f t r = .ok t2 →
    ∃ new, f (entryAt t r) = .ok new ∧ entryAt t2 r = new
  | [], _, _, h => by simp [alterAt] at h
  | [name], .dir es, t2, h => by
    have hent : entryAt (.dir es) [name] = findEntry name es := by
      simp only [entryAt]
      cases findEntry name es <;> rfl
    simp only [alterAt] at h
    rw [hent]
    cases hf : f (findEntry name es) with
    | error e => simp [hf] at h
    | ok new =>
      cases new with
      | none =>
        simp only [hf, Except.ok.injEq] at h
        subst h
        exact ⟨none, rfl, by simp [entryAt, findEntry_removeEntry_same]⟩
      | some c =>
        simp only [hf, Except.ok.injEq] at h
        subst h
        exact ⟨some c, rfl, by simp [entryAt, findEntry_setEntry_same]⟩
  | name :: r2 :: rest, .dir es, t2, h => by
    simp only [alterAt] at h
    cases hf : findEntry name es with
    | none => simp [hf] at h
    | some c =>
      simp only [hf] at h
      cases hc : alterAt f c (r2 :: rest) with
      | error e => simp [hc] at h
      | ok c' =>
        simp only [hc, Except.ok.injEq] at h
        subst h
        obtain ⟨new, h1, h2⟩ := alterAt_at f (r2 :: rest) c c' hc
        refine ⟨new, ?_, ?_⟩
        · simpa [entryAt, hf] using h1
        · simpa [entryAt, findEntry_setEntry_same] using h2
  | [_], .file _, _, h => by simp [alterAt] at h
  | [_], .symlink _ _, _, h => by simp [alterAt] at h
  | [_], .other, _, h => by simp [alterAt] at h
  | _ :: _ :: _, .file _, _, h => by simp [alterAt] at h
  | _ :: _ :: _, .symlink _ _, _, h => by simp [alterAt] at h
  | _ :: _ :: _, .other, _, h => by simp [alterAt] at h

/-- The call `alterAt` goes through when the parent is a directory and `f`
accepts the old entry. -/
theorem alterAt_ok (f : Option Node → Except FsError (Option Node)) :
    ∀ (r : RelPath) (t : Node), r ≠ [] →
    (∃ es, entryAt t r.dropLast = some (.dir es)) →
    (∃ new, f (entryAt t r) = .ok new) → ∃ t2, alterAt f t r = .ok t2
  | [], _, h, _, _ => absurd rfl h
  | [name], t, _, hd, hf => by
    obtain ⟨es, hd⟩ := hd
    simp only [List.dropLast_single, entryAt, Option.some.injEq] at hd
    subst hd
    have hent : entryAt (.dir es) [name] = findEntry name es := by
      simp only [entryAt]
      cases findEntry name es <;> rfl
    rw [hent] at hf
    obtain ⟨new, hf⟩ := hf
    simp only [alterAt, hf]
    cases new <;> exact ⟨_, rfl⟩
  | name :: r2 :: rest, t, _, hd, hf => by
    obtain ⟨es', hd⟩ := hd
    have hdrop : (name :: r2 :: rest).dropLast = name :: (r2 :: rest).dropLast := by
      simp [List.dropLast]
    rw [hdrop] at hd
    cases t with
    | dir es =>
      simp only [entryAt] at hd hf
      simp only [alterAt]
      cases hfe : findEntry name es with
      | none => simp [hfe] at hd
      | some c =>
        simp only [hfe] at hd hf ⊢
        obtain ⟨c', hc⟩ := alterAt_ok f (r2 :: rest) c (by simp) ⟨es', hd⟩ hf
        rw [hc]
        exact ⟨_, rfl⟩
    | file _ => simp [entryAt] at hd
    | symlink _ _ => simp [entryAt] at hd
    | other => simp [entryAt] at hd

/-! ## One step of the sandbox-to-target copy -/

theorem leads_dropLast : ∀ r : RelPath, leads r.dropLast r = true
  | [] => rfl
  | [a] => by simp [leads]
  | a :: b :: r => by
    have := leads_dropLast (b :: r)
    simp [List.dropLast, leads, this]

theorem not_leads_dropLast : ∀ r : RelPath, r ≠ [] → leads r r.dropLast = false
  | [], h => absurd rfl h
  | [a], _ => by simp [leads]
  | a :: b :: r, _ => by
    have := not_leads_dropLast (b :: r) (by simp)
    simp [List.dropLast, leads, this]

theorem leads_trans : ∀ (a b c : RelPath), leads a b = true → leads b c = true → leads a c = true
  | [], _, _, _, _ => by simp [leads]
  | x :: a, [], _, h, _ => by simp [leads] at h
  | x :: a, y :: b, [], _, h => by simp [leads] at h
  | x :: a, y :: b, z :: c, h1, h2 => by
    simp only [leads, Bool.and_eq_true, decide_eq_true_eq] at h1 h2 ⊢
    exact ⟨h1.1.trans h2.1, leads_trans a b c h1.2 h2.2⟩

theorem leads_antisymm : ∀ (a b : RelPath), leads a b = true → leads b a = true → a = b
  | [], [], _, _ => rfl
  | [], y :: b, _, h => by simp [leads] at h
  | x :: a, [], h, _ => by simp [leads] at h
  | x :: a, y :: b, h1, h2 => by
    simp only [leads, Bool.and_eq_true, decide_eq_true_eq] at h1 h2
    rw [h1.1, leads_antisymm a b h1.2 h2.2]

theorem leads_dropLast_of_ne : ∀ (q r : RelPath), leads q r = true → q ≠ r →
    leads q r.dropLast = true
  | [], _, _, _ => by simp [leads]
  | x :: q, [], h, _ => by simp [leads] at h
  | x :: q, [y], h, hne => by
    simp only [leads, Bool.and_eq_true, decide_eq_true_eq, leads_nil] at h
    obtain ⟨rfl, rfl⟩ := h
    exact absurd rfl hne
  | x :: q, y :: z :: r, h, hne => by
    simp only [leads, Bool.and_eq_true, decide_eq_true_eq] at h
    obtain ⟨rfl, h⟩ := h
    have := leads_dropLast_of_ne q (z :: r) h (by intro hq; exact hne (by rw [hq]))
    simp [List.dropLast, leads, this]

theorem dropLast_ne : ∀ r : RelPath, r ≠ [] → r.dropLast ≠ r := by
  intro r hr h
  have := not_leads_dropLast r hr
  rw [h, leads_refl] at this
  exact Bool.noConfusion this

theorem rmRf_eq_of_ok {t t2 : Node} {r : RelPath}
    (h : alterAt (fun _ => .ok none) t r = .ok t2) : rmRf t r = .ok t2 := by
  unfold rmRf
  rw [h]

theorem rmRf_ok_cases {t t2 : Node} {r : RelPath} (h : rmRf t r = .ok t2) :
    alterAt (fun _ => .ok none) t r = .ok t2 ∨
      (alterAt (fun _ => .ok none) t r = .error .ENOENT ∧ t2 = t) := by
  unfold rmRf at h
  cases ha : alterAt (fun _ => .ok none) t r with
  | ok t' =>
    rw [ha] at h
    simp only at h
    left; exact h
  | error e =>
    rw [ha] at h
    cases e <;> simp at h
    right; exact ⟨rfl, h.symm⟩

/-- A successful step of `syncEntryPlain`, spelled out by the kind of the entry. -/
theorem syncEntryPlain_ok (src t t2 : Node) (r : RelPath) (n : Node)
    (h : syncEntryPlain src ⟨t, none⟩ (r, n) = ⟨t2, none⟩) :
    match n with
    | .dir _ => mkdirAt t r = .ok t2
    | .file _ => ∃ t1, mkdirAt t r.dropLast = .ok t1 ∧ copyFile src r t1 r = .ok t2
    | .symlink linkTarget _ => ∃ t1 t1', mkdirAt t r.dropLast = .ok t1 ∧ rmRf t1 r = .ok t1' ∧
        symlinkAt linkTarget t1' r = .ok t2
    | .other => t2 = t := by
  cases n with
  | dir es =>
    simp only [syncEntryPlain, FsResult.step] at h ⊢
    cases he : mkdirAt t r with
    | ok t' => simp only [he, FsResult.mk.injEq, and_true] at h; rw [h]
    | error e => simp [he] at h
  | file c =>
    simp only [syncEntryPlain, FsResult.step] at h ⊢
    cases he : mkdirAt t r.dropLast with
    | error e => simp [he] at h
    | ok t1 =>
      simp only [he] at h
      cases hc : copyFile src r t1 r with
      | error e => simp [hc] at h
      | ok t' =>
        simp only [hc, FsResult.mk.injEq, and_true] at h
        exact ⟨t1, rfl, by rw [← h, hc]⟩
  | symlink tgt fl =>
    simp only [syncEntryPlain, FsResult.step] at h ⊢
    cases he : mkdirAt t r.dropLast with
    | error e => simp [he] at h
    | ok t1 =>
      simp only [he] at h
      cases hr : rmRf t1 r with
      | error e => simp [hr] at h
      | ok t1' =>
        simp only [hr] at h
        cases hs : symlinkAt tgt t1' r with
        | error e => simp [hs] at h
        | ok t' =>
          simp only [hs, FsResult.mk.injEq, and_true] at h
          exact ⟨t1, t1', rfl, hr, by rw [← h, hs]⟩
  | other =>
    simp only [syncEntryPlain, FsResult.mk.injEq, and_true] at h ⊢
    exact h.symm

theorem not_leads_dropLast_of_not_leads {q r : RelPath} (h : leads q r = false) :
    leads q r.dropLast = false := by
  cases hq : leads q r.dropLast with
  | false => rfl
  | true =>
    have := leads_trans q r.dropLast r hq (leads_dropLast r)
    rw [h] at this
    exact Bool.noConfusion this

theorem writeFileAt_new {content : String} {old : Option Node} {new : Option Node}
    (h : (match old with
      | none => Except.ok (some (Node.file content))
      | some (.file _) => .ok (some (.file content))
      | some (.dir _) => .error FsError.EISDIR
      | some (.symlink _ _) => .error .unresolvedLink
      | some .other => .error .ENOTSUP) = Except.ok new) : new = some (.file content) := by
  cases old with
  | none => simp at h; exact h.symm
  | some o =>
    cases o <;> simp at h
    exact h.symm

/-- What a successful step of `syncEntryPlain` does to the target. -/
theorem syncEntryPlain_effect (src t t2 : Node) (r : RelPath) (n : Node) (hr : r ≠ [])
    (hstat : ∀ c, n = .file c → statAt src r = some (.file c))
    (h : syncEntryPlain src ⟨t, none⟩ (r, n) = ⟨t2, none⟩) :
    Holds t2 (r, n) ∧
    (∀ q, leads q r = false → leads r q = false → entryAt t2 q = entryAt t q) ∧
    (∀ q, leads q r = true → q ≠ r → n ≠ .other → ∃ es, entryAt t2 q = some (.dir es)) ∧
    (∀ q, n.isDirectory = true → leads q r = false → entryAt t2 q = entryAt t q) := by
  have hok := syncEntryPlain_ok src t t2 r n h
  cases n with
  | dir es =>
    simp only at hok
    refine ⟨?_, ?_, ?_, ?_⟩
    · exact mkdirAt_dirs r t t2 hok r (leads_refl r)
    · intro q hq _
      exact mkdirAt_frame r t t2 hok q hq
    · intro q hq _ _
      exact mkdirAt_dirs r t t2 hok q hq
    · intro q _ hq
      exact mkdirAt_frame r t t2 hok q hq
  | file c =>
    simp only at hok
    obtain ⟨t1, h1, h2⟩ := hok
    unfold copyFile at h2
    rw [hstat c rfl] at h2
    simp only [writeFileAt] at h2
    refine ⟨?_, ?_, ?_, ?_⟩
    · obtain ⟨new, hf, hat⟩ := alterAt_at _ r t1 t2 h2
      have := writeFileAt_new hf
      simp only [Holds]
      rw [hat, this]
    · intro q hq hrq
      rw [alterAt_frame _ r t1 t2 h2 q hq hrq]
      exact mkdirAt_frame _ t t1 h1 q (not_leads_dropLast_of_not_leads hq)
    · intro q hq hne _
      exact alterAt_dirs _ r t1 t2 h2 q hq hne
    · intro q hd _
      simp [Node.isDirectory] at hd
  | symlink tgt fl =>
    simp only at hok
    obtain ⟨t1, t1', h1, h2, h3⟩ := hok
    have hparent : ∃ es, entryAt t1 r.dropLast = some (.dir es) :=
      mkdirAt_dirs _ t t1 h1 _ (leads_refl _)
    obtain ⟨t1'', hrm⟩ := alterAt_ok (fun _ => .ok none) r t1 hr hparent ⟨none, rfl⟩
    have h2' : alterAt (fun _ => .ok none) t1 r = .ok t1' := by
      rw [rmRf_eq_of_ok hrm] at h2
      simp only [Except.ok.injEq] at h2
      rw [← h2]
      exact hrm
    simp only [symlinkAt] at h3
    refine ⟨?_, ?_, ?_, ?_⟩
    · obtain ⟨new, hf, hat⟩ := alterAt_at _ r t1' t2 h3
      obtain ⟨old, -, hold⟩ := alterAt_at _ r t1 t1' h2'
      simp only [Holds]
      rw [hat]
      cases hent : entryAt t1' r with
      | none =>
        rw [hent] at hf
        simp only [Except.ok.injEq] at hf
        exact hf.symm
      | some o =>
        obtain ⟨old, hold1, hold2⟩ := alterAt_at (fun _ => Except.ok none) r t1 t1' h2'
        simp only [Except.ok.injEq] at hold1
        rw [← hold1, hent] at hold2
        exact Option.noConfusion hold2
    · intro q hq hrq
      rw [alterAt_frame _ r t1' t2 h3 q hq hrq, alterAt_frame _ r t1 t1' h2' q hq hrq]
      exact mkdirAt_frame _ t t1 h1 q (not_leads_dropLast_of_not_leads hq)
    · intro q hq hne _
      exact alterAt_dirs _ r t1' t2 h3 q hq hne
    · intro q hd _
      simp [Node.isDirectory] at hd
  | other =>
    simp only at hok
    subst hok
    refine ⟨trivial, fun _ _ _ => rfl, ?_, fun _ _ _ => rfl⟩
    intro q _ _ hne
    exact absurd rfl hne

/-! ## The whole copy -/

theorem visibleFrom_append (ig : Matcher) : ∀ (q s base : RelPath),
    visibleFrom ig base (q ++ s) = true → visibleFrom ig base q = true
  | [], _, _, _ => rfl
  | a :: q, s, base, h => by
    simp only [List.cons_append, visibleFrom, Bool.and_eq_true] at h ⊢
    exact ⟨h.1, visibleFrom_append ig q s _ h.2⟩

theorem walkDir_treeLike (ig : Matcher) (src : Node) (hwf : src.WF) :
    TreeLike src (walkDir src ig) where
  nonempty := by
    rintro ⟨r, n⟩ he
    exact ((mem_walkDir_iff ig src hwf r n).1 he).1
  functional := fun r n n' h h' => walkDir_functional ig src hwf r n n' h h'
  above := by
    intro r n q he hq hne hq0
    obtain ⟨-, hent, hvis⟩ := (mem_walkDir_iff ig src hwf r n).1 he
    obtain ⟨s, rfl⟩ := (leads_iff q r).1 hq
    have hs : s ≠ [] := by
      rintro rfl
      exact hne (by simp)
    obtain ⟨es, hq'⟩ := entryAt_above_is_dir q s src n hs hent
    exact ⟨es, (mem_walkDir_iff ig src hwf q (.dir es)).2
      ⟨hq0, hq', visibleFrom_append ig q s [] hvis⟩⟩
  stat := by
    intro r c he
    obtain ⟨-, hent, -⟩ := (mem_walkDir_iff ig src hwf r (.file c)).1 he
    simp [statAt, entryAt_lstatAt r src _ hent, deref]

theorem Holds_congr {t t2 : Node} {e : RelPath × Node} (h : entryAt t2 e.1 = entryAt t e.1)
    (hh : Holds t e) : Holds t2 e := by
  unfold Holds at hh ⊢
  rw [h]
  exact hh

theorem Fits_congr {t t2 : Node} {e : RelPath × Node} (h : entryAt t2 e.1 = entryAt t e.1)
    (hh : Fits t e) : Fits t2 e := by
  unfold Fits at hh ⊢
  rw [h]
  exact hh

theorem Holds_fits {t : Node} {e : RelPath × Node} (h : Holds t e) : Fits t e := by
  obtain ⟨r, n⟩ := e
  cases n with
  | dir es => exact Or.inr h
  | file c => exact Or.inr ⟨c, h⟩
  | symlink _ _ => trivial
  | other => trivial

/-- A successful step leaves every walked entry as it was, or in place. -/
theorem syncEntryPlain_preserves (src : Node) (W : List (RelPath × Node)) (hW : TreeLike src W)
    (t t2 : Node) (e e' : RelPath × Node) (he : e ∈ W) (he' : e' ∈ W)
    (h : syncEntryPlain src ⟨t, none⟩ e = ⟨t2, none⟩) :
    entryAt t2 e'.1 = entryAt t e'.1 ∨ Holds t2 e' := by
  obtain ⟨r, n⟩ := e
  obtain ⟨r', n'⟩ := e'
  have hr : r ≠ [] := hW.nonempty _ he
  have hr' : r' ≠ [] := hW.nonempty _ he'
  by_cases hother : n = .other
  · subst hother
    have := syncEntryPlain_ok src t t2 r .other h
    simp only at this
    subst this
    exact Or.inl rfl
  obtain ⟨h1, h2, h3, h4⟩ := syncEntryPlain_effect src t t2 r n hr
    (fun c hc => hW.stat r c (hc ▸ he)) h
  cases hl : leads r' r with
  | true =>
    by_cases heq : r' = r
    · subst heq
      have := hW.functional r' n n' he he'
      subst this
      exact Or.inr h1
    · obtain ⟨es, hd⟩ := hW.above r n r' he hl heq hr'
      have := hW.functional r' n' (.dir es) he' hd
      subst this
      exact Or.inr (h3 r' hl heq hother)
  | false =>
    cases hl' : leads r r' with
    | true =>
      have hne : r ≠ r' := by
        rintro rfl
        rw [leads_refl] at hl
        exact Bool.noConfusion hl
      obtain ⟨es, hd⟩ := hW.above r' n' r he' hl' hne hr
      have := hW.functional r n (.dir es) he hd
      subst this
      exact Or.inl (h4 r' rfl hl)
    | false => exact Or.inl (h2 r' hl hl')

theorem foldl_syncEntryPlain_error (src : Node) : ∀ (l : List (RelPath × Node)) (t : Node) (e : FsError),
    l.foldl (syncEntryPlain src) ⟨t, some e⟩ = ⟨t, some e⟩
  | [], _, _ => rfl
  | x :: rest, t, e => by
    have : syncEntryPlain src ⟨t, some e⟩ x = ⟨t, some e⟩ := by
      obtain ⟨r, n⟩ := x
      cases n <;> simp [syncEntryPlain, FsResult.step]
    rw [List.foldl_cons, this]
    exact foldl_syncEntryPlain_error src rest t e

/-- After a copy that went through, every walked entry is in place. -/
theorem foldl_syncEntryPlain_holds (src : Node) (W : List (RelPath × Node)) (hW : TreeLike src W) :
    ∀ (l : List (RelPath × Node)) (t : Node), (∀ e ∈ l, e ∈ W) →
      (l.foldl (syncEntryPlain src) ⟨t, none⟩).error = none →
      ∀ e' ∈ W, (Holds t e' ∨ e' ∈ l) → Holds (l.foldl (syncEntryPlain src) ⟨t, none⟩).fs e'
  | [], t, _, _, e', _, h => by
    rcases h with h | h
    · exact h
    · simp at h
  | e :: rest, t, hl, herr, e', he', h => by
    rw [List.foldl_cons] at herr ⊢
    cases hs : syncEntryPlain src ⟨t, none⟩ e with
    | mk t2 err =>
      cases err with
      | some x =>
        rw [hs, foldl_syncEntryPlain_error] at herr
        simp at herr
      | none =>
        rw [hs] at herr
        apply foldl_syncEntryPlain_holds src W hW rest t2 (fun x hx => hl x (List.mem_cons_of_mem _ hx))
          herr e' he'
        have he : e ∈ W := hl e (List.mem_cons_self _ _)
        rcases h with h | h
        · rcases syncEntryPlain_preserves src W hW t t2 e e' he he' hs with hp | hp
          · exact Or.inl (Holds_congr hp h)
          · exact Or.inl hp
        · rcases List.mem_cons.1 h with rfl | h
          · left
            obtain ⟨r, n⟩ := e'
            exact (syncEntryPlain_effect src t t2 r n (hW.nonempty _ he)
              (fun c hc => hW.stat r c (hc ▸ he)) hs).1
          · exact Or.inr h

/-- A step goes through when the target has nothing of another kind in the
place of the entry and of the directories above it. -/
theorem syncEntryPlain_progress (src t : Node) (r : RelPath) (n : Node) (hr : r ≠ [])
    (habove : ∀ q, leads q r = true → q ≠ r →
      entryAt t q = none ∨ ∃ es, entryAt t q = some (.dir es))
    (hfit : Fits t (r, n))
    (hstat : ∀ c, n = .file c → statAt src r = some (.file c)) :
    ∃ t2, syncEntryPlain src ⟨t, none⟩ (r, n) = ⟨t2, none⟩ := by
  have hparent : ∃ t1, mkdirAt t r.dropLast = .ok t1 := by
    apply mkdirAt_ok
    intro q hq
    exact habove q (leads_trans _ _ _ hq (leads_dropLast r)) (by
      rintro rfl
      rw [not_leads_dropLast q hr] at hq
      exact Bool.noConfusion hq)
  cases n with
  | dir es =>
    have : ∃ t2, mkdirAt t r = .ok t2 := by
      apply mkdirAt_ok
      intro q hq
      by_cases hqr : q = r
      · subst hqr; exact hfit
      · exact habove q hq hqr
    obtain ⟨t2, h2⟩ := this
    exact ⟨t2, by simp [syncEntryPlain, FsResult.step, h2]⟩
  | file c =>
    obtain ⟨t1, h1⟩ := hparent
    have hent : entryAt t1 r = entryAt t r :=
      mkdirAt_frame _ t t1 h1 r (not_leads_dropLast r hr)
    have : ∃ t2, writeFileAt c t1 r = .ok t2 := by
      apply alterAt_ok _ r t1 hr (mkdirAt_dirs _ t t1 h1 _ (leads_refl _))
      rw [hent]
      rcases hfit with hf | ⟨c', hf⟩
      · simp only [hf]; exact ⟨_, rfl⟩
      · simp only [hf]; exact ⟨_, rfl⟩
    obtain ⟨t2, h2⟩ := this
    refine ⟨t2, ?_⟩
    simp [syncEntryPlain, FsResult.step, h1, copyFile, hstat c rfl, h2]
  | symlink tgt fl =>
    obtain ⟨t1, h1⟩ := hparent
    obtain ⟨t1', h2⟩ := alterAt_ok (fun _ => .ok none) r t1 hr
      (mkdirAt_dirs _ t t1 h1 _ (leads_refl _)) ⟨none, rfl⟩
    have hnone : entryAt t1' r = none := by
      obtain ⟨new, hf, hat⟩ := alterAt_at _ r t1 t1' h2
      simp only [Except.ok.injEq] at hf
      rw [hat, ← hf]
    have : ∃ t2, symlinkAt tgt t1' r = .ok t2 := by
      apply alterAt_ok _ r t1' hr
        (alterAt_dirs _ r t1 t1' h2 _ (leads_dropLast r) (dropLast_ne r hr))
      rw [hnone]
      exact ⟨_, rfl⟩
    obtain ⟨t2, h3⟩ := this
    refine ⟨t2, ?_⟩
    simp [syncEntryPlain, FsResult.step, h1, rmRf_eq_of_ok h2, h3]
  | other => exact ⟨t, rfl⟩

/-- The copy goes through when the target has nothing of another kind in the
place of a walked entry. -/
theorem foldl_syncEntryPlain_ok (src : Node) (W : List (RelPath × Node)) (hW : TreeLike src W) :
    ∀ (l : List (RelPath × Node)) (t : Node), (∀ e ∈ l, e ∈ W) →
      (∃ es, t = .dir es) → (∀ e ∈ W, Fits t e) →
      (l.foldl (syncEntryPlain src) ⟨t, none⟩).error = none
  | [], _, _, _, _ => rfl
  | e :: rest, t, hl, hroot, hfits => by
    have he : e ∈ W := hl e (List.mem_cons_self _ _)
    obtain ⟨r, n⟩ := e
    have hr : r ≠ [] := hW.nonempty _ he
    have habove : ∀ q, leads q r = true → q ≠ r →
        entryAt t q = none ∨ ∃ es, entryAt t q = some (.dir es) := by
      intro q hq hne
      by_cases hq0 : q = []
      · subst hq0
        obtain ⟨es, rfl⟩ := hroot
        exact Or.inr ⟨es, rfl⟩
      · obtain ⟨es, hd⟩ := hW.above r n q he hq hne hq0
        exact hfits _ hd
    obtain ⟨t2, h2⟩ := syncEntryPlain_progress src t r n hr habove (hfits _ he)
      (fun c hc => hW.stat r c (hc ▸ he))
    rw [List.foldl_cons, h2]
    apply foldl_syncEntryPlain_ok src W hW rest t2 (fun x hx => hl x (List.mem_cons_of_mem _ hx))
    · by_cases hother : n = .other
      · subst hother
        have := syncEntryPlain_ok src t t2 r .other h2
        simp only at this
        rw [this]
        exact hroot
      · obtain ⟨es, hes⟩ := (syncEntryPlain_effect src t t2 r n hr
          (fun c hc => hW.stat r c (hc ▸ he)) h2).2.2.1 [] rfl (Ne.symm hr) hother
        simp only [entryAt, Option.some.injEq] at hes
        exact ⟨es, hes⟩
    · intro e' he'
      rcases syncEntryPlain_preserves src W hW t t2 (r, n) e' he he' h2 with hp | hp
      · exact Fits_congr hp (hfits e' he')
      · exact Holds_fits hp

/-! ## Pruning the target -/

theorem findEntry_pruneEntries (ig : Matcher) (seen : List RelPath) (base : RelPath) (name : String) :
    ∀ es : Entries, findEntry name (pruneEntries ig seen base es) =
      if ig (base ++ [name]) = true then findEntry name es
      else if base ++ [name] ∈ seen then
        (findEntry name es).map (pruneNode ig seen (base ++ [name]))
      else none
  | [] => by simp [pruneEntries, findEntry]
  | (k, x) :: rest => by
    have ih := findEntry_pruneEntries ig seen base name rest
    by_cases hk : k = name
    · subst hk
      by_cases hig : ig (base ++ [k]) = true
      · simp [pruneEntries, findEntry, hig]
      · by_cases hs : base ++ [k] ∈ seen
        · simp [pruneEntries, findEntry, hig, hs]
        · simp only [pruneEntries, hig, hs, if_false, Bool.false_eq_true]
          rw [ih]
          simp [hig, hs]
    · by_cases hig : ig (base ++ [k]) = true
      · simp only [pruneEntries, hig, if_true, findEntry, hk, if_false]
        exact ih
      · by_cases hs : base ++ [k] ∈ seen
        · simp only [pruneEntries, hig, hs, if_true, if_false, findEntry, hk, Bool.false_eq_true]
          exact ih
        · simp only [pruneEntries, hig, hs, if_false, findEntry, hk, Bool.false_eq_true]
          exact ih

theorem pruneNode_kind (ig : Matcher) (seen : List RelPath) (base : RelPath) (t : Node) :
    (t.isDirectory = false → pruneNode ig seen base t = t) ∧
    (t.isDirectory = true → (pruneNode ig seen base t).isDirectory = true) := by
  cases t <;> simp [pruneNode, Node.isDirectory]

/-- Pruning keeps what lies on seen paths: a file or link as it is, a directory
as a directory. -/
theorem entryAt_pruneNode_seen (ig : Matcher) (seen : List RelPath) :
    ∀ (rel base : RelPath) (t n : Node), allSeen seen base rel → entryAt t rel = some n →
      ∃ n', entryAt (pruneNode ig seen base t) rel = some n' ∧
        (n.isDirectory = false → n' = n) ∧ (n.isDirectory = true → n'.isDirectory = true)
  | [], base, t, n, _, h => by
    simp only [entryAt, Option.some.injEq] at h
    subst h
    exact ⟨pruneNode ig seen base t, by simp [entryAt], (pruneNode_kind ig seen base t).1,
      (pruneNode_kind ig seen base t).2⟩
  | name :: rest, base, .dir es, n, hs, h => by
    simp only [allSeen] at hs
    simp only [entryAt] at h
    simp only [pruneNode, entryAt, findEntry_pruneEntries]
    cases hf : findEntry name es with
    | none => simp [hf] at h
    | some c =>
      simp only [hf] at h
      by_cases hig : ig (base ++ [name]) = true
      · simp only [hig, if_true]
        exact ⟨n, h, fun _ => rfl, fun hd => hd⟩
      · simp only [hig, hs.1, if_true, if_false, Option.map_some', Bool.false_eq_true]
        exact entryAt_pruneNode_seen ig seen rest (base ++ [name]) c n hs.2 h
  | _ :: _, _, .file _, _, _, h => by simp [entryAt] at h
  | _ :: _, _, .symlink _ _, _, _, h => by simp [entryAt] at h
  | _ :: _, _, .other, _, _, h => by simp [entryAt] at h

/-- After pruning, a path of the target that the ignore predicate does not
hide is a seen path. -/
theorem entryAt_pruneNode_visible (ig : Matcher) (seen : List RelPath) :
    ∀ (rel base : RelPath) (t n : Node), entryAt (pruneNode ig seen base t) rel = some n →
      visibleFrom ig base rel = true → allSeen seen base rel
  | [], _, _, _, _, _ => trivial
  | name :: rest, base, .dir es, n, h, hv => by
    simp only [visibleFrom, Bool.and_eq_true, Bool.not_eq_true'] at hv
    simp only [pruneNode, entryAt, findEntry_pruneEntries, hv.1, Bool.false_eq_true, if_false] at h
    by_cases hs : base ++ [name] ∈ seen
    · simp only [hs, if_true] at h
      cases hf : findEntry name es with
      | none => simp [hf] at h
      | some c =>
        simp only [hf, Option.map_some'] at h
        exact ⟨hs, entryAt_pruneNode_visible ig seen rest (base ++ [name]) c n h hv.2⟩
    · simp [hs] at h
  | _ :: _, _, .file _, _, h, _ => by simp [pruneNode, entryAt] at h
  | _ :: _, _, .symlink _ _, _, h, _ => by simp [pruneNode, entryAt] at h
  | _ :: _, _, .other, _, h, _ => by simp [pruneNode, entryAt] at h

theorem allSeen_mem (seen : List RelPath) : ∀ (rel base : RelPath), rel ≠ [] →
    allSeen seen base rel → base ++ rel ∈ seen
  | [], _, h, _ => absurd rfl h
  | [name], base, _, hs => hs.1
  | name :: r2 :: rest, base, _, hs => by
    have := allSeen_mem seen (r2 :: rest) (base ++ [name]) (by simp) hs.2
    simpa using this

theorem allSeen_of_leading (seen : List RelPath) : ∀ (rel base : RelPath),
    (∀ q, q ≠ [] → leads q rel = true → base ++ q ∈ seen) → allSeen seen base rel
  | [], _, _ => trivial
  | name :: rest, base, h => by
    refine ⟨h [name] (by simp) (by simp [leads]), ?_⟩
    apply allSeen_of_leading seen rest (base ++ [name])
    intro q hq hl
    have := h (name :: q) (by simp) (by simp [leads, hl])
    simpa using this

theorem Holds_prune (ig : Matcher) (seen : List RelPath) (t : Node) (e : RelPath × Node)
    (hs : allSeen seen [] e.1) (h : Holds t e) : Holds (pruneNode ig seen [] t) e := by
  obtain ⟨r, n⟩ := e
  cases n with
  | file c =>
    simp only [Holds] at h ⊢
    obtain ⟨n', h1, h2, -⟩ := entryAt_pruneNode_seen ig seen r [] t _ hs h
    rw [h1, h2 rfl]
  | symlink tgt fl =>
    simp only [Holds] at h ⊢
    obtain ⟨n', h1, h2, -⟩ := entryAt_pruneNode_seen ig seen r [] t _ hs h
    rw [h1, h2 rfl]
  | dir es =>
    simp only [Holds] at h ⊢
    obtain ⟨es', h⟩ := h
    obtain ⟨n', h1, -, h3⟩ := entryAt_pruneNode_seen ig seen r [] t _ hs h
    have hd := h3 rfl
    cases n' with
    | dir es'' => exact ⟨es'', h1⟩
    | file _ => simp [Node.isDirectory] at hd
    | symlink _ _ => simp [Node.isDirectory] at hd
    | other => simp [Node.isDirectory] at hd
  | other => trivial

/-! ## syncDirPlain and applySandbox -/

theorem walked_allSeen (ig : Matcher) (src : Node) (hwf : src.WF) (e : RelPath × Node)
    (he : e ∈ walkDir src ig) : allSeen ((walkDir src ig).map Prod.fst) [] e.1 := by
  apply allSeen_of_leading
  intro q hq hl
  simp only [List.nil_append]
  by_cases hqr : q = e.1
  · rw [hqr]
    exact List.mem_map.2 ⟨e, he, rfl⟩
  · obtain ⟨es, hd⟩ := (walkDir_treeLike ig src hwf).above e.1 e.2 q he hl hqr hq
    exact List.mem_map.2 ⟨(q, .dir es), hd, rfl⟩

theorem syncDirPlain_ok (src dest : Node) (ig : Matcher) (prune : Bool) (hwf : src.WF)
    (hroot : ∃ es, dest = .dir es) (hfits : ∀ e ∈ walkDir src ig, Fits dest e) :
    (syncDirPlain src dest ig prune).error = none := by
  have h := foldl_syncEntryPlain_ok src (walkDir src ig) (walkDir_treeLike ig src hwf)
    (walkDir src ig) dest (fun _ he => he) hroot hfits
  unfold syncDirPlain
  simp only [h]
  cases prune <;> simp [h]

theorem syncDirPlain_holds (src dest : Node) (ig : Matcher) (prune : Bool) (hwf : src.WF)
    (herr : (syncDirPlain src dest ig prune).error = none) :
    ∀ e ∈ walkDir src ig, Holds (syncDirPlain src dest ig prune).fs e := by
  intro e he
  unfold syncDirPlain at herr ⊢
  simp only at herr ⊢
  cases hs : ((walkDir src ig).foldl (syncEntryPlain src) ⟨dest, none⟩).error with
  | some x =>
    simp only [hs] at herr
    exact Option.noConfusion herr
  | none =>
    have hh := foldl_syncEntryPlain_holds src (walkDir src ig) (walkDir_treeLike ig src hwf)
      (walkDir src ig) dest (fun _ h => h) hs e he (Or.inr he)
    simp only [hs]
    cases prune with
    | false => exact hh
    | true =>
      simp only [if_true]
      exact Holds_prune ig _ _ e (walked_allSeen ig src hwf e he) hh

theorem syncDirPlain_pruned (src dest : Node) (ig : Matcher)
    (herr : (syncDirPlain src dest ig true).error = none) (rel : RelPath) (n : Node) (hrel : rel ≠ [])
    (hent : entryAt (syncDirPlain src dest ig true).fs rel = some n)
    (hvis : visibleFrom ig [] rel = true) : rel ∈ (walkDir src ig).map Prod.fst := by
  unfold syncDirPlain at herr hent
  simp only at herr hent
  cases hs : ((walkDir src ig).foldl (syncEntryPlain src) ⟨dest, none⟩).error with
  | some x =>
    simp only [hs] at herr
    exact Option.noConfusion herr
  | none =>
    simp only [hs, if_true] at hent
    have := entryAt_pruneNode_visible ig _ rel [] _ n hent hvis
    simpa using allSeen_mem _ rel [] hrel this


/-! ## Writes on a way without links

Where no symbolic link of the written tree stands on the way of a write, path
resolution finds the path itself and the write is the positional one. -/

theorem setEntry_self {name : String} {c : Node} : ∀ {es : Entries},
    findEntry name es = some c → setEntry name c es = es
  | [], h => by simp [findEntry] at h
  | (n, x) :: rest, h => by
    simp only [findEntry] at h
    simp only [setEntry]
    by_cases hn : n = name
    · simp only [hn, if_true, Option.some.injEq] at h ⊢
      rw [h]
    · simp only [hn, if_false] at h ⊢
      rw [setEntry_self h]

theorem entryAt_cons_some {a : String} {p : RelPath} {root n : Node}
    (h : entryAt root (a :: p) = some n) :
    ∃ es c, root = .dir es ∧ findEntry a es = some c ∧ entryAt c p = some n := by
  cases root with
  | dir es =>
    simp only [entryAt] at h
    cases hf : findEntry a es with
    | none => simp [hf] at h
    | some c =>
      simp only [hf] at h
      exact ⟨es, c, rfl, hf, h⟩
  | file c => simp [entryAt] at h
  | symlink l f => simp [entryAt] at h
  | other => simp [entryAt] at h

/-- Creating a directory that is there changes nothing. -/
theorem mkdirAt_existing : ∀ (p : RelPath) (root : Node) (es : Entries),
    entryAt root p = some (.dir es) → mkdirAt root p = .ok root
  | [], root, es, h => by
    simp only [entryAt, Option.some.injEq] at h
    subst h
    rfl
  | a :: p, root, es, h => by
    obtain ⟨es0, c, rfl, hf, hc⟩ := entryAt_cons_some h
    simp only [mkdirAt, hf, mkdirAt_existing p c es hc, setEntry_self hf]

/-- An error met below an entry on the way is the error of the whole call. -/
theorem mkdirAt_error_of_sub : ∀ (p : RelPath) (root n : Node) (rest : RelPath) (e : FsError),
    entryAt root p = some n → mkdirAt n rest = .error e → mkdirAt root (p ++ rest) = .error e
  | [], root, n, rest, e, h, he => by
    simp only [entryAt, Option.some.injEq] at h
    subst h
    exact he
  | a :: p, root, n, rest, e, h, he => by
    obtain ⟨es0, c, rfl, hf, hc⟩ := entryAt_cons_some h
    have ih := mkdirAt_error_of_sub p c n rest e hc he
    rw [List.cons_append]
    simp only [mkdirAt, hf, ih]

theorem alterAt_error_of_sub (f : Option Node → Except FsError (Option Node)) :
    ∀ (p : RelPath) (root n : Node) (more : RelPath) (e : FsError),
    entryAt root p = some n → more ≠ [] → alterAt f n more = .error e →
      alterAt f root (p ++ more) = .error e
  | [], root, n, more, e, h, _, he => by
    simp only [entryAt, Option.some.injEq] at h
    subst h
    exact he
  | a :: p, root, n, more, e, h, hm, he => by
    obtain ⟨es0, c, rfl, hf, hc⟩ := entryAt_cons_some h
    have ih := alterAt_error_of_sub f p c n more e hc hm he
    obtain ⟨r, rest, hrest⟩ : ∃ r rest, p ++ more = r :: rest := by
      cases hpm : p ++ more with
      | nil =>
        have := List.append_eq_nil.1 hpm
        exact absurd this.2 hm
      | cons r rest => exact ⟨r, rest, rfl⟩
    rw [List.cons_append, hrest]
    rw [hrest] at ih
    simp only [alterAt, hf, ih]

/-- Below a directory without the next name, a write further down finds
nothing. -/
theorem alterAt_missing (f : Option Node → Except FsError (Option Node)) (root : Node)
    (cur : RelPath) (es : Entries) (name : String) (more : RelPath)
    (hcur : entryAt root cur = some (.dir es)) (hf : findEntry name es = none) (hm : more ≠ []) :
    alterAt f root (cur ++ name :: more) = .error .ENOENT := by
  apply alterAt_error_of_sub f cur root (.dir es) (name :: more) _ hcur (by simp)
  cases more with
  | nil => exact absurd rfl hm
  | cons r rest => simp only [alterAt, hf]

/-- Below an entry that is neither a directory nor a link, a write further down
finds no directory. -/
theorem alterAt_blocked (f : Option Node → Except FsError (Option Node)) (root : Node)
    (p : RelPath) (n : Node) (more : RelPath)
    (hp : entryAt root p = some n) (hn : n = .other ∨ ∃ c, n = .file c) (hm : more ≠ []) :
    alterAt f root (p ++ more) = .error .ENOTDIR := by
  apply alterAt_error_of_sub f p root n more _ hp hm
  cases more with
  | nil => exact absurd rfl hm
  | cons r rest =>
    rcases hn with rfl | ⟨c, rfl⟩ <;> simp only [alterAt]

theorem entryAt_snoc (root : Node) (cur : RelPath) (es : Entries) (name : String)
    (hcur : entryAt root cur = some (.dir es)) :
    entryAt root (cur ++ [name]) = findEntry name es := by
  rw [entryAt_append, hcur]
  show entryAt (.dir es) [name] = findEntry name es
  simp only [entryAt]
  cases findEntry name es <;> rfl

/-- Path resolution on a way without links: it ends at the path itself, or at
the error that the positional write reports there. -/
theorem walkPath_clear (root : Node) (f : Option Node → Except FsError (Option Node))
    (createLast : Bool) (more : RelPath) (hmore : createLast = false → more ≠ []) :
    ∀ (d cur : RelPath) (es : Entries), entryAt root cur = some (.dir es) →
      (∀ q, leads q d = true → q ≠ [] → ∀ linkTarget follow,
        entryAt root (cur ++ q) ≠ some (.symlink linkTarget follow)) →
      walkPath root true createLast cur (d.map (fun c => (false, c))) = .done (cur ++ d) ∨
        ∃ e, walkPath root true createLast cur (d.map (fun c => (false, c))) = .fail e ∧
          alterAt f root (cur ++ d ++ more) = .error e
  | [], cur, es, _, _ => by
    left
    simp [walkPath]
  | name :: rest, cur, es, hcur, hclear => by
    have hent := entryAt_snoc root cur es name hcur
    simp only [List.map_cons, walkPath, Bool.false_eq_true, false_and, if_false]
    cases hf : findEntry name es with
    | none =>
      rw [hent, hf]
      simp only
      by_cases hlast : rest.map (fun c => ((false, c) : Bool × String)) = [] ∧ createLast = true
      · left
        have hr : rest = [] := by simpa using hlast.1
        rw [if_pos hlast, hr]
      · right
        rw [if_neg hlast]
        refine ⟨.ENOENT, rfl, ?_⟩
        rw [List.append_assoc, List.cons_append]
        apply alterAt_missing f root cur es name _ hcur hf
        intro hnil
        have h2 := List.append_eq_nil.1 hnil
        apply hlast
        refine ⟨by simp [h2.1], ?_⟩
        cases createLast with
        | true => rfl
        | false => exact absurd h2.2 (hmore rfl)
    | some c =>
      rw [hent, hf]
      have hc : entryAt root (cur ++ [name]) = some c := by rw [hent, hf]
      cases c with
      | dir es' =>
        simp only
        have ih := walkPath_clear root f createLast more hmore rest (cur ++ [name]) es' hc
          (by
            intro q hq hne linkTarget follow
            rw [List.append_assoc]
            apply hclear ([name] ++ q) _ (by simp)
            simpa [leads] using hq)
        rw [List.append_assoc] at ih
        simpa using ih
      | symlink l fo =>
        exact absurd hc (hclear [name] (by simp [leads]) (by simp) l fo)
      | file content =>
        simp only
        by_cases hlast : rest.map (fun c => ((false, c) : Bool × String)) = []
        · left
          have hr : rest = [] := by simpa using hlast
          rw [if_pos hlast, hr]
        · right
          rw [if_neg hlast]
          refine ⟨.ENOTDIR, rfl, ?_⟩
          have : cur ++ name :: rest ++ more = (cur ++ [name]) ++ (rest ++ more) := by simp
          rw [this]
          apply alterAt_blocked f root _ _ _ hc (Or.inr ⟨content, rfl⟩)
          intro hnil
          exact hlast (by simp [(List.append_eq_nil.1 hnil).1])
      | other =>
        simp only
        by_cases hlast : rest.map (fun c => ((false, c) : Bool × String)) = []
        · left
          have hr : rest = [] := by simpa using hlast
          rw [if_pos hlast, hr]
        · right
          rw [if_neg hlast]
          refine ⟨.ENOTDIR, rfl, ?_⟩
          have : cur ++ name :: rest ++ more = (cur ++ [name]) ++ (rest ++ more) := by simp
          rw [this]
          apply alterAt_blocked f root _ _ _ hc (Or.inl rfl)
          intro hnil
          exact hlast (by simp [(List.append_eq_nil.1 hnil).1])

theorem resolveLinks_of_done (root : Node) (followLast createLast : Bool) (rel place : RelPath)
    (h : walkPath root followLast createLast [] (rel.map (fun c => (false, c))) = .done place) :
    resolveLinks root followLast createLast rel = .ok place := by
  simp only [resolveLinks, resolveFrom, h]

theorem resolveLinks_of_fail (root : Node) (followLast createLast : Bool) (rel : RelPath)
    (e : FsError)
    (h : walkPath root followLast createLast [] (rel.map (fun c => (false, c))) = .fail e) :
    resolveLinks root followLast createLast rel = .error e := by
  simp only [resolveLinks, resolveFrom, h]

/-- On a way without links the place found is the path itself, or resolution
stops on the error of the positional write. -/
theorem resolveLinks_clear (root : Node) (f : Option Node → Except FsError (Option Node))
    (createLast : Bool) (more : RelPath) (hmore : createLast = false → more ≠ [])
    (d : RelPath) (hroot : ∃ es, root = .dir es) (hclear : LinkFree root d) :
    resolveLinks root true createLast d = .ok d ∨
      ∃ e, resolveLinks root true createLast d = .error e ∧ alterAt f root (d ++ more) = .error e := by
  obtain ⟨es, rfl⟩ := hroot
  rcases walkPath_clear (.dir es) f createLast more hmore d [] es rfl
      (fun q hq _ linkTarget follow => by
        rw [List.nil_append]
        exact hclear q hq linkTarget follow) with h | ⟨e, h, ha⟩
  · left
    rw [List.nil_append] at h
    exact resolveLinks_of_done _ _ _ _ _ h
  · right
    rw [List.nil_append] at ha
    exact ⟨e, resolveLinks_of_fail _ _ _ _ _ h, ha⟩

theorem dropLast_append_last (rel : RelPath) :
    rel.dropLast ++ rel.drop (rel.length - 1) = rel := by
  rw [List.dropLast_eq_take]
  exact List.take_append_drop _ _

theorem drop_last_ne_nil (rel : RelPath) (h : rel ≠ []) : rel.drop (rel.length - 1) ≠ [] := by
  intro hd
  have := congrArg List.length hd
  simp only [List.length_drop, List.length_nil] at this
  cases rel with
  | nil => exact h rfl
  | cons a r => simp at this

/-- A write on the last component, found through its directory: on a way
without links it is the positional write. -/
theorem atParent_clear (root : Node) (f : Option Node → Except FsError (Option Node))
    (rel : RelPath) (hroot : ∃ es, root = .dir es) (hclear : LinkFree root rel.dropLast) :
    atParent root rel (alterAt f root) = alterAt f root rel := by
  by_cases hr : rel = []
  · subst hr
    obtain ⟨es, rfl⟩ := hroot
    simp [atParent, resolveLinks, resolveFrom, walkPath, alterAt]
  · unfold atParent
    rcases resolveLinks_clear root f false (rel.drop (rel.length - 1))
        (fun _ => drop_last_ne_nil rel hr) rel.dropLast hroot hclear with h | ⟨e, h, ha⟩
    · rw [h]
      simp only [dropLast_append_last]
    · rw [h]
      rw [dropLast_append_last] at ha
      simp only [ha]

theorem rmRf_ne_enoent (root : Node) (rel : RelPath) : rmRf root rel ≠ .error .ENOENT := by
  unfold rmRf
  cases h : alterAt (fun _ => .ok none) root rel with
  | ok t => simp
  | error e => cases e <;> simp

theorem fsRm_clear (root : Node) (rel : RelPath) (hroot : ∃ es, root = .dir es)
    (hclear : LinkFree root rel.dropLast) : fsRm root rel = rmRf root rel := by
  have hp : atParent root rel (rmRf root) = rmRf root rel ∨
      (atParent root rel (rmRf root) = .error .ENOENT ∧ rmRf root rel = .ok root) := by
    by_cases hr : rel = []
    · subst hr
      left
      obtain ⟨es, rfl⟩ := hroot
      simp [atParent, resolveLinks, resolveFrom, walkPath]
    · unfold atParent
      rcases resolveLinks_clear root (fun _ => .ok none) false (rel.drop (rel.length - 1))
          (fun _ => drop_last_ne_nil rel hr) rel.dropLast hroot hclear with h | ⟨e, h, ha⟩
      · left
        rw [h]
        simp only [dropLast_append_last]
      · rw [h]
        rw [dropLast_append_last] at ha
        by_cases he : e = .ENOENT
        · right
          subst he
          exact ⟨rfl, by simp only [rmRf, ha]⟩
        · left
          simp only [rmRf, ha]
          cases e <;> first | rfl | exact absurd rfl he
  unfold fsRm
  rcases hp with hp | ⟨hp, hrm⟩
  · rw [hp]
    have hne := rmRf_ne_enoent root rel
    cases hres : rmRf root rel with
    | ok t => rfl
    | error e =>
      cases e <;> first | rfl | exact absurd hres hne
  · rw [hp, hrm]

theorem fsSymlink_clear (linkTarget : String) (root : Node) (rel : RelPath)
    (hroot : ∃ es, root = .dir es) (hclear : LinkFree root rel.dropLast) :
    fsSymlink linkTarget root rel = symlinkAt linkTarget root rel :=
  atParent_clear root _ rel hroot hclear

theorem fsWriteFile_clear (content : String) (root : Node) (rel : RelPath)
    (hroot : ∃ es, root = .dir es) (hclear : LinkFree root rel) :
    fsWriteFile content root rel = writeFileAt content root rel := by
  cases rel with
  | nil => rfl
  | cons a r =>
    simp only [fsWriteFile]
    rcases resolveLinks_clear root (fun old =>
        match old with
        | none => .ok (some (.file content))
        | some (.file _) => .ok (some (.file content))
        | some (.dir _) => .error .EISDIR
        | some (.symlink _ _) => .error .unresolvedLink
        | some .other => .error .ENOTSUP) true [] (fun h => by cases h) (a :: r) hroot hclear
      with h | ⟨e, h, ha⟩
    · rw [h]
    · rw [h]
      rw [List.append_nil] at ha
      simp only [writeFileAt]
      exact ha.symm

theorem fsCopyFile_clear (src : Node) (srcRel : RelPath) (dest : Node) (destRel : RelPath)
    (hroot : ∃ es, dest = .dir es) (hclear : LinkFree dest destRel) :
    fsCopyFile src srcRel dest destRel = copyFile src srcRel dest destRel := by
  unfold fsCopyFile copyFile
  cases statAt src srcRel with
  | none => rfl
  | some n =>
    cases n with
    | file content => exact fsWriteFile_clear content dest destRel hroot hclear
    | dir es => rfl
    | symlink l f => rfl
    | other => rfl

/-- The loop of `ensureDir` on a way without links creates the directories in
place. -/
theorem ensureDirFrom_clear (root : Node) : ∀ (todo cur : RelPath) (es : Entries),
    entryAt root cur = some (.dir es) →
    (∀ q, leads q todo = true → q ≠ [] → ∀ linkTarget follow,
      entryAt root (cur ++ q) ≠ some (.symlink linkTarget follow)) →
    ensureDirFrom root cur todo = mkdirAt root (cur ++ todo)
  | [], cur, es, hcur, _ => by
    rw [List.append_nil, mkdirAt_existing cur root es hcur]
    rfl
  | name :: rest, cur, es, hcur, hclear => by
    have hent := entryAt_snoc root cur es name hcur
    simp only [ensureDirFrom]
    cases hf : findEntry name es with
    | none =>
      rw [hent, hf]
    | some c =>
      have hc : entryAt root (cur ++ [name]) = some c := by rw [hent, hf]
      rw [hc]
      have happ : cur ++ name :: rest = (cur ++ [name]) ++ rest := by simp
      cases c with
      | dir es' =>
        simp only
        rw [ensureDirFrom_clear root rest (cur ++ [name]) es' hc
          (by
            intro q hq hne linkTarget follow
            rw [List.append_assoc]
            apply hclear ([name] ++ q) _ (by simp)
            simpa [leads] using hq), happ]
      | symlink l fo =>
        exact absurd hc (hclear [name] (by simp [leads]) (by simp) l fo)
      | file content =>
        simp only
        rw [happ]
        symm
        apply mkdirAt_error_of_sub _ _ _ _ _ hc
        cases rest <;> rfl
      | other =>
        simp only
        rw [happ]
        symm
        apply mkdirAt_error_of_sub _ _ _ _ _ hc
        cases rest <;> rfl

theorem ensureDir_clear (root : Node) (rel : RelPath) (hroot : ∃ es, root = .dir es)
    (hclear : LinkFree root rel) : ensureDir root rel = mkdirAt root rel := by
  obtain ⟨es, rfl⟩ := hroot
  simp only [ensureDir]
  rw [ensureDirFrom_clear (.dir es) rel [] es rfl
    (fun q hq _ linkTarget follow => by
      rw [List.nil_append]
      exact hclear q hq linkTarget follow), List.nil_append]

/-! ## The copy on a way without links -/

theorem step_congr (s : FsResult) (op1 op2 : Node → Except FsError Node)
    (h : s.error = none → op1 s.fs = op2 s.fs) : s.step op1 = s.step op2 := by
  unfold FsResult.step
  cases he : s.error with
  | some e => rfl
  | none =>
    simp only
    rw [h he]

theorem step_ok_inv (t : Node) (op : Node → Except FsError Node)
    (h : ((FsResult.mk t none).step op).error = none) :
    ∃ t1, op t = .ok t1 ∧ ((FsResult.mk t none).step op).fs = t1 := by
  unfold FsResult.step at h ⊢
  simp only at h ⊢
  cases ho : op t with
  | ok t1 => exact ⟨t1, rfl, rfl⟩
  | error e => simp [ho] at h

theorem step_ok_inv2 (s : FsResult) (op : Node → Except FsError Node)
    (h : (s.step op).error = none) :
    s.error = none ∧ ∃ t1, op s.fs = .ok t1 ∧ (s.step op).fs = t1 := by
  unfold FsResult.step at h ⊢
  cases he : s.error with
  | some e => simp [he] at h
  | none =>
    simp only [he] at h ⊢
    cases ho : op s.fs with
    | ok t1 => exact ⟨trivial, t1, rfl, rfl⟩
    | error e => simp [ho] at h

theorem linkFree_of_leads {t : Node} {q r : RelPath} (h : LinkFree t r) (hq : leads q r = true) :
    LinkFree t q :=
  fun p hp linkTarget follow => h p (leads_trans p q r hp hq) linkTarget follow

theorem linkFree_dropLast {t : Node} {r : RelPath} (h : LinkFree t r) : LinkFree t r.dropLast :=
  linkFree_of_leads h (leads_dropLast r)

/-- After the directories above `r` are made, no link is above `r`. -/
theorem linkFree_after_mkdir {t t1 : Node} {r : RelPath}
    (h : mkdirAt t r.dropLast = .ok t1) : LinkFree t1 r.dropLast := by
  intro q hq linkTarget follow hent
  obtain ⟨es, hd⟩ := mkdirAt_dirs r.dropLast t t1 h q hq
  rw [hd] at hent
  cases hent

theorem root_after_mkdir {t t1 : Node} {p : RelPath} (h : mkdirAt t p = .ok t1) :
    ∃ es, t1 = .dir es := by
  obtain ⟨es, hd⟩ := mkdirAt_dirs p t t1 h [] rfl
  simp only [entryAt, Option.some.injEq] at hd
  exact ⟨es, hd⟩

theorem root_after_alter {f : Option Node → Except FsError (Option Node)} {t t1 : Node}
    {r : RelPath} (h : alterAt f t r = .ok t1) : ∃ es, t1 = .dir es := by
  have hr : r ≠ [] := by
    rintro rfl
    simp [alterAt] at h
  obtain ⟨es, hd⟩ := alterAt_dirs f r t t1 h [] rfl (fun h0 => hr h0.symm)
  simp only [entryAt, Option.some.injEq] at hd
  exact ⟨es, hd⟩

/-- The callback of the copy, on a way without links, makes its writes in
place. -/
theorem syncEntry_clear_dir (src t : Node) (r : RelPath) (n : Node) (hroot : ∃ es, t = .dir es)
    (hr : r ≠ []) (hclear : WayClear t (r, n)) :
    syncEntry src ⟨t, none⟩ (r, n) = syncEntryPlain src ⟨t, none⟩ (r, n) := by
  cases n with
  | dir es =>
    simp only [syncEntry, syncEntryPlain]
    exact step_congr _ _ _ (fun _ => ensureDir_clear t r hroot hclear)
  | other => rfl
  | file content =>
    simp only [syncEntry, syncEntryPlain]
    have h1 : (FsResult.mk t none).step (fun d => ensureDir d r.dropLast) =
        (FsResult.mk t none).step (fun d => mkdirAt d r.dropLast) :=
      step_congr _ _ _ (fun _ => ensureDir_clear t r.dropLast hroot (linkFree_dropLast hclear))
    rw [h1]
    apply step_congr
    intro herr
    obtain ⟨t1, hm, hfs⟩ := step_ok_inv t _ herr
    rw [hfs]
    apply fsCopyFile_clear src r t1 r (root_after_mkdir hm)
    intro q hq linkTarget follow hent
    by_cases hqr : q = r
    · subst hqr
      rw [mkdirAt_frame _ t t1 hm q (not_leads_dropLast q hr)] at hent
      exact hclear q (leads_refl q) linkTarget follow hent
    · exact linkFree_after_mkdir hm q (leads_dropLast_of_ne q r hq hqr) linkTarget follow hent
  | symlink linkTarget follow =>
    simp only [syncEntry, syncEntryPlain]
    have h1 : (FsResult.mk t none).step (fun d => ensureDir d r.dropLast) =
        (FsResult.mk t none).step (fun d => mkdirAt d r.dropLast) :=
      step_congr _ _ _ (fun _ => ensureDir_clear t r.dropLast hroot hclear)
    rw [h1]
    have h2 : ((FsResult.mk t none).step (fun d => mkdirAt d r.dropLast)).step (fun d => fsRm d r) =
        ((FsResult.mk t none).step (fun d => mkdirAt d r.dropLast)).step (fun d => rmRf d r) := by
      apply step_congr
      intro herr
      obtain ⟨t1, hm, hfs⟩ := step_ok_inv t _ herr
      rw [hfs]
      exact fsRm_clear t1 r (root_after_mkdir hm) (linkFree_after_mkdir hm)
    rw [h2]
    apply step_congr
    intro herr
    obtain ⟨herr1, t2, hrm, hfs2⟩ := step_ok_inv2 _ _ herr
    obtain ⟨t1, hm, hfs⟩ := step_ok_inv t _ herr1
    rw [hfs2]
    rw [hfs] at hrm
    have hroot1 := root_after_mkdir hm
    have hfree1 : LinkFree t1 r.dropLast := linkFree_after_mkdir hm
    rcases rmRf_ok_cases hrm with ha | ⟨_, h21⟩
    · apply fsSymlink_clear linkTarget t2 r (root_after_alter ha)
      intro q hq lt fo hent
      obtain ⟨es, hd⟩ := alterAt_dirs _ r t1 t2 ha q (leads_trans q _ r hq (leads_dropLast r))
        (by
          rintro rfl
          rw [not_leads_dropLast q hr] at hq
          exact Bool.noConfusion hq)
      rw [hd] at hent
      cases hent
    · rw [h21]
      exact fsSymlink_clear linkTarget t1 r hroot1 hfree1

/-- On a root that is no directory the first write of the callback fails, in
place as through path resolution. -/
theorem ensureDir_not_dir (t : Node) (p : RelPath) (hroot : ¬ ∃ es, t = .dir es) :
    ensureDir t p = mkdirAt t p := by
  cases t with
  | dir es => exact absurd ⟨es, rfl⟩ hroot
  | symlink l f => cases p <;> rfl
  | file c => cases p <;> rfl
  | other => cases p <;> rfl

theorem mkdirAt_not_dir (t : Node) (p : RelPath) (hroot : ¬ ∃ es, t = .dir es) :
    ∃ e, mkdirAt t p = .error e := by
  cases t with
  | dir es => exact absurd ⟨es, rfl⟩ hroot
  | symlink l f => cases p <;> exact ⟨_, rfl⟩
  | file c => cases p <;> exact ⟨_, rfl⟩
  | other => cases p <;> exact ⟨_, rfl⟩

theorem syncEntry_clear (src t : Node) (r : RelPath) (n : Node)
    (hr : r ≠ []) (hclear : WayClear t (r, n)) :
    syncEntry src ⟨t, none⟩ (r, n) = syncEntryPlain src ⟨t, none⟩ (r, n) := by
  by_cases hroot : ∃ es, t = .dir es
  · exact syncEntry_clear_dir src t r n hroot hr hclear
  · cases n with
    | other => rfl
    | dir es =>
      simp only [syncEntry, syncEntryPlain]
      exact step_congr _ _ _ (fun _ => ensureDir_not_dir t r hroot)
    | file content =>
      obtain ⟨e, he⟩ := mkdirAt_not_dir t r.dropLast hroot
      simp only [syncEntry, syncEntryPlain, FsResult.step, ensureDir_not_dir t r.dropLast hroot, he]
    | symlink linkTarget follow =>
      obtain ⟨e, he⟩ := mkdirAt_not_dir t r.dropLast hroot
      simp only [syncEntry, syncEntryPlain, FsResult.step, ensureDir_not_dir t r.dropLast hroot, he]

theorem foldl_syncEntry_error (src : Node) : ∀ (l : List (RelPath × Node)) (t : Node) (e : FsError),
    l.foldl (syncEntry src) ⟨t, some e⟩ = ⟨t, some e⟩
  | [], _, _ => rfl
  | x :: rest, t, e => by
    have : syncEntry src ⟨t, some e⟩ x = ⟨t, some e⟩ := by
      obtain ⟨r, n⟩ := x
      cases n <;> simp [syncEntry, FsResult.step]
    rw [List.foldl_cons, this]
    exact foldl_syncEntry_error src rest t e

/-- Where a link stands after a step of the copy: where one stood before, or
in the place of the link just copied. -/
theorem syncEntryPlain_links (src t t2 : Node) (r : RelPath) (n : Node) (hr : r ≠ [])
    (hstat : ∀ c, n = .file c → statAt src r = some (.file c))
    (h : syncEntryPlain src ⟨t, none⟩ (r, n) = ⟨t2, none⟩) (q : RelPath) (lt : String)
    (fo : Option Node) (hent : entryAt t2 q = some (.symlink lt fo)) :
    entryAt t q = some (.symlink lt fo) ∨ (q = r ∧ ∃ lt' fo', n = .symlink lt' fo') := by
  by_cases hother : n = .other
  · subst hother
    have := syncEntryPlain_ok src t t2 r .other h
    simp only at this
    subst this
    exact Or.inl hent
  obtain ⟨h1, h2, h3, h4⟩ := syncEntryPlain_effect src t t2 r n hr hstat h
  cases hl : leads q r with
  | true =>
    by_cases heq : q = r
    · subst heq
      cases n with
      | dir es =>
        obtain ⟨es', hd⟩ := h1
        rw [hd] at hent
        cases hent
      | file c =>
        have hd : entryAt t2 q = some (.file c) := h1
        rw [hd] at hent
        cases hent
      | symlink lt' fo' => exact Or.inr ⟨rfl, lt', fo', rfl⟩
      | other => exact absurd rfl hother
    · obtain ⟨es, hd⟩ := h3 q hl heq hother
      rw [hd] at hent
      cases hent
  | false =>
    cases hl' : leads r q with
    | false =>
      rw [h2 q hl hl'] at hent
      exact Or.inl hent
    | true =>
      obtain ⟨s, hs⟩ := (leads_iff r q).1 hl'
      have hsne : s ≠ [] := by
        rintro rfl
        rw [List.append_nil] at hs
        rw [hs, leads_refl] at hl
        exact Bool.noConfusion hl
      cases n with
      | dir es =>
        rw [h4 q rfl hl] at hent
        exact Or.inl hent
      | file c =>
        have hd : entryAt t2 r = some (.file c) := h1
        obtain ⟨es, hdir⟩ := entryAt_above_is_dir r s t2 _ hsne (hs ▸ hent)
        rw [hd] at hdir
        cases hdir
      | symlink lt' fo' =>
        have hd : entryAt t2 r = some (.symlink lt' none) := h1
        obtain ⟨es, hdir⟩ := entryAt_above_is_dir r s t2 _ hsne (hs ▸ hent)
        rw [hd] at hdir
        cases hdir
      | other => exact absurd rfl hother

/-- A step of the copy keeps the way of every walked entry free of links. -/
theorem syncEntryPlain_wayClear (src : Node) (W : List (RelPath × Node)) (hW : TreeLike src W)
    (t t2 : Node) (e : RelPath × Node) (he : e ∈ W)
    (hK : ∀ e' ∈ W, WayClear t e')
    (h : syncEntryPlain src ⟨t, none⟩ e = ⟨t2, none⟩) : ∀ e' ∈ W, WayClear t2 e' := by
  obtain ⟨r, n⟩ := e
  have hr : r ≠ [] := hW.nonempty _ he
  have hlinks := syncEntryPlain_links src t t2 r n hr (fun c hc => hW.stat r c (hc ▸ he)) h
  -- a link copied at `r` is not above another walked entry
  have habove : ∀ r' n', (r', n') ∈ W → leads r r' = true → r ≠ r' →
      ¬ ∃ lt' fo', n = Node.symlink lt' fo' := by
    rintro r' n' he' hl hne ⟨lt', fo', rfl⟩
    obtain ⟨es, hd⟩ := hW.above r' n' r he' hl hne hr
    have := hW.functional r _ _ he hd
    cases this
  rintro ⟨r', n'⟩ he'
  have hr' : r' ≠ [] := hW.nonempty _ he'
  have hKe := hK _ he'
  cases n' with
  | other => trivial
  | file c =>
    intro q hq lt fo hent
    rcases hlinks q lt fo hent with hold | ⟨rfl, hn⟩
    · exact hKe q hq lt fo hold
    · by_cases heq : q = r'
      · subst heq
        obtain ⟨lt', fo', rfl⟩ := hn
        have := hW.functional q _ _ he he'
        cases this
      · exact habove r' _ he' hq heq hn
  | dir es =>
    intro q hq lt fo hent
    rcases hlinks q lt fo hent with hold | ⟨rfl, hn⟩
    · exact hKe q hq lt fo hold
    · by_cases heq : q = r'
      · subst heq
        obtain ⟨lt', fo', rfl⟩ := hn
        have := hW.functional q _ _ he he'
        cases this
      · exact habove r' _ he' hq heq hn
  | symlink l f =>
    intro q hq lt fo hent
    rcases hlinks q lt fo hent with hold | ⟨rfl, hn⟩
    · exact hKe q hq lt fo hold
    · have hq' : leads q r' = true := leads_trans q _ r' hq (leads_dropLast r')
      have heq : q ≠ r' := by
        rintro rfl
        rw [not_leads_dropLast q hr'] at hq
        exact Bool.noConfusion hq
      exact habove r' _ he' hq' heq hn

/-- On a way without links the whole copy makes its writes in place. -/
theorem foldl_syncEntry_clear (src : Node) (W : List (RelPath × Node)) (hW : TreeLike src W) :
    ∀ (l : List (RelPath × Node)) (t : Node), (∀ e ∈ l, e ∈ W) →
      (∀ e ∈ W, WayClear t e) →
      l.foldl (syncEntry src) ⟨t, none⟩ = l.foldl (syncEntryPlain src) ⟨t, none⟩
  | [], _, _, _ => rfl
  | e :: rest, t, hl, hK => by
    have he : e ∈ W := hl e (List.mem_cons_self _ _)
    obtain ⟨r, n⟩ := e
    have hr : r ≠ [] := hW.nonempty _ he
    rw [List.foldl_cons, List.foldl_cons, syncEntry_clear src t r n hr (hK _ he)]
    cases hs : syncEntryPlain src ⟨t, none⟩ (r, n) with
    | mk t2 err =>
      cases err with
      | some x => rw [foldl_syncEntry_error, foldl_syncEntryPlain_error]
      | none =>
        exact foldl_syncEntry_clear src W hW rest t2 (fun x hx => hl x (List.mem_cons_of_mem _ hx))
          (syncEntryPlain_wayClear src W hW t t2 (r, n) he hK hs)

/-- With no link of the target on the way of a walked entry, `syncDir` makes
every write in place. -/
theorem syncDir_eq_plain (src dest : Node) (ig : Matcher) (prune : Bool) (hwf : src.WF)
    (hclear : ∀ e ∈ walkDir src ig, WayClear dest e) :
    syncDir src dest ig prune = syncDirPlain src dest ig prune := by
  unfold syncDir syncDirPlain
  simp only
  rw [foldl_syncEntry_clear src (walkDir src ig) (walkDir_treeLike ig src hwf) (walkDir src ig) dest
    (fun _ h => h) hclear]

/-- A target with nothing of another kind in the place of a walked entry has
no link on the way of one. -/
theorem wayClear_of_fits (src : Node) (W : List (RelPath × Node)) (hW : TreeLike src W)
    (t : Node) (hroot : ∃ es, t = .dir es) (hfits : ∀ e ∈ W, Fits t e) :
    ∀ e ∈ W, WayClear t e := by
  have habove : ∀ r n, (r, n) ∈ W → ∀ q, leads q r = true → q ≠ r → ∀ lt fo,
      entryAt t q ≠ some (.symlink lt fo) := by
    intro r n he q hq hne lt fo hent
    by_cases hq0 : q = []
    · subst hq0
      obtain ⟨es, rfl⟩ := hroot
      simp [entryAt] at hent
    · obtain ⟨es, hd⟩ := hW.above r n q he hq hne hq0
      rcases hfits _ hd with hf | ⟨es', hf⟩
      · rw [hf] at hent
        cases hent
      · rw [hf] at hent
        cases hent
  rintro ⟨r, n⟩ he
  have hr : r ≠ [] := hW.nonempty _ he
  cases n with
  | other => trivial
  | symlink l f =>
    intro q hq lt fo
    apply habove r _ he q (leads_trans q _ r hq (leads_dropLast r))
    rintro rfl
    rw [not_leads_dropLast q hr] at hq
    exact Bool.noConfusion hq
  | file c =>
    intro q hq lt fo hent
    by_cases heq : q = r
    · subst heq
      rcases hfits _ he with hf | ⟨c', hf⟩
      · rw [hf] at hent
        cases hent
      · rw [hf] at hent
        cases hent
    · exact habove r _ he q hq heq lt fo hent
  | dir es =>
    intro q hq lt fo hent
    by_cases heq : q = r
    · subst heq
      rcases hfits _ he with hf | ⟨c', hf⟩
      · rw [hf] at hent
        cases hent
      · rw [hf] at hent
        cases hent
    · exact habove r _ he q hq heq lt fo hent

theorem wayClear_of_noLinks (t : Node) (h : NoLinks t) (e : RelPath × Node) : WayClear t e := by
  obtain ⟨r, n⟩ := e
  cases n with
  | other => trivial
  | symlink l f => exact fun q _ lt fo => h q lt fo
  | file c => exact fun q _ lt fo => h q lt fo
  | dir es => exact fun q _ lt fo => h q lt fo

/-! ## syncDir -/

theorem syncDir_ok (src dest : Node) (ig : Matcher) (prune : Bool) (hwf : src.WF)
    (hroot : ∃ es, dest = .dir es) (hfits : ∀ e ∈ walkDir src ig, Fits dest e) :
    (syncDir src dest ig prune).error = none := by
  rw [syncDir_eq_plain src dest ig prune hwf
    (wayClear_of_fits src _ (walkDir_treeLike ig src hwf) dest hroot hfits)]
  exact syncDirPlain_ok src dest ig prune hwf hroot hfits

theorem syncDir_holds (src dest : Node) (ig : Matcher) (prune : Bool) (hwf : src.WF)
    (hclear : ∀ e ∈ walkDir src ig, WayClear dest e)
    (herr : (syncDir src dest ig prune).error = none) :
    ∀ e ∈ walkDir src ig, Holds (syncDir src dest ig prune).fs e := by
  rw [syncDir_eq_plain src dest ig prune hwf hclear] at herr ⊢
  exact syncDirPlain_holds src dest ig prune hwf herr

theorem syncDir_pruned (src dest : Node) (ig : Matcher) (hwf : src.WF)
    (hclear : ∀ e ∈ walkDir src ig, WayClear dest e)
    (herr : (syncDir src dest ig true).error = none) (rel : RelPath) (n : Node) (hrel : rel ≠ [])
    (hent : entryAt (syncDir src dest ig true).fs rel = some n)
    (hvis : visibleFrom ig [] rel = true) : rel ∈ (walkDir src ig).map Prod.fst := by
  rw [syncDir_eq_plain src dest ig true hwf hclear] at herr hent
  exact syncDirPlain_pruned src dest ig herr rel n hrel hent hvis

/-! ## What the copy leaves as it was -/

/-- A step of the copy leaves a path as it was when the path is neither at nor
above the place of the copied entry, nor below a copied link. -/
theorem syncEntryPlain_stays (src t t2 : Node) (r : RelPath) (n : Node) (hr : r ≠ [])
    (hstat : ∀ c, n = .file c → statAt src r = some (.file c)) (hfit : Fits t (r, n))
    (h : syncEntryPlain src ⟨t, none⟩ (r, n) = ⟨t2, none⟩) (q : RelPath)
    (hq : leads q r = false)
    (hlink : leads r q = true → ∀ lt fo, n ≠ .symlink lt fo) :
    entryAt t2 q = entryAt t q := by
  by_cases hother : n = .other
  · subst hother
    have := syncEntryPlain_ok src t t2 r .other h
    simp only at this
    rw [this]
  obtain ⟨h1, h2, _, h4⟩ := syncEntryPlain_effect src t t2 r n hr hstat h
  cases hl : leads r q with
  | false => exact h2 q hq hl
  | true =>
    obtain ⟨s, hs⟩ := (leads_iff r q).1 hl
    have hsne : s ≠ [] := by
      rintro rfl
      rw [List.append_nil] at hs
      rw [hs, leads_refl] at hq
      exact Bool.noConfusion hq
    cases n with
    | dir es => exact h4 q rfl hq
    | other => exact absurd rfl hother
    | symlink lt fo => exact absurd rfl (hlink hl lt fo)
    | file c =>
      have hd : entryAt t2 r = some (.file c) := h1
      have hnone2 : entryAt t2 q = none := by
        cases hent : entryAt t2 q with
        | none => rfl
        | some m =>
          obtain ⟨es, hdir⟩ := entryAt_above_is_dir r s t2 m hsne (hs ▸ hent)
          rw [hd] at hdir
          cases hdir
      have hnone : entryAt t q = none := by
        cases hent : entryAt t q with
        | none => rfl
        | some m =>
          obtain ⟨es, hdir⟩ := entryAt_above_is_dir r s t m hsne (hs ▸ hent)
          rcases hfit with hf | ⟨c', hf⟩
          · rw [hf] at hdir
            cases hdir
          · rw [hf] at hdir
            cases hdir
      rw [hnone2, hnone]

theorem foldl_syncEntryPlain_stays (src : Node) (W : List (RelPath × Node)) (hW : TreeLike src W)
    (q : RelPath) (hq : ∀ e ∈ W, leads q e.1 = false)
    (hlink : ∀ e ∈ W, leads e.1 q = true → ∀ lt fo, e.2 ≠ .symlink lt fo) :
    ∀ (l : List (RelPath × Node)) (t : Node), (∀ e ∈ l, e ∈ W) → (∀ e ∈ W, Fits t e) →
      (l.foldl (syncEntryPlain src) ⟨t, none⟩).error = none →
      entryAt (l.foldl (syncEntryPlain src) ⟨t, none⟩).fs q = entryAt t q
  | [], _, _, _, _ => rfl
  | e :: rest, t, hl, hfits, herr => by
    have he : e ∈ W := hl e (List.mem_cons_self _ _)
    obtain ⟨r, n⟩ := e
    have hr : r ≠ [] := hW.nonempty _ he
    rw [List.foldl_cons] at herr ⊢
    cases hs : syncEntryPlain src ⟨t, none⟩ (r, n) with
    | mk t2 err =>
      cases err with
      | some x =>
        rw [hs, foldl_syncEntryPlain_error] at herr
        simp at herr
      | none =>
        rw [hs] at herr
        rw [foldl_syncEntryPlain_stays src W hW q hq hlink rest t2
          (fun x hx => hl x (List.mem_cons_of_mem _ hx))
          (by
            intro e' he'
            rcases syncEntryPlain_preserves src W hW t t2 (r, n) e' he he' hs with hp | hp
            · exact Fits_congr hp (hfits e' he')
            · exact Holds_fits hp)
          herr]
        exact syncEntryPlain_stays src t t2 r n hr (fun c hc => hW.stat r c (hc ▸ he))
          (hfits _ he) hs q (hq _ he) (hlink _ he)

/-- Without `prune`, `syncDir` leaves a path as it was when the path is neither
at nor above the place of a walked entry, nor below a walked link. -/
theorem syncDir_stays (src dest : Node) (ig : Matcher) (hwf : src.WF)
    (hroot : ∃ es, dest = .dir es) (hfits : ∀ e ∈ walkDir src ig, Fits dest e) (q : RelPath)
    (hq : ∀ e ∈ walkDir src ig, leads q e.1 = false)
    (hlink : ∀ e ∈ walkDir src ig, leads e.1 q = true → ∀ lt fo, e.2 ≠ .symlink lt fo) :
    entryAt (syncDir src dest ig false).fs q = entryAt dest q := by
  have hW := walkDir_treeLike ig src hwf
  rw [syncDir_eq_plain src dest ig false hwf (wayClear_of_fits src _ hW dest hroot hfits)]
  have herr := foldl_syncEntryPlain_ok src _ hW (walkDir src ig) dest (fun _ h => h) hroot hfits
  have hst := foldl_syncEntryPlain_stays src _ hW q hq hlink (walkDir src ig) dest (fun _ h => h)
    hfits herr
  unfold syncDirPlain
  simp only [herr]
  exact hst

/-! ## Trees without links -/

theorem linkless_findEntry {name : String} {c : Node} : ∀ {es : Entries},
    entriesLinkless es = true → findEntry name es = some c → c.linkless = true
  | [], _, h => by simp [findEntry] at h
  | (n, x) :: rest, hl, h => by
    simp only [entriesLinkless, Bool.and_eq_true] at hl
    simp only [findEntry] at h
    by_cases hn : n = name
    · simp only [hn, if_true, Option.some.injEq] at h
      rw [← h]
      exact hl.1
    · simp only [hn, if_false] at h
      exact linkless_findEntry hl.2 h

/-- A tree that the traversal finds without links has none at any path. -/
theorem noLinks_of_linkless : ∀ (q : RelPath) (t : Node), t.linkless = true →
    ∀ linkTarget follow, entryAt t q ≠ some (.symlink linkTarget follow)
  | [], t, h, lt, fo, hent => by
    simp only [entryAt, Option.some.injEq] at hent
    subst hent
    simp [Node.linkless] at h
  | a :: q, t, h, lt, fo, hent => by
    obtain ⟨es, c, rfl, hf, hc⟩ := entryAt_cons_some hent
    simp only [Node.linkless] at h
    exact noLinks_of_linkless q c (linkless_findEntry h hf) lt fo hc


/-- A tree without links has none on the way of any write. -/
theorem wayClear_of_linkless (t : Node) (h : t.linkless = true) (e : RelPath × Node) :
    WayClear t e :=
  wayClear_of_noLinks t (fun q => noLinks_of_linkless q t h) e

theorem applySandbox_applied (sandbox target : Node) (statusFile : StatusFile) (config : Config)
    (requireSuccess prune : Bool)
    (h : (applySandbox sandbox target statusFile config requireSuccess prune).1 = .applied) :
    (syncDir sandbox target (applyIgnore config) prune).error = none ∧
    (applySandbox sandbox target statusFile config requireSuccess prune).2 =
      (syncDir sandbox target (applyIgnore config) prune).fs := by
  unfold applySandbox at h ⊢
  simp only at h ⊢
  generalize (if requireSuccess = true then
      match readStatus statusFile with
      | none => some "Refusing to apply changes. No successful run recorded."
      | some status =>
        if (!status.lastRunOk) = true then
          some "Refusing to apply changes. Last run failed or was interrupted."
        else none
    else none) = gate at h ⊢
  cases gate with
  | some message => simp at h
  | none =>
    simp only at h ⊢
    cases hs : (syncDir sandbox target (shouldIgnore (makeIgnoreMatcher config.ignore)) prune).error with
    | none => simp [applyIgnore, hs]
    | some e => simp [hs] at h

theorem applySandbox_of_sync (sandbox target : Node) (status : Status) (config : Config)
    (prune : Bool) (hok : status.lastRunOk = true)
    (h : (syncDir sandbox target (applyIgnore config) prune).error = none) :
    (applySandbox sandbox target (.parsed status) config true prune).1 = .applied := by
  unfold applyIgnore at h
  simp [applySandbox, readStatus, hok, h]

/-! ## The index after `applyBaselineUpdates` -/

theorem ownProp_replace (k : RelPath) (v : FileInfo) (q : RelPath) :
    ∀ files : IndexFiles, ownProp (files.map (fun e => if e.1 = k then (k, v) else e)) q =
      if q = k then (ownProp files k).map (fun _ => v) else ownProp files q
  | [] => by simp [ownProp]
  | (a, b) :: rest => by
    have ih := ownProp_replace k v q rest
    have hmap : ((a, b) :: rest).map (fun e => if e.1 = k then (k, v) else e) =
        (if a = k then (k, v) else (a, b)) :: rest.map (fun e => if e.1 = k then (k, v) else e) :=
      rfl
    rw [hmap]
    by_cases hak : a = k
    · rw [if_pos hak]
      subst hak
      by_cases hq : q = a
      · subst hq
        simp [ownProp]
      · have hq' : a ≠ q := Ne.symm hq
        simp only [ownProp, hq', if_false, hq]
        rw [ih]
        simp [hq]
    · rw [if_neg hak]
      by_cases hq : q = k
      · subst hq
        simp only [ownProp, hak, if_false, if_true]
        rw [ih]
        simp
      · by_cases haq : a = q
        · subst haq
          simp [ownProp, hq]
        · simp only [ownProp, haq, if_false, hq]
          rw [ih]
          simp [hq]

theorem ownProp_append (k : RelPath) (v : FileInfo) (q : RelPath) :
    ∀ files : IndexFiles, ownProp (files ++ [(k, v)]) q =
      match ownProp files q with
      | some r => some r
      | none => if k = q then some v else none
  | [] => by simp [ownProp]
  | (a, b) :: rest => by
    by_cases haq : a = q
    · simp [ownProp, haq]
    · simp only [List.cons_append, ownProp, haq, if_false]
      exact ownProp_append k v q rest

theorem ownProp_insertIndexed (k : RelPath) (v : FileInfo) (n : Nat) (q : RelPath) :
    ∀ files : IndexFiles, ownProp files k = none →
      ownProp (insertIndexed k v n files) q = if q = k then some v else ownProp files q
  | [], _ => by
    by_cases hq : q = k
    · simp [insertIndexed, ownProp, hq]
    · simp [insertIndexed, ownProp, hq, Ne.symm hq]
  | (a, b) :: rest, h => by
    have hak : a ≠ k := by
      intro hak
      simp [ownProp, hak] at h
    have hrest : ownProp rest k = none := by
      simpa [ownProp, hak] using h
    have ih := ownProp_insertIndexed k v n q rest hrest
    have hhead : ownProp ((k, v) :: (a, b) :: rest) q =
        if q = k then some v else ownProp ((a, b) :: rest) q := by
      by_cases hq : q = k
      · simp [ownProp, hq]
      · simp [ownProp, hq, Ne.symm hq]
    simp only [insertIndexed]
    cases arrayIndex? a with
    | none => exact hhead
    | some m =>
      simp only
      split
      · by_cases haq : a = q
        · subst haq
          simp [ownProp, hak]
        · simp only [ownProp, haq, if_false]
          exact ih
      · exact hhead

theorem ownProp_setProp_ne (files : IndexFiles) (k q : RelPath) (v : FileInfo) (h : q ≠ k) :
    ownProp (setProp files k v) q = ownProp files q := by
  unfold setProp
  split
  · rw [ownProp_replace]
    simp [h]
  · next hown =>
    have hnone : ownProp files k = none := by
      simpa [hasOwnProperty] using hown
    split
    · rfl
    · split
      · rw [ownProp_insertIndexed _ _ _ _ _ hnone]
        simp [h]
      · rw [ownProp_append]
        cases ownProp files q <;> simp [Ne.symm h]

theorem ownProp_setProp_same (files : IndexFiles) (k : RelPath) (v : FileInfo)
    (h : hasOwnProperty files k = true ∨ k ≠ ["__proto__"]) :
    ownProp (setProp files k v) k = some v := by
  unfold setProp
  split
  · next hown =>
    rw [ownProp_replace]
    simp only [if_true]
    unfold hasOwnProperty at hown
    cases hk : ownProp files k with
    | none => simp [hk] at hown
    | some r => rfl
  · next hown =>
    have hnone : ownProp files k = none := by
      simpa [hasOwnProperty] using hown
    have hk : k ≠ ["__proto__"] := by
      rcases h with h | h
      · exact absurd h hown
      · exact h
    simp only [hk, if_false]
    split
    · rw [ownProp_insertIndexed _ _ _ _ _ hnone]
      simp
    · rw [ownProp_append, hnone]
      simp

theorem ownProp_deleteProp (k q : RelPath) : ∀ files : IndexFiles,
    ownProp (deleteProp files k) q = if q = k then none else ownProp files q
  | [] => by simp [deleteProp, ownProp]
  | (a, b) :: rest => by
    have ih := ownProp_deleteProp k q rest
    by_cases hak : a = k
    · subst hak
      by_cases hq : q = a
      · subst hq
        simp only [deleteProp, if_true]
        rw [ih]
        simp
      · have hq' : a ≠ q := Ne.symm hq
        simp only [deleteProp, if_true, ownProp, hq', hq, if_false]
        rw [ih]
        simp [hq]
    · by_cases haq : a = q
      · subst haq
        simp [deleteProp, hak, ownProp]
      · simp only [deleteProp, hak, if_false, ownProp, haq]
        exact ih

theorem ownProp_applyIndex_ne (files : IndexFiles) (u : PendingUpdate) (q : RelPath)
    (h : u.rel ≠ q) : ownProp (applyIndex files u) q = ownProp files q := by
  cases u with
  | delete rel =>
    simp only [PendingUpdate.rel] at h
    simp [applyIndex, ownProp_deleteProp, Ne.symm h]
  | upsert rel info =>
    simp only [PendingUpdate.rel] at h
    exact ownProp_setProp_ne files rel q info (Ne.symm h)

theorem ownProp_foldl_untouched (q : RelPath) : ∀ (us : List PendingUpdate) (files : IndexFiles),
    (∀ u ∈ us, u.rel ≠ q) → ownProp (us.foldl applyIndex files) q = ownProp files q
  | [], _, _ => rfl
  | u :: rest, files, h => by
    rw [List.foldl_cons, ownProp_foldl_untouched q rest _ (fun x hx => h x (List.mem_cons_of_mem _ hx)),
      ownProp_applyIndex_ne files u q (h u (List.mem_cons_self _ _))]

theorem ownProp_foldl_deleted (q : RelPath) : ∀ (us : List PendingUpdate) (files : IndexFiles),
    (∀ u ∈ us, ∃ rel, u = .delete rel) → (PendingUpdate.delete q ∈ us ∨ ownProp files q = none) →
      ownProp (us.foldl applyIndex files) q = none
  | [], files, _, h => by
    rcases h with h | h
    · simp at h
    · exact h
  | u :: rest, files, hdel, h => by
    rw [List.foldl_cons]
    apply ownProp_foldl_deleted q rest _ (fun x hx => hdel x (List.mem_cons_of_mem _ hx))
    obtain ⟨rel, rfl⟩ := hdel u (List.mem_cons_self _ _)
    by_cases hq : rel = q
    · subst hq
      right
      simp [applyIndex, ownProp_deleteProp]
    · rcases h with h | h
      · rcases List.mem_cons.1 h with h | h
        · simp only [PendingUpdate.delete.injEq] at h
          exact absurd h.symm hq
        · exact Or.inl h
      · right
        simp [applyIndex, ownProp_deleteProp, Ne.symm hq, h]

theorem ownProp_foldl_upserted (q : RelPath) (v : FileInfo) :
    ∀ (us : List PendingUpdate) (files : IndexFiles), (us.map PendingUpdate.rel).Nodup →
      PendingUpdate.upsert q v ∈ us → (hasOwnProperty files q = true ∨ q ≠ ["__proto__"]) →
      ownProp (us.foldl applyIndex files) q = some v
  | [], _, _, h, _ => by simp at h
  | u :: rest, files, hnd, h, hq => by
    simp only [List.map_cons, List.nodup_cons] at hnd
    rw [List.foldl_cons]
    rcases List.mem_cons.1 h with h | h
    · subst h
      rw [ownProp_foldl_untouched q rest]
      · exact ownProp_setProp_same files q v hq
      · intro x hx hxq
        exact hnd.1 (List.mem_map.2 ⟨x, hx, hxq⟩)
    · apply ownProp_foldl_upserted q v rest _ hnd.2 h
      have hne : u.rel ≠ q := by
        intro hu
        exact hnd.1 (List.mem_map.2 ⟨.upsert q v, h, hu.symm⟩)
      rcases hq with hq | hq
      · left
        unfold hasOwnProperty at hq ⊢
        rw [ownProp_applyIndex_ne files u q hne]
        exact hq
      · exact Or.inr hq

theorem applyUpdate_error (sandbox : Node) : ∀ (us : List PendingUpdate) (st : Baseline),
    st.error ≠ none → (us.foldl (applyUpdate sandbox) st).error ≠ none
  | [], _, h => h
  | u :: rest, st, h => by
    rw [List.foldl_cons]
    apply applyUpdate_error sandbox rest
    unfold applyUpdate
    cases he : st.error with
    | none => exact absurd he h
    | some e => simp [he]

/-- When every update goes through, the index is the result of the index
assignments alone. -/
theorem applyUpdate_files (sandbox : Node) : ∀ (us : List PendingUpdate) (st : Baseline),
    st.error = none → (us.foldl (applyUpdate sandbox) st).error = none →
      (us.foldl (applyUpdate sandbox) st).files = us.foldl applyIndex st.files
  | [], _, _, _ => rfl
  | u :: rest, st, h0, h => by
    simp only [List.foldl_cons] at h ⊢
    have h1 : (applyUpdate sandbox st u).error = none := by
      by_contra hne
      exact applyUpdate_error sandbox rest _ hne h
    rw [applyUpdate_files sandbox rest _ h1 h]
    congr 1
    unfold applyUpdate at h1 ⊢
    simp only [h0] at h1 ⊢
    cases u with
    | delete rel =>
      simp only at h1 ⊢
      cases hr : fsRm st.store rel with
      | ok s => simp [applyIndex]
      | error e => simp [hr] at h1
    | upsert rel info =>
      simp only at h1 ⊢
      cases hw : (updateBaselineFile sandbox st.store rel info).error with
      | none => simp [applyIndex]
      | some e => simp [hw] at h1

theorem applyBaselineUpdates_files (sandbox store : Node) (files : IndexFiles)
    (us : List PendingUpdate) (h : (applyBaselineUpdates sandbox store files us).error = none) :
    (applyBaselineUpdates sandbox store files us).files = us.foldl applyIndex files := by
  unfold applyBaselineUpdates at h ⊢
  simp only at h ⊢
  cases he : (us.foldl (applyUpdate sandbox) ⟨store, files, none⟩).error with
  | none =>
    simp only [he]
    exact applyUpdate_files sandbox us ⟨store, files, none⟩ rfl he
  | some e => simp [he] at h

/-! ## A second full scan -/

theorem recordDiffers_self (info : FileInfo) : recordDiffers info info = false := by
  cases info <;> simp [recordDiffers]

theorem scanResult_snd {hashFile : String → String} {files : IndexFiles} {e : RelPath × Node}
    {r : Change × PendingUpdate} (h : scanResult hashFile files e = some r) :
    r.2 = .upsert e.1 (getFileInfo hashFile e.2) := by
  unfold scanResult at h
  split at h
  · simp at h; subst h; rfl
  · simp at h; subst h; rfl
  · split at h
    · simp at h; subst h; rfl
    · simp at h

theorem scanResult_none_iff (hashFile : String → String) (files : IndexFiles) (e : RelPath × Node) :
    scanResult hashFile files e = none ↔
      ∃ prev, ownProp files e.1 = some prev ∧
        recordDiffers prev (getFileInfo hashFile e.2) = false := by
  unfold scanResult getProp
  cases hown : ownProp files e.1 with
  | none =>
    by_cases hp : isPrototypeKey e.1 = true <;> simp [hp]
  | some prev =>
    by_cases hd : recordDiffers prev (getFileInfo hashFile e.2) = true
    · simp [hd]
    · simp [hd]

theorem nodup_keys_functional {α : Type} : ∀ (l : List (RelPath × α)), (l.map Prod.fst).Nodup →
    ∀ k v w, (k, v) ∈ l → (k, w) ∈ l → v = w
  | [], _, _, _, _, h, _ => by simp at h
  | (a, b) :: rest, hnd, k, v, w, hv, hw => by
    simp only [List.map_cons, List.nodup_cons] at hnd
    rcases List.mem_cons.1 hv with hv | hv <;> rcases List.mem_cons.1 hw with hw | hw
    · simp only [Prod.mk.injEq] at hv hw
      rw [hv.2, hw.2]
    · simp only [Prod.mk.injEq] at hv
      exact absurd (List.mem_map.2 ⟨(k, w), hw, hv.1⟩) hnd.1
    · simp only [Prod.mk.injEq] at hw
      exact absurd (List.mem_map.2 ⟨(k, v), hv, hw.1⟩) hnd.1
    · exact nodup_keys_functional rest hnd.2 k v w hv hw

theorem upserts_keys_nodup (hashFile : String → String) (files : IndexFiles) :
    ∀ (l : List (RelPath × Node)), (l.map Prod.fst).Nodup →
      ((l.filterMap (fun e => (scanResult hashFile files e).map Prod.snd)).map
        PendingUpdate.rel).Nodup ∧
      ∀ u ∈ l.filterMap (fun e => (scanResult hashFile files e).map Prod.snd),
        u.rel ∈ l.map Prod.fst
  | [], _ => by simp
  | e :: rest, hnd => by
    simp only [List.map_cons, List.nodup_cons] at hnd
    obtain ⟨ih1, ih2⟩ := upserts_keys_nodup hashFile files rest hnd.2
    cases hs : scanResult hashFile files e with
    | none =>
      simp only [List.filterMap_cons, hs, Option.map_none']
      exact ⟨ih1, fun u hu => List.mem_cons_of_mem _ (ih2 u hu)⟩
    | some r =>
      have hr := (scanResult_path hs).2
      simp only [List.filterMap_cons, hs, Option.map_some', List.map_cons, List.nodup_cons]
      refine ⟨⟨?_, ih1⟩, ?_⟩
      · intro hmem
        obtain ⟨u, hu, hur⟩ := List.mem_map.1 hmem
        have := ih2 u hu
        rw [hur, hr] at this
        exact hnd.1 this
      · intro u hu
        rcases List.mem_cons.1 hu with rfl | hu
        · rw [hr]; exact List.mem_cons_self _ _
        · exact List.mem_cons_of_mem _ (ih2 u hu)

/-- After a full scan whose baseline update went through, a second full scan
of the unchanged sandbox finds nothing, unless the sandbox has a top-level file
called `__proto__` that the index does not hold as an own key. -/
theorem fullRescan_idempotent (hashFile : String → String) (config : Config)
    (sandbox store : Node) (files : IndexFiles)
    (hproto : ["__proto__"] ∉ (listSandboxFiles sandbox (sandboxIgnore config)).map Prod.fst ∨
      hasOwnProperty files ["__proto__"] = true)
    (hok : (applyBaselineUpdates sandbox store files
      (computeChanges hashFile config sandbox files none).pendingUpdates).error = none) :
    computeChanges hashFile config sandbox
      (applyBaselineUpdates sandbox store files
        (computeChanges hashFile config sandbox files none).pendingUpdates).files none =
      ⟨[], []⟩ := by
  rw [applyBaselineUpdates_files sandbox store files _ hok]
  rw [computeChanges_fullScan hashFile config sandbox files none rfl]
  simp only [List.foldl_append]
  generalize hS : listSandboxFiles sandbox (sandboxIgnore config) = S at hproto ⊢
  have hSnd : (S.map Prod.fst).Nodup := by
    rw [← hS]; exact listSandboxFiles_nodup _ _
  generalize hups : S.filterMap (fun e => (scanResult hashFile files e).map Prod.snd) = ups
  generalize hdels : ((objectKeys files).filter (fun k => decide (k ∉ S.map Prod.fst))).map
    PendingUpdate.delete = dels
  have hupsnd := upserts_keys_nodup hashFile files S hSnd
  rw [hups] at hupsnd
  have hdelrel : ∀ u ∈ dels, ∃ rel, u = .delete rel ∧ rel ∉ S.map Prod.fst ∧ rel ∈ objectKeys files := by
    intro u hu
    rw [← hdels] at hu
    obtain ⟨k, hk, rfl⟩ := List.mem_map.1 hu
    simp only [List.mem_filter, decide_eq_true_eq] at hk
    exact ⟨k, rfl, hk.2, hk.1⟩
  -- the index after the updates, on seen paths
  have hseen : ∀ e ∈ S, ∃ prev, ownProp (dels.foldl applyIndex (ups.foldl applyIndex files)) e.1
      = some prev ∧ recordDiffers prev (getFileInfo hashFile e.2) = false := by
    intro e he
    have hk : e.1 ∈ S.map Prod.fst := List.mem_map.2 ⟨e, he, rfl⟩
    rw [ownProp_foldl_untouched e.1 dels]
    swap
    · intro u hu hur
      obtain ⟨rel, rfl, hrel, -⟩ := hdelrel u hu
      simp only [PendingUpdate.rel] at hur
      rw [hur] at hrel
      exact hrel hk
    cases hs : scanResult hashFile files e with
    | some r =>
      have hmem : PendingUpdate.upsert e.1 (getFileInfo hashFile e.2) ∈ ups := by
        rw [← hups, List.mem_filterMap]
        exact ⟨e, he, by rw [hs, Option.map_some', scanResult_snd hs]⟩
      refine ⟨getFileInfo hashFile e.2, ?_, recordDiffers_self _⟩
      apply ownProp_foldl_upserted _ _ ups files hupsnd.1 hmem
      by_cases hp : e.1 = ["__proto__"]
      · rcases hproto with hproto | hproto
        · exact absurd (hp ▸ hk) hproto
        · left; rw [hp]; exact hproto
      · exact Or.inr hp
    | none =>
      obtain ⟨prev, h1, h2⟩ := (scanResult_none_iff hashFile files e).1 hs
      refine ⟨prev, ?_, h2⟩
      rw [ownProp_foldl_untouched e.1 ups, h1]
      intro u hu hur
      rw [← hups, List.mem_filterMap] at hu
      obtain ⟨e', he', hu'⟩ := hu
      simp only [Option.map_eq_some'] at hu'
      obtain ⟨r, hr, rfl⟩ := hu'
      have hkey : e'.1 = e.1 := by rw [← (scanResult_path hr).2, hur]
      have : e' = e := by
        obtain ⟨k', n'⟩ := e'
        obtain ⟨k, n⟩ := e
        simp only at hkey
        subst hkey
        rw [nodup_keys_functional S hSnd k' n' n he' he]
      rw [this, hs] at hr
      exact Option.noConfusion hr
  -- the index after the updates has no key outside the seen paths
  have hunseen : ∀ k, k ∉ S.map Prod.fst →
      ownProp (dels.foldl applyIndex (ups.foldl applyIndex files)) k = none := by
    intro k hk
    apply ownProp_foldl_deleted k dels
    · intro u hu
      obtain ⟨rel, h, -⟩ := hdelrel u hu
      exact ⟨rel, h⟩
    · have hup : ownProp (ups.foldl applyIndex files) k = ownProp files k := by
        apply ownProp_foldl_untouched
        intro u hu hur
        exact hk (hur ▸ hupsnd.2 u hu)
      rw [hup]
      cases hown : ownProp files k with
      | none => exact Or.inr rfl
      | some r =>
        left
        rw [← hdels]
        apply List.mem_map.2
        refine ⟨k, ?_, rfl⟩
        simp only [List.mem_filter, decide_eq_true_eq]
        exact ⟨(hasOwnProperty_iff files k).1 (by simp [hasOwnProperty, hown]), hk⟩
  rw [computeChanges_fullScan hashFile config sandbox _ none rfl, hS]
  have h1 : ∀ (g : Change × PendingUpdate → Change),
      S.filterMap (fun e =>
        (scanResult hashFile (dels.foldl applyIndex (ups.foldl applyIndex files)) e).map g) = [] := by
    intro g
    rw [List.filterMap_eq_nil_iff]
    intro e he
    obtain ⟨prev, hp1, hp2⟩ := hseen e he
    rw [(scanResult_none_iff hashFile _ e).2 ⟨prev, hp1, hp2⟩]
    rfl
  have h1' : ∀ (g : Change × PendingUpdate → PendingUpdate),
      S.filterMap (fun e =>
        (scanResult hashFile (dels.foldl applyIndex (ups.foldl applyIndex files)) e).map g) = [] := by
    intro g
    rw [List.filterMap_eq_nil_iff]
    intro e he
    obtain ⟨prev, hp1, hp2⟩ := hseen e he
    rw [(scanResult_none_iff hashFile _ e).2 ⟨prev, hp1, hp2⟩]
    rfl
  have h2 : (objectKeys (dels.foldl applyIndex (ups.foldl applyIndex files))).filter
      (fun k => decide (k ∉ S.map Prod.fst)) = [] := by
    rw [List.filter_eq_nil_iff]
    intro k hk
    simp only [decide_eq_true_eq, not_not]
    by_contra hns
    have := (hasOwnProperty_iff _ k).2 hk
    simp [hasOwnProperty, hunseen k hns] at this
  rw [h1, h1', h2]
  rfl

/-- The full scan on paths that are not names of members of `Object.prototype`:
a walked non-directory entry with no index entry is reported as added, one
whose index record differs as modified, any other not at all; and the deleted
paths are exactly the index keys that the walk has not met. -/
theorem fullScan_contract (hashFile : String → String) (config : Config) (sandbox : Node)
    (files : IndexFiles) (hwf : sandbox.WF) :
    (∀ rel n, rel ≠ [] → entryAt sandbox rel = some n →
      visibleFrom (sandboxIgnore config) [] rel = true → n.isDirectory = false →
      isPrototypeKey rel = false →
      (ownProp files rel = none →
        ⟨rel, .added, some (getFileInfo hashFile n)⟩ ∈
          (computeChanges hashFile config sandbox files none).changes) ∧
      (∀ prev, ownProp files rel = some prev →
        recordDiffers prev (getFileInfo hashFile n) = true →
        ⟨rel, .modified, some (getFileInfo hashFile n)⟩ ∈
          (computeChanges hashFile config sandbox files none).changes) ∧
      (∀ prev, ownProp files rel = some prev →
        recordDiffers prev (getFileInfo hashFile n) = false →
        ∀ c ∈ (computeChanges hashFile config sandbox files none).changes, c.path ≠ rel)) ∧
    (∀ k, ⟨k, .deleted, none⟩ ∈ (computeChanges hashFile config sandbox files none).changes ↔
      k ∈ objectKeys files ∧
        ¬ ∃ n, entryAt sandbox k = some n ∧ k ≠ [] ∧
          visibleFrom (sandboxIgnore config) [] k = true ∧ n.isDirectory = false) := by
  rw [computeChanges_fullScan hashFile config sandbox files none rfl]
  simp only
  have hseen : ∀ k, k ∈ (listSandboxFiles sandbox (sandboxIgnore config)).map Prod.fst ↔
      ∃ n, entryAt sandbox k = some n ∧ k ≠ [] ∧
        visibleFrom (sandboxIgnore config) [] k = true ∧ n.isDirectory = false := by
    intro k
    constructor
    · intro h
      obtain ⟨⟨k', n⟩, hm, hk⟩ := List.mem_map.1 h
      simp only at hk
      subst hk
      obtain ⟨h1, h2, h3, h4⟩ := (mem_listSandboxFiles _ _ hwf k' n).1 hm
      exact ⟨n, h2, h1, h3, h4⟩
    · rintro ⟨n, h2, h1, h3, h4⟩
      exact List.mem_map.2 ⟨(k, n), (mem_listSandboxFiles _ _ hwf k n).2 ⟨h1, h2, h3, h4⟩, rfl⟩
  constructor
  · intro rel n hrel hent hvis hdir hproto
    have hmem : (rel, n) ∈ listSandboxFiles sandbox (sandboxIgnore config) :=
      (mem_listSandboxFiles _ _ hwf rel n).2 ⟨hrel, hent, hvis, hdir⟩
    refine ⟨?_, ?_, ?_⟩
    · intro hown
      apply List.mem_append_left
      rw [List.mem_filterMap]
      exact ⟨(rel, n), hmem, by simp [scanResult, getProp, hown, hproto]⟩
    · intro prev hown hd
      apply List.mem_append_left
      rw [List.mem_filterMap]
      exact ⟨(rel, n), hmem, by simp [scanResult, getProp, hown, hd]⟩
    · intro prev hown hd c hc hpath
      rcases List.mem_append.1 hc with hc | hc
      · rw [List.mem_filterMap] at hc
        obtain ⟨e, he, hr⟩ := hc
        simp only [Option.map_eq_some'] at hr
        obtain ⟨r, hr, rfl⟩ := hr
        have hkey : e.1 = rel := by rw [← (scanResult_path hr).1, hpath]
        obtain ⟨k, m⟩ := e
        simp only at hkey
        subst hkey
        have := nodup_keys_functional _ (listSandboxFiles_nodup (sandboxIgnore config) sandbox)
          k m n he hmem
        subst this
        rw [(scanResult_none_iff hashFile files (k, m)).2 ⟨prev, hown, hd⟩] at hr
        exact Option.noConfusion hr
      · obtain ⟨k, hk, rfl⟩ := List.mem_map.1 hc
        simp only [List.mem_filter, decide_eq_true_eq] at hk
        simp only at hpath
        subst hpath
        exact hk.2 (List.mem_map.2 ⟨(k, n), hmem, rfl⟩)
  · intro k
    rw [← hseen k]
    constructor
    · intro h
      rcases List.mem_append.1 h with h | h
      · rw [List.mem_filterMap] at h
        obtain ⟨e, he, hr⟩ := h
        simp only [Option.map_eq_some'] at hr
        obtain ⟨r, hr, hrc⟩ := hr
        exfalso
        unfold scanResult at hr
        split at hr
        · simp at hr; rw [← hr] at hrc; simp at hrc
        · simp at hr; rw [← hr] at hrc; simp at hrc
        · split at hr
          · simp at hr; rw [← hr] at hrc; simp at hrc
          · simp at hr
      · obtain ⟨k', hk, hc⟩ := List.mem_map.1 h
        simp only [Change.mk.injEq, and_true] at hc
        subst hc
        simpa [List.mem_filter] using hk
    · rintro ⟨h1, h2⟩
      apply List.mem_append_right
      exact List.mem_map.2 ⟨k, by simp [List.mem_filter, h1, h2], rfl⟩

/-- The specification's scenario, with the content standing for its digest:
the baseline has `a.txt` with `hello`, the sandbox edits it and adds `b.txt`;
the full scan reports exactly these two changes, and after the baseline update
a second scan reports none. -/
theorem fullScan_scenario :
    (computeChanges demoHash {}
        (.dir [("a.txt", .file "hello world\n"), ("b.txt", .file "new\n")])
        (ensureBaseline demoHash {} (.dir [("a.txt", .file "hello\n")])).files none).changes =
      [⟨["a.txt"], .modified, some (.file "hello world\n" 12)⟩,
       ⟨["b.txt"], .added, some (.file "new\n" 4)⟩] ∧
    (computeChanges demoHash {}
        (.dir [("a.txt", .file "hello world\n"), ("b.txt", .file "new\n")])
        (recordRunBaseline demoHash {}
          (.dir [("a.txt", .file "hello world\n"), ("b.txt", .file "new\n")])
          (ensureBaseline demoHash {} (.dir [("a.txt", .file "hello\n")])) none).files
        none).changes = [] := by
  decide


/-! ## The commands of one run -/

theorem codeIsZero_spawnCommand (name : String) (e : ChildExit) :
    (spawnCommand name e).codeIsZero = true ↔ e.code = some 0 := by
  simp [Exit.codeIsZero, spawnCommand]

theorem parallelExits_length (childExit : Nat → ChildExit) :
    ∀ (l : List String) (i : Nat), (parallelExits childExit i l).length = l.length
  | [], _ => rfl
  | _ :: rest, i => by simp [parallelExits, parallelExits_length childExit rest (i + 1)]

theorem parallelExits_getElem? (childExit : Nat → ChildExit) :
    ∀ (l : List String) (i j : Nat),
      (parallelExits childExit i l)[j]? =
        (l[j]?).map fun name => spawnCommand name (childExit (i + j))
  | [], _, _ => by simp [parallelExits]
  | _ :: _, _, 0 => by simp [parallelExits]
  | _ :: rest, i, j + 1 => by
    simp only [parallelExits, List.getElem?_cons_succ]
    rw [parallelExits_getElem? childExit rest (i + 1) j]
    have : i + 1 + j = i + (j + 1) := by omega
    rw [this]

theorem parallelExits_all (childExit : Nat → ChildExit) :
    ∀ (l : List String) (i : Nat),
      (parallelExits childExit i l).all Exit.codeIsZero = true ↔
        ∀ j, j < l.length → (childExit (i + j)).code = some 0
  | [], _ => by simp [parallelExits]
  | name :: rest, i => by
    simp only [parallelExits, List.all_cons, Bool.and_eq_true, codeIsZero_spawnCommand,
      parallelExits_all childExit rest (i + 1), List.length_cons]
    constructor
    · rintro ⟨h0, hrest⟩ j hj
      cases j with
      | zero => simpa using h0
      | succ j =>
        have := hrest j (by omega)
        have e : i + 1 + j = i + (j + 1) := by omega
        rwa [e] at this
    · intro h
      refine ⟨by simpa using h 0 (by omega), fun j hj => ?_⟩
      have := h (j + 1) (by omega)
      have e : i + 1 + j = i + (j + 1) := by omega
      rwa [e]

/-- The process events of running `n` commands one after the other, the first
of them at position `i`. -/
theorem oneByOne_succ (n : Nat) :
    oneByOne (n + 1) = oneByOne n ++ [.spawn n, .exit n] := by
  simp [oneByOne, List.range_succ, List.flatMap_append]



theorem sequentialLoop_spec (childExit : Nat → ChildExit) :
    ∀ (l : List String) (i : Nat), ∃ n, n ≤ l.length ∧ (l ≠ [] → 0 < n) ∧
      (sequentialLoop childExit i l).1 =
        (List.range n).flatMap (fun j => [ProcEvent.spawn (i + j), ProcEvent.exit (i + j)]) ∧
      (sequentialLoop childExit i l).2 = parallelExits childExit i (l.take n) ∧
      (∀ j, j + 1 < n → (childExit (i + j)).code = some 0) ∧
      (n < l.length → (childExit (i + (n - 1))).code ≠ some 0)
  | [], i => ⟨0, by simp [sequentialLoop, parallelExits]⟩
  | name :: rest, i => by
    by_cases h0 : (childExit i).code = some 0
    · obtain ⟨n, hn, _, htrace, hexits, hzero, hstop⟩ := sequentialLoop_spec childExit rest (i + 1)
      refine ⟨n + 1, by simpa using hn, fun _ => by omega, ?_, ?_, ?_, ?_⟩
      · have hz : (spawnCommand name (childExit i)).codeIsZero = true :=
          (codeIsZero_spawnCommand name _).2 h0
        simp only [sequentialLoop, hz, if_true, htrace, List.range_succ_eq_map, List.flatMap_cons,
          List.flatMap_map, Nat.add_zero, List.cons_append, List.nil_append, List.singleton_append]
        congr 2
        apply List.flatMap_congr
        intro j _
        have e : i + 1 + j = i + (j + 1) := by omega
        simp [e]
      · have hz : (spawnCommand name (childExit i)).codeIsZero = true :=
          (codeIsZero_spawnCommand name _).2 h0
        simp only [sequentialLoop, hz, if_true, hexits, List.take_succ_cons, parallelExits]
      · intro j hj
        cases j with
        | zero => simpa using h0
        | succ j =>
          have := hzero j (by omega)
          have e : i + 1 + j = i + (j + 1) := by omega
          rwa [e] at this
      · intro hlt
        have hlt2 : n < rest.length := by simpa using hlt
        have := hstop hlt2
        have hpos : 0 < n := by
          cases rest with
          | nil => simp at hlt2
          | cons a r => exact (by assumption : (a :: r ≠ [] → 0 < n)) (by simp)
        have e : i + 1 + (n - 1) = i + (n + 1 - 1) := by omega
        rwa [e] at this
    · have hz : (spawnCommand name (childExit i)).codeIsZero = false := by
        rw [Bool.eq_false_iff]; intro h; exact h0 ((codeIsZero_spawnCommand name _).1 h)
      refine ⟨1, by simp, fun _ => by omega, ?_, ?_, ?_, ?_⟩
      · simp [sequentialLoop, hz, List.range_succ]
      · simp [sequentialLoop, hz, parallelExits]
      · intro j hj; omega
      · intro _; simpa using h0

theorem sequentialLoop_ok (childExit : Nat → ChildExit) (l : List String) (n : Nat)
    (hn : n ≤ l.length)
    (hexits : (sequentialLoop childExit 0 l).2 = parallelExits childExit 0 (l.take n))
    (hstop : n < l.length → (childExit (n - 1)).code ≠ some 0) (hpos : l ≠ [] → 0 < n) :
    ((sequentialLoop childExit 0 l).2.all Exit.codeIsZero = true ↔
      n = l.length ∧ ∀ j, j < l.length → (childExit j).code = some 0) := by
  rw [hexits, parallelExits_all]
  simp only [Nat.zero_add, List.length_take, Nat.min_eq_left hn]
  constructor
  · intro h
    have hfull : n = l.length := by
      by_contra hne
      have hlt : n < l.length := by omega
      have hp : 0 < n := hpos (by intro hl; simp [hl] at hlt)
      exact hstop hlt (h (n - 1) (by omega))
    exact ⟨hfull, fun j hj => h j (by omega)⟩
  · rintro ⟨hfull, h⟩ j hj
    exact h j (by omega)


theorem parallelExits_names (childExit : Nat → ChildExit) :
    ∀ (l : List String) (i : Nat), (parallelExits childExit i l).map Exit.name = l
  | [], _ => rfl
  | _ :: rest, i => by
    simp [parallelExits, spawnCommand, parallelExits_names childExit rest (i + 1)]

/-- In sequential mode the loop stops after some number `n` of commands: it
ran exactly the first `n`, one after the other, all but the last of them
exited with code 0, and it stopped short of the list only on a failure. -/
theorem runCommands_sequential (config : Config) (interrupted : Bool)
    (childExit : Nat → ChildExit) (h : config.parallel = false) :
    ∃ n, n ≤ config.commands.length ∧ (config.commands ≠ [] → 0 < n) ∧
      (runCommands config interrupted childExit).trace = oneByOne n ∧
      (runCommands config interrupted childExit).exits =
        parallelExits childExit 0 (config.commands.take n) ∧
      (∀ j, j + 1 < n → (childExit j).code = some 0) ∧
      (n < config.commands.length → (childExit (n - 1)).code ≠ some 0) ∧
      ((runCommands config interrupted childExit).ok = true ↔
        n = config.commands.length ∧
          ∀ j, j < config.commands.length → (childExit j).code = some 0) ∧
      (runCommands config interrupted childExit).status =
        ⟨(runCommands config interrupted childExit).ok, interrupted,
          (runCommands config interrupted childExit).exits⟩ := by
  obtain ⟨n, hn, hpos, htrace, hexits, hzero, hstop⟩ :=
    sequentialLoop_spec childExit config.commands 0
  simp only [Nat.zero_add] at htrace hzero hstop
  refine ⟨n, hn, hpos, ?_, ?_, hzero, hstop, ?_, ?_⟩
  · simp [runCommands, h, htrace, oneByOne]
  · simp [runCommands, h, hexits]
  · have := sequentialLoop_ok childExit config.commands n hn hexits hstop hpos
    simpa [runCommands, h] using this
  · simp [runCommands, h]

/-! ## The output capture -/

theorem Capture.get_set (outputs : Capture) (name : String) (value : CaptureEntry)
    (other : String) :
    (outputs.set name value).get other = if name = other then some value else outputs.get other := by
  induction outputs with
  | nil =>
    by_cases h : name = other <;> simp [Capture.set, Capture.get, h]
  | cons kv rest ih =>
    obtain ⟨k, v⟩ := kv
    by_cases hk : k = name
    · subst hk
      by_cases h : k = other <;> simp [Capture.set, Capture.get, h]
    · by_cases hko : k = other
      · subst hko
        have : ¬ name = k := fun h => hk h.symm
        simp [Capture.set, Capture.get, hk, this]
      · simp [Capture.set, Capture.get, hk, hko, ih]

theorem entry_append (maxBytes : Nat) (outputs : Capture) (l : OutputLine) (name : String) :
    (append maxBytes outputs l).entry name =
      if l.name = name then appendEntry maxBytes (outputs.entry name) l.stream l.line
      else outputs.entry name := by
  unfold append Capture.entry
  rw [Capture.get_set]
  by_cases h : l.name = name
  · subst h; simp
  · simp [h]

theorem captureAll_concat (maxBytes : Nat) (calls : List OutputLine) (l : OutputLine) :
    captureAll maxBytes (calls ++ [l]) = append maxBytes (captureAll maxBytes calls) l := by
  simp [captureAll, List.foldl_append]

theorem streamText_concat (calls : List OutputLine) (l : OutputLine) (name : String)
    (stderr : Bool) :
    streamText (calls ++ [l]) name stderr =
      streamText calls name stderr ++ (if l.onStream name stderr then l.line ++ [newline] else []) := by
  unfold streamText
  by_cases h : l.onStream name stderr = true
  · simp [List.filter_append, h, List.flatMap_append]
  · simp [List.filter_append, h]

/-- One step of the buffer: cutting the cut buffer plus a new line is cutting
the whole text plus that line, and the ceiling is exceeded at this step exactly
when the whole text is longer than the ceiling. -/
theorem lastUnits_step (m : Nat) (t x : JsString) (hx : 0 < x.length) :
    (if m < (lastUnits m t ++ x).length
      then (lastUnits m t ++ x).drop ((lastUnits m t ++ x).length - m)
      else lastUnits m t ++ x) = lastUnits m (t ++ x) ∧
    (m < (lastUnits m t ++ x).length ↔ m < (t ++ x).length) := by
  unfold lastUnits
  by_cases ht : t.length ≤ m
  · have h0 : t.length - m = 0 := by omega
    rw [h0, List.drop_zero]
    refine ⟨?_, Iff.rfl⟩
    by_cases hw : m < (t ++ x).length
    · rw [if_pos hw]
    · have h1 : (t ++ x).length - m = 0 := by omega
      rw [if_neg hw, h1, List.drop_zero]
  · have hlen : (List.drop (t.length - m) t).length = m := by
      rw [List.length_drop]; omega
    have hw : m < (List.drop (t.length - m) t ++ x).length := by
      rw [List.length_append, hlen]; omega
    have hw2 : m < (t ++ x).length := by
      rw [List.length_append]; omega
    refine ⟨?_, ⟨fun _ => hw2, fun _ => hw⟩⟩
    rw [if_pos hw]
    have e1 : (List.drop (t.length - m) t ++ x).length - m = x.length := by
      rw [List.length_append, hlen]; omega
    have e2 : (t ++ x).length - m = (t.length - m) + x.length := by
      rw [List.length_append]; omega
    rw [e1, e2, ← List.drop_drop]
    congr 1
    rw [List.drop_append_of_le_length (by omega)]

theorem lastUnits_length (m : Nat) (t : JsString) :
    (lastUnits m t).length = min t.length m := by
  unfold lastUnits
  rw [List.length_drop]
  omega

theorem appendEntry_stderr (maxBytes : Nat) (entry : CaptureEntry) (line : JsString) :
    (appendEntry maxBytes entry "stderr" line).stdout = entry.stdout ∧
    (appendEntry maxBytes entry "stderr" line).stderr =
      (if maxBytes < (entry.stderr ++ (line ++ [newline])).length
        then (entry.stderr ++ (line ++ [newline])).drop
          ((entry.stderr ++ (line ++ [newline])).length - maxBytes)
        else entry.stderr ++ (line ++ [newline])) ∧
    (appendEntry maxBytes entry "stderr" line).truncated =
      (entry.truncated || decide (maxBytes < (entry.stderr ++ (line ++ [newline])).length)) := by
  unfold appendEntry
  simp only [CaptureEntry.buffer, CaptureEntry.setBuffer, if_true, List.append_assoc]
  generalize entry.stderr ++ (line ++ [newline]) = w
  by_cases h : maxBytes < w.length
  · simp [h]
  · simp [h]

theorem appendEntry_stdout (maxBytes : Nat) (entry : CaptureEntry) (stream : String)
    (line : JsString) (hs : stream ≠ "stderr") :
    (appendEntry maxBytes entry stream line).stderr = entry.stderr ∧
    (appendEntry maxBytes entry stream line).stdout =
      (if maxBytes < (entry.stdout ++ (line ++ [newline])).length
        then (entry.stdout ++ (line ++ [newline])).drop
          ((entry.stdout ++ (line ++ [newline])).length - maxBytes)
        else entry.stdout ++ (line ++ [newline])) ∧
    (appendEntry maxBytes entry stream line).truncated =
      (entry.truncated || decide (maxBytes < (entry.stdout ++ (line ++ [newline])).length)) := by
  unfold appendEntry
  simp only [CaptureEntry.buffer, CaptureEntry.setBuffer, if_neg hs, List.append_assoc]
  generalize entry.stdout ++ (line ++ [newline]) = w
  by_cases h : maxBytes < w.length
  · simp [h]
  · simp [h]

/-- The entry of a command after any sequence of calls: each buffer is the
tail of what the command wrote to that stream, and the flag tells whether one
of the two streams wrote more than the ceiling. -/
theorem captureAll_entry (maxBytes : Nat) (calls : List OutputLine) (name : String) :
    ((captureAll maxBytes calls).entry name).stdout =
      lastUnits maxBytes (streamText calls name false) ∧
    ((captureAll maxBytes calls).entry name).stderr =
      lastUnits maxBytes (streamText calls name true) ∧
    (((captureAll maxBytes calls).entry name).truncated = true ↔
      maxBytes < (streamText calls name false).length ∨
        maxBytes < (streamText calls name true).length) := by
  induction calls using List.reverseRecOn with
  | nil => simp [captureAll, Capture.entry, Capture.get, streamText, lastUnits]
  | append_singleton calls l ih =>
    obtain ⟨hout, herr, htr⟩ := ih
    rw [captureAll_concat, entry_append, streamText_concat, streamText_concat]
    by_cases hname : l.name = name
    · rw [if_pos hname]
      have hx : 0 < (l.line ++ [newline]).length := by simp
      by_cases hs : l.stream = "stderr"
      · have hon : l.onStream name true = true := by simp [OutputLine.onStream, hname, hs]
        have hoff : l.onStream name false = false := by simp [OutputLine.onStream, hname, hs]
        obtain ⟨h1, h2, h3⟩ := appendEntry_stderr maxBytes ((captureAll maxBytes calls).entry name) l.line
        rw [hs, h1, h2, h3, hon, hoff, herr]
        obtain ⟨hcut, hiff⟩ := lastUnits_step maxBytes (streamText calls name true) _ hx
        simp only [if_true, Bool.false_eq_true, if_false, List.append_nil]
        refine ⟨hout, hcut, ?_⟩
        rw [Bool.or_eq_true, htr, decide_eq_true_iff, hiff]
        simp only [List.length_append]
        constructor
        · rintro ((h | h) | h)
          · exact Or.inl h
          · exact Or.inr (by omega)
          · exact Or.inr h
        · rintro (h | h)
          · exact Or.inl (Or.inl h)
          · exact Or.inr h
      · have hon : l.onStream name false = true := by simp [OutputLine.onStream, hname, hs]
        have hoff : l.onStream name true = false := by simp [OutputLine.onStream, hname, hs]
        obtain ⟨h1, h2, h3⟩ :=
          appendEntry_stdout maxBytes ((captureAll maxBytes calls).entry name) l.stream l.line hs
        rw [h1, h2, h3, hon, hoff, hout]
        obtain ⟨hcut, hiff⟩ := lastUnits_step maxBytes (streamText calls name false) _ hx
        simp only [if_true, Bool.false_eq_true, if_false, List.append_nil]
        refine ⟨hcut, herr, ?_⟩
        rw [Bool.or_eq_true, htr, decide_eq_true_iff, hiff]
        simp only [List.length_append]
        constructor
        · rintro ((h | h) | h)
          · exact Or.inl (by omega)
          · exact Or.inr h
          · exact Or.inl h
        · rintro (h | h)
          · exact Or.inr h
          · exact Or.inl (Or.inr h)
    · rw [if_neg hname]
      have hoff : ∀ b, l.onStream name b = false := by
        intro b; simp [OutputLine.onStream, hname]
      simp only [hoff, Bool.false_eq_true, if_false, List.append_nil]
      exact ⟨hout, herr, htr⟩

/-- The flag after `append`: it was set before, or this call sets it. -/
theorem truncated_append (maxBytes : Nat) (outputs : Capture) (l : OutputLine) :
    ((append maxBytes outputs l).entry l.name).truncated =
      ((outputs.entry l.name).truncated || exceedsCeiling maxBytes outputs l) := by
  rw [entry_append, if_pos rfl]
  unfold exceedsCeiling
  by_cases hs : l.stream = "stderr"
  · rw [hs, (appendEntry_stderr maxBytes _ l.line).2.2]
    simp [CaptureEntry.buffer]
  · rw [(appendEntry_stdout maxBytes _ l.stream l.line hs).2.2]
    simp [CaptureEntry.buffer, hs]

/-- The flag of a command is set exactly when one of the calls for that
command took the branch that cuts the buffer. -/
theorem truncated_iff_exceeded (maxBytes : Nat) (calls : List OutputLine) (name : String) :
    ((captureAll maxBytes calls).entry name).truncated = true ↔
      ∃ before l after, calls = before ++ l :: after ∧ l.name = name ∧
        exceedsCeiling maxBytes (captureAll maxBytes before) l = true := by
  induction calls using List.reverseRecOn with
  | nil => simp [captureAll, Capture.entry, Capture.get]
  | append_singleton calls l ih =>
    rw [captureAll_concat]
    constructor
    · intro h
      by_cases hname : l.name = name
      · subst hname
        rw [truncated_append, Bool.or_eq_true] at h
        rcases h with h | h
        · obtain ⟨before, c, after, hc, hn, hex⟩ := ih.1 h
          exact ⟨before, c, after ++ [l], by simp [hc], hn, hex⟩
        · exact ⟨calls, l, [], rfl, rfl, h⟩
      · rw [entry_append, if_neg hname] at h
        obtain ⟨before, c, after, hc, hn, hex⟩ := ih.1 h
        exact ⟨before, c, after ++ [l], by simp [hc], hn, hex⟩
    · rintro ⟨before, c, after, hc, hn, hex⟩
      rcases List.eq_nil_or_concat after with hnil | ⟨after1, last, hlast⟩
      · subst hnil
        obtain ⟨hpre, hboth⟩ := List.append_inj' hc (by simp)
        have hl : l = c := by simpa using hboth
        subst hpre; subst hl
        subst hn
        rw [truncated_append, Bool.or_eq_true]
        exact Or.inr hex
      · subst hlast
        have hc2 : calls ++ [l] = (before ++ c :: after1) ++ [last] := by simp [hc]
        have hpre : calls = before ++ c :: after1 := (List.append_inj' hc2 (by simp)).1
        have hold := ih.2 ⟨before, c, after1, hpre, hn, hex⟩
        rw [entry_append]
        by_cases hname : l.name = name
        · rw [if_pos hname]
          by_cases hs : l.stream = "stderr"
          · rw [hs, (appendEntry_stderr maxBytes _ l.line).2.2, hold]; rfl
          · rw [(appendEntry_stdout maxBytes _ l.stream l.line hs).2.2, hold]; rfl
        · rw [if_neg hname]; exact hold

/-! ## Diffs of the changes of a run -/

theorem cutPatch_spec (maxDiffBytes : Nat) (patch : JsString) :
    cutPatch maxDiffBytes patch =
        .patch (patch.take maxDiffBytes) (decide (maxDiffBytes < patch.length)) ∧
      (patch.take maxDiffBytes).length ≤ maxDiffBytes ∧
      (patch.length ≤ maxDiffBytes → patch.take maxDiffBytes = patch) := by
  refine ⟨?_, ?_, fun h => List.take_of_length_le h⟩
  · unfold cutPatch
    by_cases h : maxDiffBytes < patch.length
    · simp [h]
    · have : patch.take maxDiffBytes = patch := List.take_of_length_le (by omega)
      simp [h, this]
  · rw [List.length_take]; exact Nat.min_le_left _ _

theorem readTextMaybe_file (root : Node) (rel : RelPath) (maxBytes : Nat) (content : String)
    (h : statAt root rel = some (.file content)) :
    readTextMaybe root rel maxBytes =
      .ok (if content.utf8ByteSize > maxBytes then .skipped "too_large" content.utf8ByteSize
        else if hasNullByte content then .skipped "binary" content.utf8ByteSize
        else .text (js content) content.utf8ByteSize) := by
  unfold readTextMaybe
  rw [h]
  by_cases h1 : content.utf8ByteSize > maxBytes
  · simp [h1]
  · by_cases h2 : hasNullByte content = true
    · simp [h1, h2]
    · simp [h1, h2]

/-- A text returned by `readTextMaybe` is the text of a regular file within
the limit and free of null bytes. -/
theorem readTextMaybe_text (root : Node) (rel : RelPath) (maxBytes : Nat) (text : JsString)
    (size : Nat) (h : readTextMaybe root rel maxBytes = .ok (.text text size)) :
    ∃ content, statAt root rel = some (.file content) ∧ text = js content ∧
      content.utf8ByteSize ≤ maxBytes ∧ hasNullByte content = false := by
  unfold readTextMaybe at h
  cases hs : statAt root rel with
  | none => rw [hs] at h; cases h
  | some n =>
    rw [hs] at h
    cases n with
    | file content =>
      simp only at h
      by_cases h1 : content.utf8ByteSize > maxBytes
      · rw [if_pos h1] at h; cases h
      · rw [if_neg h1] at h
        by_cases h2 : hasNullByte content = true
        · rw [if_pos h2] at h; cases h
        · rw [if_neg h2] at h
          injection h with h
          injection h with ht _
          exact ⟨content, rfl, ht.symm, by omega, by simpa using h2⟩
    | symlink t f => cases h
    | other => cases h
    | dir es => cases h

/-- Whenever `computeDiffForChange` returns a diff text, the text is the cut
of the patch between the texts read from the baseline store and the sandbox,
the empty text standing for the missing side. -/
theorem computeDiffForChange_patch (createTwoFilesPatch : Patcher) (aiConfig : AiConfig)
    (sandbox store : Node) (rel : RelPath) (type : ChangeType) (d : JsString) (t : Bool)
    (h : computeDiffForChange createTwoFilesPatch aiConfig sandbox store rel type =
      .ok (some (.patch d t))) :
    ∃ oldText newText,
      cutPatch aiConfig.maxDiffBytes (createTwoFilesPatch rel oldText newText) = .patch d t ∧
      (type = .added → oldText = []) ∧ (type = .deleted → newText = []) ∧
      (type ≠ .added → ∃ size,
        readTextMaybe store rel aiConfig.maxFileBytes = .ok (.text oldText size)) ∧
      (type ≠ .deleted → ∃ size,
        readTextMaybe sandbox rel aiConfig.maxFileBytes = .ok (.text newText size)) := by
  cases type with
  | deleted =>
    simp only [computeDiffForChange] at h
    split at h
    · cases h
    · split at h
      · cases h
      · cases h
      · rename_i prev size hr
        injection h with h
        injection h with h
        exact ⟨prev, [], h, by simp, by simp, fun _ => ⟨size, hr⟩, by simp⟩
  | added =>
    simp only [computeDiffForChange] at h
    split at h
    · cases h
    · split at h
      · cases h
      · cases h
      · rename_i next size hr
        injection h with h
        injection h with h
        exact ⟨[], next, h, by simp, by simp, by simp, fun _ => ⟨size, hr⟩⟩
  | modified =>
    simp only [computeDiffForChange] at h
    split at h
    · cases h
    · split at h
      · cases h
      · rename_i prev hp
        split at h
        · cases h
        · rename_i next hn
          split at h
          · cases h
          · cases h
          · rename_i prevText s1 nextText s2
            split at h
            · cases h
            · injection h with h
              injection h with h
              exact ⟨prevText, nextText, h, by simp, by simp,
                fun _ => ⟨s1, hp⟩, fun _ => ⟨s2, hn⟩⟩

theorem pathExists_of_stat (root : Node) (rel : RelPath) (n : Node)
    (h : statAt root rel = some n) : pathExists root rel = true := by
  simp [pathExists, h]

theorem readTextMaybe_exists (root : Node) (rel : RelPath) (maxBytes : Nat) (r : TextRead)
    (h : readTextMaybe root rel maxBytes = .ok r) : pathExists root rel = true := by
  unfold readTextMaybe at h
  cases hs : statAt root rel with
  | none => rw [hs] at h; cases h
  | some n => simp [pathExists, hs]

/-- An added file whose read is skipped: the diff is `null` with the reason of
the read. -/
theorem computeDiff_added_skipped (createTwoFilesPatch : Patcher) (aiConfig : AiConfig)
    (sandbox store : Node) (rel : RelPath) (reason : String) (size : Nat)
    (h : readTextMaybe sandbox rel aiConfig.maxFileBytes = .ok (.skipped reason size)) :
    computeDiffForChange createTwoFilesPatch aiConfig sandbox store rel .added =
      .ok (some (.skipped reason size)) := by
  simp [computeDiffForChange, readTextMaybe_exists _ _ _ _ h, h]

theorem computeDiff_deleted_skipped (createTwoFilesPatch : Patcher) (aiConfig : AiConfig)
    (sandbox store : Node) (rel : RelPath) (reason : String) (size : Nat)
    (h : readTextMaybe store rel aiConfig.maxFileBytes = .ok (.skipped reason size)) :
    computeDiffForChange createTwoFilesPatch aiConfig sandbox store rel .deleted =
      .ok (some (.skipped reason size)) := by
  simp [computeDiffForChange, readTextMaybe_exists _ _ _ _ h, h]

/-- A modified file: a skipped read of the baseline side gives its reason;
otherwise a skipped read of the sandbox side gives its reason. -/
theorem computeDiff_modified_skipped (createTwoFilesPatch : Patcher) (aiConfig : AiConfig)
    (sandbox store : Node) (rel : RelPath) (prev next : TextRead)
    (hp : readTextMaybe store rel aiConfig.maxFileBytes = .ok prev)
    (hn : readTextMaybe sandbox rel aiConfig.maxFileBytes = .ok next) :
    (∀ reason size, prev = .skipped reason size →
      computeDiffForChange createTwoFilesPatch aiConfig sandbox store rel .modified =
        .ok (some (.skipped reason size))) ∧
    (∀ text s reason size, prev = .text text s → next = .skipped reason size →
      computeDiffForChange createTwoFilesPatch aiConfig sandbox store rel .modified =
        .ok (some (.skipped reason size))) := by
  constructor
  · intro reason size hprev
    subst hprev
    simp [computeDiffForChange, readTextMaybe_exists _ _ _ _ hp, readTextMaybe_exists _ _ _ _ hn,
      hp, hn]
  · intro text s reason size hprev hnext
    subst hprev; subst hnext
    simp [computeDiffForChange, readTextMaybe_exists _ _ _ _ hp, readTextMaybe_exists _ _ _ _ hn,
      hp, hn]

theorem computeDiff_added_text (createTwoFilesPatch : Patcher) (aiConfig : AiConfig)
    (sandbox store : Node) (rel : RelPath) (text : JsString) (size : Nat)
    (h : readTextMaybe sandbox rel aiConfig.maxFileBytes = .ok (.text text size)) :
    computeDiffForChange createTwoFilesPatch aiConfig sandbox store rel .added =
      .ok (some (cutPatch aiConfig.maxDiffBytes (createTwoFilesPatch rel [] text))) := by
  simp [computeDiffForChange, readTextMaybe_exists _ _ _ _ h, h]

theorem computeDiff_deleted_text (createTwoFilesPatch : Patcher) (aiConfig : AiConfig)
    (sandbox store : Node) (rel : RelPath) (text : JsString) (size : Nat)
    (h : readTextMaybe store rel aiConfig.maxFileBytes = .ok (.text text size)) :
    computeDiffForChange createTwoFilesPatch aiConfig sandbox store rel .deleted =
      .ok (some (cutPatch aiConfig.maxDiffBytes (createTwoFilesPatch rel text []))) := by
  simp [computeDiffForChange, readTextMaybe_exists _ _ _ _ h, h]

theorem computeDiff_modified_text (createTwoFilesPatch : Patcher) (aiConfig : AiConfig)
    (sandbox store : Node) (rel : RelPath) (prevText nextText : JsString) (s1 s2 : Nat)
    (hp : readTextMaybe store rel aiConfig.maxFileBytes = .ok (.text prevText s1))
    (hn : readTextMaybe sandbox rel aiConfig.maxFileBytes = .ok (.text nextText s2)) :
    computeDiffForChange createTwoFilesPatch aiConfig sandbox store rel .modified =
      if prevText = nextText then .ok none
      else .ok (some (cutPatch aiConfig.maxDiffBytes
        (createTwoFilesPatch rel prevText nextText))) := by
  simp [computeDiffForChange, readTextMaybe_exists _ _ _ _ hp, readTextMaybe_exists _ _ _ _ hn,
    hp, hn]

/-- A change of a regular file, or a deletion: `enrichChange` goes through
`computeDiffForChange`. -/
theorem enrichChange_regular (createTwoFilesPatch : Patcher) (aiConfig : AiConfig)
    (sandbox store : Node) (change : Change)
    (hreg : change.info = none ∨ ∃ hash size, change.info = some (.file hash size))
    (r : Option DiffInfo)
    (h : computeDiffForChange createTwoFilesPatch aiConfig sandbox store change.path change.type =
      .ok r) :
    enrichChange createTwoFilesPatch aiConfig sandbox store change =
      .ok ⟨change, match r with
        | some diffInfo => diffInfo.toFields
        | none => .absent⟩ := by
  unfold enrichChange
  rcases hreg with hnone | ⟨hash, size, hfile⟩
  · rw [hnone]
    simp only [h]
    cases r <;> rfl
  · rw [hfile]
    simp only [h]
    cases r <;> rfl

/-- The loop returns the results of its body, change by change. -/
theorem enrichAll_index (createTwoFilesPatch : Patcher) (aiConfig : AiConfig)
    (sandbox store : Node) :
    ∀ (changes : List Change) (enriched : List EnrichedChange),
      enrichAll createTwoFilesPatch aiConfig sandbox store changes = .ok enriched →
      enriched.length = changes.length ∧
      ∀ (i : Nat) (change : Change), changes[i]? = some change →
        ∃ e, enriched[i]? = some e ∧
          enrichChange createTwoFilesPatch aiConfig sandbox store change = .ok e
  | [], enriched, h => by
    simp only [enrichAll] at h
    injection h with h
    subst h
    simp
  | c :: rest, enriched, h => by
    simp only [enrichAll] at h
    split at h
    · cases h
    · rename_i first hfirst
      split at h
      · cases h
      · rename_i others hothers
        injection h with h
        subst h
        obtain ⟨hlen, hidx⟩ := enrichAll_index createTwoFilesPatch aiConfig sandbox store rest others hothers
        refine ⟨by simp [hlen], ?_⟩
        intro i change hi
        cases i with
        | zero =>
          simp only [List.getElem?_cons_zero, Option.some.injEq] at hi
          subst hi
          exact ⟨first, by simp, hfirst⟩
        | succ i =>
          simp only [List.getElem?_cons_succ] at hi ⊢
          exact hidx i change hi

theorem enrichChangesWithDiff_verbose (createTwoFilesPatch : Patcher) (aiConfig : AiConfig)
    (sandbox store : Node) (changes : List Change) (hv : aiConfig.verbose = true) :
    enrichChangesWithDiff createTwoFilesPatch aiConfig sandbox store changes =
      enrichAll createTwoFilesPatch aiConfig sandbox store changes := by
  simp [enrichChangesWithDiff, hv]

/-- With journaling on, the baseline that `recordRun` leaves is the one
`applyBaselineUpdates` makes from all pending updates of the scan, whatever the
diffs were, as long as no diff threw; when one throws, nothing is written. -/
theorem recordRun_baseline (hashFile : String → String) (createTwoFilesPatch : Patcher)
    (config : Config) (aiConfig : AiConfig) (sandbox : Node) (b : Baseline)
    (changeHint : Option ChangeHint) (hen : aiConfig.enabled = true) :
    (∀ enriched,
      enrichChangesWithDiff createTwoFilesPatch aiConfig sandbox b.store
        (computeChanges hashFile config sandbox b.files changeHint).changes = .ok enriched →
      (recordRun hashFile createTwoFilesPatch config aiConfig sandbox b changeHint).baseline =
        recordRunBaseline hashFile config sandbox b changeHint) ∧
    (∀ e,
      enrichChangesWithDiff createTwoFilesPatch aiConfig sandbox b.store
        (computeChanges hashFile config sandbox b.files changeHint).changes = .error e →
      (recordRun hashFile createTwoFilesPatch config aiConfig sandbox b changeHint).baseline.store =
        b.store ∧
      (recordRun hashFile createTwoFilesPatch config aiConfig sandbox b changeHint).changes =
        none) ∧
    (∀ enriched,
      (recordRun hashFile createTwoFilesPatch config aiConfig sandbox b changeHint).changes =
        some enriched →
      enrichChangesWithDiff createTwoFilesPatch aiConfig sandbox b.store
        (computeChanges hashFile config sandbox b.files changeHint).changes = .ok enriched) := by
  refine ⟨?_, ?_, ?_⟩
  · intro enriched h
    simp only [recordRun, hen, h, recordRunBaseline]
    simp only [Bool.not_true, Bool.false_eq_true, if_false]
    split <;> rfl
  · intro e h
    simp [recordRun, hen, h]
  · intro enriched h
    simp only [recordRun, hen, Bool.not_true, Bool.false_eq_true, if_false] at h
    split at h
    · cases h
    · rename_i changes hch
      split at h
      · injection h with h
        rw [hch, h]
      · cases h

/-! ## The watcher -/

theorem triggerRun_timers (w : Watcher) (h : w.OneTimer) :
    (triggerRun w).timers = [w.nextTimer] ∧ (triggerRun w).debounceTimer = some w.nextTimer ∧
      (triggerRun w).nextTimer = w.nextTimer + 1 ∧ (triggerRun w).requests = w.requests ∧
      (triggerRun w).pendingChanges = w.pendingChanges ∧
      (triggerRun w).pendingFullScan = w.pendingFullScan := by
  refine ⟨?_, rfl, rfl, rfl, rfl, rfl⟩
  rcases h with h | ⟨id, h1, h2⟩
  · unfold triggerRun
    simp only [h]
    cases w.debounceTimer <;> simp
  · unfold triggerRun
    simp [h1, h2]

theorem setAdd_nodup (s : List RelPath) (rel : RelPath) (h : s.Nodup) : (setAdd s rel).Nodup := by
  unfold setAdd
  by_cases hm : rel ∈ s
  · rw [if_pos hm]; exact h
  · rw [if_neg hm]
    exact List.Nodup.append h (List.nodup_singleton rel) (by simpa using hm)

theorem mem_setAdd (s : List RelPath) (rel p : RelPath) : p ∈ setAdd s rel ↔ p ∈ s ∨ p = rel := by
  unfold setAdd
  by_cases hm : rel ∈ s
  · rw [if_pos hm]
    constructor
    · exact Or.inl
    · rintro (h | h)
      · exact h
      · rw [h]; exact hm
  · rw [if_neg hm]; simp

/-- One event inside the sandbox: the timer is set anew, the number of
requests is unchanged, and the pending set and flag take the event in. -/
theorem recordChange_inside (allow : Bool) (w : Watcher) (e : WatchEvent) (h : w.OneTimer)
    (hin : outsideSandbox e.rel = false) :
    (recordChange allow w e).timers = [w.nextTimer] ∧
    (recordChange allow w e).debounceTimer = some w.nextTimer ∧
    (recordChange allow w e).nextTimer = w.nextTimer + 1 ∧
    (recordChange allow w e).requests = w.requests ∧
    (recordChange allow w e).pendingChanges =
      (if e.type = .file then setAdd w.pendingChanges e.rel else w.pendingChanges) ∧
    (recordChange allow w e).pendingFullScan =
      (w.pendingFullScan || (allow && decide (e.type = .dir))) := by
  unfold recordChange
  rw [hin]
  simp only [Bool.false_eq_true, if_false]
  cases he : e.type with
  | dir =>
    cases allow with
    | false =>
      obtain ⟨h1, h2, h3, h4, h5, h6⟩ := triggerRun_timers w h
      simp [h1, h2, h3, h4, h5, h6]
    | true =>
      have h' : Watcher.OneTimer { w with pendingFullScan := true } := h
      obtain ⟨h1, h2, h3, h4, h5, h6⟩ := triggerRun_timers _ h'
      simp only [Bool.not_true, Bool.false_eq_true, if_false]
      simp [h1, h2, h3, h4, h5, h6]
  | file =>
    have h' : Watcher.OneTimer { w with pendingChanges := setAdd w.pendingChanges e.rel } := h
    obtain ⟨h1, h2, h3, h4, h5, h6⟩ := triggerRun_timers _ h'
    simp [h1, h2, h3, h4, h5, h6]

theorem oneTimer_of_single (w : Watcher) (id : Nat) (h1 : w.timers = [id])
    (h2 : w.debounceTimer = some id) : w.OneTimer :=
  Or.inr ⟨id, h1, h2⟩

/-- A burst of events inside the sandbox. -/
theorem burst_inside (allow : Bool) :
    ∀ (events : List WatchEvent) (w : Watcher), w.OneTimer →
      (∀ e ∈ events, outsideSandbox e.rel = false) →
      (burst allow w events).requests = w.requests ∧
      (burst allow w events).nextTimer = w.nextTimer + events.length ∧
      (events ≠ [] →
        (burst allow w events).timers = [w.nextTimer + events.length - 1] ∧
        (burst allow w events).debounceTimer = some (w.nextTimer + events.length - 1)) ∧
      (w.pendingChanges.Nodup → (burst allow w events).pendingChanges.Nodup) ∧
      (∀ p, p ∈ (burst allow w events).pendingChanges ↔
        p ∈ w.pendingChanges ∨ p ∈ filePaths events) ∧
      (burst allow w events).pendingFullScan =
        (w.pendingFullScan || (allow && anyDir events))
  | [], w, _, _ => by simp [burst, filePaths, anyDir]
  | e :: rest, w, h, hin => by
    have hine : outsideSandbox e.rel = false := hin e (List.mem_cons_self _ _)
    obtain ⟨h1, h2, h3, h4, h5, h6⟩ := recordChange_inside allow w e h hine
    have hone := oneTimer_of_single _ _ h1 h2
    obtain ⟨r1, r2, r3, r4, r5, r6⟩ := burst_inside allow rest (recordChange allow w e) hone
      (fun x hx => hin x (List.mem_cons_of_mem _ hx))
    have hb : burst allow w (e :: rest) = burst allow (recordChange allow w e) rest := rfl
    rw [hb]
    refine ⟨by rw [r1, h4], by rw [r2, h3, List.length_cons]; omega, ?_, ?_, ?_, ?_⟩
    · intro _
      by_cases hr : rest = []
      · subst hr
        simp [burst, h1, h2]
      · obtain ⟨t1, t2⟩ := r3 hr
        have e1 : (recordChange allow w e).nextTimer + rest.length - 1 =
            w.nextTimer + (e :: rest).length - 1 := by
          rw [h3, List.length_cons]; omega
        rw [t1, t2, e1]
        exact ⟨rfl, rfl⟩
    · intro hnd
      apply r4
      rw [h5]
      by_cases hf : e.type = .file
      · rw [if_pos hf]; exact setAdd_nodup _ _ hnd
      · rw [if_neg hf]; exact hnd
    · intro p
      rw [r5, h5]
      by_cases hf : e.type = .file
      · rw [if_pos hf, mem_setAdd]
        simp only [filePaths, List.filter_cons, hf, beq_self_eq_true, if_true, List.map_cons,
          List.mem_cons]
        tauto
      · rw [if_neg hf]
        have : (e.type == WatchKind.file) = false := by
          rw [beq_eq_false_iff_ne]; exact hf
        simp only [filePaths, List.filter_cons, this, Bool.false_eq_true, if_false]
    · rw [r6, h6]
      simp only [anyDir, List.any_cons]
      cases hk : e.type <;> cases allow <;> cases w.pendingFullScan <;> simp

/-! ## Copying into a destination inside the source -/

theorem replicate_sb_concat (k : Nat) :
    List.replicate k "sb" ++ ["sb"] = List.replicate (k + 1) "sb" := by
  induction k with
  | zero => rfl
  | succ k ih => simp only [List.replicate_succ, List.cons_append, ih]

theorem mkdirAt_sbChain (k : Nat) :
    mkdirAt (sbChain k) (List.replicate (k + 1) "sb") = .ok (sbChain (k + 1)) := by
  induction k with
  | zero => rfl
  | succ k ih =>
    have h : List.replicate (k + 1 + 1) "sb" = "sb" :: List.replicate (k + 1) "sb" := rfl
    rw [h]
    simp only [sbChain, mkdirAt, findEntry, if_true]
    rw [ih]
    simp [setEntry, sbChain]

theorem sbChain_dir (k : Nat) : ∃ es, sbChain k = .dir es := by
  cases k with
  | zero => exact ⟨_, rfl⟩
  | succ k => exact ⟨_, rfl⟩

theorem noLinks_sbChain : ∀ (k : Nat), NoLinks (sbChain k)
  | 0, q, linkTarget, follow, h => by
    cases q with
    | nil => simp [sbChain, entryAt] at h
    | cons a q => simp [sbChain, entryAt, findEntry] at h
  | k + 1, q, linkTarget, follow, h => by
    cases q with
    | nil => simp [sbChain, entryAt] at h
    | cons a q =>
      simp only [sbChain, entryAt, findEntry] at h
      by_cases ha : "sb" = a
      · simp only [ha, if_true] at h
        exact noLinks_sbChain k q linkTarget follow h
      · simp [ha] at h

theorem ensureDir_sbChain (k : Nat) :
    ensureDir (sbChain k) (List.replicate (k + 1) "sb") = .ok (sbChain (k + 1)) := by
  rw [ensureDir_clear _ _ (sbChain_dir k) (fun q _ => noLinks_sbChain k q)]
  exact mkdirAt_sbChain k

theorem lstatAt_sbChain (k : Nat) :
    lstatAt (sbChain (k + 1)) (List.replicate k "sb") = some (.dir [("sb", .dir [])]) := by
  induction k with
  | zero => rfl
  | succ k ih =>
    have h : List.replicate (k + 1) "sb" = "sb" :: List.replicate k "sb" := rfl
    rw [h]
    have hc : childOf (sbChain (k + 1 + 1)) "sb" = some (sbChain (k + 1)) := by
      simp [sbChain, childOf, deref, findEntry]
    simp only [lstatAt, hc, ih]

/-- The tree of an empty repository in which the sandbox directory `sb` has
been nested `k` levels deep. -/
theorem ensureDir_nested (k : Nat) :
    ensureDir (.dir [(".livod", .dir []), ("sb", sbChain k)]) (List.replicate (k + 2) "sb") =
      .ok (.dir [(".livod", .dir []), ("sb", sbChain (k + 1))]) := by
  have hfree : NoLinks (.dir [(".livod", .dir []), ("sb", sbChain k)]) := by
    intro q linkTarget follow h
    cases q with
    | nil => simp [entryAt] at h
    | cons a q =>
      simp only [entryAt, findEntry] at h
      by_cases h1 : ".livod" = a
      · simp only [h1, if_true] at h
        cases q with
        | nil => simp [entryAt] at h
        | cons b q => simp [entryAt, findEntry] at h
      · simp only [h1, if_false] at h
        by_cases h2 : "sb" = a
        · simp only [h2, if_true] at h
          exact noLinks_sbChain k q linkTarget follow h
        · simp [h2] at h
  rw [ensureDir_clear _ _ ⟨_, rfl⟩ (fun q _ => hfree q)]
  have h : List.replicate (k + 2) "sb" = "sb" :: List.replicate (k + 1) "sb" := rfl
  rw [h]
  have hf : findEntry "sb" [(".livod", Node.dir []), ("sb", sbChain k)] = some (sbChain k) := by
    simp [findEntry]
  simp only [mkdirAt, hf, mkdirAt_sbChain]
  simp [setEntry]

theorem readdir_nested (k : Nat) :
    readdir (.dir [(".livod", .dir []), ("sb", sbChain (k + 1))]) (List.replicate (k + 1) "sb") =
      some [("sb", .dir [])] := by
  have h : List.replicate (k + 1) "sb" = "sb" :: List.replicate k "sb" := rfl
  have hc : childOf (.dir [(".livod", .dir []), ("sb", sbChain (k + 1))]) "sb" =
      some (sbChain (k + 1)) := by
    simp [childOf, deref, findEntry]
  simp [readdir, statAt, h, lstatAt, hc, lstatAt_sbChain, deref]

theorem createSandboxIgnore_sb (k : Nat) :
    createSandboxIgnore (makeIgnoreMatcher []) (List.replicate (k + 1) "sb") = false := by
  simp [createSandboxIgnore, makeIgnoreMatcher, List.replicate_succ]

/-- Walking the listing of `sb/.../sb` (`k` levels) in an empty repository
whose sandbox is `sb`: whatever the step budget, the walk is still going when
it runs out, each level making the next one before entering it. -/
theorem walkLive_nested_exhausted :
    ∀ (fuel k : Nat) (r : LiveResult),
      r.fs = .dir [(".livod", .dir []), ("sb", sbChain k)] →
      (walkLive (copyEntryAt [] ["sb"]) (createSandboxIgnore (makeIgnoreMatcher [])) [] fuel
        (List.replicate k "sb") [("sb", .dir [])] r).exhausted = true
  | 0, _, _, _ => rfl
  | fuel + 1, k, r, hr => by
    have hcb : copyEntryAt [] ["sb"] r.fs (List.replicate k "sb" ++ ["sb"]) (.dir []) =
        .ok (.dir [(".livod", .dir []), ("sb", sbChain (k + 1))]) := by
      rw [hr, replicate_sb_concat]
      have : ["sb"] ++ List.replicate (k + 1) "sb" = List.replicate (k + 2) "sb" := rfl
      simp only [copyEntryAt, this]
      exact ensureDir_nested k
    have hrd : readdir (.dir [(".livod", .dir []), ("sb", sbChain (k + 1))])
        ([] ++ (List.replicate k "sb" ++ ["sb"])) = some [("sb", .dir [])] := by
      rw [List.nil_append, replicate_sb_concat]
      exact readdir_nested k
    have hig : createSandboxIgnore (makeIgnoreMatcher []) (List.replicate k "sb" ++ ["sb"]) =
        false := by
      rw [replicate_sb_concat]; exact createSandboxIgnore_sb k
    have ih := walkLive_nested_exhausted fuel (k + 1)
      { r with fs := .dir [(".livod", .dir []), ("sb", sbChain (k + 1))],
               visited := r.visited ++ [List.replicate k "sb" ++ ["sb"]] } rfl
    rw [← replicate_sb_concat k] at ih
    simp only [walkLive, hig, hcb, hrd, Node.isDirectory, Bool.false_eq_true, if_false, if_true]
    split <;> exact ih

theorem copyDirAt_sb_exhausted (cp : Cp) (fuel : Nat) :
    (copyDirAt cp fuel (.dir [(".livod", .dir []), ("sb", .dir [])]) [] ["sb"]
      (createSandboxIgnore (makeIgnoreMatcher []))).exhausted = true := by
  have h1 : ensureDir (.dir [(".livod", .dir []), ("sb", .dir [])]) ["sb"] =
      .ok (.dir [(".livod", .dir []), ("sb", .dir [])]) := by rfl
  have h2 : readdir (.dir [(".livod", .dir []), ("sb", .dir [])]) [] =
      some [(".livod", .dir []), ("sb", .dir [])] := by rfl
  have h3 : leads [] ["sb"] = true := rfl
  simp only [copyDirAt, h1, h2, h3, if_true]
  cases fuel with
  | zero => rfl
  | succ fuel =>
    have hig : createSandboxIgnore (makeIgnoreMatcher []) ([] ++ [".livod"]) = true := by rfl
    simp only [walkLive, hig, if_true]
    exact walkLive_nested_exhausted fuel 0 _ rfl

theorem createSandbox_sb_exhausted (cp : Cp) (fuel : Nat) (sandboxId metaJson : String) :
    (createSandbox cp fuel sandboxId metaJson (.dir []) .absent [] {}
      (some (.relative ["sb"]))).exhausted = true := by
  have hc := copyDirAt_sb_exhausted cp fuel
  have hmade : (((FsResult.mk (.dir []) none).step fun t => ensureDir t ([] ++ [".livod"])).step
      fun t => if pathExists t (resolvePath [] (.relative ["sb"])) then .ok t
        else ensureDir t (resolvePath [] (.relative ["sb"]))) =
      ⟨.dir [(".livod", .dir []), ("sb", .dir [])], none⟩ := by rfl
  have hc2 : (copyDirAt cp fuel (.dir [(".livod", .dir []), ("sb", .dir [])]) []
      (resolvePath [] (.relative ["sb"])) (createSandboxIgnore (makeIgnoreMatcher []))).exhausted =
      true := hc
  simp only [createSandbox, hmade]
  rw [if_pos (by rw [hc2]; simp)]
  exact hc2

/-! ## Resolving the sandbox -/

theorem resolve_updateState (repoRoot : RelPath) (state : StateFile) (sandboxRoot : RelPath) :
    resolveSandboxPath repoRoot (updateState state sandboxRoot) none = some sandboxRoot := by
  cases state <;> rfl

/-- When `createSandbox` returns, the registry it leaves is `updateState` of
the registry it found. -/
theorem createSandbox_state (cp : Cp) (fuel : Nat) (sandboxId metaJson : String) (fs : Node)
    (state : StateFile) (repoRoot : RelPath) (config : Config) (sandboxPath : Option SandboxPath)
    (herr : (createSandbox cp fuel sandboxId metaJson fs state repoRoot config sandboxPath).error =
      none)
    (hdone : (createSandbox cp fuel sandboxId metaJson fs state repoRoot config
      sandboxPath).exhausted = false) :
    (createSandbox cp fuel sandboxId metaJson fs state repoRoot config sandboxPath).state =
      updateState state
        (createSandbox cp fuel sandboxId metaJson fs state repoRoot config sandboxPath).sandboxRoot := by
  unfold createSandbox at herr hdone ⊢
  simp only at herr hdone ⊢
  split
  · next e he =>
    rw [he] at herr
    simp at herr
  · next he =>
    rw [he] at herr hdone
    simp only at herr hdone
    split
    · next hc =>
      rw [if_pos hc] at herr hdone
      simp only at herr hdone
      rw [herr, hdone] at hc
      simp at hc
    · next hc =>
      rw [if_neg hc] at herr
      split
      · next e hw =>
        rw [hw] at herr
        simp at herr
      · rfl

/-! ## What apply leaves alone -/

mutual
theorem walkNode_below (ig : Matcher) : ∀ (node : Node) (base rel : RelPath) (n : Node),
    (rel, n) ∈ walkNode ig base node →
    ∃ name r, rel = base ++ name :: r ∧ ig (base ++ [name]) = false
  | .dir es, base, rel, n, h => by
    simp only [walkNode] at h
    exact walkEntries_below ig es base rel n h
  | .file _, _, _, _, h => by simp [walkNode] at h
  | .symlink _ _, _, _, _, h => by simp [walkNode] at h
  | .other, _, _, _, h => by simp [walkNode] at h
theorem walkEntries_below (ig : Matcher) : ∀ (es : Entries) (base rel : RelPath) (n : Node),
    (rel, n) ∈ walkEntries ig base es →
    ∃ name r, rel = base ++ name :: r ∧ ig (base ++ [name]) = false
  | [], _, _, _, h => by simp [walkEntries] at h
  | (name, c) :: rest, base, rel, n, h => by
    simp only [walkEntries, List.mem_append] at h
    rcases h with h | h
    · split at h
      · simp at h
      · next hig =>
        have hig' : ig (base ++ [name]) = false := by simpa using hig
        rcases List.mem_cons.1 h with h | h
        · simp only [Prod.mk.injEq] at h
          exact ⟨name, [], by simp [h.1], hig'⟩
        · obtain ⟨name', r, hrel, _⟩ := walkNode_below ig c (base ++ [name]) rel n h
          exact ⟨name, name' :: r, by simp [hrel], hig'⟩
    · exact walkEntries_below ig rest base rel n h
end

/-- Every entry the walk reports lies below a top-level name that the ignore
predicate does not match. -/
theorem walkDir_head (ig : Matcher) (root : Node) (rel : RelPath) (n : Node)
    (h : (rel, n) ∈ walkDir root ig) : ∃ name r, rel = name :: r ∧ ig [name] = false := by
  obtain ⟨name, r, hrel, hig⟩ := walkNode_below ig root [] rel n h
  exact ⟨name, r, by simpa using hrel, by simpa using hig⟩

theorem step_keeps (r : FsResult) (op : Node → Except FsError Node) (q : RelPath)
    (hop : ∀ t t2, op t = .ok t2 → entryAt t2 q = entryAt t q) :
    entryAt (r.step op).fs q = entryAt r.fs q := by
  unfold FsResult.step
  cases r.error with
  | some e => rfl
  | none =>
    simp only
    cases h : op r.fs with
    | ok t2 => exact hop _ _ h
    | error e => rfl

theorem leads_other_head (name other : String) (r s : RelPath) (h : other ≠ name) :
    leads (name :: s) (other :: r) = false ∧ leads (other :: r) (name :: s) = false := by
  constructor
  · simp [leads, Ne.symm h]
  · simp [leads, h]

theorem mkdirAt_keeps (name : String) (s : RelPath) (p : RelPath)
    (hp : p = [] ∨ ∃ other r, p = other :: r ∧ other ≠ name) (t t2 : Node)
    (h : mkdirAt t p = .ok t2) : entryAt t2 (name :: s) = entryAt t (name :: s) := by
  apply mkdirAt_frame p t t2 h
  rcases hp with rfl | ⟨other, r, rfl, hne⟩
  · simp [leads]
  · exact (leads_other_head name other r s hne).1

theorem alterAt_keeps (f : Option Node → Except FsError (Option Node)) (name other : String)
    (s r : RelPath) (hne : other ≠ name) (t t2 : Node) (h : alterAt f t (other :: r) = .ok t2) :
    entryAt t2 (name :: s) = entryAt t (name :: s) :=
  alterAt_frame f (other :: r) t t2 h (name :: s) (leads_other_head name other r s hne).1
    (leads_other_head name other r s hne).2

theorem rmRf_keeps (name other : String) (s r : RelPath) (hne : other ≠ name) (t t2 : Node)
    (h : rmRf t (other :: r) = .ok t2) : entryAt t2 (name :: s) = entryAt t (name :: s) := by
  rcases rmRf_ok_cases h with h | ⟨_, rfl⟩
  · exact alterAt_keeps _ name other s r hne t t2 h
  · rfl

theorem copyFile_keeps (src : Node) (name other : String) (s r : RelPath) (hne : other ≠ name)
    (t t2 : Node) (h : copyFile src (other :: r) t (other :: r) = .ok t2) :
    entryAt t2 (name :: s) = entryAt t (name :: s) := by
  unfold copyFile at h
  split at h
  · exact alterAt_keeps _ name other s r hne t t2 h
  · cases h
  · cases h
  · cases h

theorem symlinkAt_keeps (linkTarget : String) (name other : String) (s r : RelPath)
    (hne : other ≠ name) (t t2 : Node) (h : symlinkAt linkTarget t (other :: r) = .ok t2) :
    entryAt t2 (name :: s) = entryAt t (name :: s) := by
  unfold symlinkAt at h
  exact alterAt_keeps _ name other s r hne t t2 h

/-- Copying a walked entry leaves every path below another top-level name as
it was, whether the copy goes through or stops on an error. -/
theorem syncEntryPlain_keeps (src : Node) (dest : FsResult) (name other : String) (s r : RelPath)
    (n : Node) (hne : other ≠ name) :
    entryAt (syncEntryPlain src dest (other :: r, n)).fs (name :: s) = entryAt dest.fs (name :: s) := by
  have hdrop : (other :: r).dropLast = [] ∨
      ∃ o r', (other :: r).dropLast = o :: r' ∧ o ≠ name := by
    cases r with
    | nil => exact Or.inl rfl
    | cons a r' => exact Or.inr ⟨other, (a :: r').dropLast, rfl, hne⟩
  cases n with
  | dir es =>
    simp only [syncEntryPlain]
    exact step_keeps _ _ _ (mkdirAt_keeps name s _ (Or.inr ⟨other, r, rfl, hne⟩))
  | symlink linkTarget follow =>
    simp only [syncEntryPlain]
    exact (step_keeps _ _ _ (symlinkAt_keeps linkTarget name other s r hne)).trans
      ((step_keeps _ _ _ (rmRf_keeps name other s r hne)).trans
        (step_keeps _ _ _ (mkdirAt_keeps name s _ hdrop)))
  | file content =>
    simp only [syncEntryPlain]
    exact (step_keeps _ _ _ (copyFile_keeps src name other s r hne)).trans
      (step_keeps _ _ _ (mkdirAt_keeps name s _ hdrop))
  | other => rfl

theorem foldl_syncEntryPlain_keeps (src : Node) (name : String) (s : RelPath) :
    ∀ (l : List (RelPath × Node)) (dest : FsResult),
      (∀ e ∈ l, ∃ other r, e.1 = other :: r ∧ other ≠ name) →
      entryAt (l.foldl (syncEntryPlain src) dest).fs (name :: s) = entryAt dest.fs (name :: s)
  | [], _, _ => rfl
  | e :: rest, dest, h => by
    obtain ⟨other, r, he, hne⟩ := h e (List.mem_cons_self _ _)
    obtain ⟨rel, n⟩ := e
    simp only at he
    subst he
    rw [List.foldl_cons, foldl_syncEntryPlain_keeps src name s rest _
      (fun x hx => h x (List.mem_cons_of_mem _ hx))]
    exact syncEntryPlain_keeps src dest name other s r n hne

theorem pruneNode_keeps (ig : Matcher) (seen : List RelPath) (name : String) (s : RelPath)
    (hig : ig [name] = true) (t : Node) :
    entryAt (pruneNode ig seen [] t) (name :: s) = entryAt t (name :: s) := by
  cases t with
  | dir es =>
    simp only [pruneNode, entryAt, findEntry_pruneEntries, List.nil_append, hig, if_true]
  | file c => rfl
  | symlink l f => rfl
  | other => rfl

/-- `syncDirPlain` leaves every path at or below an ignored top-level name as it
was, with and without `prune`, whether it goes through or stops on an error. -/
theorem syncDirPlain_keeps (src dest : Node) (ig : Matcher) (prune : Bool) (name : String)
    (s : RelPath) (hig : ig [name] = true) :
    entryAt (syncDirPlain src dest ig prune).fs (name :: s) = entryAt dest (name :: s) := by
  have hfold : entryAt ((walkDir src ig).foldl (syncEntryPlain src) ⟨dest, none⟩).fs (name :: s) =
      entryAt dest (name :: s) := by
    apply foldl_syncEntryPlain_keeps src name s _ ⟨dest, none⟩
    rintro ⟨rel, n⟩ he
    obtain ⟨other, r, hrel, ho⟩ := walkDir_head ig src rel n he
    refine ⟨other, r, hrel, ?_⟩
    intro heq
    rw [heq, hig] at ho
    cases ho
  unfold syncDirPlain
  simp only
  split
  · exact hfold
  · split
    · simp only
      rw [pruneNode_keeps ig _ name s hig]
      exact hfold
    · exact hfold

theorem applySandbox_keeps (sandbox target : Node) (statusFile : StatusFile) (config : Config)
    (requireSuccess prune : Bool) (name : String) (s : RelPath) (hwf : sandbox.WF)
    (hclear : ∀ e ∈ walkDir sandbox (applyIgnore config), WayClear target e)
    (hig : applyIgnore config [name] = true) :
    entryAt (applySandbox sandbox target statusFile config requireSuccess prune).2 (name :: s) =
      entryAt target (name :: s) := by
  have hsync := syncDirPlain_keeps sandbox target (applyIgnore config) prune name s hig
  rw [← syncDir_eq_plain sandbox target (applyIgnore config) prune hwf hclear] at hsync
  unfold applySandbox
  simp only
  split
  · rfl
  · split
    · exact hsync
    · exact hsync

/-! ## No change is reported below the control directory -/

theorem leads_livod (rel : RelPath) :
    leads [".livod"] rel = true ↔ ∃ r, rel = ".livod" :: r := by
  cases rel with
  | nil => simp [leads]
  | cons a r =>
    simp only [leads, Bool.and_true, decide_eq_true_eq, List.cons.injEq, exists_and_left,
      exists_eq', and_true]
    exact eq_comm

theorem makeSandboxIgnore_livod (m : Matcher) (rel : RelPath)
    (h : makeSandboxIgnore m rel = false) : leads [".livod"] rel = false := by
  cases hl : leads [".livod"] rel with
  | false => rfl
  | true =>
    obtain ⟨r, rfl⟩ := (leads_livod rel).1 hl
    simp [makeSandboxIgnore] at h

theorem collectFiles_keys : ∀ (l init : List (RelPath × Node)) (x : RelPath × Node),
    x ∈ collectFiles init l → x ∈ init ∨ x ∈ l
  | [], _, _, h => Or.inl h
  | e :: rest, init, x, h => by
    simp only [collectFiles, List.foldl_cons] at h
    split at h
    · rcases collectFiles_keys rest init x h with h | h
      · exact Or.inl h
      · exact Or.inr (List.mem_cons_of_mem _ h)
    · rcases collectFiles_keys rest _ x h with h | h
      · rcases (mem_mapSet x).1 h with h | h
        · exact Or.inr (by rw [h]; exact List.mem_cons_self _ _)
        · exact Or.inl h.1
      · exact Or.inr (List.mem_cons_of_mem _ h)

/-- Every entry of `listSandboxFiles` is an entry the walk reported. -/
theorem listSandboxFiles_walked (sandbox : Node) (ig : Matcher) (x : RelPath × Node)
    (h : x ∈ listSandboxFiles sandbox ig) : x ∈ walkDir sandbox ig := by
  have := collectFiles_keys (walkDir sandbox ig) [] x h
  simpa using this

theorem walked_not_livod (sandbox : Node) (m : Matcher) (x : RelPath × Node)
    (h : x ∈ walkDir sandbox (makeSandboxIgnore m)) : leads [".livod"] x.1 = false := by
  obtain ⟨rel, n⟩ := x
  obtain ⟨name, r, hrel, hig⟩ := walkDir_head _ sandbox rel n h
  cases hl : leads [".livod"] rel with
  | false => rfl
  | true =>
    obtain ⟨r', hr'⟩ := (leads_livod rel).1 hl
    rw [hrel] at hr'
    simp only [List.cons.injEq] at hr'
    rw [hr'.1] at hig
    simp [makeSandboxIgnore] at hig

theorem processChangePath_allPaths (Q : RelPath → Prop) (hashFile : String → String)
    (sandbox : Node) (files : IndexFiles) (acc : ChangeAcc) (rel : RelPath)
    (h : acc.AllPaths Q) (hq : Q rel) :
    (processChangePath hashFile sandbox files acc rel).AllPaths Q := by
  unfold processChangePath
  simp only
  split
  · exact h
  · split
    · exact AllPaths_pushDelete h rel hq
    · cases hl : lstatAt sandbox rel with
      | none => exact h
      | some node =>
        simp only
        split
        · exact AllPaths_pushUpsert h _ _ _ hq
        · split
          · split
            · exact AllPaths_pushUpsert h _ _ _ hq
            · exact h
          · exact AllPaths_pushUpsert h _ _ _ hq

theorem foldl_processChangePath_allPaths (Q : RelPath → Prop) (hashFile : String → String)
    (ig : Matcher) (hig : ∀ rel, ig rel = false → Q rel) (sandbox : Node) (files : IndexFiles) :
    ∀ (paths : List RelPath) (acc : ChangeAcc), acc.AllPaths Q →
      (paths.foldl (fun acc rel => if ig rel then acc
        else processChangePath hashFile sandbox files acc rel) acc).AllPaths Q
  | [], _, h => h
  | rel :: rest, acc, h => by
    rw [List.foldl_cons]
    apply foldl_processChangePath_allPaths Q hashFile ig hig sandbox files rest
    split
    · exact h
    · next hr =>
      exact processChangePath_allPaths Q hashFile sandbox files acc rel h
        (hig rel (by simpa using hr))

/-- No change and no pending update names `.livod` or a path below it: in an
incremental scan whatever the index holds, in a full scan when the index has
no such key. -/
theorem computeChanges_livod (hashFile : String → String) (config : Config) (sandbox : Node)
    (files : IndexFiles) (changeHint : Option ChangeHint)
    (h : isIncremental changeHint = true ∨ LivodFree files) :
    (computeChanges hashFile config sandbox files changeHint).AllPaths
      (fun rel => leads [".livod"] rel = false) := by
  by_cases hfull : isIncremental changeHint = false
  · have hfree : LivodFree files := by
      rcases h with h | h
      · rw [hfull] at h; cases h
      · exact h
    rw [computeChanges_fullScan hashFile config sandbox files changeHint hfull]
    have hseen : ∀ e ∈ listSandboxFiles sandbox (sandboxIgnore config),
        leads [".livod"] e.1 = false :=
      fun e he => walked_not_livod sandbox _ e (listSandboxFiles_walked sandbox _ e he)
    constructor
    · intro c hc
      simp only [List.mem_append, List.mem_filterMap, List.mem_map, List.mem_filter,
        Option.map_eq_some'] at hc
      rcases hc with ⟨e, he, r, hr, rfl⟩ | ⟨k, ⟨hk, _⟩, rfl⟩
      · rw [(scanResult_path hr).1]; exact hseen e he
      · exact hfree k hk
    · intro u hu
      simp only [List.mem_append, List.mem_filterMap, List.mem_map, List.mem_filter,
        Option.map_eq_some'] at hu
      rcases hu with ⟨e, he, r, hr, rfl⟩ | ⟨k, ⟨hk, _⟩, rfl⟩
      · rw [(scanResult_path hr).2]; exact hseen e he
      · exact hfree k hk
  · unfold computeChanges
    have hinc : isIncremental changeHint = true := by
      simpa using hfull
    simp only [hinc, if_true]
    exact foldl_processChangePath_allPaths _ hashFile _
      (fun rel hr => makeSandboxIgnore_livod _ rel hr) sandbox files _ _
      ⟨fun _ h => absurd h (List.not_mem_nil _), fun _ h => absurd h (List.not_mem_nil _)⟩

theorem keys_setProp (files : IndexFiles) (rel k : RelPath) (info : FileInfo)
    (h : k ∈ objectKeys (setProp files rel info)) : k = rel ∨ k ∈ objectKeys files := by
  by_cases hk : k = rel
  · exact Or.inl hk
  · right
    rw [← ownProp_isSome_iff] at h ⊢
    rwa [ownProp_setProp_ne files rel k info hk] at h

theorem keys_deleteProp (files : IndexFiles) (rel k : RelPath)
    (h : k ∈ objectKeys (deleteProp files rel)) : k ∈ objectKeys files := by
  rw [← ownProp_isSome_iff] at h ⊢
  rw [ownProp_deleteProp] at h
  by_cases hk : k = rel
  · rw [if_pos hk] at h; cases h
  · rwa [if_neg hk] at h

theorem keys_foldl_applyIndex : ∀ (us : List PendingUpdate) (files : IndexFiles) (k : RelPath),
    k ∈ objectKeys (us.foldl applyIndex files) → k ∈ objectKeys files ∨ ∃ u ∈ us, u.rel = k
  | [], _, _, h => Or.inl h
  | u :: rest, files, k, h => by
    rw [List.foldl_cons] at h
    rcases keys_foldl_applyIndex rest _ k h with h | ⟨x, hx, hxk⟩
    · cases u with
      | delete rel => exact Or.inl (keys_deleteProp files rel k h)
      | upsert rel info =>
        rcases keys_setProp files rel k info h with h | h
        · exact Or.inr ⟨_, List.mem_cons_self _ _, h.symm⟩
        · exact Or.inl h
    · exact Or.inr ⟨x, List.mem_cons_of_mem _ hx, hxk⟩

/-- The baseline update keeps the index free of keys below `.livod`. -/
theorem recordRunBaseline_livodFree (hashFile : String → String) (config : Config)
    (sandbox : Node) (b : Baseline) (changeHint : Option ChangeHint) (h : LivodFree b.files) :
    LivodFree (recordRunBaseline hashFile config sandbox b changeHint).files := by
  unfold recordRunBaseline
  cases herr : (applyBaselineUpdates sandbox b.store b.files
      (computeChanges hashFile config sandbox b.files changeHint).pendingUpdates).error with
  | some e =>
    have : (applyBaselineUpdates sandbox b.store b.files
        (computeChanges hashFile config sandbox b.files changeHint).pendingUpdates).files =
        b.files := by
      unfold applyBaselineUpdates at herr ⊢
      simp only at herr ⊢
      cases he : ((computeChanges hashFile config sandbox b.files changeHint).pendingUpdates.foldl
          (applyUpdate sandbox) ⟨b.store, b.files, none⟩).error with
      | none => simp [he] at herr
      | some e2 => simp only [he]
    rw [this]; exact h
  | none =>
    rw [applyBaselineUpdates_files _ _ _ _ herr]
    intro k hk
    rcases keys_foldl_applyIndex _ _ k hk with hk | ⟨u, hu, rfl⟩
    · exact h k hk
    · exact (computeChanges_livod hashFile config sandbox b.files changeHint (Or.inr h)).2 u hu

theorem keys_buildBaselineIndex (hashFile : String → String) (root : Node) (ignore : Matcher)
    (k : RelPath) (h : k ∈ objectKeys (buildBaselineIndex hashFile root ignore)) :
    ∃ n, (k, n) ∈ walkDir root ignore := by
  unfold buildBaselineIndex at h
  have key : ∀ (l : List (RelPath × Node)) (files : IndexFiles),
      k ∈ objectKeys (l.foldl
        (fun files e =>
          match e.2 with
          | .symlink linkTarget _ => setProp files e.1 (.symlink linkTarget)
          | .file content => setProp files e.1 (.file (hashFile content) content.utf8ByteSize)
          | _ => files) files) →
      k ∈ objectKeys files ∨ ∃ n, (k, n) ∈ l := by
    intro l
    induction l with
    | nil => intro files h; exact Or.inl h
    | cons e rest ih =>
      intro files h
      rw [List.foldl_cons] at h
      rcases ih _ h with h | ⟨n, hn⟩
      · obtain ⟨rel, node⟩ := e
        cases node with
        | symlink t f =>
          rcases keys_setProp _ _ _ _ h with h | h
          · exact Or.inr ⟨_, by rw [h]; exact List.mem_cons_self _ _⟩
          · exact Or.inl h
        | file c =>
          rcases keys_setProp _ _ _ _ h with h | h
          · exact Or.inr ⟨_, by rw [h]; exact List.mem_cons_self _ _⟩
          · exact Or.inl h
        | dir es => exact Or.inl h
        | other => exact Or.inl h
      · exact Or.inr ⟨n, List.mem_cons_of_mem _ hn⟩
  rcases key _ _ h with h | h
  · simp [objectKeys] at h
  · exact h

/-- The index that `ensureBaseline` builds has no key below `.livod`. -/
theorem ensureBaseline_livodFree (hashFile : String → String) (config : Config)
    (sandbox : Node) : LivodFree (ensureBaseline hashFile config sandbox).files := by
  unfold ensureBaseline
  simp only
  split
  · intro k hk; simp [objectKeys] at hk
  · intro k hk
    obtain ⟨n, hn⟩ := keys_buildBaselineIndex hashFile _ _ k hk
    exact walked_not_livod _ _ (k, n) hn

theorem foldl_recordRunBaseline_livodFree (hashFile : String → String) (config : Config) :
    ∀ (runs : List (Node × Option ChangeHint)) (b : Baseline), LivodFree b.files →
      LivodFree (runs.foldl (fun b r => recordRunBaseline hashFile config r.1 b r.2) b).files
  | [], _, h => h
  | r :: rest, b, h => by
    rw [List.foldl_cons]
    exact foldl_recordRunBaseline_livodFree hashFile config rest _
      (recordRunBaseline_livodFree hashFile config r.1 b r.2 h)

theorem baselineAfterRuns_livodFree (hashFile : String → String) (config : Config)
    (start : Node) (runs : List (Node × Option ChangeHint)) :
    LivodFree (baselineAfterRuns hashFile config start runs).files :=
  foldl_recordRunBaseline_livodFree hashFile config runs _
    (ensureBaseline_livodFree hashFile config start)

/-! ## Line buffering -/

theorem splitLines_crlf (rest : JsString) :
    splitLines (13 :: 10 :: rest) = [] :: splitLines rest := by
  rw [splitLines]

theorem splitLines_lf (rest : JsString) : splitLines (10 :: rest) = [] :: splitLines rest := by
  rw [splitLines]

theorem splitLines_other (c : Nat) (rest : JsString) (h1 : c ≠ 10)
    (h2 : c = 13 → rest.head? ≠ some 10) :
    splitLines (c :: rest) = consHead c (splitLines rest) := by
  rw [splitLines]
  · intro r hc hr
    exact h2 hc (by rw [hr]; rfl)
  · exact h1

theorem splitLines_ne_nil : ∀ (n : Nat) (x : JsString), x.length ≤ n → splitLines x ≠ []
  | _, [], _ => by simp [splitLines]
  | 0, c :: rest, h => by simp at h
  | n + 1, c :: rest, h => by
    by_cases h1 : c = 10
    · subst h1; rw [splitLines_lf]; simp
    · by_cases h2 : c = 13 → rest.head? ≠ some 10
      · rw [splitLines_other c rest h1 h2]
        have := splitLines_ne_nil n rest (by simpa using h)
        cases hs : splitLines rest with
        | nil => exact absurd hs this
        | cons a b => simp [consHead]
      · push_neg at h2
        obtain ⟨hc, hr⟩ := h2
        subst hc
        cases rest with
        | nil => simp at hr
        | cons d r =>
          simp only [List.head?_cons, Option.some.injEq] at hr
          subst hr
          rw [splitLines_crlf]; simp

theorem splitLines_nonempty (x : JsString) : splitLines x ≠ [] :=
  splitLines_ne_nil x.length x (Nat.le_refl _)

theorem splitLines_single : ∀ (n : Nat) (x p : JsString), x.length ≤ n →
    splitLines x = [p] → p = x
  | _, [], p, _, h => by
    simp only [splitLines, List.cons.injEq, and_true] at h
    exact h.symm
  | 0, c :: rest, _, h, _ => by simp at h
  | n + 1, c :: rest, p, hl, h => by
    by_cases h1 : c = 10
    · subst h1
      rw [splitLines_lf] at h
      simp only [List.cons.injEq] at h
      exact absurd h.2 (splitLines_nonempty rest)
    · by_cases h2 : c = 13 → rest.head? ≠ some 10
      · rw [splitLines_other c rest h1 h2] at h
        cases hs : splitLines rest with
        | nil => exact absurd hs (splitLines_nonempty rest)
        | cons a b =>
          rw [hs] at h
          simp only [consHead, List.cons.injEq] at h
          obtain ⟨rfl, rfl⟩ := h
          rw [splitLines_single n rest a (by simpa using hl) hs]
      · push_neg at h2
        obtain ⟨hc, hr⟩ := h2
        subst hc
        cases rest with
        | nil => simp at hr
        | cons d r =>
          simp only [List.head?_cons, Option.some.injEq] at hr
          subst hr
          rw [splitLines_crlf] at h
          simp only [List.cons.injEq] at h
          exact absurd h.2 (splitLines_nonempty r)

theorem dropLast_cons_of_ne_nil {α : Type} (a : α) {l : List α} (h : l ≠ []) :
    (a :: l).dropLast = a :: l.dropLast := by
  cases l with
  | nil => exact absurd rfl h
  | cons b t => rfl

theorem getLast?_cons_of_ne_nil {α : Type} (a : α) {l : List α} (h : l ≠ []) :
    (a :: l).getLast? = l.getLast? := by
  cases l with
  | nil => exact absurd rfl h
  | cons b t => simp [List.getLast?_cons_cons]

/-- Splitting a text that goes on: the pieces of `x ++ y` are the pieces of `x`
but the last, then the pieces of that last piece followed by `y`. -/
theorem splitLines_append (y : JsString) : ∀ (n : Nat) (x : JsString), x.length ≤ n →
    splitLines (x ++ y) =
      (splitLines x).dropLast ++ splitLines ((splitLines x).getLast?.getD [] ++ y)
  | _, [], _ => by simp [splitLines]
  | 0, c :: rest, h => by simp at h
  | n + 1, c :: rest, hl => by
    have hn : rest.length ≤ n := by simpa using hl
    by_cases h1 : c = 10
    · subst h1
      rw [List.cons_append, splitLines_lf, splitLines_lf, splitLines_append y n rest hn,
        dropLast_cons_of_ne_nil _ (splitLines_nonempty rest),
        getLast?_cons_of_ne_nil _ (splitLines_nonempty rest)]
      rfl
    · by_cases h2 : c = 13 → rest.head? ≠ some 10
      · cases rest with
        | nil =>
          have : splitLines [c] = [[c]] := by
            rw [splitLines_other c [] h1 (by simp)]; rfl
          rw [this]; rfl
        | cons d r =>
          have h2' : c = 13 → ((d :: r) ++ y).head? ≠ some 10 := by simpa using h2
          rw [List.cons_append, splitLines_other c _ h1 h2', splitLines_other c _ h1 h2,
            splitLines_append y n (d :: r) hn]
          cases hs : splitLines (d :: r) with
          | nil => exact absurd hs (splitLines_nonempty _)
          | cons a t =>
            cases t with
            | nil =>
              have ha : a = d :: r := splitLines_single _ _ a (Nat.le_refl _) hs
              subst ha
              simp only [consHead, List.dropLast_single, List.nil_append, List.getLast?_singleton,
                Option.getD_some]
              have h3 : c = 13 → ((d :: r) ++ y).head? ≠ some 10 := h2'
              rw [List.cons_append c, splitLines_other c _ h1 h3]
              rfl
            | cons b t2 =>
              simp [consHead, List.getLast?_cons_cons]
      · push_neg at h2
        obtain ⟨hc, hr⟩ := h2
        subst hc
        cases rest with
        | nil => simp at hr
        | cons d r =>
          simp only [List.head?_cons, Option.some.injEq] at hr
          subst hr
          have hr2 : r.length ≤ n := by
            simp at hn; omega
          rw [List.cons_append, List.cons_append, splitLines_crlf, splitLines_crlf,
            splitLines_append y n r hr2,
            dropLast_cons_of_ne_nil _ (splitLines_nonempty r),
            getLast?_cons_of_ne_nil _ (splitLines_nonempty r)]
          rfl

/-- What the buffer state holds once the text `whole` has come in. -/
theorem foldl_onData (pre : JsString) : ∀ (chunks : List (List Nat)) (s : LineBuffer)
    (whole : JsString),
    s.buffer = (splitLines whole).getLast?.getD [] →
    s.onLine = (splitLines whole).dropLast.filter (fun line => line.length != 0) →
    s.sink = s.onLine.map (pre ++ ·) →
    (chunks.foldl (onData pre) s).buffer =
        (splitLines (whole ++ (chunks.map utf8Decode).flatten)).getLast?.getD [] ∧
      (chunks.foldl (onData pre) s).onLine =
        (splitLines (whole ++ (chunks.map utf8Decode).flatten)).dropLast.filter (fun line => line.length != 0) ∧
      (chunks.foldl (onData pre) s).sink = (chunks.foldl (onData pre) s).onLine.map (pre ++ ·)
  | [], s, whole, hb, ho, hs => by
    simp only [List.foldl_nil, List.map_nil, List.flatten_nil, List.append_nil]
    exact ⟨hb, ho, hs⟩
  | chunk :: rest, s, whole, hb, ho, hs => by
    rw [List.foldl_cons, List.map_cons, List.flatten_cons, ← List.append_assoc]
    have hsplit := splitLines_append (utf8Decode chunk) whole.length whole (Nat.le_refl _)
    rw [← hb] at hsplit
    have hne := splitLines_nonempty (s.buffer ++ utf8Decode chunk)
    apply foldl_onData pre rest (onData pre s chunk) (whole ++ utf8Decode chunk)
    · rw [hsplit, List.getLast?_append_of_ne_nil _ hne]
      rfl
    · rw [hsplit, List.dropLast_append_of_ne_nil _ hne, List.filter_append, ← ho]
      rfl
    · simp only [onData, List.map_append, hs]

theorem filter_dropLast_getLast {α : Type} (p : α → Bool) (d : α) :
    ∀ (l : List α), l ≠ [] →
      l.filter p = l.dropLast.filter p ++ (if p (l.getLast?.getD d) then [l.getLast?.getD d] else [])
  | [], h => absurd rfl h
  | [a], _ => by
    simp only [List.dropLast_single, List.filter_nil, List.nil_append, List.getLast?_singleton,
      Option.getD_some]
    by_cases hp : p a = true <;> simp [List.filter, hp]
  | a :: b :: t, _ => by
    have ih := filter_dropLast_getLast p d (b :: t) (by simp)
    rw [List.getLast?_cons_cons, List.dropLast_cons₂]
    by_cases hp : p a = true
    · rw [List.filter_cons_of_pos hp, List.filter_cons_of_pos hp, ih, List.cons_append]
    · rw [List.filter_cons_of_neg hp, List.filter_cons_of_neg hp, ih]

/-- The calls of `onLine` and of `sink` over a whole stream: the non-empty
pieces of the text made of the chunks, each decoded on its own. -/
theorem prefixStream_spec (pre : JsString) (chunks : List (List Nat)) :
    (prefixStream pre chunks).onLine = nonEmptyLines (chunks.map utf8Decode).flatten ∧
    (prefixStream pre chunks).sink =
      (nonEmptyLines (chunks.map utf8Decode).flatten).map (pre ++ ·) := by
  obtain ⟨hb, ho, hs⟩ := foldl_onData pre chunks ⟨[], [], []⟩ [] rfl rfl rfl
  rw [List.nil_append] at hb ho
  have hfl := filter_dropLast_getLast (fun line : JsString => line.length != 0) []
    (splitLines (chunks.map utf8Decode).flatten) (splitLines_nonempty _)
  rw [← hb, ← ho] at hfl
  unfold prefixStream onEnd nonEmptyLines
  rw [hfl]
  split
  · next hlen =>
    simp only [hlen, if_true, List.map_append, List.map_cons, List.map_nil, hs]
    exact ⟨trivial, trivial⟩
  · next hlen =>
    simp only [hlen, List.append_nil, hs]
    exact ⟨trivial, trivial⟩

/-! ## The compact context -/

theorem find?_first {α : Type} (p : α → Bool) : ∀ (l : List α) (i : Nat) (x : α),
    l[i]? = some x → p x = true → (∀ (j : Nat) (e : α), j < i → l[j]? = some e → p e = false) →
    l.find? p = some x
  | [], i, x, h, _, _ => by simp at h
  | a :: rest, 0, x, h, hx, _ => by
    simp only [List.getElem?_cons_zero, Option.some.injEq] at h
    subst h
    simp [List.find?, hx]
  | a :: rest, i + 1, x, h, hx, hb => by
    have ha : p a = false := hb 0 a (Nat.succ_pos i) (List.getElem?_cons_zero)
    rw [List.find?_cons, ha]
    exact find?_first p rest i x (by simpa using h) hx
      (fun j e hj he => hb (j + 1) e (Nat.succ_lt_succ hj) (by simpa using he))

theorem find?_none_of_all {α : Type} (p : α → Bool) (l : List α)
    (h : ∀ e ∈ l, p e = false) : l.find? p = none := by
  rw [List.find?_eq_none]
  intro e he
  simp [h e he]

theorem failedCommandLines_first (exits : List Exit) (i : Nat) (failed : Exit)
    (hi : exits[i]? = some failed) (hfailed : failed.code ≠ some 0)
    (hbefore : ∀ (j : Nat) (e : Exit), j < i → exits[j]? = some e → e.code = some 0) :
    failedCommandLines (some exits) =
      [js "Failed Command: " ++ js failed.name ++ js " (exit " ++ codeText failed.code ++
        js ")"] := by
  have := find?_first (fun exit : Exit => !exit.codeIsZero) exits i failed hi
    (by simpa [Exit.codeIsZero] using hfailed)
    (fun j e hj he => by simpa [Exit.codeIsZero] using hbefore j e hj he)
  simp only [failedCommandLines, this]

theorem failedCommandLines_none (exits : List Exit) (h : ∀ e ∈ exits, e.code = some 0) :
    failedCommandLines (some exits) = [] := by
  have := find?_none_of_all (fun exit : Exit => !exit.codeIsZero) exits
    (fun e he => by simpa [Exit.codeIsZero] using h e he)
  simp only [failedCommandLines, this]

/-- The lines of the compact context around those pushed for `exits`. -/
theorem renderCompactLines_exits (input : CompactInput) (lastRun : LastRun)
    (exits : Option (List Exit)) :
    renderCompactLines { input with lastRun := some { lastRun with exits := exits } } =
      (titleLines input ++ [lastRunLine lastRun]) ++ failedCommandLines exits ++
        detailLines input lastRun :=
  rfl

/-! ## The journal -/

theorem Printable.append {a b : JsString} (ha : Printable a) (hb : Printable b) :
    Printable (a ++ b) := by
  intro u hu
  rcases List.mem_append.1 hu with h | h
  · exact ha u h
  · exact hb u h

theorem Printable.cons {c : Nat} {a : JsString} (hc : 32 ≤ c) (ha : Printable a) :
    Printable (c :: a) := by
  intro u hu
  rcases List.mem_cons.1 hu with h | h
  · rw [h]; exact hc
  · exact ha u h

theorem Printable.nil : Printable [] :=
  fun _ h => absurd h (List.not_mem_nil _)

theorem hexDigit_ge (d : Nat) : 32 ≤ hexDigit d := by
  unfold hexDigit
  split <;> omega

theorem unicodeEscape_printable (c : Nat) : Printable (unicodeEscape c) := by
  intro u hu
  simp only [unicodeEscape, List.mem_cons, List.mem_singleton, List.not_mem_nil, or_false] at hu
  rcases hu with h | h | h | h | h | h <;> rw [h] <;> first | exact hexDigit_ge _ | decide

theorem escapeUnit_printable (c : Nat) : Printable (escapeUnit c) := by
  unfold escapeUnit
  split_ifs with h1 h2 h3 h4 h5 h6 h7 h8
  all_goals first
    | exact unicodeEscape_printable c
    | (intro u hu
       simp only [List.mem_cons, List.mem_singleton, List.not_mem_nil, or_false] at hu
       rcases hu with h | h <;> rw [h] <;> omega)
    | (intro u hu
       simp only [List.mem_singleton] at hu
       rw [hu]; omega)

theorem quoteUnits_printable : ∀ (n : Nat) (s : JsString), s.length ≤ n → Printable (quoteUnits s)
  | _, [], _ => by simp [quoteUnits, Printable.nil]
  | 0, c :: rest, h => by simp at h
  | n + 1, [c], _ => by
    simp only [quoteUnits]
    split
    · exact unicodeEscape_printable c
    · exact escapeUnit_printable c
  | n + 1, c :: d :: rest, h => by
    have hd : (d :: rest).length ≤ n := by simpa using h
    have hr : rest.length ≤ n := by simp at hd; omega
    simp only [quoteUnits]
    split_ifs with h1 h2 h3
    · have hc : 32 ≤ c := by simp [isLeadSurrogate] at h1; omega
      have hd2 : 32 ≤ d := by simp [isTrailSurrogate] at h2; omega
      exact Printable.cons hc (Printable.cons hd2 (quoteUnits_printable n rest hr))
    · exact (unicodeEscape_printable c).append (quoteUnits_printable n _ hd)
    · exact (unicodeEscape_printable c).append (quoteUnits_printable n _ hd)
    · exact (escapeUnit_printable c).append (quoteUnits_printable n _ hd)

theorem quoteJson_printable (s : JsString) : Printable (quoteJson s) := by
  unfold quoteJson
  exact (Printable.append (Printable.cons (by decide) Printable.nil)
    (quoteUnits_printable s.length s (Nat.le_refl _))).append
    (Printable.cons (by decide) Printable.nil)

theorem digitChar_ge : ∀ d < 10, 48 ≤ (Nat.digitChar d).toNat ∧ (Nat.digitChar d).toNat < 65536 := by
  decide

theorem codeUnits_digits (l : List Char)
    (h : ∀ c ∈ l, 32 ≤ c.toNat ∧ c.toNat < 65536) : Printable (l.flatMap codeUnits) := by
  intro u hu
  obtain ⟨c, hc, hcu⟩ := List.mem_flatMap.1 hu
  have := h c hc
  simp only [codeUnits, this.2, if_true, List.mem_singleton] at hcu
  rw [hcu]; exact this.1

theorem toDigitsCore_chars : ∀ (fuel n : Nat) (ds : List Char),
    (∀ c ∈ ds, 32 ≤ c.toNat ∧ c.toNat < 65536) →
    ∀ c ∈ Nat.toDigitsCore 10 fuel n ds, 32 ≤ c.toNat ∧ c.toNat < 65536
  | 0, _, ds, h => by simpa [Nat.toDigitsCore] using h
  | fuel + 1, n, ds, h => by
    have hd : 32 ≤ (Nat.digitChar (n % 10)).toNat ∧ (Nat.digitChar (n % 10)).toNat < 65536 := by
      have := digitChar_ge (n % 10) (Nat.mod_lt _ (by decide))
      exact ⟨by omega, this.2⟩
    have hcons : ∀ c ∈ Nat.digitChar (n % 10) :: ds, 32 ≤ c.toNat ∧ c.toNat < 65536 := by
      intro c hc
      rcases List.mem_cons.1 hc with h1 | h1
      · rw [h1]; exact hd
      · exact h c h1
    simp only [Nat.toDigitsCore]
    split
    · exact hcons
    · exact toDigitsCore_chars fuel _ _ hcons

theorem natRepr_printable (n : Nat) : Printable (js (Nat.repr n)) := by
  unfold js Nat.repr
  apply codeUnits_digits
  exact toDigitsCore_chars _ _ [] (fun _ h => absurd h (List.not_mem_nil _))

theorem intText_printable (n : Int) : Printable (js (toString n)) := by
  cases n with
  | ofNat m => exact natRepr_printable m
  | negSucc m =>
    show Printable (js ("-" ++ Nat.repr (m + 1)))
    unfold js
    rw [String.toList, String.data_append, List.flatMap_append]
    exact Printable.append (Printable.cons (by decide) Printable.nil) (natRepr_printable (m + 1))

theorem intercalate_printable (sep : JsString) (hsep : Printable sep) :
    ∀ (l : List JsString), (∀ x ∈ l, Printable x) → Printable (List.intercalate sep l)
  | [], _ => by simp [List.intercalate, Printable.nil]
  | [a], h => by
    simpa [List.intercalate] using h a (List.mem_singleton.2 rfl)
  | a :: b :: t, h => by
    have ih := intercalate_printable sep hsep (b :: t)
      (fun x hx => h x (List.mem_cons_of_mem _ hx))
    have ha := h a (List.mem_cons_self _ _)
    have : List.intercalate sep (a :: b :: t) = a ++ (sep ++ List.intercalate sep (b :: t)) := by
      simp [List.intercalate]
    rw [this]
    exact ha.append (hsep.append ih)

mutual
theorem stringify_printable : ∀ (value : Json), Printable (stringify value)
  | .null => by
    intro u hu
    have : u ∈ [110, 117, 108, 108] := hu
    simp at this
    omega
  | .bool b => by
    cases b
    · intro u hu
      have : u ∈ [102, 97, 108, 115, 101] := hu
      simp at this
      omega
    · intro u hu
      have : u ∈ [116, 114, 117, 101] := hu
      simp at this
      omega
  | .number n => by
    rw [stringify]; exact intText_printable n
  | .string s => by
    rw [stringify]; exact quoteJson_printable s
  | .array items => by
    rw [stringify]
    exact (Printable.append (Printable.cons (by decide) Printable.nil)
      (intercalate_printable _ (Printable.cons (by decide) Printable.nil) _
        (stringifyItems_printable items))).append (Printable.cons (by decide) Printable.nil)
  | .object members => by
    rw [stringify]
    exact (Printable.append (Printable.cons (by decide) Printable.nil)
      (intercalate_printable _ (Printable.cons (by decide) Printable.nil) _
        (stringifyMembers_printable members))).append (Printable.cons (by decide) Printable.nil)
theorem stringifyItems_printable : ∀ (items : List Json),
    ∀ x ∈ stringifyItems items, Printable x
  | [] => by simp [stringifyItems]
  | item :: rest => by
    intro x hx
    rw [stringifyItems] at hx
    rcases List.mem_cons.1 hx with h | h
    · rw [h]; exact stringify_printable item
    · exact stringifyItems_printable rest x h
theorem stringifyMembers_printable : ∀ (members : List (JsString × Json)),
    ∀ x ∈ stringifyMembers members, Printable x
  | [] => by simp [stringifyMembers]
  | (key, value) :: rest => by
    intro x hx
    rw [stringifyMembers] at hx
    rcases List.mem_cons.1 hx with h | h
    · rw [h]
      exact ((quoteJson_printable key).append (Printable.cons (by decide) Printable.nil)).append
        (stringify_printable value)
    · exact stringifyMembers_printable rest x h
end

/-- A line without control characters followed by a line feed is one piece. -/
theorem splitLines_line : ∀ (line rest : JsString), Printable line →
    splitLines (line ++ newline :: rest) = line :: splitLines rest
  | [], rest, _ => splitLines_lf rest
  | c :: line, rest, h => by
    have hc : 32 ≤ c := h c (List.mem_cons_self _ _)
    rw [List.cons_append, splitLines_other c _ (by omega) (fun h13 => by omega),
      splitLines_line line rest (fun u hu => h u (List.mem_cons_of_mem _ hu))]
    rfl

theorem foldl_appendJournal : ∀ (events : List Json) (journal : JsString),
    events.foldl appendJournal journal =
      journal ++ events.flatMap (fun e => stringify e ++ [newline])
  | [], journal => by simp
  | e :: rest, journal => by
    rw [List.foldl_cons, foldl_appendJournal rest, List.flatMap_cons, appendJournal,
      List.append_assoc]

theorem splitLines_journal : ∀ (events : List Json),
    splitLines (events.flatMap (fun e => stringify e ++ [newline])) =
      events.map stringify ++ [[]]
  | [] => by simp [splitLines]
  | e :: rest => by
    rw [List.flatMap_cons, List.append_assoc, List.singleton_append,
      splitLines_line _ _ (stringify_printable e), splitLines_journal rest]
    rfl

/-! ## The diff of a modified file -/

/-- An untruncated diff recorded for a modified file is the whole patch from
the text of the baseline copy to the text of the sandbox file. -/
theorem computeDiff_modified_whole (createTwoFilesPatch : Patcher) (aiConfig : AiConfig)
    (sandbox store : Node) (rel : RelPath) (d : JsString)
    (h : computeDiffForChange createTwoFilesPatch aiConfig sandbox store rel .modified =
      .ok (some (.patch d false))) :
    ∃ baseline current : String,
      statAt store rel = some (.file baseline) ∧ statAt sandbox rel = some (.file current) ∧
      d = createTwoFilesPatch rel (js baseline) (js current) := by
  obtain ⟨oldText, newText, hcut, _, _, hold, hnew⟩ :=
    computeDiffForChange_patch createTwoFilesPatch aiConfig sandbox store rel .modified d false h
  obtain ⟨s1, h1⟩ := hold (by decide)
  obtain ⟨s2, h2⟩ := hnew (by decide)
  obtain ⟨baseline, hb, rfl, _, _⟩ := readTextMaybe_text _ _ _ _ _ h1
  obtain ⟨current, hc, rfl, _, _⟩ := readTextMaybe_text _ _ _ _ _ h2
  refine ⟨baseline, current, hb, hc, ?_⟩
  have hspec := cutPatch_spec aiConfig.maxDiffBytes
    (createTwoFilesPatch rel (js baseline) (js current))
  rw [hspec.1] at hcut
  simp only [DiffInfo.patch.injEq, decide_eq_false_iff_not, Nat.not_lt] at hcut
  rw [← hcut.1, hspec.2.2 hcut.2]

/-! ## The apply gate and the interrupted flag -/

theorem runCommands_status (config : Config) (interrupted : Bool) (childExit : Nat → ChildExit) :
    (runCommands config interrupted childExit).status =
      ⟨(runCommands config interrupted childExit).exits.all Exit.codeIsZero, interrupted,
        (runCommands config interrupted childExit).exits⟩ := by
  unfold runCommands
  split <;> rfl

theorem applySandbox_interrupted (sandbox target : Node) (config : Config) (prune : Bool)
    (ok interrupted : Bool) :
    applySandbox sandbox target (.parsed ⟨ok, interrupted⟩) config true prune =
      if ok then applySandbox sandbox target (.parsed ⟨true, false⟩) config true prune
      else (.refused "Refusing to apply changes. Last run failed or was interrupted.", target) := by
  cases ok <;> simp [applySandbox, readStatus]

/-! ## The lines of the compact context that start with `Failed Command:` -/

theorem textLines_ne_nil : ∀ (s : JsString), textLines s ≠ []
  | [] => by simp [textLines]
  | c :: rest => by
    rw [textLines]
    split
    · simp
    · cases h : textLines rest with
      | nil => exact absurd h (textLines_ne_nil rest)
      | cons a b => simp [consHead]

theorem consHead_append (c : Nat) {l : List JsString} (m : List JsString) (h : l ≠ []) :
    consHead c (l ++ m) = consHead c l ++ m := by
  cases l with
  | nil => exact absurd rfl h
  | cons a b => rfl

theorem textLines_append : ∀ (a b : JsString),
    textLines (a ++ newline :: b) = textLines a ++ textLines b
  | [], b => by simp [textLines]
  | c :: a, b => by
    rw [List.cons_append, textLines, textLines, textLines_append a b]
    split
    · rfl
    · exact consHead_append c _ (textLines_ne_nil a)

theorem textLines_oneLine : ∀ (s : JsString), OneLine s → textLines s = [s]
  | [], _ => rfl
  | c :: rest, h => by
    have hc : c ≠ newline := fun hc => h (by rw [hc]; exact List.mem_cons_self _ _)
    have hr : OneLine rest := fun hr => h (List.mem_cons_of_mem _ hr)
    rw [textLines, if_neg hc, textLines_oneLine rest hr]
    rfl

theorem textLines_joinLines : ∀ (items : List JsString), items ≠ [] →
    textLines (joinLines items) = items.flatMap textLines
  | [], h => absurd rfl h
  | [a], _ => by simp [joinLines, List.intercalate]
  | a :: b :: rest, _ => by
    have ih := textLines_joinLines (b :: rest) (by simp)
    have : joinLines (a :: b :: rest) = a ++ newline :: joinLines (b :: rest) := by
      simp [joinLines, List.intercalate]
    rw [this, textLines_append, ih, List.flatMap_cons, List.flatMap_cons, List.flatMap_cons]

theorem filter_flatMap {α β : Type} (p : β → Bool) (f : α → List β) : ∀ (l : List α),
    (l.flatMap f).filter p = l.flatMap (fun x => (f x).filter p)
  | [] => rfl
  | a :: rest => by
    rw [List.flatMap_cons, List.filter_append, filter_flatMap p f rest, List.flatMap_cons]

theorem failedCommandMarks_joinLines (items : List JsString) (h : items ≠ []) :
    failedCommandMarks (joinLines items) = items.flatMap failedCommandMarks := by
  unfold failedCommandMarks
  rw [textLines_joinLines items h, filter_flatMap]

theorem OneLine.concat {a b : JsString} (ha : OneLine a) (hb : OneLine b) : OneLine (a ++ b) := by
  intro h
  rcases List.mem_append.1 h with h | h
  · exact ha h
  · exact hb h

theorem OneLine.of_printable {a : JsString} (h : Printable a) : OneLine a := by
  intro hm
  have := h newline hm
  simp [newline] at this

/-- A line that starts with a code unit other than `F` and holds no line feed
has no line that starts with `Failed Command:`. -/
theorem failedCommandMarks_other (c : Nat) (s : JsString) (hc : c ≠ 70)
    (h : OneLine (c :: s)) : failedCommandMarks (c :: s) = [] := by
  unfold failedCommandMarks
  rw [textLines_oneLine _ h]
  have : beginsWith (js "Failed Command:") (c :: s) = false := by
    have hjs : js "Failed Command:" = 70 :: js "ailed Command:" := by decide
    rw [hjs]
    simp only [beginsWith, List.length_cons, List.take_succ_cons, beq_eq_false_iff_ne, ne_eq,
      List.cons.injEq, not_and]
    intro h1
    exact absurd h1 hc
  simp [this]

theorem failedCommandMarks_nil : failedCommandMarks [] = [] := by decide

theorem flatMap_marks_nil : ∀ (items : List JsString),
    (∀ l ∈ items, failedCommandMarks l = []) → items.flatMap failedCommandMarks = []
  | [], _ => rfl
  | a :: rest, h => by
    rw [List.flatMap_cons, h a (List.mem_cons_self _ _),
      flatMap_marks_nil rest (fun l hl => h l (List.mem_cons_of_mem _ hl))]
    rfl

/-- A line made of a fixed start that does not begin with `F` and of data
without a line feed. -/
theorem failedCommandMarks_lit (c : Nat) (t data : JsString) (hc : c ≠ 70)
    (h1 : OneLine (c :: t)) (h2 : OneLine data) : failedCommandMarks ((c :: t) ++ data) = [] :=
  failedCommandMarks_other c (t ++ data) hc (h1.concat h2)

theorem OneLine.empty : OneLine [] :=
  fun h => absurd h (List.not_mem_nil _)

theorem oneLine_boolText (b : Bool) : OneLine (boolText b) := by
  cases b <;> decide

theorem oneLine_nat (n : Nat) : OneLine (js (toString n)) :=
  OneLine.of_printable (natRepr_printable n)

theorem oneLine_codeText (code : Option Int) : OneLine (codeText code) := by
  cases code with
  | none => decide
  | some n => exact OneLine.of_printable (intText_printable n)

theorem oneLine_intercalate (sep : JsString) (hsep : OneLine sep) :
    ∀ (l : List JsString), (∀ x ∈ l, OneLine x) → OneLine (List.intercalate sep l)
  | [], _ => by simp [List.intercalate, OneLine.empty]
  | [a], h => by
    simpa [List.intercalate] using h a (List.mem_singleton.2 rfl)
  | a :: b :: t, h => by
    have ih := oneLine_intercalate sep hsep (b :: t)
      (fun x hx => h x (List.mem_cons_of_mem _ hx))
    have : List.intercalate sep (a :: b :: t) = a ++ (sep ++ List.intercalate sep (b :: t)) := by
      simp [List.intercalate]
    rw [this]
    exact (h a (List.mem_cons_self _ _)).concat (hsep.concat ih)

theorem titleLines_marks (input : CompactInput) (lastRun : LastRun)
    (hclean : CleanCompact input lastRun) :
    ∀ l ∈ titleLines input, failedCommandMarks l = [] := by
  intro l hl
  unfold titleLines at hl
  simp only [List.mem_append, List.mem_cons, List.mem_singleton, List.not_mem_nil, or_false] at hl
  rcases hl with (((h | h | h) | h) | h) | h
  · rw [h]; decide
  · rw [h]; decide
  · rw [h]
    exact failedCommandMarks_lit 83 (js "andbox: ") _ (by decide) (by decide) hclean.sandboxRoot
  · by_cases hc : (input.sourceRoot.length != 0) = true
    · rw [if_pos hc, List.mem_singleton] at h
      rw [h]
      exact failedCommandMarks_lit 83 (js "ource: ") _ (by decide) (by decide) hclean.sourceRoot
    · rw [if_neg hc] at h
      exact absurd h (List.not_mem_nil _)
  · by_cases hc : (input.agent.length != 0) = true
    · rw [if_pos hc, List.mem_singleton] at h
      rw [h]
      exact failedCommandMarks_lit 65 (js "gent: ") _ (by decide) (by decide) hclean.agent
    · rw [if_neg hc] at h
      exact absurd h (List.not_mem_nil _)
  · rw [h]; decide

theorem lastRunLine_marks (input : CompactInput) (lastRun : LastRun)
    (hclean : CleanCompact input lastRun) : failedCommandMarks (lastRunLine lastRun) = [] := by
  unfold lastRunLine
  simp only [List.append_assoc]
  refine failedCommandMarks_lit 76 (js "ast Run: ") _ (by decide) (by decide) ?_
  refine OneLine.concat ?_ (OneLine.concat (by decide) (OneLine.concat (oneLine_nat _)
    (OneLine.concat (by decide) hclean.timestamp)))
  split <;> decide

theorem changeLines_marks (input : CompactInput) (lastRun : LastRun)
    (hclean : CleanCompact input lastRun) (change : CompactChange)
    (hchange : change ∈ lastRun.changes) :
    ∀ l ∈ changeLines input.compact change, failedCommandMarks l = [] := by
  have hline : failedCommandMarks (js "- " ++ change.type ++ js ": " ++ change.path) = [] := by
    simp only [List.append_assoc]
    exact failedCommandMarks_lit 45 (js " ") _ (by decide) (by decide)
      ((hclean.changes change hchange).1.concat
        (OneLine.concat (by decide) (hclean.changes change hchange).2))
  intro l hl
  unfold changeLines at hl
  simp only at hl
  cases hd : change.diff with
  | none =>
    rw [hd] at hl
    simp only [List.mem_singleton] at hl
    rw [hl]; exact hline
  | some diff =>
    rw [hd] at hl
    simp only at hl
    split at hl
    · simp only [List.mem_cons, List.mem_singleton, List.not_mem_nil, or_false] at hl
      rcases hl with h | h | h | h
      · rw [h]; exact hline
      · rw [h]; decide
      · rw [h]; exact hclean.diffs change hchange diff hd
      · rw [h]; decide
    · simp only [List.mem_singleton] at hl
      rw [hl]; exact hline

theorem outputLines_marks (input : CompactInput) (lastRun : LastRun)
    (hclean : CleanCompact input lastRun) (outputs : Capture)
    (houtputs : lastRun.outputs = some outputs) (entry : String × CaptureEntry)
    (hentry : entry ∈ outputs) :
    ∀ l ∈ outputLines input.compact lastRun.ok entry, failedCommandMarks l = [] := by
  have hname := hclean.outputNames outputs houtputs entry hentry
  intro l hl
  unfold outputLines at hl
  simp only [List.mem_append] at hl
  rcases hl with hl | hl
  · split at hl
    · simp only [List.mem_cons, List.mem_singleton, List.not_mem_nil, or_false] at hl
      rcases hl with h | h | h | h
      · rw [h]
        simp only [List.append_assoc]
        exact failedCommandMarks_lit 45 (js " ") _ (by decide) (by decide)
          (hname.concat (by decide))
      · rw [h]; decide
      · rw [h]; exact hclean.stderr outputs houtputs entry hentry
      · rw [h]; decide
    · exact absurd hl (List.not_mem_nil _)
  · split at hl
    · simp only [List.mem_cons, List.mem_singleton, List.not_mem_nil, or_false] at hl
      rcases hl with h | h | h | h
      · rw [h]
        simp only [List.append_assoc]
        exact failedCommandMarks_lit 45 (js " ") _ (by decide) (by decide)
          (hname.concat (by decide))
      · rw [h]; decide
      · rw [h]; exact hclean.stdout outputs houtputs entry hentry
      · rw [h]; decide
    · exact absurd hl (List.not_mem_nil _)

theorem detailLines_marks (input : CompactInput) (lastRun : LastRun)
    (hclean : CleanCompact input lastRun) :
    ∀ l ∈ detailLines input lastRun, failedCommandMarks l = [] := by
  intro l hl
  unfold detailLines at hl
  simp only [List.mem_append] at hl
  rcases hl with (((hl | hl) | hl) | hl) | hl
  · simp only [List.mem_cons, List.mem_singleton, List.not_mem_nil, or_false] at hl
    rcases hl with h | h <;> rw [h] <;> decide
  · split at hl
    · obtain ⟨change, hchange, hmem⟩ := List.mem_flatMap.1 hl
      exact changeLines_marks input lastRun hclean change hchange l hmem
    · simp only [List.mem_singleton] at hl
      rw [hl]; decide
  · cases ho : lastRun.outputs with
    | none => rw [ho] at hl; exact absurd hl (List.not_mem_nil _)
    | some outputs =>
      rw [ho] at hl
      simp only [List.mem_append, List.mem_cons, List.mem_singleton, List.not_mem_nil,
        or_false] at hl
      rcases hl with (h | h) | h
      · rw [h]; decide
      · rw [h]; decide
      · obtain ⟨entry, hentry, hmem⟩ := List.mem_flatMap.1 h
        exact outputLines_marks input lastRun hclean outputs ho entry hentry l hmem
  · split at hl
    · simp only [List.mem_cons, List.mem_singleton, List.not_mem_nil, or_false] at hl
      rcases hl with h | h | h
      · rw [h]; decide
      · rw [h]; decide
      · rw [h]; exact hclean.intent
    · exact absurd hl (List.not_mem_nil _)
  · simp only [List.mem_cons, List.mem_singleton, List.not_mem_nil, or_false] at hl
    rcases hl with h | h | h | h | h | h
    · rw [h]; decide
    · rw [h]; decide
    · rw [h]
      exact failedCommandMarks_lit 45 (js " parallel: ") _ (by decide) (by decide)
        (oneLine_boolText _)
    · rw [h]
      exact failedCommandMarks_lit 45 (js " debounceMs: ") _ (by decide) (by decide)
        (oneLine_nat _)
    · rw [h]
      exact failedCommandMarks_lit 45 (js " restartOnChange: ") _ (by decide) (by decide)
        (oneLine_boolText _)
    · rw [h]
      refine failedCommandMarks_lit 45 (js " commands: ") _ (by decide) (by decide) ?_
      split
      · exact oneLine_intercalate _ (by decide) _ (fun x hx => by
          obtain ⟨name, hname, rfl⟩ := List.mem_map.1 hx
          exact hclean.commands name hname)
      · decide

/-- The line written for a failed command is one line, and starts with
`Failed Command:`. -/
theorem failedCommandLine_marks (name : String) (code : Option Int) (hname : OneLine (js name)) :
    failedCommandMarks
        (js "Failed Command: " ++ js name ++ js " (exit " ++ codeText code ++ js ")") =
      [js "Failed Command: " ++ js name ++ js " (exit " ++ codeText code ++ js ")"] := by
  have hone : OneLine
      (js "Failed Command: " ++ js name ++ js " (exit " ++ codeText code ++ js ")") :=
    OneLine.concat (OneLine.concat (OneLine.concat (OneLine.concat (by decide) hname)
      (by decide)) (oneLine_codeText code)) (by decide)
  unfold failedCommandMarks
  rw [textLines_oneLine _ hone]
  have hjs : js "Failed Command: " = js "Failed Command:" ++ [32] := by decide
  have : beginsWith (js "Failed Command:")
      (js "Failed Command: " ++ js name ++ js " (exit " ++ codeText code ++ js ")") = true := by
    rw [hjs]
    simp only [beginsWith, List.append_assoc, List.take_left', beq_self_eq_true]
  rw [List.filter_cons_of_pos this]
  rfl

/-- With clean data, the lines of the compact context that start with
`Failed Command:` are those the renderer writes for `exits`. -/
theorem renderCompactContext_marks (input : CompactInput) (lastRun : LastRun)
    (hclean : CleanCompact input lastRun) (exits : List Exit)
    (hnames : ∀ e ∈ exits, OneLine (js e.name)) :
    failedCommandMarks
        (renderCompactContext { input with lastRun := some { lastRun with exits := some exits } }) =
      failedCommandLines (some exits) := by
  unfold renderCompactContext
  rw [renderCompactLines_exits, failedCommandMarks_joinLines _ (by simp [titleLines]),
    List.flatMap_append, List.flatMap_append, List.flatMap_append,
    flatMap_marks_nil _ (titleLines_marks input lastRun hclean),
    flatMap_marks_nil _ (detailLines_marks input lastRun hclean)]
  simp only [List.flatMap_cons, List.flatMap_nil, List.append_nil, List.nil_append,
    lastRunLine_marks input lastRun hclean]
  unfold failedCommandLines
  simp only
  cases hf : exits.find? (fun exit => !exit.codeIsZero) with
  | none => rfl
  | some failed =>
    simp only [List.flatMap_cons, List.flatMap_nil, List.append_nil]
    exact failedCommandLine_marks failed.name failed.code
      (hnames failed (List.mem_of_find?_eq_some hf))

/-! ## The index after an incremental run -/

theorem processChangePath_pending (hashFile : String → String) (sandbox : Node)
    (files : IndexFiles) (acc : ChangeAcc) (p : RelPath) :
    (processChangePath hashFile sandbox files acc p).pendingUpdates =
      acc.pendingUpdates ++ (processChangePath hashFile sandbox files ⟨[], []⟩ p).pendingUpdates := by
  unfold processChangePath
  simp only
  split
  · simp
  · split
    · simp [ChangeAcc.pushDelete]
    · cases lstatAt sandbox p with
      | none => simp
      | some node =>
        simp only
        split
        · simp [ChangeAcc.pushUpsert]
        · split
          · split
            · simp [ChangeAcc.pushUpsert]
            · simp
          · simp [ChangeAcc.pushUpsert]

theorem foldl_processChangePath_pending (hashFile : String → String) (ig : Matcher)
    (sandbox : Node) (files : IndexFiles) : ∀ (paths : List RelPath) (acc : ChangeAcc),
    (paths.foldl (fun acc rel => if ig rel then acc
        else processChangePath hashFile sandbox files acc rel) acc).pendingUpdates =
      acc.pendingUpdates ++ paths.flatMap (fun p => if ig p then []
        else (processChangePath hashFile sandbox files ⟨[], []⟩ p).pendingUpdates)
  | [], acc => by simp
  | p :: rest, acc => by
    rw [List.foldl_cons, foldl_processChangePath_pending hashFile ig sandbox files rest,
      List.flatMap_cons]
    by_cases hig : ig p = true
    · simp [hig]
    · simp only [hig, if_false, Bool.false_eq_true]
      rw [processChangePath_pending, List.append_assoc]

/-- What one path of an incremental scan queues when a regular file or a link
that resolves is at the path: nothing but the record of that entry, and that
record unless the index holds one that does not differ. -/
theorem processChangePath_present (hashFile : String → String) (sandbox : Node)
    (files : IndexFiles) (p : RelPath) (n : Node) (hex : pathExists sandbox p = true)
    (hl : lstatAt sandbox p = some n) :
    (∀ u ∈ (processChangePath hashFile sandbox files ⟨[], []⟩ p).pendingUpdates,
      u = .upsert p (getFileInfo hashFile n)) ∧
    ((processChangePath hashFile sandbox files ⟨[], []⟩ p).pendingUpdates = [] →
      ∃ prev, ownProp files p = some prev ∧
        recordDiffers prev (getFileInfo hashFile n) = false) := by
  unfold processChangePath
  simp only [hex, hl, Bool.not_true, Bool.false_and, Bool.false_eq_true, if_false]
  split
  · simp [ChangeAcc.pushUpsert]
  · next hown =>
    unfold getProp
    cases ho : ownProp files p with
    | none => simp [hasOwnProperty, ho] at hown
    | some prev =>
      simp only
      split
      · simp [ChangeAcc.pushUpsert]
      · next hd =>
        exact ⟨by simp, fun _ => ⟨prev, rfl, by simpa using hd⟩⟩

/-- What one path of an incremental scan queues when nothing is at the path:
nothing but the deletion, and the deletion unless the index has no such key. -/
theorem processChangePath_absent (hashFile : String → String) (sandbox : Node)
    (files : IndexFiles) (p : RelPath) (hex : pathExists sandbox p = false) :
    (∀ u ∈ (processChangePath hashFile sandbox files ⟨[], []⟩ p).pendingUpdates,
      u = .delete p) ∧
    ((processChangePath hashFile sandbox files ⟨[], []⟩ p).pendingUpdates = [] →
      ownProp files p = none) := by
  unfold processChangePath
  simp only [hex, Bool.not_false, Bool.true_and]
  cases ho : ownProp files p with
  | none => simp [hasOwnProperty, ho]
  | some prev => simp [hasOwnProperty, ho, ChangeAcc.pushDelete]

theorem processChangePath_rel (hashFile : String → String) (sandbox : Node)
    (files : IndexFiles) (p : RelPath) :
    ∀ u ∈ (processChangePath hashFile sandbox files ⟨[], []⟩ p).pendingUpdates, u.rel = p :=
  (processChangePath_allPaths (fun r => r = p) hashFile sandbox files ⟨[], []⟩ p
    ⟨fun _ h => absurd h (List.not_mem_nil _), fun _ h => absurd h (List.not_mem_nil _)⟩ rfl).2

theorem ownProp_foldl_upsert (q : RelPath) (v : FileInfo) (hq : q ≠ ["__proto__"]) :
    ∀ (us : List PendingUpdate) (files : IndexFiles),
      (∀ u ∈ us, u.rel = q → u = .upsert q v) →
      (ownProp files q = some v ∨ ∃ u ∈ us, u.rel = q) →
      ownProp (us.foldl applyIndex files) q = some v
  | [], files, _, h => by
    rcases h with h | ⟨u, hu, _⟩
    · exact h
    · exact absurd hu (List.not_mem_nil _)
  | u :: rest, files, hall, h => by
    rw [List.foldl_cons]
    apply ownProp_foldl_upsert q v hq rest _ (fun x hx => hall x (List.mem_cons_of_mem _ hx))
    by_cases hu : u.rel = q
    · left
      rw [hall u (List.mem_cons_self _ _) hu]
      exact ownProp_setProp_same files q v (Or.inr hq)
    · rcases h with h | ⟨x, hx, hxq⟩
      · left
        rw [ownProp_applyIndex_ne files u q hu]
        exact h
      · rcases List.mem_cons.1 hx with rfl | hx
        · exact absurd hxq hu
        · exact Or.inr ⟨x, hx, hxq⟩

theorem ownProp_foldl_delete (q : RelPath) :
    ∀ (us : List PendingUpdate) (files : IndexFiles),
      (∀ u ∈ us, u.rel = q → u = .delete q) →
      (ownProp files q = none ∨ ∃ u ∈ us, u.rel = q) →
      ownProp (us.foldl applyIndex files) q = none
  | [], files, _, h => by
    rcases h with h | ⟨u, hu, _⟩
    · exact h
    · exact absurd hu (List.not_mem_nil _)
  | u :: rest, files, hall, h => by
    rw [List.foldl_cons]
    apply ownProp_foldl_delete q rest _ (fun x hx => hall x (List.mem_cons_of_mem _ hx))
    by_cases hu : u.rel = q
    · left
      rw [hall u (List.mem_cons_self _ _) hu]
      simp [applyIndex, ownProp_deleteProp]
    · rcases h with h | ⟨x, hx, hxq⟩
      · left
        rw [ownProp_applyIndex_ne files u q hu]
        exact h
      · rcases List.mem_cons.1 hx with rfl | hx
        · exact absurd hxq hu
        · exact Or.inr ⟨x, hx, hxq⟩

theorem proto_isPrototypeKey : isPrototypeKey ["__proto__"] = true := by decide

/-- After an incremental run whose baseline update went through, the index
holds for a hinted path where a regular file is a record that does not differ
from the file, and no record for a hinted path where nothing is. -/
theorem incremental_index_at (hashFile : String → String) (config : Config) (sandbox : Node)
    (store : Node) (files : IndexFiles) (hint : ChangeHint) (hinc : hint.fullScan = false)
    (rel : RelPath) (hrel : rel ∈ hint.paths) (hig : sandboxIgnore config rel = false)
    (hproto : isPrototypeKey rel = false)
    (hok : (applyBaselineUpdates sandbox store files
      (computeChanges hashFile config sandbox files (some hint)).pendingUpdates).error = none) :
    (∀ n, pathExists sandbox rel = true → lstatAt sandbox rel = some n →
      ∃ prev, ownProp (applyBaselineUpdates sandbox store files
          (computeChanges hashFile config sandbox files (some hint)).pendingUpdates).files rel =
          some prev ∧ recordDiffers prev (getFileInfo hashFile n) = false) ∧
    (pathExists sandbox rel = false →
      ownProp (applyBaselineUpdates sandbox store files
          (computeChanges hashFile config sandbox files (some hint)).pendingUpdates).files rel =
        none) := by
  have hq : rel ≠ ["__proto__"] := by
    intro h
    rw [h, proto_isPrototypeKey] at hproto
    cases hproto
  rw [applyBaselineUpdates_files _ _ _ _ hok]
  have hpend : (computeChanges hashFile config sandbox files (some hint)).pendingUpdates =
      hint.paths.flatMap (fun p => if sandboxIgnore config p then []
        else (processChangePath hashFile sandbox files ⟨[], []⟩ p).pendingUpdates) := by
    unfold computeChanges
    simp only [isIncremental, hinc, Bool.not_false, if_true, Option.map_some', Option.getD_some]
    rw [foldl_processChangePath_pending]
    rfl
  rw [hpend]
  have hshape : ∀ u ∈ hint.paths.flatMap (fun p => if sandboxIgnore config p then []
        else (processChangePath hashFile sandbox files ⟨[], []⟩ p).pendingUpdates),
      u.rel = rel →
      u ∈ (processChangePath hashFile sandbox files ⟨[], []⟩ rel).pendingUpdates := by
    intro u hu hur
    obtain ⟨p, _, hup⟩ := List.mem_flatMap.1 hu
    by_cases hp : sandboxIgnore config p = true
    · simp [hp] at hup
    · simp only [hp, if_false, Bool.false_eq_true] at hup
      have := processChangePath_rel hashFile sandbox files p u hup
      rw [hur] at this
      rw [this]
      exact hup
  have hmem : ∀ u ∈ (processChangePath hashFile sandbox files ⟨[], []⟩ rel).pendingUpdates,
      u ∈ hint.paths.flatMap (fun p => if sandboxIgnore config p then []
        else (processChangePath hashFile sandbox files ⟨[], []⟩ p).pendingUpdates) := by
    intro u hu
    exact List.mem_flatMap.2 ⟨rel, hrel, by simpa [hig] using hu⟩
  constructor
  · intro n hex hl
    obtain ⟨h1, h2⟩ := processChangePath_present hashFile sandbox files rel n hex hl
    cases hs : (processChangePath hashFile sandbox files ⟨[], []⟩ rel).pendingUpdates with
    | nil =>
      obtain ⟨prev, hprev, hd⟩ := h2 hs
      refine ⟨prev, ?_, hd⟩
      rw [ownProp_foldl_untouched rel _ files (fun u hu hur => by
        have := hshape u hu hur
        rw [hs] at this
        exact absurd this (List.not_mem_nil _))]
      exact hprev
    | cons u0 rest =>
      refine ⟨getFileInfo hashFile n, ?_, recordDiffers_self _⟩
      apply ownProp_foldl_upsert rel _ hq _ files (fun u hu hur => h1 u (hshape u hu hur))
      right
      have hu0 : u0 ∈ (processChangePath hashFile sandbox files ⟨[], []⟩ rel).pendingUpdates := by
        rw [hs]; exact List.mem_cons_self _ _
      exact ⟨u0, hmem u0 hu0, processChangePath_rel hashFile sandbox files rel u0 hu0⟩
  · intro hex
    obtain ⟨h1, h2⟩ := processChangePath_absent hashFile sandbox files rel hex
    apply ownProp_foldl_delete rel _ files (fun u hu hur => h1 u (hshape u hu hur))
    cases hs : (processChangePath hashFile sandbox files ⟨[], []⟩ rel).pendingUpdates with
    | nil => exact Or.inl (h2 hs)
    | cons u0 rest =>
      right
      have hu0 : u0 ∈ (processChangePath hashFile sandbox files ⟨[], []⟩ rel).pendingUpdates := by
        rw [hs]; exact List.mem_cons_self _ _
      exact ⟨u0, hmem u0 hu0, processChangePath_rel hashFile sandbox files rel u0 hu0⟩

/-- The full scan that follows an incremental run whose baseline update went
through reports no change for a hinted path that its walk reaches, where a
regular file is or where nothing is. -/
theorem fullScan_after_incremental (hashFile : String → String) (config : Config)
    (sandbox store : Node) (files : IndexFiles) (hint : ChangeHint)
    (hinc : hint.fullScan = false) (hwf : sandbox.WF)
    (rel : RelPath) (hrel : rel ∈ hint.paths) (hne : rel ≠ [])
    (hvis : visibleFrom (sandboxIgnore config) [] rel = true)
    (hproto : isPrototypeKey rel = false)
    (hstate : (∃ content, entryAt sandbox rel = some (.file content)) ∨
      (entryAt sandbox rel = none ∧ statAt sandbox rel = none))
    (hok : (applyBaselineUpdates sandbox store files
      (computeChanges hashFile config sandbox files (some hint)).pendingUpdates).error = none) :
    ∀ c ∈ (computeChanges hashFile config sandbox
        (applyBaselineUpdates sandbox store files
          (computeChanges hashFile config sandbox files (some hint)).pendingUpdates).files
        none).changes, c.path ≠ rel := by
  have hig : sandboxIgnore config rel = false := by
    simpa using visibleFrom_not_ignored (sandboxIgnore config) rel [] hne hvis
  obtain ⟨hfile, hnone⟩ := incremental_index_at hashFile config sandbox store files hint hinc rel
    hrel hig hproto hok
  rcases hstate with ⟨content, hent⟩ | ⟨hent, hstat⟩
  · have hl := entryAt_lstatAt rel sandbox _ hent
    have hex : pathExists sandbox rel = true := by
      simp [pathExists, statAt, hl, deref]
    obtain ⟨prev, hprev, hd⟩ := hfile _ hex hl
    exact ((fullScan_contract hashFile config sandbox _ hwf).1 rel (.file content) hne hent hvis
      rfl hproto).2.2 prev hprev hd
  · have hex : pathExists sandbox rel = false := by
      simp [pathExists, hstat]
    have hown := hnone hex
    intro c hc hcp
    rw [computeChanges_fullScan hashFile config sandbox _ none rfl] at hc
    simp only [List.mem_append, List.mem_filterMap, List.mem_map, List.mem_filter,
      Option.map_eq_some'] at hc
    rcases hc with ⟨e, he, r, hr, rfl⟩ | ⟨k, ⟨hk, _⟩, rfl⟩
    · have hpath := (scanResult_path hr).1
      rw [hcp] at hpath
      obtain ⟨p, n⟩ := e
      simp only at hpath
      subst hpath
      have := ((mem_listSandboxFiles _ sandbox hwf _ n).1 he).2.1
      rw [hent] at this
      cases this
    · simp only at hcp
      subst hcp
      have := (ownProp_isSome_iff _ _).2 hk
      rw [hown] at this
      cases this

theorem computeChanges_full_eq (hashFile : String → String) (config : Config) (sandbox : Node)
    (files : IndexFiles) (hint : Option ChangeHint) (hfull : isIncremental hint = false) :
    computeChanges hashFile config sandbox files hint =
      computeChanges hashFile config sandbox files none := by
  rw [computeChanges_fullScan hashFile config sandbox files hint hfull,
    computeChanges_fullScan hashFile config sandbox files none rfl]

/-! ## Change tracking: the claims -/

/-- C1 (full scan, a path with no index entry is reported as added): fails for a
file named like a member of `Object.prototype`. With an empty baseline index
and a new sandbox file `constructor`, the full scan reports the path as
modified, because `index.files[rel]` yields the inherited member; the
incremental path, which tests `hasOwnProperty`, reports it as added. -/
theorem fullScan_inherited_name_is_modified (hashFile : String → String) :
    computeChanges hashFile {} (.dir [("constructor", .file "x")]) [] none =
      ⟨[⟨["constructor"], .modified, some (.file (hashFile "x") 1)⟩],
       [.upsert ["constructor"] (.file (hashFile "x") 1)]⟩ ∧
    computeChanges hashFile {} (.dir [("constructor", .file "x")]) []
        (some ⟨[["constructor"]], false⟩) =
      ⟨[⟨["constructor"], .added, some (.file (hashFile "x") 1)⟩],
       [.upsert ["constructor"] (.file (hashFile "x") 1)]⟩ :=
  ⟨rfl, rfl⟩

/-- C2 (idempotent full rescan): fails for a top-level file named `__proto__`.
The baseline update succeeds, but the assignment `index.files[rel] = info`
reaches the inherited setter and stores no entry, so the second full scan,
with no sandbox mutation in between, reports the file as modified again. -/
theorem rescan_not_idempotent_for_proto (hashFile : String → String) :
    (recordRunBaseline hashFile {} (.dir [("__proto__", .file "x")])
        (ensureBaseline hashFile {} (.dir [])) none).error = none ∧
    computeChanges hashFile {} (.dir [("__proto__", .file "x")])
        (recordRunBaseline hashFile {} (.dir [("__proto__", .file "x")])
          (ensureBaseline hashFile {} (.dir [])) none).files none =
      ⟨[⟨["__proto__"], .modified, some (.file (hashFile "x") 1)⟩],
       [.upsert ["__proto__"] (.file (hashFile "x") 1)]⟩ :=
  ⟨rfl, rfl⟩

/-- C3, as stated, is false: with the ignore list `build` (which matches the
directory but not the paths below it), creating `build/out.txt` is reported
as added by the incremental hint and not at all by the full scan. -/
theorem incremental_differs_under_ignored_dir :
    (computeChanges demoHash { ignore := [buildPattern] }
        (.dir [("build", .dir [("out.txt", .file "o")])]) []
        (some ⟨[["build", "out.txt"]], false⟩)).changes ≠
      (computeChanges demoHash { ignore := [buildPattern] }
        (.dir [("build", .dir [("out.txt", .file "o")])]) [] none).changes.filter
          (fun c => decide (c.path = ["build", "out.txt"])) := by
  decide

/-- C3, amended (incremental equals full): for a well-formed sandbox tree, an
index with distinct keys and a path `p` such that neither `p` nor a directory
above it is ignored, `p` is not the name of a member of `Object.prototype`, and
`p` is either absent from the sandbox or a non-directory entry that resolves,
the change list of `computeChanges` with the hint `[p]` equals the change list
of the full scan restricted to the entries whose path is `p`. -/
theorem incremental_eq_full_restricted (hashFile : String → String) (config : Config)
    (sandbox : Node) (files : IndexFiles) (p : RelPath)
    (hwf : sandbox.WF) (hkeys : (objectKeys files).Nodup) (hp : p ≠ [])
    (hvis : visibleFrom (sandboxIgnore config) [] p = true)
    (hproto : isPrototypeKey p = false)
    (hstate : match entryAt sandbox p with
      | some n => n.isDirectory = false ∧ (deref n).isSome = true
      | none => statAt sandbox p = none) :
    (computeChanges hashFile config sandbox files (some ⟨[p], false⟩)).changes =
      (computeChanges hashFile config sandbox files none).changes.filter
        (fun c => decide (c.path = p)) :=
  incremental_eq_full_at hashFile config sandbox files p hwf hkeys hp hvis hproto hstate

/-- Witness for C3 amended: the file `a.txt` was edited. -/
theorem incremental_eq_full_restricted_witness :
    (computeChanges demoHash {} (.dir [("a.txt", .file "hello world\n"), ("b.txt", .file "new\n")])
        [(["a.txt"], .file "hello\n" 6)] (some ⟨[["a.txt"]], false⟩)).changes =
      (computeChanges demoHash {} (.dir [("a.txt", .file "hello world\n"), ("b.txt", .file "new\n")])
        [(["a.txt"], .file "hello\n" 6)] none).changes.filter
          (fun c => decide (c.path = ["a.txt"])) :=
  incremental_eq_full_restricted demoHash {}
    (.dir [("a.txt", .file "hello world\n"), ("b.txt", .file "new\n")])
    [(["a.txt"], .file "hello\n" 6)] ["a.txt"]
    (by simp [Node.WF, EntriesWF]) (by decide) (by decide) (by decide) (by decide)
    (by simp [entryAt, findEntry, Node.isDirectory, deref])

/-- C4 (baseline invariant under a file replaced by a directory): `ensureBaseline`
establishes the invariant for a sandbox holding the file `x`; once `x` is
replaced by a directory holding `y`, the full scan queues the upsert of `x/y`
before the delete of `x`, `ensureDir` fails on the baseline file `x`, the index
is not persisted, and the invariant does not hold afterwards. -/
theorem baseline_invariant_broken_by_file_to_dir (hashFile : String → String) :
    baselineInvariant hashFile {} (.dir [("x", .file "1")])
        (ensureBaseline hashFile {} (.dir [("x", .file "1")])) = true ∧
    (computeChanges hashFile {} (.dir [("x", .dir [("y", .file "2")])])
        (ensureBaseline hashFile {} (.dir [("x", .file "1")])).files none).pendingUpdates =
      [.upsert ["x", "y"] (.file (hashFile "2") 1), .delete ["x"]] ∧
    (recordRunBaseline hashFile {} (.dir [("x", .dir [("y", .file "2")])])
        (ensureBaseline hashFile {} (.dir [("x", .file "1")])) none).error = some .EEXIST ∧
    baselineInvariant hashFile {} (.dir [("x", .dir [("y", .file "2")])])
        (recordRunBaseline hashFile {} (.dir [("x", .dir [("y", .file "2")])])
          (ensureBaseline hashFile {} (.dir [("x", .file "1")])) none) = false := by
  refine ⟨?_, rfl, rfl, ?_⟩
  · simp [baselineInvariant, ensureBaseline, copyDir, buildBaselineIndex, walkDir, walkNode,
      walkEntries, sandboxIgnore, makeSandboxIgnore, makeIgnoreMatcher, syncEntry, FsResult.step,
      ensureDir, ensureDirFrom, mkdirAt, fsCopyFile, fsWriteFile, fsRm, atParent, rmRf,
      resolveLinks, resolveFrom, walkPath, entryAt, copyFile, statAt, lstatAt, childOf, deref,
      findEntry, writeFileAt, alterAt,
      setEntry, setProp, hasOwnProperty, ownProp, arrayIndex?, objectKeys, trackedEntries,
      getFileInfo, Node.isDirectory]
  · simp [baselineInvariant, recordRunBaseline, applyBaselineUpdates, applyUpdate, computeChanges,
      isIncremental, listSandboxFiles, mapSet, scanEntry, scanDeleted, getProp, isPrototypeKey,
      objectPrototypeKeys, recordDiffers, ChangeAcc.pushUpsert, ChangeAcc.pushDelete,
      updateBaselineFile, ensureBaseline, copyDir, buildBaselineIndex, walkDir, walkNode,
      walkEntries, sandboxIgnore, makeSandboxIgnore, makeIgnoreMatcher, syncEntry, FsResult.step,
      ensureDir, ensureDirFrom, mkdirAt, fsCopyFile, fsWriteFile, fsRm, atParent, rmRf,
      resolveLinks, resolveFrom, walkPath, entryAt, copyFile, statAt, lstatAt, childOf, deref,
      findEntry, writeFileAt, alterAt,
      setEntry, setProp, hasOwnProperty, ownProp, arrayIndex?, objectKeys, trackedEntries,
      getFileInfo, Node.isDirectory]

/-- C5 (no change for a path known to neither side): in a well-formed sandbox
tree, for every change hint and every index, each entry of the change list and
each pending baseline update of `computeChanges` has a path that names an
entry of the live sandbox tree or an own key of the baseline index. -/
theorem changes_only_for_known_paths (hashFile : String → String) (config : Config)
    (sandbox : Node) (files : IndexFiles) (changeHint : Option ChangeHint) (hwf : sandbox.WF) :
    (∀ c ∈ (computeChanges hashFile config sandbox files changeHint).changes,
      (lstatAt sandbox c.path).isSome = true ∨ hasOwnProperty files c.path = true) ∧
    (∀ u ∈ (computeChanges hashFile config sandbox files changeHint).pendingUpdates,
      (lstatAt sandbox u.rel).isSome = true ∨ hasOwnProperty files u.rel = true) :=
  computeChanges_known hashFile config sandbox files changeHint hwf

/-- Witness for C5: the hinted path `gone.txt` is in neither the tree nor the
index, and nothing is reported for it. -/
theorem changes_only_for_known_paths_witness :
    (∀ c ∈ (computeChanges demoHash {} (.dir [("a.txt", .file "hello\n")])
        [(["a.txt"], .file "hello\n" 6)] (some ⟨[["gone.txt"]], false⟩)).changes,
      (lstatAt (.dir [("a.txt", .file "hello\n")]) c.path).isSome = true ∨
        hasOwnProperty [(["a.txt"], .file "hello\n" 6)] c.path = true) ∧
    (∀ u ∈ (computeChanges demoHash {} (.dir [("a.txt", .file "hello\n")])
        [(["a.txt"], .file "hello\n" 6)] (some ⟨[["gone.txt"]], false⟩)).pendingUpdates,
      (lstatAt (.dir [("a.txt", .file "hello\n")]) u.rel).isSome = true ∨
        hasOwnProperty [(["a.txt"], .file "hello\n" 6)] u.rel = true) :=
  changes_only_for_known_paths demoHash {} (.dir [("a.txt", .file "hello\n")])
    [(["a.txt"], .file "hello\n" 6)] (some ⟨[["gone.txt"]], false⟩)
    (by simp [Node.WF, EntriesWF])

/-! ## Run scheduling: the claims -/

/-- C6 (at most one additional run): in every reachable runner state in which a
run is active, after `n` further `requestRun` calls, `n ≥ 1`, no new run has
started; when the active run completes, exactly one more run starts (the run
counter grows by one, `pending` is cleared); and when that run completes the
runner is idle with `pending` false and the counter unchanged. -/
theorem requestRun_coalesced (config : Config) (aiEnabled : Bool) (actions : List Action)
    (r : ActiveRun) (n : Nat) (oks oks' : List Bool)
    (hact : (runActions config aiEnabled actions).active = [r]) (hn : 1 ≤ n) :
    ((List.replicate n Action.requestRun).foldl (step config aiEnabled)
        (runActions config aiEnabled actions)).runCount
      = (runActions config aiEnabled actions).runCount ∧
    ((List.replicate n Action.requestRun).foldl (step config aiEnabled)
        (runActions config aiEnabled actions)).active = [r] ∧
    (completeRun config aiEnabled oks
        ((List.replicate n Action.requestRun).foldl (step config aiEnabled)
          (runActions config aiEnabled actions))).runCount
      = (runActions config aiEnabled actions).runCount + 1 ∧
    (completeRun config aiEnabled oks
        ((List.replicate n Action.requestRun).foldl (step config aiEnabled)
          (runActions config aiEnabled actions))).running = true ∧
    (completeRun config aiEnabled oks
        ((List.replicate n Action.requestRun).foldl (step config aiEnabled)
          (runActions config aiEnabled actions))).pending = false ∧
    (∃ a, (completeRun config aiEnabled oks
        ((List.replicate n Action.requestRun).foldl (step config aiEnabled)
          (runActions config aiEnabled actions))).active
      = [⟨(runActions config aiEnabled actions).runCount + 1, a⟩]) ∧
    (completeRun config aiEnabled oks' (completeRun config aiEnabled oks
        ((List.replicate n Action.requestRun).foldl (step config aiEnabled)
          (runActions config aiEnabled actions)))).runCount
      = (runActions config aiEnabled actions).runCount + 1 ∧
    (completeRun config aiEnabled oks' (completeRun config aiEnabled oks
        ((List.replicate n Action.requestRun).foldl (step config aiEnabled)
          (runActions config aiEnabled actions)))).running = false ∧
    (completeRun config aiEnabled oks' (completeRun config aiEnabled oks
        ((List.replicate n Action.requestRun).foldl (step config aiEnabled)
          (runActions config aiEnabled actions)))).pending = false ∧
    (completeRun config aiEnabled oks' (completeRun config aiEnabled oks
        ((List.replicate n Action.requestRun).foldl (step config aiEnabled)
          (runActions config aiEnabled actions)))).active = [] := by
  have hinv := runActions_inv config aiEnabled actions
  generalize runActions config aiEnabled actions = s at hact hinv ⊢
  unfold RunnerInv at hinv
  rw [hact] at hinv
  obtain ⟨hrun, k, hk, hid, -, -⟩ := hinv
  have h1 := foldl_requestRun_running config aiEnabled n s hrun
  simp only at h1
  generalize (List.replicate n Action.requestRun).foldl (step config aiEnabled) s = s1 at h1 ⊢
  obtain ⟨-, hc1, ha1, -, hp1, -⟩ := h1
  have hp1' : s1.pending = true := hp1 (by omega)
  have h2 := completeRun_finished config aiEnabled oks s1 r (by rw [ha1, hact])
    (by rw [hc1, hk, hid])
  generalize completeRun config aiEnabled oks s1 = s2 at h2 ⊢
  unfold FinishedFrom at h2
  simp only [hp1', if_true] at h2
  obtain ⟨hp2, hr2, hc2, a, ha2⟩ := h2
  have h3 := completeRun_finished config aiEnabled oks' s2 ⟨s1.runCount + 1, a⟩ ha2
    (by rw [hc2])
  generalize completeRun config aiEnabled oks' s2 = s3 at h3 ⊢
  unfold FinishedFrom at h3
  simp only [hp2, Bool.false_eq_true, if_false, Nat.add_zero] at h3
  obtain ⟨hp3, hr3, hc3, ha3⟩ := h3
  refine ⟨hc1, by rw [ha1, hact], by rw [hc2, hc1], hr2, hp2, ⟨a, by rw [ha2, hc1]⟩,
    by rw [hc3, hc2, hc1], hr3, hp3, ha3⟩

/-- Witness for C6: the first run of two sequential commands is active, three
requests arrive, the active run and its successor complete. -/
theorem requestRun_coalesced_witness :
    (runActions { commands := ["lint", "test"], parallel := false } true [.requestRun]).active
      = [⟨1, .exits 1⟩] ∧
    (completeRun { commands := ["lint", "test"], parallel := false } true [true, true]
      (completeRun { commands := ["lint", "test"], parallel := false } true [true, false]
        ((List.replicate 3 Action.requestRun).foldl
          (step { commands := ["lint", "test"], parallel := false } true)
          (runActions { commands := ["lint", "test"], parallel := false } true
            [.requestRun])))).runCount
      = (runActions { commands := ["lint", "test"], parallel := false } true [.requestRun]).runCount + 1 :=
  ⟨rfl, (requestRun_coalesced { commands := ["lint", "test"], parallel := false } true
    [.requestRun] ⟨1, .exits 1⟩ 3 [true, false] [true, true] rfl (by decide)).2.2.2.2.2.2.1⟩

/-- C7 (runs are strictly serialized): after every sequence of `requestRun`
calls and settled promises, at most one run is in flight, it carries the
latest run id, and the trace is the complete event sequences of the runs
1, 2, ..., k (started, status written and, when change tracking is on,
recorded), in this order, followed by a leading part of the events of run
k + 1: no run starts before its predecessor's status write and `recordRun`
are over, and run ids are handed out in start order. -/
theorem runs_strictly_serialized (config : Config) (aiEnabled : Bool) (actions : List Action) :
    (runActions config aiEnabled actions).active.length ≤ 1 ∧
    (∀ r ∈ (runActions config aiEnabled actions).active,
      r.runId = (runActions config aiEnabled actions).runCount) ∧
    ∃ k inFlight rest,
      (runActions config aiEnabled actions).log = doneRuns aiEnabled k ++ inFlight ∧
      inFlight ++ rest = fullRun aiEnabled (k + 1) := by
  have hinv := runActions_inv config aiEnabled actions
  generalize runActions config aiEnabled actions = s at hinv ⊢
  unfold RunnerInv at hinv
  cases hact : s.active with
  | nil =>
    rw [hact] at hinv
    refine ⟨by simp, by simp, ?_⟩
    rcases hinv with ⟨-, hlog⟩ | ⟨-, k, inFlight, rest, -, hlog, hrest⟩
    · exact ⟨s.runCount, [], fullRun aiEnabled (s.runCount + 1), by simp [hlog], by simp⟩
    · exact ⟨k, inFlight, rest, hlog, hrest⟩
  | cons r rest =>
    cases rest with
    | cons r2 rest2 =>
      rw [hact] at hinv
      exact hinv.elim
    | nil =>
      rw [hact] at hinv
      obtain ⟨-, k, hk, hid, hlog, hai⟩ := hinv
      refine ⟨by simp, by simp [hk, hid], k, stageLog r, ?_, hlog, ?_⟩
      · exact match r.await with
          | .exits _ | .writeStatus =>
            [.statusWritten (k + 1)] ++ (if aiEnabled then [.recorded (k + 1)] else [])
          | .recordRun => [.recorded (k + 1)]
          | .ollamaAuto => []
      · obtain ⟨rid, ra⟩ := r
        simp only at hid
        subst hid
        cases ra with
        | exits left => simp [stageLog, fullRun]
        | writeStatus => simp [stageLog, fullRun]
        | recordRun => simp [stageLog, fullRun, hai (Or.inl rfl)]
        | ollamaAuto => simp [stageLog, fullRun, hai (Or.inr rfl)]

/-! ## Apply: the gate -/

/-- C8 (apply gate): with `requireSuccess`, when the status file is absent or
unparseable, and also when the recorded status has `lastRunOk` false,
`applySandbox` is refused with an error and the target tree is the one it
was given. -/
theorem applySandbox_gate (sandbox target : Node) (statusFile : StatusFile) (config : Config)
    (prune : Bool)
    (h : statusFile = .absent ∨ statusFile = .unparseable ∨
      ∃ status, statusFile = .parsed status ∧ status.lastRunOk = false) :
    ∃ message, applySandbox sandbox target statusFile config true prune = (.refused message, target) := by
  rcases h with rfl | rfl | ⟨status, rfl, hok⟩
  · exact ⟨_, rfl⟩
  · exact ⟨_, rfl⟩
  · exact ⟨"Refusing to apply changes. Last run failed or was interrupted.", by
      simp [applySandbox, readStatus, hok]⟩

/-- Witness for C8: no status file, a sandbox with a new file, a target with
another file. -/
theorem applySandbox_gate_witness :
    ∃ message, applySandbox (.dir [("a.txt", .file "new")]) (.dir [("b.txt", .file "old")])
      .absent {} true true = (.refused message, .dir [("b.txt", .file "old")]) :=
  applySandbox_gate (.dir [("a.txt", .file "new")]) (.dir [("b.txt", .file "old")])
    .absent {} true (Or.inl rfl)

/-! ## Apply: copy and prune -/

/-- C9, as stated, is false. Without `prune` (the default) a file of the target
that is not in the sandbox stays: the sandbox holds `a.txt`, the target
`b.txt`; the apply succeeds and the target still holds `b.txt`. Nor does
every target file that is not in the sandbox stay: a link `d` of the sandbox
replaces the target directory `d` with its file `d/f`. The apply does not
succeed on every target: it fails where the target has the directory `a.txt`
in the place of the sandbox file, or the file `d` in the place of the sandbox
directory. And it does not always leave the sandbox file in the target: where
the target has the link `a.txt` to `real.txt`, the content is written to
`real.txt`, which the prune then removes, and `a.txt` stays a link that leads
nowhere; where the target has the link `d` to the directory `e`, the sandbox
file `d/f` is written to `e/f`, and the prune removes `e`. -/
theorem apply_keeps_files_absent_from_sandbox :
    ((applySandbox (.dir [("a.txt", .file "new")]) (.dir [("b.txt", .file "old")])
      (.parsed ⟨true, false⟩) {} true false).1 = .applied ∧
    ¬ (∀ rel content,
        entryAt (applySandbox (.dir [("a.txt", .file "new")]) (.dir [("b.txt", .file "old")])
          (.parsed ⟨true, false⟩) {} true false).2 rel = some (.file content) →
        applyIgnore {} rel = false →
        ∃ c, entryAt (.dir [("a.txt", .file "new")]) rel = some (.file c))) ∧
    applySandbox (.dir [("d", .symlink "x" none)]) (.dir [("d", .dir [("f", .file "keep")])])
      (.parsed ⟨true, false⟩) {} true false = (.applied, .dir [("d", .symlink "x" none)]) ∧
    (applySandbox (.dir [("a.txt", .file "new")]) (.dir [("a.txt", .dir [])])
      (.parsed ⟨true, false⟩) {} true false).1 = .failed .EISDIR ∧
    (applySandbox (.dir [("d", .dir [])]) (.dir [("d", .file "x")])
      (.parsed ⟨true, false⟩) {} true false).1 = .failed .EEXIST ∧
    applySandbox (.dir [("a.txt", .file "new")])
        (.dir [("a.txt", .symlink "real.txt" (some (.file "old"))), ("real.txt", .file "old")])
        (.parsed ⟨true, false⟩) {} true true =
      (.applied, .dir [("a.txt", .symlink "real.txt" (some (.file "old")))]) ∧
    applySandbox (.dir [("d", .dir [("f", .file "new")])])
        (.dir [("d", .symlink "e" (some (.dir []))), ("e", .dir [])])
        (.parsed ⟨true, false⟩) {} true true =
      (.applied, .dir [("d", .symlink "e" (some (.dir [])))]) := by
  refine ⟨⟨rfl, fun h => ?_⟩, rfl, rfl, rfl, rfl, rfl⟩
  obtain ⟨c, hc⟩ := h ["b.txt"] "old" rfl rfl
  simp [entryAt, findEntry] at hc

/-- C9, amended (apply with a successful last run): for a well-formed sandbox
tree and a target directory that has nothing of another kind in the place of a
sandbox entry (a directory or nothing where the sandbox has a directory, a
regular file or nothing where it has a regular file; so no symbolic link
there), `applySandbox` with `requireSuccess` and a recorded status with
`lastRunOk` true succeeds, with or without `prune`, and afterwards every
sandbox regular file that the walk reaches (neither it nor a directory above
it is ignored) is in the target with the sandbox's content, every such link is
there with the same link target, and every such directory is a directory of
the target. Without `prune`, a path that is neither at nor above the place of
such a sandbox entry, nor below such a sandbox link, holds in the target what
it held before. -/
theorem applySandbox_copies (sandbox target : Node) (status : Status) (config : Config)
    (prune : Bool) (hwf : sandbox.WF) (hok : status.lastRunOk = true)
    (hroot : ∃ es, target = .dir es)
    (hdirs : ∀ rel es, rel ≠ [] → entryAt sandbox rel = some (.dir es) →
      visibleFrom (applyIgnore config) [] rel = true →
      entryAt target rel = none ∨ ∃ es', entryAt target rel = some (.dir es'))
    (hfiles : ∀ rel content, rel ≠ [] → entryAt sandbox rel = some (.file content) →
      visibleFrom (applyIgnore config) [] rel = true →
      entryAt target rel = none ∨ ∃ content', entryAt target rel = some (.file content')) :
    (applySandbox sandbox target (.parsed status) config true prune).1 = .applied ∧
    (∀ rel content, rel ≠ [] → entryAt sandbox rel = some (.file content) →
      visibleFrom (applyIgnore config) [] rel = true →
      entryAt (applySandbox sandbox target (.parsed status) config true prune).2 rel
        = some (.file content)) ∧
    (∀ rel linkTarget follow, rel ≠ [] → entryAt sandbox rel = some (.symlink linkTarget follow) →
      visibleFrom (applyIgnore config) [] rel = true →
      entryAt (applySandbox sandbox target (.parsed status) config true prune).2 rel
        = some (.symlink linkTarget none)) ∧
    (∀ rel es, rel ≠ [] → entryAt sandbox rel = some (.dir es) →
      visibleFrom (applyIgnore config) [] rel = true →
      ∃ es', entryAt (applySandbox sandbox target (.parsed status) config true prune).2 rel
        = some (.dir es')) ∧
    (prune = false → ∀ rel,
      (∀ r n, r ≠ [] → entryAt sandbox r = some n →
        visibleFrom (applyIgnore config) [] r = true → leads rel r = false) →
      (∀ r linkTarget follow, r ≠ [] → entryAt sandbox r = some (.symlink linkTarget follow) →
        visibleFrom (applyIgnore config) [] r = true → leads r rel = false) →
      entryAt (applySandbox sandbox target (.parsed status) config true prune).2 rel
        = entryAt target rel) := by
  have hfits : ∀ e ∈ walkDir sandbox (applyIgnore config), Fits target e := by
    rintro ⟨rel, n⟩ he
    obtain ⟨h1, h2, h3⟩ := (mem_walkDir_iff _ sandbox hwf rel n).1 he
    cases n with
    | dir es => exact hdirs rel es h1 h2 h3
    | file c => exact hfiles rel c h1 h2 h3
    | symlink _ _ => trivial
    | other => trivial
  have hclear := wayClear_of_fits sandbox _ (walkDir_treeLike (applyIgnore config) sandbox hwf)
    target hroot hfits
  have herr := syncDir_ok sandbox target (applyIgnore config) prune hwf hroot hfits
  have happ := applySandbox_of_sync sandbox target status config prune hok herr
  have hfs := (applySandbox_applied sandbox target (.parsed status) config true prune happ).2
  have hholds := syncDir_holds sandbox target (applyIgnore config) prune hwf hclear herr
  rw [hfs]
  refine ⟨happ, ?_, ?_, ?_, ?_⟩
  · intro rel c h1 h2 h3
    exact hholds (rel, .file c) ((mem_walkDir_iff _ sandbox hwf rel _).2 ⟨h1, h2, h3⟩)
  · intro rel tgt fl h1 h2 h3
    exact hholds (rel, .symlink tgt fl) ((mem_walkDir_iff _ sandbox hwf rel _).2 ⟨h1, h2, h3⟩)
  · intro rel es h1 h2 h3
    exact hholds (rel, .dir es) ((mem_walkDir_iff _ sandbox hwf rel _).2 ⟨h1, h2, h3⟩)
  · intro hp rel hq hlink
    subst hp
    apply syncDir_stays sandbox target (applyIgnore config) hwf hroot hfits rel
    · rintro ⟨r, n⟩ he
      obtain ⟨h1, h2, h3⟩ := (mem_walkDir_iff _ sandbox hwf r n).1 he
      exact hq r n h1 h2 h3
    · rintro ⟨r, n⟩ he hl lt fo hn
      obtain ⟨h1, h2, h3⟩ := (mem_walkDir_iff _ sandbox hwf r n).1 he
      simp only at hn hl
      subst hn
      rw [hlink r lt fo h1 h2 h3] at hl
      exact Bool.noConfusion hl

/-- Witness for C9 amended: the sandbox holds `a.txt`, the target `b.txt`; the
apply succeeds, the target then holds `a.txt` with the sandbox's content, and
`b.txt` is what it was. -/
theorem applySandbox_copies_witness :
    (applySandbox (.dir [("a.txt", .file "new")]) (.dir [("b.txt", .file "old")])
      (.parsed ⟨true, false⟩) {} true false).1 = .applied ∧
    entryAt (applySandbox (.dir [("a.txt", .file "new")]) (.dir [("b.txt", .file "old")])
      (.parsed ⟨true, false⟩) {} true false).2 ["a.txt"] = some (.file "new") ∧
    entryAt (applySandbox (.dir [("a.txt", .file "new")]) (.dir [("b.txt", .file "old")])
      (.parsed ⟨true, false⟩) {} true false).2 ["b.txt"] = some (.file "old") := by
  have h := applySandbox_copies (.dir [("a.txt", .file "new")]) (.dir [("b.txt", .file "old")])
    ⟨true, false⟩ {} false (by simp [Node.WF, EntriesWF]) rfl ⟨_, rfl⟩
    (by
      intro rel es hrel hent _
      cases rel with
      | nil => exact absurd rfl hrel
      | cons name rest =>
        by_cases hn : "a.txt" = name
        · cases rest <;> simp [entryAt, findEntry, hn] at hent
        · simp [entryAt, findEntry, hn] at hent)
    (by
      intro rel content hrel hent _
      cases rel with
      | nil => exact absurd rfl hrel
      | cons name rest =>
        by_cases hn : "a.txt" = name
        · subst hn
          left
          simp [entryAt, findEntry]
        · simp [entryAt, findEntry, hn] at hent)
  refine ⟨h.1, h.2.1 ["a.txt"] "new" (by simp) rfl rfl, ?_⟩
  refine (h.2.2.2.2 rfl ["b.txt"] ?_ ?_).trans rfl
  · intro r n hr hent _
    cases r with
    | nil => exact absurd rfl hr
    | cons name rest =>
      by_cases hn : "a.txt" = name
      · subst hn
        simp [leads]
      · simp [entryAt, findEntry, hn] at hent
  · intro r lt fo hr hent _
    cases r with
    | nil => exact absurd rfl hr
    | cons name rest =>
      by_cases hn : "a.txt" = name
      · subst hn
        simp [leads]
      · simp [entryAt, findEntry, hn] at hent

/-- C10, as stated, is false. With the ignore list `build` (which matches the
directory but not the paths below it) and `prune`, the target's `build/x`
stays, although the ignore predicate does not match `build/x` and the sandbox
has no such path. And a sandbox path is not always in the target afterwards:
where the target has the link `a.txt` to `real.txt`, the content of the sandbox
file `a.txt` is written to `real.txt`, which the prune then removes, and
`a.txt` stays a link that leads nowhere; where the target has the link `d` to
the directory `e`, the sandbox file `d/f` is written to `e/f`, and the prune
removes `e`. -/
theorem prune_keeps_paths_below_ignored_dir :
    ((applySandbox (.dir [("a.txt", .file "new")])
      (.dir [("build", .dir [("x", .file "old")])])
      (.parsed ⟨true, false⟩) { ignore := [buildPattern] } true true).1 = .applied ∧
    ¬ (∀ rel n,
        entryAt (applySandbox (.dir [("a.txt", .file "new")])
          (.dir [("build", .dir [("x", .file "old")])])
          (.parsed ⟨true, false⟩) { ignore := [buildPattern] } true true).2 rel = some n →
        rel ≠ [] → applyIgnore { ignore := [buildPattern] } rel = false →
        ∃ m, entryAt (.dir [("a.txt", .file "new")]) rel = some m)) ∧
    applySandbox (.dir [("a.txt", .file "new")])
        (.dir [("a.txt", .symlink "real.txt" (some (.file "old"))), ("real.txt", .file "old")])
        (.parsed ⟨true, false⟩) {} true true =
      (.applied, .dir [("a.txt", .symlink "real.txt" (some (.file "old")))]) ∧
    applySandbox (.dir [("d", .dir [("f", .file "new")])])
        (.dir [("d", .symlink "e" (some (.dir []))), ("e", .dir [])])
        (.parsed ⟨true, false⟩) {} true true =
      (.applied, .dir [("d", .symlink "e" (some (.dir [])))]) := by
  refine ⟨⟨rfl, fun h => ?_⟩, rfl, rfl⟩
  obtain ⟨m, hm⟩ := h ["build", "x"] (.file "old") rfl (by simp) rfl
  simp [entryAt, findEntry] at hm

/-- C10, amended (prune correctness): for a well-formed sandbox tree and a
target whose symbolic links are not on the way of the copy (none at or above
the place of a sandbox directory or regular file that the walk reaches, none
above the place of such a sandbox link), after `applySandbox` with `prune` has
succeeded, every path of the target tree such that neither it nor a directory
above it is matched by the ignore predicate is a path of the sandbox, and every
sandbox regular file, link and directory that the walk reaches (neither it nor
a directory above it is ignored) is in the target: the file with the sandbox's
content, the link with the same target. -/
theorem applySandbox_prune (sandbox target : Node) (statusFile : StatusFile) (config : Config)
    (requireSuccess : Bool) (hwf : sandbox.WF)
    (hclear : ∀ rel n, rel ≠ [] → entryAt sandbox rel = some n →
      visibleFrom (applyIgnore config) [] rel = true → WayClear target (rel, n))
    (happlied : (applySandbox sandbox target statusFile config requireSuccess true).1 = .applied) :
    (∀ rel n, rel ≠ [] →
      entryAt (applySandbox sandbox target statusFile config requireSuccess true).2 rel = some n →
      visibleFrom (applyIgnore config) [] rel = true →
      ∃ m, entryAt sandbox rel = some m) ∧
    (∀ rel content, rel ≠ [] → entryAt sandbox rel = some (.file content) →
      visibleFrom (applyIgnore config) [] rel = true →
      entryAt (applySandbox sandbox target statusFile config requireSuccess true).2 rel
        = some (.file content)) ∧
    (∀ rel linkTarget follow, rel ≠ [] → entryAt sandbox rel = some (.symlink linkTarget follow) →
      visibleFrom (applyIgnore config) [] rel = true →
      entryAt (applySandbox sandbox target statusFile config requireSuccess true).2 rel
        = some (.symlink linkTarget none)) ∧
    (∀ rel es, rel ≠ [] → entryAt sandbox rel = some (.dir es) →
      visibleFrom (applyIgnore config) [] rel = true →
      ∃ es', entryAt (applySandbox sandbox target statusFile config requireSuccess true).2 rel
        = some (.dir es')) := by
  obtain ⟨herr, hfs⟩ := applySandbox_applied sandbox target statusFile config requireSuccess true
    happlied
  have hway : ∀ e ∈ walkDir sandbox (applyIgnore config), WayClear target e := by
    rintro ⟨rel, n⟩ he
    obtain ⟨h1, h2, h3⟩ := (mem_walkDir_iff _ sandbox hwf rel n).1 he
    exact hclear rel n h1 h2 h3
  have hholds := syncDir_holds sandbox target (applyIgnore config) true hwf hway herr
  rw [hfs]
  refine ⟨?_, ?_, ?_, ?_⟩
  · intro rel n hrel hent hvis
    have := syncDir_pruned sandbox target (applyIgnore config) hwf hway herr rel n hrel hent hvis
    obtain ⟨⟨r, m⟩, hm, hr⟩ := List.mem_map.1 this
    simp only at hr
    subst hr
    exact ⟨m, ((mem_walkDir_iff _ sandbox hwf r m).1 hm).2.1⟩
  · intro rel c h1 h2 h3
    exact hholds (rel, .file c) ((mem_walkDir_iff _ sandbox hwf rel _).2 ⟨h1, h2, h3⟩)
  · intro rel tgt fl h1 h2 h3
    exact hholds (rel, .symlink tgt fl) ((mem_walkDir_iff _ sandbox hwf rel _).2 ⟨h1, h2, h3⟩)
  · intro rel es h1 h2 h3
    exact hholds (rel, .dir es) ((mem_walkDir_iff _ sandbox hwf rel _).2 ⟨h1, h2, h3⟩)

/-- Witness for C10 amended: the sandbox holds `a.txt`, the target `b.txt` and
`.git/HEAD` and no link; after the apply with `prune` the target has lost
`b.txt`, kept the ignored `.git` and gained `a.txt`. -/
theorem applySandbox_prune_witness :
    (applySandbox (.dir [("a.txt", .file "new")])
      (.dir [("b.txt", .file "old"), (".git", .dir [("HEAD", .file "ref")])])
      (.parsed ⟨true, false⟩) {} true true).1 = .applied ∧
    (∀ rel n, rel ≠ [] →
      entryAt (applySandbox (.dir [("a.txt", .file "new")])
        (.dir [("b.txt", .file "old"), (".git", .dir [("HEAD", .file "ref")])])
        (.parsed ⟨true, false⟩) {} true true).2 rel = some n →
      visibleFrom (applyIgnore {}) [] rel = true →
      ∃ m, entryAt (.dir [("a.txt", .file "new")]) rel = some m) ∧
    entryAt (applySandbox (.dir [("a.txt", .file "new")])
        (.dir [("b.txt", .file "old"), (".git", .dir [("HEAD", .file "ref")])])
        (.parsed ⟨true, false⟩) {} true true).2 ["a.txt"] = some (.file "new") ∧
    entryAt (applySandbox (.dir [("a.txt", .file "new")])
        (.dir [("b.txt", .file "old"), (".git", .dir [("HEAD", .file "ref")])])
        (.parsed ⟨true, false⟩) {} true true).2 ["b.txt"] = none ∧
    entryAt (applySandbox (.dir [("a.txt", .file "new")])
        (.dir [("b.txt", .file "old"), (".git", .dir [("HEAD", .file "ref")])])
        (.parsed ⟨true, false⟩) {} true true).2 [".git", "HEAD"] = some (.file "ref") :=
  ⟨rfl, (applySandbox_prune (.dir [("a.txt", .file "new")])
      (.dir [("b.txt", .file "old"), (".git", .dir [("HEAD", .file "ref")])])
      (.parsed ⟨true, false⟩) {} true (by simp [Node.WF, EntriesWF])
      (fun _ _ _ _ _ => wayClear_of_linkless _ (by decide) _) rfl).1,
    rfl, rfl, rfl⟩

/-! ## Claims on the commands of a run -/

/-- C11 (parallel mode). With `parallel` on, `ok` is true exactly when every
configured command exits with code 0, so a command ended by a signal, whose
code is null, makes it false; the status written carries `lastRunOk = ok` and
the same `exits`; and `exits` holds one record per command, in configuration
order, made from the command's name and its child's exit event. -/
theorem parallel_ok_iff_every_code_zero (config : Config) (interrupted : Bool)
    (childExit : Nat → ChildExit) (h : config.parallel = true) :
    ((runCommands config interrupted childExit).ok = true ↔
      ∀ j, j < config.commands.length → (childExit j).code = some 0) ∧
    (∀ j, j < config.commands.length → (childExit j).code = none →
      (runCommands config interrupted childExit).ok = false) ∧
    (runCommands config interrupted childExit).status.lastRunOk =
      (runCommands config interrupted childExit).ok ∧
    (runCommands config interrupted childExit).status.exits =
      (runCommands config interrupted childExit).exits ∧
    (runCommands config interrupted childExit).exits.length = config.commands.length ∧
    ∀ j, (runCommands config interrupted childExit).exits[j]? =
      (config.commands[j]?).map fun name => spawnCommand name (childExit j) := by
  have hok : (runCommands config interrupted childExit).ok = true ↔
      ∀ j, j < config.commands.length → (childExit j).code = some 0 := by
    have := parallelExits_all childExit config.commands 0
    simpa [runCommands, h] using this
  refine ⟨hok, ?_, by simp [runCommands, h], by simp [runCommands, h], ?_, ?_⟩
  · intro j hj hnone
    rw [Bool.eq_false_iff]
    intro htrue
    have := hok.1 htrue j hj
    rw [hnone] at this
    cases this
  · simp [runCommands, h, parallelExits_length]
  · intro j
    have := parallelExits_getElem? childExit config.commands 0 j
    simpa [runCommands, h] using this

/-- C11, the worked case: commands A and B run in parallel, A exits 0 and B
exits 1; `ok` is false and `exits` lists A before B. -/
theorem parallel_ok_iff_every_code_zero_witness :
    (runCommands { commands := ["A", "B"] } false (exitCodes [0, 1])).ok = false ∧
    (runCommands { commands := ["A", "B"] } false (exitCodes [0, 1])).exits =
      [⟨"A", some 0, none⟩, ⟨"B", some 1, none⟩] ∧
    (runCommands { commands := ["A", "B"] } false (exitCodes [0, 1])).status.lastRunOk = false ∧
    ((runCommands { commands := ["A", "B"] } false (exitCodes [0, 1])).ok = true ↔
      ∀ j, j < 2 → (exitCodes [0, 1] j).code = some 0) :=
  ⟨by decide, by decide, by decide,
    (parallel_ok_iff_every_code_zero { commands := ["A", "B"] } false (exitCodes [0, 1]) rfl).1⟩

/-- C12 (sequential mode). With `parallel` off the commands run in
configuration order, each spawned only after the one before it has exited;
the loop runs the first `n` commands, where every command before the `n`-th
exits with code 0 and, when `n` is short of the list, the `n`-th does not, so
that no later command is spawned; `exits` holds the records of exactly these
`n` commands in order; and `ok` is true exactly when all commands ran and all
exited with code 0. The status written carries `lastRunOk = ok`. -/
theorem sequential_stops_at_first_failure (config : Config) (interrupted : Bool)
    (childExit : Nat → ChildExit) (h : config.parallel = false) :
    ∃ n, n ≤ config.commands.length ∧ (config.commands ≠ [] → 0 < n) ∧
      (runCommands config interrupted childExit).trace = oneByOne n ∧
      (runCommands config interrupted childExit).exits.length = n ∧
      (∀ j, j < n → (runCommands config interrupted childExit).exits[j]? =
        (config.commands[j]?).map fun name => spawnCommand name (childExit j)) ∧
      (∀ j, j + 1 < n → (childExit j).code = some 0) ∧
      (n < config.commands.length → (childExit (n - 1)).code ≠ some 0) ∧
      ((runCommands config interrupted childExit).ok = true ↔
        n = config.commands.length ∧
          ∀ j, j < config.commands.length → (childExit j).code = some 0) ∧
      (runCommands config interrupted childExit).status.lastRunOk =
        (runCommands config interrupted childExit).ok := by
  obtain ⟨n, hn, hpos, htrace, hexits, hzero, hstop, hok, hstatus⟩ :=
    runCommands_sequential config interrupted childExit h
  refine ⟨n, hn, hpos, htrace, ?_, ?_, hzero, hstop, hok, by rw [hstatus]⟩
  · rw [hexits, parallelExits_length, List.length_take, Nat.min_eq_left hn]
  · intro j hj
    rw [hexits, parallelExits_getElem?, List.getElem?_take_of_lt hj, Nat.zero_add]

/-- C12, a worked case: of the commands A, B, C run one after the other, B
exits 1; C is never spawned, `exits` holds A and B, and `ok` is false. -/
theorem sequential_stops_at_first_failure_witness :
    (runCommands { commands := ["A", "B", "C"], parallel := false } false
      (exitCodes [0, 1, 0])).trace = [.spawn 0, .exit 0, .spawn 1, .exit 1] ∧
    (runCommands { commands := ["A", "B", "C"], parallel := false } false
      (exitCodes [0, 1, 0])).exits = [⟨"A", some 0, none⟩, ⟨"B", some 1, none⟩] ∧
    ∃ n, n ≤ 3 ∧
      (runCommands { commands := ["A", "B", "C"], parallel := false } false
        (exitCodes [0, 1, 0])).trace = oneByOne n ∧
      ((runCommands { commands := ["A", "B", "C"], parallel := false } false
        (exitCodes [0, 1, 0])).ok = true ↔
        n = 3 ∧ ∀ j, j < 3 → (exitCodes [0, 1, 0] j).code = some 0) := by
  refine ⟨by decide, by decide, ?_⟩
  obtain ⟨n, hn, _, htrace, _, _, _, _, hok, _⟩ :=
    sequential_stops_at_first_failure { commands := ["A", "B", "C"], parallel := false } false
      (exitCodes [0, 1, 0]) rfl
  exact ⟨n, hn, htrace, hok⟩

/-- C13, refuted as stated: in sequential mode with commands A and B, where A
exits 1, the run completes with a single entry in `exits` for two configured
commands. -/
theorem sequential_exits_shorter_than_commands :
    (runCommands { commands := ["A", "B"], parallel := false } false (exitCodes [1, 0])).exits =
      [⟨"A", some 1, none⟩] ∧
    (runCommands { commands := ["A", "B"], parallel := false } false
      (exitCodes [1, 0])).exits.length ≠
      (Config.commands { commands := ["A", "B"], parallel := false }).length := by
  decide

/-- C13, amended. For every completed run `exits` holds one entry per command
spawned: its entries carry, in order, the names of the first commands of the
configuration; in parallel mode there is one per configured command; in
sequential mode there is one per configured command exactly when no command
before the last one fails. -/
theorem exits_one_entry_per_spawned_command (config : Config) (interrupted : Bool)
    (childExit : Nat → ChildExit) :
    (runCommands config interrupted childExit).exits.length ≤ config.commands.length ∧
    (runCommands config interrupted childExit).exits.map Exit.name =
      config.commands.take (runCommands config interrupted childExit).exits.length ∧
    (config.parallel = true →
      (runCommands config interrupted childExit).exits.length = config.commands.length) ∧
    (config.parallel = false →
      ((runCommands config interrupted childExit).exits.length = config.commands.length ↔
        ∀ j, j + 1 < config.commands.length → (childExit j).code = some 0)) := by
  cases h : config.parallel with
  | true =>
    have hex : (runCommands config interrupted childExit).exits =
        parallelExits childExit 0 config.commands := by simp [runCommands, h]
    rw [hex, parallelExits_length, parallelExits_names]
    simp
  | false =>
    obtain ⟨n, hn, hpos, _, hexits, hzero, hstop, _, _⟩ :=
      runCommands_sequential config interrupted childExit h
    have hlen : (runCommands config interrupted childExit).exits.length = n := by
      rw [hexits, parallelExits_length, List.length_take, Nat.min_eq_left hn]
    refine ⟨by omega, ?_, by simp, fun _ => ?_⟩
    · rw [hlen, hexits, parallelExits_names]
    · rw [hlen]
      constructor
      · intro hfull j hj
        exact hzero j (by omega)
      · intro hall
        by_contra hne
        have hlt : n < config.commands.length := by omega
        have hp : 0 < n := hpos (by intro hl; simp [hl] at hlt)
        exact hstop hlt (hall (n - 1) (by omega))

/-- C13, amended, at the refuting input and at a full run: A failing leaves
one entry of two; A and B both succeeding leaves two. -/
theorem exits_one_entry_per_spawned_command_witness :
    (runCommands { commands := ["A", "B"], parallel := false } false
      (exitCodes [1, 0])).exits.map Exit.name = ["A"] ∧
    (runCommands { commands := ["A", "B"], parallel := false } false
      (exitCodes [0, 0])).exits.map Exit.name = ["A", "B"] ∧
    (runCommands { commands := ["A", "B"], parallel := false } false
      (exitCodes [0, 0])).exits.length ≤ 2 :=
  ⟨by decide, by decide,
    (exits_one_entry_per_spawned_command { commands := ["A", "B"], parallel := false } false
      (exitCodes [0, 0])).1⟩

/-! ## Claim on the output capture -/

/-- C14 (bounded output capture). After any sequence of `append` calls on a
capture with ceiling `maxBytes`, for each command name both captured texts
have at most `maxBytes` code units, each is the last `min(L, maxBytes)` units
of the concatenation of the lines of its stream, every line followed by a line
feed, where `L` is the length of that concatenation; and the `truncated` flag
of the command is true exactly when one of the calls for that command found
the buffer with the new line longer than the ceiling, which is the case
exactly when one of its two streams wrote more than `maxBytes` units. -/
theorem capture_keeps_bounded_tail (maxBytes : Nat) (calls : List OutputLine) (name : String) :
    ((captureAll maxBytes calls).entry name).stdout.length ≤ maxBytes ∧
    ((captureAll maxBytes calls).entry name).stderr.length ≤ maxBytes ∧
    ((captureAll maxBytes calls).entry name).stdout =
      lastUnits maxBytes (streamText calls name false) ∧
    ((captureAll maxBytes calls).entry name).stderr =
      lastUnits maxBytes (streamText calls name true) ∧
    ((captureAll maxBytes calls).entry name).stdout.length =
      min (streamText calls name false).length maxBytes ∧
    ((captureAll maxBytes calls).entry name).stderr.length =
      min (streamText calls name true).length maxBytes ∧
    (((captureAll maxBytes calls).entry name).truncated = true ↔
      ∃ before l after, calls = before ++ l :: after ∧ l.name = name ∧
        exceedsCeiling maxBytes (captureAll maxBytes before) l = true) ∧
    (((captureAll maxBytes calls).entry name).truncated = true ↔
      maxBytes < (streamText calls name false).length ∨
        maxBytes < (streamText calls name true).length) := by
  obtain ⟨hout, herr, htr⟩ := captureAll_entry maxBytes calls name
  have lout := lastUnits_length maxBytes (streamText calls name false)
  have lerr := lastUnits_length maxBytes (streamText calls name true)
  refine ⟨?_, ?_, hout, herr, ?_, ?_, truncated_iff_exceeded maxBytes calls name, htr⟩
  · rw [hout, lout]; exact Nat.min_le_right _ _
  · rw [herr, lerr]; exact Nat.min_le_right _ _
  · rw [hout, lout]
  · rw [herr, lerr]

/-- C14, a worked case with ceiling 4: the command `t` writes `ab` and `cd` to
its standard output and `e` to its standard error; the output buffer keeps the
last four units of `ab\ncd\n` and the flag is set, the error buffer keeps all
of `e\n`. -/
theorem capture_keeps_bounded_tail_witness :
    (captureAll 4 [⟨"t", "stdout", js "ab"⟩, ⟨"t", "stderr", js "e"⟩,
      ⟨"t", "stdout", js "cd"⟩]).entry "t" = ⟨js "\ncd\n", js "e\n", true⟩ ∧
    ((captureAll 4 [⟨"t", "stdout", js "ab"⟩, ⟨"t", "stderr", js "e"⟩,
      ⟨"t", "stdout", js "cd"⟩]).entry "t").stdout.length ≤ 4 :=
  ⟨by decide,
    (capture_keeps_bounded_tail 4 [⟨"t", "stdout", js "ab"⟩, ⟨"t", "stderr", js "e"⟩,
      ⟨"t", "stdout", js "cd"⟩] "t").1⟩

/-! ## Claims on diffs -/

/-- C15, refuted as stated, in two ways. With the `verbose` option off, an
added file larger than `maxFileBytes` is recorded with no `diff` and no
`reason` field at all. And with the ignore list `build` (which matches the
directory, not the paths below it), an incremental run hinted at
`build/out.txt` records the file, too large, with its reason and updates the
baseline; the full scan that follows does not walk into `build` and reports
the path deleted. -/
theorem verbose_off_records_no_reason :
    (recordRun demoHash demoPatch {} { verbose := false, maxFileBytes := 4 }
      (.dir [("big.txt", .file "hello world\n")]) ⟨.dir [], [], none⟩ none).changes =
      some [⟨⟨["big.txt"], .added, some (.file "hello world\n" 12)⟩, .absent⟩] ∧
    (recordRun demoHash demoPatch { ignore := [buildPattern] } { maxFileBytes := 4 }
      (.dir [("build", .dir [("out.txt", .file "hello world\n")])]) ⟨.dir [], [], none⟩
      (some ⟨[["build", "out.txt"]], false⟩)).changes =
      some [⟨⟨["build", "out.txt"], .added, some (.file "hello world\n" 12)⟩,
        .null "too_large" (some 12)⟩] ∧
    (recordRun demoHash demoPatch { ignore := [buildPattern] } { maxFileBytes := 4 }
      (.dir [("build", .dir [("out.txt", .file "hello world\n")])]) ⟨.dir [], [], none⟩
      (some ⟨[["build", "out.txt"]], false⟩)).baseline.error = none ∧
    (computeChanges demoHash { ignore := [buildPattern] }
      (.dir [("build", .dir [("out.txt", .file "hello world\n")])])
      (recordRun demoHash demoPatch { ignore := [buildPattern] } { maxFileBytes := 4 }
        (.dir [("build", .dir [("out.txt", .file "hello world\n")])]) ⟨.dir [], [], none⟩
        (some ⟨[["build", "out.txt"]], false⟩)).baseline.files none).changes =
      [⟨["build", "out.txt"], .deleted, none⟩] :=
  ⟨rfl, rfl, rfl, rfl⟩

/-- C15, amended. With the `verbose` option on: a regular file larger than
`maxFileBytes` is read as `too_large`, the size being tested first, and one
within the limit that holds a null byte as `binary`; for an added, modified or
deleted change of a regular file whose read is skipped in this way (for a
modified file the baseline side is looked at first), enriching the change
raises no error and yields `diff = null` with that reason and size; the event
of the run carries these records; the baseline is updated from all pending
updates of the scan whatever the diffs were. When that update goes through:
after a run that was a full scan, with no unindexed top-level file named
`__proto__` in the sandbox, a full scan that follows with no further change
reports nothing; after an incremental run, a full scan that follows reports no
change for a hinted path that its walk reaches (neither the path nor a
directory above it is ignored, no directory above it is a link), that is not
the name of a member of `Object.prototype`, and where a regular file is or
nothing is. -/
theorem skipped_diff_carries_reason (hashFile : String → String)
    (createTwoFilesPatch : Patcher) (config : Config) (aiConfig : AiConfig) (sandbox : Node)
    (b : Baseline) (changeHint : Option ChangeHint)
    (hen : aiConfig.enabled = true) (hv : aiConfig.verbose = true) :
    (∀ root rel content, statAt root rel = some (.file content) →
      (aiConfig.maxFileBytes < content.utf8ByteSize →
        readTextMaybe root rel aiConfig.maxFileBytes =
          .ok (.skipped "too_large" content.utf8ByteSize)) ∧
      (content.utf8ByteSize ≤ aiConfig.maxFileBytes → hasNullByte content = true →
        readTextMaybe root rel aiConfig.maxFileBytes =
          .ok (.skipped "binary" content.utf8ByteSize))) ∧
    (∀ change : Change,
      (change.info = none ∨ ∃ hash size, change.info = some (.file hash size)) →
      (∀ reason size, change.type = .added →
        readTextMaybe sandbox change.path aiConfig.maxFileBytes = .ok (.skipped reason size) →
        enrichChange createTwoFilesPatch aiConfig sandbox b.store change =
          .ok ⟨change, .null reason (some size)⟩) ∧
      (∀ reason size, change.type = .deleted →
        readTextMaybe b.store change.path aiConfig.maxFileBytes = .ok (.skipped reason size) →
        enrichChange createTwoFilesPatch aiConfig sandbox b.store change =
          .ok ⟨change, .null reason (some size)⟩) ∧
      (∀ prev next, change.type = .modified →
        readTextMaybe b.store change.path aiConfig.maxFileBytes = .ok prev →
        readTextMaybe sandbox change.path aiConfig.maxFileBytes = .ok next →
        (∀ reason size, prev = .skipped reason size →
          enrichChange createTwoFilesPatch aiConfig sandbox b.store change =
            .ok ⟨change, .null reason (some size)⟩) ∧
        (∀ text s reason size, prev = .text text s → next = .skipped reason size →
          enrichChange createTwoFilesPatch aiConfig sandbox b.store change =
            .ok ⟨change, .null reason (some size)⟩))) ∧
    (∀ enriched,
      enrichChangesWithDiff createTwoFilesPatch aiConfig sandbox b.store
        (computeChanges hashFile config sandbox b.files changeHint).changes = .ok enriched →
      (∀ (i : Nat) (change : Change),
        (computeChanges hashFile config sandbox b.files changeHint).changes[i]? = some change →
        ∃ e, enriched[i]? = some e ∧
          enrichChange createTwoFilesPatch aiConfig sandbox b.store change = .ok e) ∧
      (recordRun hashFile createTwoFilesPatch config aiConfig sandbox b changeHint).baseline =
        applyBaselineUpdates sandbox b.store b.files
          (computeChanges hashFile config sandbox b.files changeHint).pendingUpdates ∧
      (isIncremental changeHint = false →
        (["__proto__"] ∉ (listSandboxFiles sandbox (sandboxIgnore config)).map Prod.fst ∨
          hasOwnProperty b.files ["__proto__"] = true) →
        (applyBaselineUpdates sandbox b.store b.files
          (computeChanges hashFile config sandbox b.files changeHint).pendingUpdates).error =
            none →
        computeChanges hashFile config sandbox
          (recordRun hashFile createTwoFilesPatch config aiConfig sandbox b changeHint).baseline.files
          none = ⟨[], []⟩) ∧
      (∀ (hint : ChangeHint) (rel : RelPath), changeHint = some hint → hint.fullScan = false →
        sandbox.WF → rel ∈ hint.paths → rel ≠ [] →
        visibleFrom (sandboxIgnore config) [] rel = true → isPrototypeKey rel = false →
        ((∃ content, entryAt sandbox rel = some (.file content)) ∨
          (entryAt sandbox rel = none ∧ statAt sandbox rel = none)) →
        (applyBaselineUpdates sandbox b.store b.files
          (computeChanges hashFile config sandbox b.files changeHint).pendingUpdates).error =
            none →
        ∀ c ∈ (computeChanges hashFile config sandbox
          (recordRun hashFile createTwoFilesPatch config aiConfig sandbox b
            changeHint).baseline.files none).changes, c.path ≠ rel)) := by
  refine ⟨?_, ?_, ?_⟩
  · intro root rel content hstat
    have hr := readTextMaybe_file root rel aiConfig.maxFileBytes content hstat
    constructor
    · intro hbig
      rw [hr, if_pos hbig]
    · intro hsmall hnull
      rw [hr, if_neg (by omega), if_pos hnull]
  · intro change hreg
    refine ⟨?_, ?_, ?_⟩
    · intro reason size htype hread
      have := computeDiff_added_skipped createTwoFilesPatch aiConfig sandbox b.store change.path
        reason size hread
      rw [← htype] at this
      exact enrichChange_regular createTwoFilesPatch aiConfig sandbox b.store change hreg _ this
    · intro reason size htype hread
      have := computeDiff_deleted_skipped createTwoFilesPatch aiConfig sandbox b.store change.path
        reason size hread
      rw [← htype] at this
      exact enrichChange_regular createTwoFilesPatch aiConfig sandbox b.store change hreg _ this
    · intro prev next htype hp hn
      obtain ⟨h1, h2⟩ := computeDiff_modified_skipped createTwoFilesPatch aiConfig sandbox b.store
        change.path prev next hp hn
      constructor
      · intro reason size hprev
        have := h1 reason size hprev
        rw [← htype] at this
        exact enrichChange_regular createTwoFilesPatch aiConfig sandbox b.store change hreg _ this
      · intro text s reason size hprev hnext
        have := h2 text s reason size hprev hnext
        rw [← htype] at this
        exact enrichChange_regular createTwoFilesPatch aiConfig sandbox b.store change hreg _ this
  · intro enriched henr
    have hbase := (recordRun_baseline hashFile createTwoFilesPatch config aiConfig sandbox b
      changeHint hen).1 enriched henr
    refine ⟨?_, hbase, ?_, ?_⟩
    · rw [enrichChangesWithDiff_verbose _ _ _ _ _ hv] at henr
      exact (enrichAll_index createTwoFilesPatch aiConfig sandbox b.store _ enriched henr).2
    · intro hfull hproto hok
      rw [hbase]
      unfold recordRunBaseline
      rw [computeChanges_full_eq hashFile config sandbox b.files changeHint hfull] at hok ⊢
      exact fullRescan_idempotent hashFile config sandbox b.store b.files hproto hok
    · intro hint rel hhint hinc hwf hrel hne hvis hproto hstate hok
      subst hhint
      rw [hbase]
      exact fullScan_after_incremental hashFile config sandbox b.store b.files hint hinc hwf rel
        hrel hne hvis hproto hstate hok

/-- C15, amended, with `verbose` on: the added file `big.txt`, too large, is
recorded with `diff = null` and the reason `too_large`, by a full scan and by
an incremental run hinted at it, and the full scan that follows reports
nothing, and nothing for `big.txt`. -/
theorem skipped_diff_carries_reason_witness :
    (recordRun demoHash demoPatch {} { maxFileBytes := 4 }
      (.dir [("big.txt", .file "hello world\n")]) ⟨.dir [], [], none⟩ none).changes =
      some [⟨⟨["big.txt"], .added, some (.file "hello world\n" 12)⟩,
        .null "too_large" (some 12)⟩] ∧
    computeChanges demoHash {} (.dir [("big.txt", .file "hello world\n")])
      (recordRun demoHash demoPatch {} { maxFileBytes := 4 }
        (.dir [("big.txt", .file "hello world\n")]) ⟨.dir [], [], none⟩ none).baseline.files
      none = ⟨[], []⟩ ∧
    (recordRun demoHash demoPatch {} { maxFileBytes := 4 }
      (.dir [("big.txt", .file "hello world\n")]) ⟨.dir [], [], none⟩
      (some ⟨[["big.txt"]], false⟩)).changes =
      some [⟨⟨["big.txt"], .added, some (.file "hello world\n" 12)⟩,
        .null "too_large" (some 12)⟩] ∧
    ∀ c ∈ (computeChanges demoHash {} (.dir [("big.txt", .file "hello world\n")])
      (recordRun demoHash demoPatch {} { maxFileBytes := 4 }
        (.dir [("big.txt", .file "hello world\n")]) ⟨.dir [], [], none⟩
        (some ⟨[["big.txt"]], false⟩)).baseline.files none).changes, c.path ≠ ["big.txt"] :=
  ⟨rfl,
    ((skipped_diff_carries_reason demoHash demoPatch {} { maxFileBytes := 4 }
      (.dir [("big.txt", .file "hello world\n")]) ⟨.dir [], [], none⟩ none rfl rfl).2.2
      [⟨⟨["big.txt"], .added, some (.file "hello world\n" 12)⟩, .null "too_large" (some 12)⟩]
      rfl).2.2.1 rfl (Or.inl (by decide)) rfl,
    rfl,
    ((skipped_diff_carries_reason demoHash demoPatch {} { maxFileBytes := 4 }
      (.dir [("big.txt", .file "hello world\n")]) ⟨.dir [], [], none⟩
      (some ⟨[["big.txt"]], false⟩) rfl rfl).2.2
      [⟨⟨["big.txt"], .added, some (.file "hello world\n" 12)⟩, .null "too_large" (some 12)⟩]
      rfl).2.2.2 ⟨[["big.txt"]], false⟩ ["big.txt"] rfl rfl (by simp [Node.WF, EntriesWF])
      (List.mem_singleton.2 rfl) (by simp) (by decide) (by decide) (Or.inl ⟨_, rfl⟩) rfl⟩

/-- C16 (diff truncation). Whenever `computeDiffForChange` produces a diff
text for a change, that text is a leading part of the full patch between the
texts read (the empty text standing for the side that an added or deleted file
lacks): it is the first `maxDiffBytes` code units of the patch, so never
longer than `maxDiffBytes`; it is the whole patch when the patch is not longer
than `maxDiffBytes`; and the `truncated` flag is true exactly when the patch is
longer than `maxDiffBytes`. -/
theorem diff_is_cut_of_patch (createTwoFilesPatch : Patcher) (aiConfig : AiConfig)
    (sandbox store : Node) (rel : RelPath) (type : ChangeType) (d : JsString) (t : Bool)
    (h : computeDiffForChange createTwoFilesPatch aiConfig sandbox store rel type =
      .ok (some (.patch d t))) :
    ∃ oldText newText,
      (type = .added → oldText = []) ∧ (type = .deleted → newText = []) ∧
      (type ≠ .added → ∃ size,
        readTextMaybe store rel aiConfig.maxFileBytes = .ok (.text oldText size)) ∧
      (type ≠ .deleted → ∃ size,
        readTextMaybe sandbox rel aiConfig.maxFileBytes = .ok (.text newText size)) ∧
      d = (createTwoFilesPatch rel oldText newText).take aiConfig.maxDiffBytes ∧
      (∃ rest, createTwoFilesPatch rel oldText newText = d ++ rest) ∧
      d.length ≤ aiConfig.maxDiffBytes ∧
      ((createTwoFilesPatch rel oldText newText).length ≤ aiConfig.maxDiffBytes →
        d = createTwoFilesPatch rel oldText newText) ∧
      (t = true ↔ aiConfig.maxDiffBytes < (createTwoFilesPatch rel oldText newText).length) := by
  obtain ⟨oldText, newText, hcut, h1, h2, h3, h4⟩ :=
    computeDiffForChange_patch createTwoFilesPatch aiConfig sandbox store rel type d t h
  obtain ⟨heq, hlen, hfull⟩ :=
    cutPatch_spec aiConfig.maxDiffBytes (createTwoFilesPatch rel oldText newText)
  rw [heq] at hcut
  injection hcut with hd ht
  refine ⟨oldText, newText, h1, h2, h3, h4, hd.symm, ?_, ?_, ?_, ?_⟩
  · exact ⟨(createTwoFilesPatch rel oldText newText).drop aiConfig.maxDiffBytes, by
      rw [← hd, List.take_append_drop]⟩
  · rw [← hd]; exact hlen
  · intro hle; rw [← hd]; exact hfull hle
  · rw [← ht]; simp

/-- C16, a worked case: `a.txt` goes from `hello` to `hello world` and
`maxDiffBytes` is 5; the diff is the first five units of the patch and the flag
is set. -/
theorem diff_is_cut_of_patch_witness :
    computeDiffForChange demoPatch { maxDiffBytes := 5 }
      (.dir [("a.txt", .file "hello world\n")]) (.dir [("a.txt", .file "hello\n")])
      ["a.txt"] .modified = .ok (some (.patch (js "a.txt") true)) ∧
    ∃ oldText newText,
      js "a.txt" = (demoPatch ["a.txt"] oldText newText).take 5 ∧
      (true = true ↔ 5 < (demoPatch ["a.txt"] oldText newText).length) := by
  have h : computeDiffForChange demoPatch { maxDiffBytes := 5 }
      (.dir [("a.txt", .file "hello world\n")]) (.dir [("a.txt", .file "hello\n")])
      ["a.txt"] .modified = .ok (some (.patch (js "a.txt") true)) := by rfl
  obtain ⟨oldText, newText, _, _, _, _, hd, _, _, _, ht⟩ :=
    diff_is_cut_of_patch demoPatch { maxDiffBytes := 5 }
      (.dir [("a.txt", .file "hello world\n")]) (.dir [("a.txt", .file "hello\n")])
      ["a.txt"] .modified (js "a.txt") true h
  exact ⟨h, oldText, newText, hd, ht⟩

/-- C17, refuted as stated: `a.txt` goes from `hello` to `hello world` and
`b.txt` is new, both small text files. With `maxDiffBytes` = 5 the recorded
diff of `a.txt` is the first five units of the patch, not the patch; with the
`verbose` option off the recorded changes carry no diff at all. -/
theorem recorded_diff_cut_or_absent :
    ((recordRun demoHash demoPatch {} { maxDiffBytes := 5 }
      (.dir [("a.txt", .file "hello world\n"), ("b.txt", .file "new\n")])
      ⟨.dir [("a.txt", .file "hello\n")], [(["a.txt"], .file "hello\n" 6)], none⟩ none).changes =
      some [⟨⟨["a.txt"], .modified, some (.file "hello world\n" 12)⟩, .text (js "a.txt") true⟩,
        ⟨⟨["b.txt"], .added, some (.file "new\n" 4)⟩, .text (js "b.txt") true⟩] ∧
      js "a.txt" ≠ demoPatch ["a.txt"] (js "hello\n") (js "hello world\n")) ∧
    (recordRun demoHash demoPatch {} { verbose := false }
      (.dir [("a.txt", .file "hello world\n"), ("b.txt", .file "new\n")])
      ⟨.dir [("a.txt", .file "hello\n")], [(["a.txt"], .file "hello\n" 6)], none⟩ none).changes =
      some [⟨⟨["a.txt"], .modified, some (.file "hello world\n" 12)⟩, .absent⟩,
        ⟨⟨["b.txt"], .added, some (.file "new\n" 4)⟩, .absent⟩] :=
  ⟨⟨rfl, by decide⟩, rfl⟩

/-- C17, amended. With the `verbose` option on: the changes of the event that
`recordRun` returns are the enrichment computed on the baseline store as it
was before this run's `applyBaselineUpdates`, and when a diff throws the store
has not been written; a regular file within `maxFileBytes` and free of null
bytes is read as its text; and for such a file the enriched change carries a
non-null diff, namely the first `maxDiffBytes` code units of the patch (all of
it when it is not longer, the `truncated` flag telling which) between the
baseline text and the sandbox text, with the empty text for the baseline side
of an added file and for the sandbox side of a deleted one, and for a modified
file provided the two texts differ. -/
theorem diff_uses_baseline_before_update (hashFile : String → String)
    (createTwoFilesPatch : Patcher) (config : Config) (aiConfig : AiConfig) (sandbox : Node)
    (b : Baseline) (changeHint : Option ChangeHint)
    (hen : aiConfig.enabled = true) (hv : aiConfig.verbose = true) :
    (∀ enriched,
      (recordRun hashFile createTwoFilesPatch config aiConfig sandbox b changeHint).changes =
        some enriched →
      enrichAll createTwoFilesPatch aiConfig sandbox b.store
        (computeChanges hashFile config sandbox b.files changeHint).changes = .ok enriched ∧
      ∀ (i : Nat) (change : Change),
        (computeChanges hashFile config sandbox b.files changeHint).changes[i]? = some change →
        ∃ e, enriched[i]? = some e ∧
          enrichChange createTwoFilesPatch aiConfig sandbox b.store change = .ok e) ∧
    (∀ e,
      enrichAll createTwoFilesPatch aiConfig sandbox b.store
        (computeChanges hashFile config sandbox b.files changeHint).changes = .error e →
      (recordRun hashFile createTwoFilesPatch config aiConfig sandbox b changeHint).baseline.store =
        b.store) ∧
    (∀ root rel content, statAt root rel = some (.file content) →
      content.utf8ByteSize ≤ aiConfig.maxFileBytes → hasNullByte content = false →
      readTextMaybe root rel aiConfig.maxFileBytes =
        .ok (.text (js content) content.utf8ByteSize)) ∧
    (∀ change : Change,
      (change.info = none ∨ ∃ hash size, change.info = some (.file hash size)) →
      (∀ text size, change.type = .added →
        readTextMaybe sandbox change.path aiConfig.maxFileBytes = .ok (.text text size) →
        enrichChange createTwoFilesPatch aiConfig sandbox b.store change =
          .ok ⟨change, .text ((createTwoFilesPatch change.path [] text).take aiConfig.maxDiffBytes)
            (decide (aiConfig.maxDiffBytes < (createTwoFilesPatch change.path [] text).length))⟩) ∧
      (∀ text size, change.type = .deleted →
        readTextMaybe b.store change.path aiConfig.maxFileBytes = .ok (.text text size) →
        enrichChange createTwoFilesPatch aiConfig sandbox b.store change =
          .ok ⟨change, .text ((createTwoFilesPatch change.path text []).take aiConfig.maxDiffBytes)
            (decide (aiConfig.maxDiffBytes < (createTwoFilesPatch change.path text []).length))⟩) ∧
      (∀ prevText s1 nextText s2, change.type = .modified →
        readTextMaybe b.store change.path aiConfig.maxFileBytes = .ok (.text prevText s1) →
        readTextMaybe sandbox change.path aiConfig.maxFileBytes = .ok (.text nextText s2) →
        prevText ≠ nextText →
        enrichChange createTwoFilesPatch aiConfig sandbox b.store change =
          .ok ⟨change,
            .text ((createTwoFilesPatch change.path prevText nextText).take aiConfig.maxDiffBytes)
              (decide (aiConfig.maxDiffBytes <
                (createTwoFilesPatch change.path prevText nextText).length))⟩)) := by
  refine ⟨?_, ?_, ?_, ?_⟩
  · intro enriched hrec
    have henr := (recordRun_baseline hashFile createTwoFilesPatch config aiConfig sandbox b
      changeHint hen).2.2 enriched hrec
    rw [enrichChangesWithDiff_verbose _ _ _ _ _ hv] at henr
    exact ⟨henr, (enrichAll_index createTwoFilesPatch aiConfig sandbox b.store _ enriched henr).2⟩
  · intro e herr
    rw [← enrichChangesWithDiff_verbose _ _ _ _ _ hv] at herr
    exact ((recordRun_baseline hashFile createTwoFilesPatch config aiConfig sandbox b
      changeHint hen).2.1 e herr).1
  · intro root rel content hstat hsmall hnull
    rw [readTextMaybe_file root rel aiConfig.maxFileBytes content hstat, if_neg (by omega),
      if_neg (by simp [hnull])]
  · intro change hreg
    refine ⟨?_, ?_, ?_⟩
    · intro text size htype hread
      have := computeDiff_added_text createTwoFilesPatch aiConfig sandbox b.store change.path
        text size hread
      rw [← htype, (cutPatch_spec _ _).1] at this
      exact enrichChange_regular createTwoFilesPatch aiConfig sandbox b.store change hreg _ this
    · intro text size htype hread
      have := computeDiff_deleted_text createTwoFilesPatch aiConfig sandbox b.store change.path
        text size hread
      rw [← htype, (cutPatch_spec _ _).1] at this
      exact enrichChange_regular createTwoFilesPatch aiConfig sandbox b.store change hreg _ this
    · intro prevText s1 nextText s2 htype hp hn hne
      have := computeDiff_modified_text createTwoFilesPatch aiConfig sandbox b.store change.path
        prevText nextText s1 s2 hp hn
      rw [← htype, if_neg hne, (cutPatch_spec _ _).1] at this
      exact enrichChange_regular createTwoFilesPatch aiConfig sandbox b.store change hreg _ this

/-- C17, the worked case under the default limits: the baseline holds `a.txt`
with `hello`, the sandbox holds `a.txt` with `hello world` and a new `b.txt`;
both recorded changes carry the whole patch, the one of `a.txt` against the
baseline text `hello`. -/
theorem diff_uses_baseline_before_update_witness :
    (recordRun demoHash demoPatch {} {}
      (.dir [("a.txt", .file "hello world\n"), ("b.txt", .file "new\n")])
      ⟨.dir [("a.txt", .file "hello\n")], [(["a.txt"], .file "hello\n" 6)], none⟩ none).changes =
      some [⟨⟨["a.txt"], .modified, some (.file "hello world\n" 12)⟩,
          .text (demoPatch ["a.txt"] (js "hello\n") (js "hello world\n")) false⟩,
        ⟨⟨["b.txt"], .added, some (.file "new\n" 4)⟩,
          .text (demoPatch ["b.txt"] [] (js "new\n")) false⟩] ∧
    enrichAll demoPatch {}
      (.dir [("a.txt", .file "hello world\n"), ("b.txt", .file "new\n")])
      (.dir [("a.txt", .file "hello\n")])
      (computeChanges demoHash {}
        (.dir [("a.txt", .file "hello world\n"), ("b.txt", .file "new\n")])
        [(["a.txt"], .file "hello\n" 6)] none).changes =
      .ok [⟨⟨["a.txt"], .modified, some (.file "hello world\n" 12)⟩,
          .text (demoPatch ["a.txt"] (js "hello\n") (js "hello world\n")) false⟩,
        ⟨⟨["b.txt"], .added, some (.file "new\n" 4)⟩,
          .text (demoPatch ["b.txt"] [] (js "new\n")) false⟩] :=
  ⟨rfl,
    ((diff_uses_baseline_before_update demoHash demoPatch {} {}
      (.dir [("a.txt", .file "hello world\n"), ("b.txt", .file "new\n")])
      ⟨.dir [("a.txt", .file "hello\n")], [(["a.txt"], .file "hello\n" 6)], none⟩ none
      rfl rfl).1 _ rfl).1⟩

/-! ## Claim on the watcher -/

/-- C18, refuted as stated, in two ways. A burst of one event whose path
leaves the sandbox (`../shared/x.txt`, as a `watch` pattern reaching outside
the sandbox delivers) is dropped by the guard of `recordChange`: no timer is
set, so no `requestRun` follows, and the change hint stays empty. And a burst
that arrives while paths are still pending (the timer of the burst `a.txt` has
fired, but the run in flight has not taken the hint) is merged with them: the
hint taken after the burst `b.txt` holds `a.txt` as well. -/
theorem outside_event_arms_no_timer :
    burst true Watcher.init [⟨["..", "shared", "x.txt"], .file⟩] = Watcher.init ∧
    (burst true Watcher.init [⟨["..", "shared", "x.txt"], .file⟩]).timers = [] ∧
    (∀ id, (fireTimer (burst true Watcher.init [⟨["..", "shared", "x.txt"], .file⟩]) id).requests =
      0) ∧
    (fireTimer (burst true Watcher.init [⟨["a.txt"], .file⟩]) 0).pendingChanges = [["a.txt"]] ∧
    (getChangeHint (fireTimer (burst true
      (fireTimer (burst true Watcher.init [⟨["a.txt"], .file⟩]) 0)
      [⟨["b.txt"], .file⟩]) 1)).1.paths = [["a.txt"], ["b.txt"]] := by
  refine ⟨by decide, by decide, fun id => ?_, by decide, by decide⟩
  have h : burst true Watcher.init [⟨["..", "shared", "x.txt"], .file⟩] = Watcher.init := by decide
  rw [h]
  simp [fireTimer, Watcher.init]

/-- C18, amended. In a watcher state with at most one timer set, the one held
in `debounceTimer`, and a pending set without repetition (as after start-up,
and again after what follows), take a burst of at least one watch event, every
path non-empty and not starting with `..`, with no timer expiry in between.
Each event sets the timer anew: after the `k`-th event exactly one timer is
set, a fresh one, and no `requestRun` has been issued. When that timer fires
after the burst, exactly one `requestRun` is issued and no timer is left to
issue another. The change hint then taken holds, each exactly once, the paths
that were pending before the burst and the file paths of the burst, and
nothing else, with `fullScan` true exactly when a full scan was pending before
or directory scans are allowed and some event of the burst is directory-level;
taking it empties the pending set and clears the flag, so that a second taking
yields the empty hint. -/
theorem burst_coalesces_into_one_run (allow : Bool) (w : Watcher) (events : List WatchEvent)
    (hone : w.OneTimer) (hnd : w.pendingChanges.Nodup) (hne : events ≠ [])
    (hin : ∀ e ∈ events, outsideSandbox e.rel = false) :
    (∀ k, 0 < k → k ≤ events.length →
      (burst allow w (events.take k)).timers = [w.nextTimer + k - 1] ∧
      (burst allow w (events.take k)).debounceTimer = some (w.nextTimer + k - 1) ∧
      (burst allow w (events.take k)).requests = w.requests) ∧
    (fireTimer (burst allow w events) (w.nextTimer + events.length - 1)).requests =
      w.requests + 1 ∧
    (fireTimer (burst allow w events) (w.nextTimer + events.length - 1)).timers = [] ∧
    (∀ id, (fireTimer (fireTimer (burst allow w events) (w.nextTimer + events.length - 1))
      id).requests = w.requests + 1) ∧
    (getChangeHint (fireTimer (burst allow w events)
      (w.nextTimer + events.length - 1))).1.paths.Nodup ∧
    (∀ p, p ∈ (getChangeHint (fireTimer (burst allow w events)
      (w.nextTimer + events.length - 1))).1.paths ↔
        p ∈ w.pendingChanges ∨ p ∈ filePaths events) ∧
    (getChangeHint (fireTimer (burst allow w events)
      (w.nextTimer + events.length - 1))).1.fullScan =
        (w.pendingFullScan || (allow && anyDir events)) ∧
    (getChangeHint (fireTimer (burst allow w events)
      (w.nextTimer + events.length - 1))).2.pendingChanges = [] ∧
    (getChangeHint (fireTimer (burst allow w events)
      (w.nextTimer + events.length - 1))).2.pendingFullScan = false ∧
    (getChangeHint (getChangeHint (fireTimer (burst allow w events)
      (w.nextTimer + events.length - 1))).2).1.paths = [] ∧
    (getChangeHint (getChangeHint (fireTimer (burst allow w events)
      (w.nextTimer + events.length - 1))).2).1.fullScan = false ∧
    Watcher.init.OneTimer ∧ Watcher.init.pendingChanges.Nodup ∧
    (fireTimer (burst allow w events) (w.nextTimer + events.length - 1)).OneTimer ∧
    (fireTimer (burst allow w events) (w.nextTimer + events.length - 1)).pendingChanges.Nodup ∧
    (getChangeHint (fireTimer (burst allow w events)
      (w.nextTimer + events.length - 1))).2.OneTimer := by
  obtain ⟨r1, _, r3, r4, r5, r6⟩ := burst_inside allow events w hone hin
  obtain ⟨t1, _⟩ := r3 hne
  have hfire : fireTimer (burst allow w events) (w.nextTimer + events.length - 1) =
      { burst allow w events with timers := [], requests := w.requests + 1 } := by
    unfold fireTimer
    rw [t1, r1]
    simp
  refine ⟨?_, ?_, ?_, ?_, ?_, ?_, ?_, rfl, rfl, rfl, rfl, Or.inl rfl, List.nodup_nil, ?_, ?_, ?_⟩
  · intro k hk hkn
    have hlen : (events.take k).length = k := by
      rw [List.length_take]; omega
    have hne2 : events.take k ≠ [] := by
      intro h
      rw [h] at hlen
      simp at hlen
      omega
    obtain ⟨q1, _, q3, _, _, _⟩ := burst_inside allow (events.take k) w hone
      (fun e he => hin e (List.mem_of_mem_take he))
    obtain ⟨s1, s2⟩ := q3 hne2
    rw [hlen] at s1 s2
    exact ⟨s1, s2, q1⟩
  · rw [hfire]
  · rw [hfire]
  · intro id
    rw [hfire]
    simp [fireTimer]
  · rw [hfire]
    exact r4 hnd
  · intro p
    rw [hfire]
    exact r5 p
  · rw [hfire]
    exact r6
  · rw [hfire]
    exact Or.inl rfl
  · rw [hfire]
    exact r4 hnd
  · rw [hfire]
    exact Or.inl rfl

/-- C18, a worked burst that arrives while `old.txt` is still pending: two
changes of `a.txt`, a new directory `d` and a change of `d/b.txt`. One timer
remains, its firing issues one request, and the hint lists `old.txt`, `a.txt`
and `d/b.txt` once each with `fullScan` set. -/
theorem burst_coalesces_into_one_run_witness :
    getChangeHint (fireTimer (burst true ⟨[["old.txt"]], false, some 0, [], 1, 1⟩
      [⟨["a.txt"], .file⟩, ⟨["a.txt"], .file⟩, ⟨["d"], .dir⟩, ⟨["d", "b.txt"], .file⟩]) 4) =
      (⟨[["old.txt"], ["a.txt"], ["d", "b.txt"]], true⟩, ⟨[], false, some 4, [], 5, 2⟩) ∧
    (fireTimer (burst true ⟨[["old.txt"]], false, some 0, [], 1, 1⟩
      [⟨["a.txt"], .file⟩, ⟨["a.txt"], .file⟩, ⟨["d"], .dir⟩, ⟨["d", "b.txt"], .file⟩])
      (1 + 4 - 1)).requests = 1 + 1 :=
  ⟨rfl,
    (burst_coalesces_into_one_run true ⟨[["old.txt"]], false, some 0, [], 1, 1⟩
      [⟨["a.txt"], .file⟩, ⟨["a.txt"], .file⟩, ⟨["d"], .dir⟩, ⟨["d", "b.txt"], .file⟩]
      (Or.inl rfl) (by decide) (by simp) (by decide)).2.1⟩

/-! ## Claims on sandbox creation -/

/-- C19, refuted as stated: the repository holds `a.txt` and an existing
sandbox directory `.livod/sandboxes/mine` whose `a.txt` has been edited.
`createSandbox` with that path as the explicit sandbox path returns the path,
but it has copied the repository's `a.txt` over the sandbox's. -/
theorem createSandbox_copies_into_existing_directory :
    pathExists
      (.dir [("a.txt", .file "src"),
        (".livod", .dir [("sandboxes", .dir [("mine", .dir [("a.txt", .file "mine")])])])])
      (resolvePath [] (.relative [".livod", "sandboxes", "mine"])) = true ∧
    (createSandbox noCp 10 "id" "meta"
      (.dir [("a.txt", .file "src"),
        (".livod", .dir [("sandboxes", .dir [("mine", .dir [("a.txt", .file "mine")])])])])
      .absent [] {} (some (.relative [".livod", "sandboxes", "mine"]))).sandboxRoot =
      [".livod", "sandboxes", "mine"] ∧
    (createSandbox noCp 10 "id" "meta"
      (.dir [("a.txt", .file "src"),
        (".livod", .dir [("sandboxes", .dir [("mine", .dir [("a.txt", .file "mine")])])])])
      .absent [] {} (some (.relative [".livod", "sandboxes", "mine"]))).error = none ∧
    (createSandbox noCp 10 "id" "meta"
      (.dir [("a.txt", .file "src"),
        (".livod", .dir [("sandboxes", .dir [("mine", .dir [("a.txt", .file "mine")])])])])
      .absent [] {} (some (.relative [".livod", "sandboxes", "mine"]))).exhausted = false ∧
    (createSandbox noCp 10 "id" "meta"
      (.dir [("a.txt", .file "src"),
        (".livod", .dir [("sandboxes", .dir [("mine", .dir [("a.txt", .file "mine")])])])])
      .absent [] {} (some (.relative [".livod", "sandboxes", "mine"]))).visited = [["a.txt"]] ∧
    entryAt
      (createSandbox noCp 10 "id" "meta"
        (.dir [("a.txt", .file "src"),
          (".livod", .dir [("sandboxes", .dir [("mine", .dir [("a.txt", .file "mine")])])])])
        .absent [] {} (some (.relative [".livod", "sandboxes", "mine"]))).fs
      [".livod", "sandboxes", "mine", "a.txt"] = some (.file "src") :=
  ⟨rfl, rfl, rfl, rfl, rfl, rfl⟩

/-- C19, amended. `startCommand` with an explicit sandbox path that exists
takes that path as the sandbox root without calling `createSandbox`: the tree
and the registry are left as they were, so nothing is copied and every file of
the directory keeps its content. -/
theorem startCommand_reuses_existing_path (cp : Cp) (fuel : Nat) (sandboxId metaJson : String)
    (fs : Node) (state : StateFile) (repoRoot : RelPath) (config : Config) (p : SandboxPath)
    (h : pathExists fs (resolvePath repoRoot p) = true) :
    (startCommand cp fuel sandboxId metaJson fs state repoRoot config (some p)).sandboxRoot =
      resolvePath repoRoot p ∧
    (startCommand cp fuel sandboxId metaJson fs state repoRoot config (some p)).fs = fs ∧
    (startCommand cp fuel sandboxId metaJson fs state repoRoot config (some p)).state = state ∧
    (startCommand cp fuel sandboxId metaJson fs state repoRoot config (some p)).error = none ∧
    (startCommand cp fuel sandboxId metaJson fs state repoRoot config (some p)).exhausted = false ∧
    (startCommand cp fuel sandboxId metaJson fs state repoRoot config (some p)).visited = [] := by
  simp [startCommand, h]

/-- C19, amended, at the refuting input: through `startCommand` the edited
`a.txt` of the existing sandbox is kept. -/
theorem startCommand_reuses_existing_path_witness :
    (startCommand noCp 10 "id" "meta"
      (.dir [("a.txt", .file "src"),
        (".livod", .dir [("sandboxes", .dir [("mine", .dir [("a.txt", .file "mine")])])])])
      .absent [] {} (some (.relative [".livod", "sandboxes", "mine"]))).fs =
      .dir [("a.txt", .file "src"),
        (".livod", .dir [("sandboxes", .dir [("mine", .dir [("a.txt", .file "mine")])])])] ∧
    entryAt
      (startCommand noCp 10 "id" "meta"
        (.dir [("a.txt", .file "src"),
          (".livod", .dir [("sandboxes", .dir [("mine", .dir [("a.txt", .file "mine")])])])])
        .absent [] {} (some (.relative [".livod", "sandboxes", "mine"]))).fs
      [".livod", "sandboxes", "mine", "a.txt"] = some (.file "mine") :=
  ⟨(startCommand_reuses_existing_path noCp 10 "id" "meta"
      (.dir [("a.txt", .file "src"),
        (".livod", .dir [("sandboxes", .dir [("mine", .dir [("a.txt", .file "mine")])])])])
      .absent [] {} (.relative [".livod", "sandboxes", "mine"]) rfl).2.1, rfl⟩

/-- C20, the failing input: an explicit sandbox path `sb` inside the
repository that no ignore pattern covers. In an empty repository the copy of
`createSandbox` is still going whatever the step budget: the walk meets `sb`
itself, makes `sb/sb` and enters `sb`, where it meets `sb/sb`, and so on. In
a repository holding `a.txt` the walk visits `sb` and the entries under it and
copies `a.txt` into `sb/sb`. With the default location under `.livod` the copy
ends after visiting `a.txt` only. -/
theorem copy_into_explicit_sandbox_never_ends (cp : Cp) (sandboxId metaJson : String) :
    (∀ fuel, (createSandbox cp fuel sandboxId metaJson (.dir []) .absent [] {}
      (some (.relative ["sb"]))).exhausted = true) ∧
    (createSandbox cp 8 sandboxId metaJson (.dir [("a.txt", .file "src")]) .absent [] {}
      (some (.relative ["sb"]))).visited =
      [["a.txt"], ["sb"], ["sb", "a.txt"], ["sb", "sb"], ["sb", "sb", "a.txt"],
        ["sb", "sb", "sb"], ["sb", "sb", "sb", "a.txt"]] ∧
    entryAt (createSandbox cp 8 sandboxId metaJson (.dir [("a.txt", .file "src")]) .absent [] {}
      (some (.relative ["sb"]))).fs ["sb", "sb", "a.txt"] = some (.file "src") ∧
    (createSandbox cp 8 sandboxId metaJson (.dir [("a.txt", .file "src")]) .absent [] {}
      (some (.relative ["sb"]))).exhausted = true ∧
    (createSandbox cp 8 "id" metaJson (.dir [("a.txt", .file "src")]) .absent [] {}
      none).visited = [["a.txt"]] ∧
    (createSandbox cp 8 "id" metaJson (.dir [("a.txt", .file "src")]) .absent [] {}
      none).exhausted = false ∧
    (createSandbox cp 8 "id" metaJson (.dir [("a.txt", .file "src")]) .absent [] {}
      none).error = none :=
  ⟨fun fuel => createSandbox_sb_exhausted cp fuel sandboxId metaJson, rfl, rfl, rfl, rfl, rfl, rfl⟩

/-! ## Claims on the sandbox registry and the command line -/

/-- C21 (sandbox resolution). `resolveSandboxPath` returns the resolved
explicit path whenever one is given, whatever the registry holds. With no
explicit path it returns the `lastSandbox` of the registry: after a call of
`createSandbox` that returns, with an explicit path or without, it returns
the sandbox root of that call, whatever the registry held before. It returns
`null` when the registry file is absent, cannot be parsed or has no
`lastSandbox`; it has no way of raising. -/
theorem resolve_returns_last_created (repoRoot : RelPath) :
    (∀ state p, resolveSandboxPath repoRoot state (some p) = some (resolvePath repoRoot p)) ∧
    (∀ (cp : Cp) (fuel : Nat) (sandboxId metaJson : String) (fs : Node) (state : StateFile)
      (config : Config) (sandboxPath : Option SandboxPath),
      (createSandbox cp fuel sandboxId metaJson fs state repoRoot config sandboxPath).error =
        none →
      (createSandbox cp fuel sandboxId metaJson fs state repoRoot config sandboxPath).exhausted =
        false →
      resolveSandboxPath repoRoot
        (createSandbox cp fuel sandboxId metaJson fs state repoRoot config sandboxPath).state none =
        some (createSandbox cp fuel sandboxId metaJson fs state repoRoot config
          sandboxPath).sandboxRoot) ∧
    resolveSandboxPath repoRoot .absent none = none ∧
    resolveSandboxPath repoRoot .unparseable none = none ∧
    (∀ sandboxes, resolveSandboxPath repoRoot (.parsed ⟨none, sandboxes⟩) none = none) := by
  refine ⟨fun _ _ => rfl, ?_, rfl, rfl, fun _ => rfl⟩
  intro cp fuel sandboxId metaJson fs state config sandboxPath herr hdone
  rw [createSandbox_state cp fuel sandboxId metaJson fs state repoRoot config sandboxPath herr
    hdone]
  exact resolve_updateState _ _ _

/-- C21, a worked case: the registry names an older sandbox `old`; a sandbox
is created at the default place; the registry then resolves to the new one. -/
theorem resolve_returns_last_created_witness :
    (createSandbox noCp 8 "id" "meta" (.dir [("a.txt", .file "src")])
      (.parsed ⟨some ["old"], [["old"]]⟩) [] {} none).state =
      .parsed ⟨some [".livod", "sandboxes", "id"], [["old"], [".livod", "sandboxes", "id"]]⟩ ∧
    resolveSandboxPath []
      (createSandbox noCp 8 "id" "meta" (.dir [("a.txt", .file "src")])
        (.parsed ⟨some ["old"], [["old"]]⟩) [] {} none).state none =
      some (createSandbox noCp 8 "id" "meta" (.dir [("a.txt", .file "src")])
        (.parsed ⟨some ["old"], [["old"]]⟩) [] {} none).sandboxRoot :=
  ⟨rfl,
    (resolve_returns_last_created []).2.1 noCp 8 "id" "meta" (.dir [("a.txt", .file "src")])
      (.parsed ⟨some ["old"], [["old"]]⟩) {} none rfl rfl⟩

/-- C25, the failing input: `diff` is a command of the usage text, and
`parseArgs` yields it as the command, but `main` has no case for it and throws
`Unknown command: diff`. Every other command of the usage text is handed to
its handler. -/
theorem diff_command_is_not_routed :
    "diff" ∈ helpCommands ∧
    (parseArgs ["diff"]).command = "diff" ∧
    main ["diff"] = .throws "Unknown command: diff" ∧
    helpCommands.map (fun c => (parseArgs [c]).command) = helpCommands ∧
    helpCommands.map (fun c => main [c]) =
      [.calls .startCommand, .calls .applyCommand, .calls .aiCommand, .calls .aiCommand,
        .calls .aiCommand, .calls .noteCommand, .throws "Unknown command: diff",
        .calls .ollamaCommand, .calls .initCommand, .calls .cleanCommand] := by
  refine ⟨by decide, by decide, by decide, by decide, by decide⟩

/-! ## Claims on apply -/

/-- C28, the failing input: the ignore list is `**/x.log`; the target holds
the directory `d` with the ignored file `d/x.log`, and the sandbox has no `d`.
`applySandbox` with `prune` finds `d` neither ignored nor seen and removes it
with all it holds: the ignored `d/x.log` is gone. -/
theorem prune_removes_ignored_file_of_unseen_dir :
    applyIgnore { ignore := [xLogPattern] } ["d", "x.log"] = true ∧
    applyIgnore { ignore := [xLogPattern] } ["d"] = false ∧
    entryAt (.dir [("d", .dir [("x.log", .file "keep")])]) ["d", "x.log"] =
      some (.file "keep") ∧
    applySandbox (.dir [("a.txt", .file "new")]) (.dir [("d", .dir [("x.log", .file "keep")])])
      (.parsed ⟨true, false⟩) { ignore := [xLogPattern] } true true =
      (.applied, .dir [("a.txt", .file "new")]) ∧
    entryAt (applySandbox (.dir [("a.txt", .file "new")])
      (.dir [("d", .dir [("x.log", .file "keep")])])
      (.parsed ⟨true, false⟩) { ignore := [xLogPattern] } true true).2 ["d", "x.log"] = none :=
  ⟨rfl, rfl, rfl, rfl, rfl⟩

/-- C29, as stated, is false: a run of the command `serve` is in flight when a
change arrives, so `stopCurrentRun` marks the run interrupted; the command
ends with code 0; the status written has `interrupted` true and `lastRunOk`
true; `applySandbox` with `requireSuccess` reads it and applies. -/
theorem interrupted_run_with_zero_exit_passes_gate :
    (requestRun { commands := ["serve"] }
      (requestRun { commands := ["serve"] } Runner.init)).interrupted = true ∧
    (runCommands { commands := ["serve"] } true (exitCodes [0])).status =
      ⟨true, true, [⟨"serve", some 0, none⟩]⟩ ∧
    (runCommands { commands := ["serve"] } true (exitCodes [0])).status.toStatus =
      ⟨true, true⟩ ∧
    applySandbox (.dir [("a.txt", .file "new")]) (.dir [("a.txt", .file "old")])
      (.parsed (runCommands { commands := ["serve"] } true (exitCodes [0])).status.toStatus)
      {} true false = (.applied, .dir [("a.txt", .file "new")]) :=
  ⟨rfl, rfl, rfl, rfl⟩

/-- C29, amended: the gate reads `lastRunOk` alone. The status the runner
writes for an interrupted run has `interrupted` true; `applySandbox` with
`requireSuccess` refuses it, leaving the target as it was, when some command
of the run ended with a code other than 0 (a command ended by the signal has
no code), and treats it as the status of an uninterrupted successful run when
every command ended with code 0. -/
theorem interrupted_run_refused_iff_failed (config applyConfig : Config)
    (childExit : Nat → ChildExit) (sandbox target : Node) (prune : Bool) :
    (runCommands config true childExit).status.interrupted = true ∧
    ((∃ e ∈ (runCommands config true childExit).exits, e.code ≠ some 0) →
      applySandbox sandbox target
          (.parsed (runCommands config true childExit).status.toStatus) applyConfig true prune =
        (.refused "Refusing to apply changes. Last run failed or was interrupted.", target)) ∧
    ((∀ e ∈ (runCommands config true childExit).exits, e.code = some 0) →
      applySandbox sandbox target
          (.parsed (runCommands config true childExit).status.toStatus) applyConfig true prune =
        applySandbox sandbox target (.parsed ⟨true, false⟩) applyConfig true prune) := by
  rw [runCommands_status]
  refine ⟨rfl, fun h => ?_, fun h => ?_⟩
  · obtain ⟨e, he, hcode⟩ := h
    have hall : (runCommands config true childExit).exits.all Exit.codeIsZero = false := by
      cases hb : (runCommands config true childExit).exits.all Exit.codeIsZero with
      | false => rfl
      | true =>
        have := List.all_eq_true.1 hb e he
        simp [Exit.codeIsZero] at this
        exact absurd this hcode
    simp only [RunStatus.toStatus, hall]
    rw [applySandbox_interrupted]
    rfl
  · have hall : (runCommands config true childExit).exits.all Exit.codeIsZero = true :=
      List.all_eq_true.2 (fun e he => by simp [Exit.codeIsZero, h e he])
    simp only [RunStatus.toStatus, hall]
    rw [applySandbox_interrupted]
    rfl

/-- C29 amended, at the interrupted run of the command `serve` ended by the
signal (no exit code): the apply is refused and the target keeps `a.txt` as it
was. -/
theorem interrupted_run_refused_iff_failed_witness :
    applySandbox (.dir [("a.txt", .file "new")]) (.dir [("a.txt", .file "old")])
        (.parsed (runCommands { commands := ["serve"] } true
          (fun _ => ⟨none, some "SIGTERM"⟩)).status.toStatus) {} true false =
      (.refused "Refusing to apply changes. Last run failed or was interrupted.",
        .dir [("a.txt", .file "old")]) :=
  (interrupted_run_refused_iff_failed { commands := ["serve"] } {}
    (fun _ => ⟨none, some "SIGTERM"⟩) (.dir [("a.txt", .file "new")])
    (.dir [("a.txt", .file "old")]) false).2.1
    ⟨⟨"serve", none, some "SIGTERM"⟩, by decide, by decide⟩

/-! ## Claims on the control directories -/

/-- C27, as stated, is false. The protection goes by the relative path of the
entry that is copied, and the writes go through the links of the target:
where the target has the link `a.txt` to `.git/HEAD`, the apply of the sandbox
file `a.txt` succeeds and overwrites the target's `.git/HEAD`; with the link
`a.txt` to `.livod/status.json` it overwrites that file; and where the target
has the link `d` to `.git`, the apply of the sandbox file `d/HEAD` overwrites
`.git/HEAD`. As for `computeChanges`: a full scan reports every key of the
index that the walk has not seen as deleted, so on an index that holds the key
`.livod/status.json` (no session writes such a key) it reports a change
there. -/
theorem apply_overwrites_git_through_link :
    (applySandbox (.dir [("a.txt", .file "new")])
        (.dir [("a.txt", .symlink ".git/HEAD" (some (.file "ref"))),
          (".git", .dir [("HEAD", .file "ref")])])
        (.parsed ⟨true, false⟩) {} true false =
      (.applied, .dir [("a.txt", .symlink ".git/HEAD" (some (.file "ref"))),
        (".git", .dir [("HEAD", .file "new")])]) ∧
    ¬ (∀ s : RelPath,
      entryAt (applySandbox (.dir [("a.txt", .file "new")])
        (.dir [("a.txt", .symlink ".git/HEAD" (some (.file "ref"))),
          (".git", .dir [("HEAD", .file "ref")])])
        (.parsed ⟨true, false⟩) {} true false).2 (".git" :: s) =
      entryAt (.dir [("a.txt", .symlink ".git/HEAD" (some (.file "ref"))),
        (".git", .dir [("HEAD", .file "ref")])]) (".git" :: s))) ∧
    applySandbox (.dir [("a.txt", .file "new")])
        (.dir [("a.txt", .symlink ".livod/status.json" (some (.file "mine"))),
          (".livod", .dir [("status.json", .file "mine")])])
        (.parsed ⟨true, false⟩) {} true false =
      (.applied, .dir [("a.txt", .symlink ".livod/status.json" (some (.file "mine"))),
        (".livod", .dir [("status.json", .file "new")])]) ∧
    applySandbox (.dir [("d", .dir [("HEAD", .file "new")])])
        (.dir [("d", .symlink ".git" (some (.dir [("HEAD", .file "ref")]))),
          (".git", .dir [("HEAD", .file "ref")])])
        (.parsed ⟨true, false⟩) {} true false =
      (.applied, .dir [("d", .symlink ".git" (some (.dir [("HEAD", .file "ref")]))),
        (".git", .dir [("HEAD", .file "new")])]) ∧
    (computeChanges demoHash {} (.dir [("a.txt", .file "x")])
      [([".livod", "status.json"], .file "h" 1), (["a.txt"], .file "x" 1)] none).changes =
      [⟨[".livod", "status.json"], .deleted, none⟩] := by
  refine ⟨⟨rfl, fun h => ?_⟩, rfl, rfl, rfl⟩
  have h1 := h ["HEAD"]
  have h2 : entryAt (applySandbox (.dir [("a.txt", .file "new")])
      (.dir [("a.txt", .symlink ".git/HEAD" (some (.file "ref"))),
        (".git", .dir [("HEAD", .file "ref")])])
      (.parsed ⟨true, false⟩) {} true false).2 [".git", "HEAD"] = some (.file "new") := rfl
  rw [h2] at h1
  have h3 : entryAt (.dir [("a.txt", .symlink ".git/HEAD" (some (.file "ref"))),
      (".git", .dir [("HEAD", .file "ref")])]) [".git", "HEAD"] = some (.file "ref") := rfl
  rw [h3] at h1
  simp at h1

/-- C27, amended: for a well-formed sandbox tree and a target whose symbolic
links are not on the way of the copy (none at or above the place of a sandbox
directory or regular file that the walk reaches, none above the place of such
a sandbox link), whatever the config, the status file and the two flags, the
target after `applySandbox` holds at `.livod`, at `.git` and at every path
below them exactly what it held before (nothing created, overwritten or
removed there); and, for every sandbox tree, `computeChanges` reports no
change whose path is `.livod` or below it, in an incremental scan whatever the
index holds, and in either mode on the index of a session (built by
`ensureBaseline`, then updated by the runs so far). -/
theorem control_directories_protected (hashFile : String → String) (config : Config)
    (sandbox target : Node) (statusFile : StatusFile) (requireSuccess prune : Bool)
    (changeHint : Option ChangeHint) (hwf : sandbox.WF)
    (hclear : ∀ rel n, rel ≠ [] → entryAt sandbox rel = some n →
      visibleFrom (applyIgnore config) [] rel = true → WayClear target (rel, n)) :
    (∀ s : RelPath,
      entryAt (applySandbox sandbox target statusFile config requireSuccess prune).2
        (".livod" :: s) = entryAt target (".livod" :: s)) ∧
    (∀ s : RelPath,
      entryAt (applySandbox sandbox target statusFile config requireSuccess prune).2
        (".git" :: s) = entryAt target (".git" :: s)) ∧
    (∀ (start : Node) (runs : List (Node × Option ChangeHint)),
      ∀ c ∈ (computeChanges hashFile config sandbox
          (baselineAfterRuns hashFile config start runs).files changeHint).changes,
        leads [".livod"] c.path = false) ∧
    (∀ files : IndexFiles, isIncremental changeHint = true →
      ∀ c ∈ (computeChanges hashFile config sandbox files changeHint).changes,
        leads [".livod"] c.path = false) := by
  have hway : ∀ e ∈ walkDir sandbox (applyIgnore config), WayClear target e := by
    rintro ⟨rel, n⟩ he
    obtain ⟨h1, h2, h3⟩ := (mem_walkDir_iff _ sandbox hwf rel n).1 he
    exact hclear rel n h1 h2 h3
  exact ⟨fun s => applySandbox_keeps sandbox target statusFile config requireSuccess prune
      ".livod" s hwf hway (by simp [applyIgnore, shouldIgnore]),
    fun s => applySandbox_keeps sandbox target statusFile config requireSuccess prune ".git" s
      hwf hway (by simp [applyIgnore, shouldIgnore]),
    fun start runs =>
      (computeChanges_livod hashFile config sandbox _ changeHint
        (Or.inr (baselineAfterRuns_livodFree hashFile config start runs))).1,
    fun files h => (computeChanges_livod hashFile config sandbox files changeHint (Or.inl h)).1⟩

/-- C27 amended, at a sandbox and a target that both hold `.livod` and `.git`
with different content and no link, applied with `prune`: the status file and
the git `HEAD` of the target are what they were. -/
theorem control_directories_protected_witness :
    entryAt (applySandbox
      (.dir [(".livod", .dir [("status.json", .file "sandbox")]),
        (".git", .dir [("HEAD", .file "sandbox")]), ("a.txt", .file "new")])
      (.dir [(".livod", .dir [("status.json", .file "mine")]),
        (".git", .dir [("HEAD", .file "ref")]), ("old.txt", .file "old")])
      (.parsed ⟨true, false⟩) {} true true).2 [".livod", "status.json"] =
        some (.file "mine") ∧
    entryAt (applySandbox
      (.dir [(".livod", .dir [("status.json", .file "sandbox")]),
        (".git", .dir [("HEAD", .file "sandbox")]), ("a.txt", .file "new")])
      (.dir [(".livod", .dir [("status.json", .file "mine")]),
        (".git", .dir [("HEAD", .file "ref")]), ("old.txt", .file "old")])
      (.parsed ⟨true, false⟩) {} true true).2 [".git", "HEAD"] = some (.file "ref") :=
  ⟨(control_directories_protected demoHash {}
      (.dir [(".livod", .dir [("status.json", .file "sandbox")]),
        (".git", .dir [("HEAD", .file "sandbox")]), ("a.txt", .file "new")])
      (.dir [(".livod", .dir [("status.json", .file "mine")]),
        (".git", .dir [("HEAD", .file "ref")]), ("old.txt", .file "old")])
      (.parsed ⟨true, false⟩) true true none (by simp [Node.WF, EntriesWF])
      (fun _ _ _ _ _ => wayClear_of_linkless _ (by decide) _)).1
      ["status.json"],
    (control_directories_protected demoHash {}
      (.dir [(".livod", .dir [("status.json", .file "sandbox")]),
        (".git", .dir [("HEAD", .file "sandbox")]), ("a.txt", .file "new")])
      (.dir [(".livod", .dir [("status.json", .file "mine")]),
        (".git", .dir [("HEAD", .file "ref")]), ("old.txt", .file "old")])
      (.parsed ⟨true, false⟩) true true none (by simp [Node.WF, EntriesWF])
      (fun _ _ _ _ _ => wayClear_of_linkless _ (by decide) _)).2.1
      ["HEAD"]⟩

/-! ## Claims on line buffering -/

/-- C30, the failing input: the output `é` and a line feed, the bytes 195, 169
and 10. Handed over as one chunk, `prefixStream` forwards the line `é` with
the prefix `[t] `. Handed over as the chunks 195 and 169, 10, each chunk is
decoded on its own: the line forwarded is two U+FFFD, and the character is
lost. A cut between characters (here between `a`, `é` and the line feed)
changes nothing. -/
theorem chunk_cut_inside_character_loses_it :
    utf8Decode [195, 169, 10] = [233, 10] ∧
    nonEmptyLines (utf8Decode [195, 169, 10]) = [[233]] ∧
    (prefixStream [91, 116, 93, 32] [[195, 169, 10]]).onLine = [[233]] ∧
    (prefixStream [91, 116, 93, 32] [[195, 169, 10]]).sink = [[91, 116, 93, 32, 233]] ∧
    (prefixStream [91, 116, 93, 32] [[195], [169, 10]]).onLine = [[65533, 65533]] ∧
    (prefixStream [91, 116, 93, 32] [[195], [169, 10]]).sink =
      [[91, 116, 93, 32, 65533, 65533]] ∧
    (prefixStream [91, 116, 93, 32] [[97], [195, 169], [10]]).onLine = [[97, 233]] ∧
    (prefixStream [91, 116, 93, 32] [[97, 195, 169, 10]]).onLine = [[97, 233]] := by
  refine ⟨?_, ?_, ?_, ?_, ?_, ?_, ?_, ?_⟩ <;> decide

/-! ## Claims on the compact context -/

/-- C23, the failing input: the capture of the three stderr lines `a`, `b`
and `c` of the command `t` is the text `a\nb\nc\n`; `split` gives the four
pieces `a`, `b`, `c` and the empty one after the last line feed, so with a
limit of 2 `tailLines` keeps `c` and the empty piece, one line instead of the
last two, while `headLines` keeps the first two lines; a text of exactly 2
lines is cut as well; and with a limit of 1 the block is not rendered at all. -/
theorem tail_of_terminated_lines_is_one_short :
    captureAll 1000 [⟨"t", "stderr", js "a"⟩, ⟨"t", "stderr", js "b"⟩, ⟨"t", "stderr", js "c"⟩] =
      [("t", ⟨[], js "a\nb\nc\n", false⟩)] ∧
    splitLines (js "a\nb\nc\n") = [js "a", js "b", js "c", []] ∧
    tailLines (js "a\nb\nc\n") 2 = js "c\n" ∧
    headLines (js "a\nb\nc\n") 2 = js "a\nb" ∧
    tailLines (js "a\nb\n") 2 = js "b\n" ∧
    outputLines { maxStderrLines := 2 } false ("t", ⟨[], js "a\nb\nc\n", false⟩) =
      [js "- t stderr:", js "\x60\x60\x60", js "c\n", js "\x60\x60\x60"] ∧
    outputLines { maxStderrLines := 1 } false ("t", ⟨[], js "a\nb\nc\n", false⟩) = [] := by
  refine ⟨?_, ?_, ?_, ?_, ?_, ?_, ?_⟩ <;> decide

/-! ## Claims on the compact context: the failed command -/

/-- C24, as stated, is false: the renderer copies the intent notes as they
are. With the intent note `Failed Command: x (exit 9)` and a run whose only
command ended with code 0, the text has a line that starts with
`Failed Command:`; and when the command `b` ended with code 2 the text has two
such lines, the renderer's own and the note. -/
theorem intent_note_reads_as_failed_command :
    failedCommandLines (some [⟨"a", some 0, none⟩]) = [] ∧
    failedCommandMarks (renderCompactContext
        { sandboxRoot := js "/sb", intent := js "Failed Command: x (exit 9)",
          lastRun := some ⟨true, 12, js "now", some [⟨"a", some 0, none⟩], [], none⟩ }) =
      [js "Failed Command: x (exit 9)"] ∧
    failedCommandMarks (renderCompactContext
        { sandboxRoot := js "/sb", intent := js "Failed Command: x (exit 9)",
          lastRun := some ⟨false, 12, js "now", some [⟨"b", some 2, none⟩], [], none⟩ }) =
      [js "Failed Command: b (exit 2)", js "Failed Command: x (exit 9)"] := by
  refine ⟨?_, ?_, ?_⟩ <;> decide

/-- C24, amended: when the strings the renderer puts inside a line hold no
line feed and no line of a block it copies starts with `Failed Command:`
(`CleanCompact`), and no name in `exits` holds a line feed, the text of
`renderCompactContext` has exactly one line that starts with
`Failed Command:`, the line `Failed Command: name (exit code)` of the first
entry of `exits` whose code is not 0, when there is such an entry, and no such
line when every code is 0. -/
theorem compact_names_first_failed_command (input : CompactInput) (lastRun : LastRun)
    (exits : List Exit) (hclean : CleanCompact input lastRun)
    (hnames : ∀ e ∈ exits, OneLine (js e.name)) :
    (∀ (i : Nat) (failed : Exit), exits[i]? = some failed → failed.code ≠ some 0 →
      (∀ (j : Nat) (e : Exit), j < i → exits[j]? = some e → e.code = some 0) →
      failedCommandMarks (renderCompactContext
          { input with lastRun := some { lastRun with exits := some exits } }) =
        [js "Failed Command: " ++ js failed.name ++ js " (exit " ++ codeText failed.code ++
          js ")"]) ∧
    ((∀ e ∈ exits, e.code = some 0) →
      failedCommandMarks (renderCompactContext
          { input with lastRun := some { lastRun with exits := some exits } }) = []) := by
  rw [renderCompactContext_marks input lastRun hclean exits hnames]
  exact ⟨fun i failed hi hfailed hbefore =>
      failedCommandLines_first exits i failed hi hfailed hbefore,
    fun hall => failedCommandLines_none exits hall⟩

/-- C24 amended, at a failed run of the commands `a`, `b` and `c` with the exit
codes 0, 2 and 3, one changed file with its diff and the captured error output
of `b`: the one line that starts with `Failed Command:` names `b` with its
code 2. -/
theorem compact_names_first_failed_command_witness :
    failedCommandMarks (renderCompactContext
        { sandboxRoot := js "/sb", intent := js "try again",
          lastRun := some ⟨false, 12, js "now",
            some [⟨"a", some 0, none⟩, ⟨"b", some 2, none⟩, ⟨"c", some 3, none⟩],
            [⟨js "modified", js "a.txt", some (js "-x\n+y\n")⟩],
            some [("b", ⟨[], js "boom\n", false⟩)]⟩ }) =
      [js "Failed Command: b (exit 2)"] :=
  (compact_names_first_failed_command
    { sandboxRoot := js "/sb", intent := js "try again", lastRun := none }
    ⟨false, 12, js "now", none, [⟨js "modified", js "a.txt", some (js "-x\n+y\n")⟩],
      some [("b", ⟨[], js "boom\n", false⟩)]⟩
    [⟨"a", some 0, none⟩, ⟨"b", some 2, none⟩, ⟨"c", some 3, none⟩]
    { sandboxRoot := by decide
      sourceRoot := by decide
      agent := by decide
      timestamp := by decide
      commands := fun _ h => absurd h (List.not_mem_nil _)
      changes := by decide
      diffs := by
        intro change hchange diff hdiff
        simp only [List.mem_singleton] at hchange
        subst hchange
        simp only [Option.some.injEq] at hdiff
        subst hdiff
        decide
      outputNames := by
        intro outputs ho entry hentry
        simp only [Option.some.injEq] at ho
        subst ho
        simp only [List.mem_singleton] at hentry
        subst hentry
        decide
      stderr := by
        intro outputs ho entry hentry
        simp only [Option.some.injEq] at ho
        subst ho
        simp only [List.mem_singleton] at hentry
        subst hentry
        decide
      stdout := by
        intro outputs ho entry hentry
        simp only [Option.some.injEq] at ho
        subst ho
        simp only [List.mem_singleton] at hentry
        subst hentry
        decide
      intent := by decide }
    (by decide)).1 1 ⟨"b", some 2, none⟩ rfl (by decide) (fun j e hj he => by
      obtain rfl : j = 0 := by omega
      simp only [List.getElem?_cons_zero, Option.some.injEq] at he
      subst he
      rfl)

/-! ## Claims on the journal -/

/-- C22: after `appendJournal` the journal is the content it had, unchanged,
followed by the serialization of the event and one line feed; the
serialization holds no line feed and no carriage return, so what is added is
exactly one line; and after any sequence of events the journal is the earlier
content followed by one such line per event in arrival order, the lines of a
journal started empty being the serializations of the events. -/
theorem journal_is_append_only (journal : JsString) (event : Json) :
    appendJournal journal event = journal ++ stringify event ++ [newline] ∧
    (∀ u ∈ stringify event, u ≠ 10 ∧ u ≠ 13) ∧
    splitLines (stringify event ++ [newline]) = [stringify event, []] ∧
    (∀ events : List Json,
      events.foldl appendJournal journal =
        journal ++ events.flatMap (fun e => stringify e ++ [newline])) ∧
    (∀ events : List Json,
      splitLines (events.foldl appendJournal []) = events.map stringify ++ [[]]) := by
  refine ⟨?_, ?_, ?_, ?_, ?_⟩
  · rw [appendJournal, List.append_assoc]
  · intro u hu
    have := stringify_printable event u hu
    omega
  · exact splitLines_line (stringify event) [] (stringify_printable event)
  · exact fun events => foldl_appendJournal events journal
  · intro events
    rw [foldl_appendJournal, List.nil_append, splitLines_journal]

/-- C22 at a journal that holds one `apply` event, to which an `intent` event
is appended whose note has a line feed and a quote in it: the first line is
unchanged and the new line carries the note with both escaped. -/
theorem journal_is_append_only_witness :
    appendJournal
        (js "\x7b\"type\":\"apply\",\"timestamp\":\"t1\",\"agent\":null,\"targetRoot\":\"/repo\"\x7d\n")
        (intentEvent (js "t2") (some (js "bot")) (js "fix\nthe \"bug\"")) =
      js ("\x7b\"type\":\"apply\",\"timestamp\":\"t1\",\"agent\":null,\"targetRoot\":\"/repo\"\x7d\n" ++
        "\x7b\"type\":\"intent\",\"timestamp\":\"t2\",\"agent\":\"bot\"," ++
        "\"note\":\"fix\\nthe \\\"bug\\\"\"\x7d\n") ∧
    appendJournal [] (applyEvent (js "t1") none (js "/repo")) =
      js "\x7b\"type\":\"apply\",\"timestamp\":\"t1\",\"agent\":null,\"targetRoot\":\"/repo\"\x7d\n" :=
  ⟨((journal_is_append_only _ (intentEvent (js "t2") (some (js "bot"))
      (js "fix\nthe \"bug\""))).1).trans (by decide),
    ((journal_is_append_only [] (applyEvent (js "t1") none (js "/repo"))).1).trans (by decide)⟩

end Livod
